import Mathlib

/-!
# iota-core: chain manager, block DAG and weights

A shallow embedding of `pkg/protocol/chainmanager/manager.go`, of
`pkg/protocol/engine/blockdag/inmemoryblockdag/blockdag.go` and of
`pkg/core/weight/weight.go`.

Go pointers are modelled by an explicit heap: a pointer is a natural number, a
nil-able pointer is an `Option Nat`, and dereferencing nil is the fault
`Fault.nilDereference`.  Unsigned 64-bit slot indices are natural numbers below
`2 ^ 64`; where the source arithmetic can wrap, the wrap is written out.
-/

set_option autoImplicit false

namespace IotaCore

/-! ## Machine integers -/

/-- The number of values of a Go `uint64` (the type behind `iotago.SlotIndex`). -/
def uint64Modulus : Nat := 2 ^ 64

/-- Go `a - b` on `uint64` operands. -/
def subUint64 (a b : Nat) : Nat := (a % uint64Modulus + uint64Modulus - b % uint64Modulus) % uint64Modulus

/-- Go `a + 1` on a `uint64` operand. -/
def succUint64 (a : Nat) : Nat := (a + 1) % uint64Modulus

/-- Go `int64(x)` for a `uint64` value `x`: reinterpretation as two's complement. -/
def toInt64 (x : Nat) : Int :=
  if x % uint64Modulus < 2 ^ 63 then ((x % uint64Modulus : Nat) : Int)
  else ((x % uint64Modulus : Nat) : Int) - (uint64Modulus : Int)

/-! ## Faults -/

/-- The ways a Go call can fail to return: a nil dereference, an explicit
`panic(...)`, a loop that never ends, or a fuel-bounded loop of the model
running out of fuel. -/
inductive Fault where
  | nilDereference
  | explicitPanic
  | diverges
  | outOfFuel
deriving DecidableEq, Repr

/-- The Go `error` values the chain manager returns. -/
inductive ManagerError where
  | commitmentUnknown
  | commitmentNotSolid
  | notAChild
deriving DecidableEq, Repr

/-! ## Finite maps (`shrinkingmap.ShrinkingMap`, `memstorage.Storage`) -/

section Maps

variable {K V : Type} [DecidableEq K]

/-- Lookup of a key: `Get`. -/
def mapGet : List (K × V) → K → Option V
  | [], _ => none
  | (k', v) :: rest, k => if k' = k then some v else mapGet rest k

/-- Insert or overwrite: `Set`. -/
def mapSet : List (K × V) → K → V → List (K × V)
  | [], k, v => [(k, v)]
  | (k', v') :: rest, k, v => if k' = k then (k, v) :: rest else (k', v') :: mapSet rest k v

/-- Removal of a key: `Delete`. -/
def mapDelete : List (K × V) → K → List (K × V)
  | [], _ => []
  | (k', v') :: rest, k => if k' = k then mapDelete rest k else (k', v') :: mapDelete rest k

/-- Membership of a key: `Has`. -/
def mapHas (m : List (K × V)) (k : K) : Bool := (mapGet m k).isSome

/-- The stored values: `Values`. -/
def mapValues (m : List (K × V)) : List V := m.map Prod.snd

/-- The type `memstorage.IndexedStorage`: per slot index an optional inner map. -/
abbrev IndexedStorage (K V : Type) := Nat → Option (List (K × V))

/-- The empty storage of `memstorage.NewIndexedStorage`. -/
def IndexedStorage.empty : IndexedStorage K V := fun _ => none

/-- The call `Get(index)` without creation: the slot's map or nil. -/
def IndexedStorage.get (s : IndexedStorage K V) (index : Nat) : Option (List (K × V)) := s index

/-- Replace the inner map of one slot. -/
def IndexedStorage.put (s : IndexedStorage K V) (index : Nat) (inner : List (K × V)) :
    IndexedStorage K V :=
  fun i => if i = index then some inner else s i

/-- The call `Get(index, true)`: the slot's map, created empty when missing. -/
def IndexedStorage.getOrCreate (s : IndexedStorage K V) (index : Nat) :
    IndexedStorage K V × List (K × V) :=
  match s index with
  | some inner => (s, inner)
  | none => (s.put index [], [])

/-- The call `Evict(index)`: drop the slot's whole inner map and return it. -/
def IndexedStorage.evict (s : IndexedStorage K V) (index : Nat) :
    IndexedStorage K V × Option (List (K × V)) :=
  (fun i => if i = index then none else s i, s index)

/-- Two-level lookup `Get(index)` then `Get(key)`. -/
def IndexedStorage.lookup (s : IndexedStorage K V) (index : Nat) (k : K) : Option V :=
  match s index with
  | some inner => mapGet inner k
  | none => none

end Maps

/-! ## Commitments -/

/-- The type `iotago.CommitmentID`: a slot index and a hash. -/
structure CommitmentID where
  index : Nat
  hash : Nat
deriving DecidableEq, Repr

/-- Modelled from the spec: `model.Commitment` (package `pkg/model`, not among the
sources). A commitment is identified by a commitment id = (slot index, hash) and
carries a previous-commitment id; `Index()` is the slot index of its id and
`Equals` is equality of the payload. -/
structure Commitment where
  id : CommitmentID
  prevID : CommitmentID
deriving DecidableEq, Repr

/-- The accessor `Index()` of a commitment. -/
def Commitment.index (c : Commitment) : Nat := c.id.index

/-- Modelled from the spec: the `Fork` record (`fork.go`, not among the sources),
`{ source-peer, latest-observed-commitment, forking-point }`. The two commitments
are the payload pointers of the chain commitments, nil when unpublished. -/
structure Fork where
  source : Nat
  commitment : Option Commitment
  forkingPoint : Option Commitment
deriving DecidableEq, Repr

/-- The events of the chain manager, in the order they are triggered. -/
inductive Event where
  | commitmentMissing (id : CommitmentID)
  | missingCommitmentReceived (id : CommitmentID)
  | commitmentBelowRoot (id : CommitmentID)
  | forkDetected (fork : Fork)
deriving DecidableEq, Repr

/-- Modelled from the spec: `ChainCommitment` (`chaincommitment.go`, not among the
sources): the commitment payload (once published), a solid flag, the set of
children by commitment id, an optional main child and a reference to its current
chain. Children are references to heap objects. -/
structure ChainCommitment where
  id : CommitmentID
  commitment : Option Commitment
  solid : Bool
  mainChildID : Option CommitmentID
  children : List (CommitmentID × Nat)
  chain : Option Nat
deriving DecidableEq, Repr

/-- Modelled from the spec: `NewChainCommitment(id)`, a placeholder without
payload, children or chain. -/
def NewChainCommitment (id : CommitmentID) : ChainCommitment :=
  { id := id, commitment := none, solid := false, mainChildID := none, children := [],
    chain := none }

/-- Modelled from the spec: `Chain` (`chain.go`, not among the sources): a sequence
of chain commitments keyed by slot index together with a reference to its forking
point, the first commitment on the chain. -/
structure Chain where
  forkingPoint : Nat
  commitmentsByIndex : List (Nat × Nat)
deriving DecidableEq, Repr

/-- Modelled from the spec: `latest-commitment` of a chain, the entry with the
highest slot index (nil for a chain holding nothing). -/
def Chain.latestEntry : List (Nat × Nat) → Option (Nat × Nat)
  | [] => none
  | e :: rest =>
    match Chain.latestEntry rest with
    | none => some e
    | some b => if b.1 < e.1 then some e else some b

/-- Modelled from the spec: `LatestCommitment()`. -/
def Chain.latestCommitment (c : Chain) : Option Nat :=
  (Chain.latestEntry c.commitmentsByIndex).map Prod.snd

/-- Modelled from the spec: `drop-commitments-after(slot)`: forget every commitment
of the chain above the slot. -/
def Chain.dropCommitmentsAfter (c : Chain) (index : Nat) : Chain :=
  { c with commitmentsByIndex := c.commitmentsByIndex.filter (fun e => decide (e.1 ≤ index)) }

/-- Modelled from the spec: `model.EvictionIndex` (package `pkg/model`, not among
the sources): records the highest slot that has been evicted, nothing before the
first eviction. -/
structure EvictionIndex where
  index : Option Nat
deriving DecidableEq, Repr

/-- Modelled from the spec: `NewEvictionIndex()`. -/
def NewEvictionIndex : EvictionIndex := { index := none }

/-- Modelled from the spec: `next-index()`, the first non-evicted slot. -/
def EvictionIndex.NextIndex (e : EvictionIndex) : Nat :=
  match e.index with
  | none => 0
  | some i => succUint64 i

/-- Modelled from the spec: `MarkEvicted(index)`. -/
def EvictionIndex.MarkEvicted (_e : EvictionIndex) (index : Nat) : EvictionIndex :=
  { index := some index }

/-! ## The manager -/

/-- The struct `Manager` with the heap of the chain commitments and chains it
created. `commitmentHeap p` is the object behind pointer `p`; the two counters are
the next unused pointers. The mutexes and the commitment requester are left out. -/
structure Manager where
  commitmentHeap : Nat → ChainCommitment
  commitmentCount : Nat
  chainHeap : Nat → Chain
  chainCount : Nat
  commitmentsByID : IndexedStorage CommitmentID Nat
  rootCommitment : Option Nat
  forkingPointsByCommitments : IndexedStorage CommitmentID CommitmentID
  forksByForkingPoint : List (CommitmentID × Fork)
  optsMinimumForkDepth : Int
  lastEvictedSlot : EvictionIndex
  events : List Event

namespace Manager

/-- The constructor `NewManager` with `WithForkDetectionMinimumDepth(depth)`. -/
def NewManagerWithDepth (depth : Int) : Manager :=
  { commitmentHeap := fun _ => NewChainCommitment ⟨0, 0⟩
    commitmentCount := 0
    chainHeap := fun _ => { forkingPoint := 0, commitmentsByIndex := [] }
    chainCount := 0
    commitmentsByID := IndexedStorage.empty
    rootCommitment := none
    forkingPointsByCommitments := IndexedStorage.empty
    forksByForkingPoint := []
    optsMinimumForkDepth := depth
    lastEvictedSlot := NewEvictionIndex
    events := [] }

/-- The constructor `NewManager()`: the default minimum fork depth is 3. -/
def NewManager : Manager := NewManagerWithDepth 3

/-- Write a chain commitment object. -/
def setCommitment (m : Manager) (p : Nat) (c : ChainCommitment) : Manager :=
  { m with commitmentHeap := fun q => if q = p then c else m.commitmentHeap q }

/-- Write a chain object. -/
def setChain (m : Manager) (p : Nat) (c : Chain) : Manager :=
  { m with chainHeap := fun q => if q = p then c else m.chainHeap q }

/-- Record a triggered event. -/
def trigger (m : Manager) (e : Event) : Manager :=
  { m with events := m.events ++ [e] }

/-- Modelled from the spec: `NewChain(forkingPoint)`, a fresh chain that begins at
the forking point, keyed by the slot index of its id. -/
def NewChain (m : Manager) (forkingPoint : Nat) : Manager × Nat :=
  let c : Chain :=
    { forkingPoint := forkingPoint
      commitmentsByIndex := [((m.commitmentHeap forkingPoint).id.index, forkingPoint)] }
  ({ m with chainHeap := fun q => if q = m.chainCount then c else m.chainHeap q
            chainCount := m.chainCount + 1 }, m.chainCount)

/-- Modelled from the spec: `add-commitment` of a chain, keyed by slot index. -/
def chainAddCommitment (m : Manager) (chain : Nat) (commitment : Nat) : Manager :=
  let c := m.chainHeap chain
  m.setChain chain
    { c with commitmentsByIndex :=
        mapSet c.commitmentsByIndex (m.commitmentHeap commitment).id.index commitment }

/-- Modelled from the spec: `publish-commitment` fills in the payload on the first
call and returns true; later calls return false. -/
def publishCommitment (m : Manager) (p : Nat) (c : Commitment) : Manager × Bool :=
  let cc := m.commitmentHeap p
  match cc.commitment with
  | none => (m.setCommitment p { cc with commitment := some c }, true)
  | some _ => (m, false)

/-- Modelled from the spec: `publish-chain` sets the chain if not already set. -/
def publishChain (m : Manager) (p : Nat) (chain : Nat) : Manager × Bool :=
  let cc := m.commitmentHeap p
  match cc.chain with
  | none => (m.setCommitment p { cc with chain := some chain }, true)
  | some _ => (m, false)

/-- Modelled from the spec: `replace-chain` unconditionally swaps the chain. -/
def replaceChain (m : Manager) (p : Nat) (chain : Nat) : Manager :=
  m.setCommitment p { m.commitmentHeap p with chain := some chain }

/-- Modelled from the spec: `SetSolid(solid)`; reports whether the flag changed. -/
def setSolid (m : Manager) (p : Nat) (solid : Bool) : Manager × Bool :=
  let cc := m.commitmentHeap p
  if cc.solid = solid then (m, false) else (m.setCommitment p { cc with solid := solid }, true)

/-- Modelled from the spec: the optional main child of a chain commitment, one of
its children. -/
def mainChild (m : Manager) (p : Nat) : Option Nat :=
  match (m.commitmentHeap p).mainChildID with
  | none => none
  | some id => mapGet (m.commitmentHeap p).children id

/-- Modelled from the spec: `Children()`, the references in the child set. -/
def children (m : Manager) (p : Nat) : List Nat := mapValues (m.commitmentHeap p).children

/-- Modelled from the spec: `setMainChild`, which designates a registered child
as the main child and fails for a commitment that is not a child. -/
def setMainChild (m : Manager) (p : Nat) (child : Nat) : Manager × Option ManagerError :=
  let cc := m.commitmentHeap p
  let childID := (m.commitmentHeap child).id
  if mapHas cc.children childID then
    (m.setCommitment p { cc with mainChildID := some childID }, none)
  else (m, some ManagerError.notAChild)

/-- Modelled from the spec: `deleteChild`, which detaches a child from its parent. -/
def deleteChild (m : Manager) (p : Nat) (child : Nat) : Manager :=
  let cc := m.commitmentHeap p
  m.setCommitment p { cc with children := mapDelete cc.children (m.commitmentHeap child).id }

/-- Modelled from the spec: `register-child(c)` of a chain commitment, idempotent
by child id; it returns `(parent-solid, chain, was-forked)` where `was-forked` is
true iff the parent already had another main child, in which case the child is
the forking point of a chain created at that moment, and otherwise the child
becomes the main child and the chain is the parent's. -/
def commitmentRegisterChild (m : Manager) (parent child : Nat) :
    Manager × Bool × Option Nat × Bool :=
  let pc := m.commitmentHeap parent
  let childID := (m.commitmentHeap child).id
  let forked : Bool :=
    match m.mainChild parent with
    | none => false
    | some _ => decide (pc.mainChildID ≠ some childID)
  let pc1 : ChainCommitment :=
    { pc with children := mapSet pc.children childID child
              mainChildID := if forked then pc.mainChildID else some childID }
  let m1 := m.setCommitment parent pc1
  if forked then
    let (m2, chain) := m1.NewChain child
    (m2, pc.solid, some chain, true)
  else (m1, pc.solid, pc.chain, false)

/-! ### The walker of `hive.go/ds/walker`

A first-in first-out work list that pushes every element at most once. -/

/-- The call `PushAll`: push, in order, the elements not pushed before. -/
def walkerPushAll (queue seen : List Nat) : List Nat → List Nat × List Nat
  | [] => (queue, seen)
  | x :: xs =>
    if x ∈ seen then walkerPushAll queue seen xs
    else walkerPushAll (queue ++ [x]) (x :: seen) xs

/-- The loop `for walker.HasNext() { walker.PushAll(step(walker.Next())...) }`.
Every pointer is pushed at most once, so the number of allocated chain
commitments is enough fuel. -/
def walk (step : Manager → Nat → Manager × List Nat) :
    Nat → List Nat → List Nat → Manager → Except Fault Manager
  | _, [], _, m => .ok m
  | 0, _ :: _, _, _ => .error Fault.outOfFuel
  | fuel + 1, x :: queue, seen, m =>
    let r := step m x
    let qs := walkerPushAll queue seen r.2
    walk step fuel qs.1 qs.2 r.1

/-! ### Private helpers of the manager -/

/-- The method `getOrCreateCommitment`: the stored chain commitment of the id, or a
new placeholder stored under the slot of the id. -/
def getOrCreateCommitment (m : Manager) (id : CommitmentID) : Manager × Nat × Bool :=
  let r := m.commitmentsByID.getOrCreate id.index
  match mapGet r.2 id with
  | some p => ({ m with commitmentsByID := r.1 }, p, false)
  | none =>
    let p := m.commitmentCount
    ({ m with commitmentHeap := fun q => if q = p then NewChainCommitment id else m.commitmentHeap q
              commitmentCount := p + 1
              commitmentsByID := r.1.put id.index (mapSet r.2 id p) }, p, true)

/-- The method `commitment`: lookup in the slot-indexed storage. -/
def commitment (m : Manager) (id : CommitmentID) : Option Nat :=
  m.commitmentsByID.lookup id.index id

/-- The method `evaluateAgainstRootCommitment`. -/
def evaluateAgainstRootCommitment (m : Manager) (c : Commitment) : Except Fault (Bool × Bool) :=
  match m.rootCommitment with
  | none => .error Fault.nilDereference
  | some root =>
    match (m.commitmentHeap root).commitment with
    | none => .error Fault.nilDereference
    | some rc => .ok (decide (c.index ≤ rc.index), decide (c = rc))

/-- The loop of `forkingPointAgainstMainChain`: jump from chain to chain through the
parent of each forking point until the chain of the root commitment is reached. -/
def forkingPointLoop (m : Manager) (rootChain : Option Nat) :
    Nat → Nat → Option Nat → Except Fault (Except ManagerError (Option Nat))
  | 0, c, forkingCommitment =>
    if (m.commitmentHeap c).chain = rootChain then .ok (.ok forkingCommitment)
    else .error Fault.outOfFuel
  | fuel + 1, c, forkingCommitment =>
    if (m.commitmentHeap c).chain = rootChain then .ok (.ok forkingCommitment)
    else
      match (m.commitmentHeap c).chain with
      | none => .error Fault.nilDereference
      | some ch =>
        let fp := (m.chainHeap ch).forkingPoint
        match (m.commitmentHeap fp).commitment with
        | none => .error Fault.nilDereference
        | some fpc =>
          match m.commitment fpc.prevID with
          | none => .ok (.error ManagerError.commitmentUnknown)
          | some parent => forkingPointLoop m rootChain fuel parent (some fp)

/-- The method `forkingPointAgainstMainChain`. The loop visits every chain at most
once unless it never ends, so the number of allocated chains is enough fuel. -/
def forkingPointAgainstMainChain (m : Manager) (c : Nat) :
    Except Fault (Except ManagerError (Option Nat)) :=
  if !(m.commitmentHeap c).solid || (m.commitmentHeap c).chain = none then
    .ok (.error ManagerError.commitmentNotSolid)
  else
    match m.rootCommitment with
    | none => .error Fault.nilDereference
    | some root => forkingPointLoop m (m.commitmentHeap root).chain m.chainCount c none

/-- The distance `int64(latest.ID().Index() - forkingPoint.ID().Index())` that
`detectForks` compares with the minimum fork depth. -/
def forkDepth (latestIndex forkingPointIndex : Nat) : Int :=
  toInt64 (subUint64 latestIndex forkingPointIndex)

/-- The method `detectForks`. -/
def detectForks (m : Manager) (c : Nat) (source : Nat) : Except Fault Manager :=
  match forkingPointAgainstMainChain m c with
  | .error f => .error f
  | .ok (.error _) => .ok m
  | .ok (.ok none) => .ok m
  | .ok (.ok (some fp)) =>
    let fpID := (m.commitmentHeap fp).id
    if mapHas m.forksByForkingPoint fpID then .ok m
    else
      match (m.commitmentHeap c).chain with
      | none => .error Fault.nilDereference
      | some ch =>
        match (m.chainHeap ch).latestCommitment with
        | none => .error Fault.nilDereference
        | some latest =>
          if forkDepth (m.commitmentHeap latest).id.index fpID.index < m.optsMinimumForkDepth then
            .ok m
          else
            let fork : Fork :=
              { source := source
                commitment := (m.commitmentHeap latest).commitment
                forkingPoint := (m.commitmentHeap fp).commitment }
            let cID := (m.commitmentHeap c).id
            let r := m.forkingPointsByCommitments.getOrCreate cID.index
            .ok ({ m with
                    forksByForkingPoint := mapSet m.forksByForkingPoint fpID fork
                    forkingPointsByCommitments := r.1.put cID.index (mapSet r.2 cID fpID) }.trigger
                  (Event.forkDetected fork))

/-- The method `Manager.registerChild`. -/
def registerChild (m : Manager) (parent child : Nat) : Manager × Bool × Option Nat × Bool :=
  let r := m.commitmentRegisterChild parent child
  match r.2.2.1 with
  | some chain =>
    let m1 := r.1.chainAddCommitment chain child
    let m2 := (m1.publishChain child chain).1
    let m3 := (m2.setSolid child r.2.1).1
    (m3, r.2.1, some chain, r.2.2.2)
  | none => (r.1, r.2.1, none, r.2.2.2)

/-- The method `registerCommitment`; the result is
`(isNew, isSolid, wasForked, chainCommitment)`. -/
def registerCommitment (m : Manager) (c : Commitment) : Manager × Bool × Bool × Bool × Nat :=
  let r1 := m.getOrCreateCommitment c.prevID
  let parent := r1.2.1
  let m1 := if r1.2.2 then r1.1.trigger (Event.commitmentMissing (r1.1.commitmentHeap parent).id)
            else r1.1
  let r2 := m1.getOrCreateCommitment c.id
  let cc := r2.2.1
  let r3 := r2.1.publishCommitment cc c
  if !r3.2 then (r3.1, false, (r3.1.commitmentHeap cc).solid, false, cc)
  else
    let m4 := if !r2.2.2 then
                r3.1.trigger (Event.missingCommitmentReceived (r3.1.commitmentHeap cc).id)
              else r3.1
    let r5 := m4.registerChild parent cc
    (r5.1, true, r5.2.1, r5.2.2.2, cc)

/-- The method `propagateChainToMainChild`. -/
def propagateChainToMainChild (chain : Nat) (m : Manager) (child : Nat) : Manager × List Nat :=
  let r := m.publishChain child chain
  if !r.2 then (r.1, [])
  else
    let m1 := r.1.chainAddCommitment chain child
    match m1.mainChild child with
    | none => (m1, [])
    | some mc => (m1, [mc])

/-- The method `propagateReplaceChainToMainChild`. -/
def propagateReplaceChainToMainChild (chain : Nat) (m : Manager) (child : Nat) :
    Manager × List Nat :=
  let m1 := (m.replaceChain child chain).chainAddCommitment chain child
  match m1.mainChild child with
  | none => (m1, [])
  | some mc => (m1, [mc])

/-- The method `deleteAllChildrenFromCache`. -/
def deleteAllChildrenFromCache (m : Manager) (child : Nat) : Manager × List Nat :=
  let id := (m.commitmentHeap child).id
  let m1 : Manager :=
    match m.commitmentsByID.get id.index with
    | some inner => { m with commitmentsByID := m.commitmentsByID.put id.index (mapDelete inner id) }
    | none => m
  (m1, m1.children child)

/-- The method `propagateSolidity`. -/
def propagateSolidity (m : Manager) (child : Nat) : Manager × List Nat :=
  let r := m.setSolid child true
  if r.2 then (r.1, r.1.children child) else (r.1, [])

/-- The method `processCommitment`; the result is `(isNew, isSolid, chainCommitment)`.
The chain handed to `propagateChainToMainChild` is read once: publishing a chain
never overwrites the chain of a commitment that has one. -/
def processCommitment (m : Manager) (c : Commitment) :
    Except Fault (Manager × Bool × Bool × Option Nat) :=
  match m.evaluateAgainstRootCommitment c with
  | .error f => .error f
  | .ok (isBelow, isRoot) =>
    if isBelow || isRoot then
      if isRoot then .ok (m, false, isRoot, m.rootCommitment)
      else .ok (m.trigger (Event.commitmentBelowRoot c.id), false, isRoot, none)
    else
      let r := m.registerCommitment c
      let m1 := r.1
      let isNew := r.2.1
      let isSolid := r.2.2.1
      let cc := r.2.2.2.2
      match (m1.commitmentHeap cc).chain with
      | none => .ok (m1, isNew, isSolid, some cc)
      | some chain =>
        if !isNew then .ok (m1, isNew, isSolid, some cc)
        else
          let afterChain : Except Fault Manager :=
            match m1.mainChild cc with
            | none => .ok m1
            | some mc => walk (propagateChainToMainChild chain) m1.commitmentCount [mc] [mc] m1
          match afterChain with
          | .error f => .error f
          | .ok m2 =>
            if isSolid && (m2.children cc).length != 0 then
              let qs := walkerPushAll [] [] (m2.children cc)
              match walk propagateSolidity m2.commitmentCount qs.1 qs.2 m2 with
              | .error f => .error f
              | .ok m3 => .ok (m3, isNew, isSolid, some cc)
            else .ok (m2, isNew, isSolid, some cc)

/-- The reorganisation loop of `switchMainChainToCommitment`, one round per forking
point between the new head and the main chain. -/
def switchLoop (forkingPoint : Nat) :
    Nat → Nat → Manager → Except Fault (Manager × Option ManagerError)
  | 0, _, _ => .error Fault.outOfFuel
  | fuel + 1, fp, m =>
    match (m.commitmentHeap fp).commitment with
    | none => .error Fault.nilDereference
    | some fpc =>
      match m.commitment fpc.prevID with
      | none => .error Fault.nilDereference
      | some fpParent =>
        match m.mainChild fpParent with
        | none => .error Fault.nilDereference
        | some mc =>
          let r1 := m.NewChain mc
          let r2 := r1.1.setMainChild fpParent fp
          match r2.2 with
          | some e => .ok (r2.1, some e)
          | none =>
            match walk (propagateReplaceChainToMainChild r1.2) r2.1.commitmentCount [mc] [mc]
                r2.1 with
            | .error f => .error f
            | .ok m3 =>
              if fp = forkingPoint then .ok (m3, none)
              else
                match (m3.commitmentHeap fpParent).chain with
                | none => .error Fault.nilDereference
                | some ch => switchLoop forkingPoint fuel (m3.chainHeap ch).forkingPoint m3

/-- The method `switchMainChainToCommitment`; the result is the returned error. -/
def switchMainChainToCommitment (m : Manager) (c : Nat) :
    Except Fault (Manager × Option ManagerError) :=
  match m.forkingPointAgainstMainChain c with
  | .error f => .error f
  | .ok (.error e) => .ok (m, some e)
  | .ok (.ok none) => .ok (m, none)
  | .ok (.ok (some forkingPoint)) =>
    match (m.commitmentHeap forkingPoint).commitment with
    | none => .error Fault.nilDereference
    | some fpc =>
      match m.commitment fpc.prevID with
      | none => .ok (m, some ManagerError.commitmentUnknown)
      | some parentCommitment =>
        let oldMainCommitment := m.mainChild parentCommitment
        match (m.commitmentHeap c).chain with
        | none => .error Fault.nilDereference
        | some cChain =>
          match switchLoop forkingPoint (m.chainCount + 1) (m.chainHeap cChain).forkingPoint m with
          | .error f => .error f
          | .ok (m1, some e) => .ok (m1, some e)
          | .ok (m1, none) =>
            match m1.rootCommitment with
            | none => .error Fault.nilDereference
            | some root =>
              match (m1.commitmentHeap root).chain with
              | none => .error Fault.nilDereference
              | some snapshotChain =>
                let m2 := m1.setChain snapshotChain
                  ((m1.chainHeap snapshotChain).dropCommitmentsAfter (m1.commitmentHeap c).id.index)
                match oldMainCommitment with
                | none => .error Fault.nilDereference
                | some oldMain =>
                  let m3 := m2.deleteChild parentCommitment oldMain
                  if (m3.children oldMain).length != 0 then
                    let qs := walkerPushAll [] [] (m3.children oldMain)
                    match walk deleteAllChildrenFromCache m3.commitmentCount qs.1 qs.2 m3 with
                    | .error f => .error f
                    | .ok m4 => .ok (m4, none)
                  else .ok (m3, none)

/-- The method `evict` of one slot. -/
def evict (m : Manager) (index : Nat) : Manager :=
  let r := m.forkingPointsByCommitments.evict index
  let forks : List (CommitmentID × Fork) :=
    match r.2 with
    | some evictedForkDetections =>
      evictedForkDetections.foldl (fun acc e => mapDelete acc e.2) m.forksByForkingPoint
    | none => m.forksByForkingPoint
  { m with forkingPointsByCommitments := r.1
           forksByForkingPoint := forks
           commitmentsByID := (m.commitmentsByID.evict index).1 }

/-- The body of the loop of `EvictUntil`, run `count` times from `current`. -/
def evictLoop : Nat → Nat → Manager → Manager
  | 0, _, m => m
  | count + 1, current, m =>
    let m1 := m.evict current
    evictLoop count (current + 1)
      { m1 with lastEvictedSlot := m1.lastEvictedSlot.MarkEvicted current }

/-! ### The public surface -/

/-- The method `Initialize`. -/
def Initialize (m : Manager) (c : Commitment) : Manager :=
  let r := m.getOrCreateCommitment c.id
  let root := r.2.1
  let m1 : Manager := { r.1 with rootCommitment := some root }
  let m2 := (m1.publishCommitment root c).1
  let m3 := (m2.setSolid root true).1
  let r4 := m3.NewChain root
  (r4.1.publishChain root r4.2).1

/-- The method `ProcessCommitmentFromSource`; the result is `(isSolid, chain)`. -/
def ProcessCommitmentFromSource (m : Manager) (c : Commitment) (source : Nat) :
    Except Fault (Manager × Bool × Option Nat) :=
  match m.processCommitment c with
  | .error f => .error f
  | .ok (m1, _, _, none) => .ok (m1, false, none)
  | .ok (m1, _, isSolid, some cc) =>
    match m1.detectForks cc source with
    | .error f => .error f
    | .ok m2 => .ok (m2, isSolid, (m2.commitmentHeap cc).chain)

/-- The method `ProcessCandidateCommitment`. -/
def ProcessCandidateCommitment (m : Manager) (c : Commitment) :
    Except Fault (Manager × Bool × Option Nat) :=
  match m.processCommitment c with
  | .error f => .error f
  | .ok (m1, _, _, none) => .ok (m1, false, none)
  | .ok (m1, _, isSolid, some cc) => .ok (m1, isSolid, (m1.commitmentHeap cc).chain)

/-- The method `ProcessCommitment`. -/
def ProcessCommitment (m : Manager) (c : Commitment) :
    Except Fault (Manager × Bool × Option Nat) :=
  match m.processCommitment c with
  | .error f => .error f
  | .ok (m1, _, _, none) => .ok (m1, false, none)
  | .ok (m1, isNew, isSolid, some cc) =>
    if !isNew then
      match m1.switchMainChainToCommitment cc with
      | .error f => .error f
      | .ok (_, some _) => .error Fault.explicitPanic
      | .ok (m2, none) => .ok (m2, isSolid, (m2.commitmentHeap cc).chain)
    else .ok (m1, isSolid, (m1.commitmentHeap cc).chain)

/-- The method `EvictUntil`. The loop `for i := next; i <= index; i++` over
`uint64` never ends when `index` is the largest slot index. -/
def EvictUntil (m : Manager) (index : Nat) : Except Fault Manager :=
  if index + 1 = uint64Modulus then .error Fault.diverges
  else .ok (evictLoop (index + 1 - m.lastEvictedSlot.NextIndex) m.lastEvictedSlot.NextIndex m)

/-- The method `RootCommitment`. -/
def RootCommitment (m : Manager) : Option Nat := m.rootCommitment

/-- The method `SetRootCommitment`. -/
def SetRootCommitment (m : Manager) (c : Commitment) : Except Fault Manager :=
  match m.commitmentsByID.get c.index with
  | none => .error Fault.explicitPanic
  | some storage =>
    match mapGet storage c.id with
    | none => .error Fault.explicitPanic
    | some newRootCommitment =>
      match m.rootCommitment with
      | none => .error Fault.nilDereference
      | some root =>
        match (m.commitmentHeap root).commitment with
        | none => .error Fault.nilDereference
        | some rc =>
          if c.index ≤ rc.index && c.id != rc.id then .error Fault.explicitPanic
          else .ok { m with rootCommitment := some newRootCommitment }

/-- The method `ForkByForkingPoint`. -/
def ForkByForkingPoint (m : Manager) (forkingPoint : CommitmentID) : Option Fork :=
  mapGet m.forksByForkingPoint forkingPoint

/-- The method `SwitchMainChain`. -/
def SwitchMainChain (m : Manager) (head : CommitmentID) :
    Except Fault (Manager × Option ManagerError) :=
  match m.commitment head with
  | none => .ok (m, some ManagerError.commitmentUnknown)
  | some c => m.switchMainChainToCommitment c

end Manager

/-! ## Blocks -/

/-- The type `iotago.BlockID`: a slot index and a hash. -/
structure BlockID where
  index : Nat
  hash : Nat
deriving DecidableEq, Repr

/-- The three edge kinds of `model.ParentsType`. -/
inductive ParentsType where
  | strong
  | weak
  | shallowLike
deriving DecidableEq, Repr

/-- Modelled from the spec: `model.Parent`, a parent reference with its edge kind. -/
structure Parent where
  id : BlockID
  type : ParentsType
deriving DecidableEq, Repr

/-- Modelled from the spec: `model.Block` (package `pkg/model`, not among the
sources): a block id, an issuing time (an instant, as an integer), the declared
slot-commitment id and the ordered list of parents of the three edge kinds. -/
structure ModelBlock where
  id : BlockID
  issuingTime : Int
  slotCommitmentID : CommitmentID
  parents : List Parent
deriving DecidableEq, Repr

namespace blockdag

/-- The struct `rootBlock` of `block.go`. -/
structure RootBlock where
  blockID : BlockID
  commitmentID : CommitmentID
  issuingTime : Int
deriving DecidableEq, Repr

/-- The struct `Block` of `block.go`; children are references to heap objects. -/
structure Block where
  missing : Bool
  missingBlockID : BlockID
  solid : Bool
  invalid : Bool
  orphaned : Bool
  future : Bool
  strongChildren : List Nat
  weakChildren : List Nat
  shallowLikeChildren : List Nat
  rootBlock : Option RootBlock
  modelsBlock : Option ModelBlock
deriving DecidableEq, Repr

/-- The zero value of the struct. -/
def Block.zero : Block :=
  { missing := false, missingBlockID := ⟨0, 0⟩, solid := false, invalid := false,
    orphaned := false, future := false, strongChildren := [], weakChildren := [],
    shallowLikeChildren := [], rootBlock := none, modelsBlock := none }

/-- The constructor `NewBlock`. -/
def NewBlock (data : ModelBlock) : Block := { Block.zero with modelsBlock := some data }

/-- The constructor `NewRootBlock`. -/
def NewRootBlock (blockID : BlockID) (commitmentID : CommitmentID) (issuingTime : Int) : Block :=
  { Block.zero with
    rootBlock := some { blockID := blockID, commitmentID := commitmentID, issuingTime := issuingTime }
    solid := true }

/-- The constructor `NewMissingBlock`. -/
def NewMissingBlock (blockID : BlockID) : Block :=
  { Block.zero with missing := true, missingBlockID := blockID }

/-- The method `ID`. -/
def Block.ID (b : Block) : Except Fault BlockID :=
  if b.missing then .ok b.missingBlockID
  else
    match b.rootBlock with
    | some r => .ok r.blockID
    | none =>
      match b.modelsBlock with
      | some d => .ok d.id
      | none => .error Fault.nilDereference

/-- The method `IssuingTime`; the zero `time.Time` is the instant 0. -/
def Block.IssuingTime (b : Block) : Except Fault Int :=
  if b.missing then .ok 0
  else
    match b.rootBlock with
    | some r => .ok r.issuingTime
    | none =>
      match b.modelsBlock with
      | some d => .ok d.issuingTime
      | none => .error Fault.nilDereference

/-- The method `SlotCommitmentID`; the zero id for a missing block. -/
def Block.SlotCommitmentID (b : Block) : Except Fault CommitmentID :=
  if b.missing then .ok ⟨0, 0⟩
  else
    match b.rootBlock with
    | some r => .ok r.commitmentID
    | none =>
      match b.modelsBlock with
      | some d => .ok d.slotCommitmentID
      | none => .error Fault.nilDereference

/-- The method `Parents`, promoted from the embedded `model.Block`. -/
def Block.Parents (b : Block) : Except Fault (List Parent) :=
  match b.modelsBlock with
  | some d => .ok d.parents
  | none => .error Fault.nilDereference

/-- The method `SetFuture`. -/
def Block.SetFuture (b : Block) : Block × Bool :=
  if b.future then (b, false) else ({ b with future := true }, true)

/-- The method `SetSolid`. -/
def Block.SetSolid (b : Block) : Block × Bool :=
  if !b.solid then ({ b with solid := true }, true) else (b, false)

/-- The method `SetInvalid`. -/
def Block.SetInvalid (b : Block) : Block × Bool :=
  if b.invalid then (b, false) else ({ b with invalid := true }, true)

/-- The method `SetOrphaned`. -/
def Block.SetOrphaned (b : Block) (orphaned : Bool) : Block × Bool :=
  if b.orphaned = orphaned then (b, false) else ({ b with orphaned := orphaned }, true)

/-- The method `AppendChild`. -/
def Block.AppendChild (b : Block) (child : Nat) (childType : ParentsType) : Block :=
  match childType with
  | ParentsType.strong => { b with strongChildren := b.strongChildren ++ [child] }
  | ParentsType.weak => { b with weakChildren := b.weakChildren ++ [child] }
  | ParentsType.shallowLike => { b with shallowLikeChildren := b.shallowLikeChildren ++ [child] }

/-- The method `Update`. -/
def Block.Update (b : Block) (data : ModelBlock) : Block × Bool :=
  if !b.missing then (b, false)
  else ({ b with modelsBlock := some data, missing := false }, true)

/-- The errors the block DAG returns or hands to `markInvalid`. -/
inductive BlockError where
  | tooOld (id : BlockID)
  | parentTooOld (parent : BlockID)
  | timestampMonotonicity (parent : BlockID)
  | commitmentMonotonicity (parent : BlockID)
deriving DecidableEq, Repr

/-- The events of `blockdag.Events`, in the order they are triggered; blocks are
named by their references. -/
inductive Event where
  | blockAttached (block : Nat)
  | missingBlockAttached (block : Nat)
  | blockMissing (block : Nat)
  | blockSolid (block : Nat)
  | blockInvalid (block : Nat) (reason : BlockError)
  | blockOrphaned (block : Nat)
deriving DecidableEq, Repr

end blockdag

/-- The struct `BlockDAG` with the heap of the blocks it refers to. The local
commitment lookup `commitmentFunc` (nothing when the load fails), the root-block
provider and the eviction state are the external collaborators; `solidifierQueue`
lists the blocks handed to `solidifier.Queue`, in order. The mutexes and worker
pools are left out. -/
structure BlockDAG where
  blockHeap : Nat → blockdag.Block
  blockCount : Nat
  memStorage : IndexedStorage BlockID Nat
  futureBlocks : IndexedStorage CommitmentID (List Nat)
  nextIndexToPromote : Nat
  commitmentFunc : Nat → Option Commitment
  rootBlockProvider : BlockID → Option Nat
  inEvictedSlot : BlockID → Bool
  isRootBlock : BlockID → Bool
  solidifierQueue : List Nat
  solidifierEvictedUntil : Option Nat
  events : List blockdag.Event

namespace BlockDAG

/-- Write a block object. -/
def setBlock (b : BlockDAG) (p : Nat) (blk : blockdag.Block) : BlockDAG :=
  { b with blockHeap := fun q => if q = p then blk else b.blockHeap q }

/-- Record a triggered event. -/
def trigger (b : BlockDAG) (e : blockdag.Event) : BlockDAG :=
  { b with events := b.events ++ [e] }

/-- The call `solidifier.Queue(block)`. -/
def queue (b : BlockDAG) (block : Nat) : BlockDAG :=
  { b with solidifierQueue := b.solidifierQueue ++ [block] }

/-- The method `block`: the root-block provider first, then the in-memory storage. -/
def block (b : BlockDAG) (id : BlockID) : Option Nat :=
  match b.rootBlockProvider id with
  | some rootBlock => some rootBlock
  | none => b.memStorage.lookup id.index id

/-- The method `Block`. -/
def Block (b : BlockDAG) (id : BlockID) : Option Nat := b.block id

/-- The method `SetInvalid`. -/
def SetInvalid (b : BlockDAG) (block : Nat) (reason : blockdag.BlockError) : BlockDAG × Bool :=
  let r := (b.blockHeap block).SetInvalid
  if r.2 then ((b.setBlock block r.1).trigger (blockdag.Event.blockInvalid block reason), true)
  else (b.setBlock block r.1, false)

/-- The method `SetOrphaned`. -/
def SetOrphaned (b : BlockDAG) (block : Nat) : BlockDAG × Bool :=
  let r := (b.blockHeap block).SetOrphaned true
  if !r.2 then (b.setBlock block r.1, false)
  else ((b.setBlock block r.1).trigger (blockdag.Event.blockOrphaned block), true)

/-- The method `markInvalid`. -/
def markInvalid (b : BlockDAG) (block : Nat) (reason : blockdag.BlockError) : BlockDAG :=
  (b.SetInvalid block reason).1

/-- One round of the loop of `PromoteFutureBlocksUntil` for slot `i`. -/
def promoteSlot (b : BlockDAG) (i : Nat) : Except Fault BlockDAG :=
  match b.commitmentFunc i with
  | none => .error Fault.explicitPanic
  | some cm =>
    let queued : List Nat :=
      match b.futureBlocks.get i with
      | some storage =>
        match mapGet storage cm.id with
        | some futureBlocks => futureBlocks
        | none => []
      | none => []
    .ok { b with solidifierQueue := b.solidifierQueue ++ queued
                 futureBlocks := (b.futureBlocks.evict i).1 }

/-- The loop of `PromoteFutureBlocksUntil`, run `count` times from slot `i`. -/
def promoteLoop : Nat → Nat → BlockDAG → Except Fault BlockDAG
  | 0, _, b => .ok b
  | count + 1, i, b =>
    match b.promoteSlot i with
    | .error f => .error f
    | .ok b1 => promoteLoop count (i + 1) b1

/-- The method `PromoteFutureBlocksUntil`. For the largest slot index the loop
condition `i <= index` over `uint64` never fails: the loop runs on from slot 0
after the wrap and only a panic can end it. -/
def PromoteFutureBlocksUntil (b : BlockDAG) (index : Nat) : Except Fault BlockDAG :=
  match promoteLoop (index + 1 - b.nextIndexToPromote) b.nextIndexToPromote b with
  | .error f => .error f
  | .ok b1 =>
    if index + 1 = uint64Modulus then
      match promoteLoop b.nextIndexToPromote 0 b1 with
      | .error f => .error f
      | .ok _ => .error Fault.diverges
    else .ok { b1 with nextIndexToPromote := succUint64 index }

/-- The method `evictSlot`. -/
def evictSlot (b : BlockDAG) (index : Nat) : BlockDAG :=
  { b with solidifierEvictedUntil := some index
           memStorage := (b.memStorage.evict index).1 }

/-- The loop of `checkParents` over the parent ids. -/
def checkParentsLoop (b : BlockDAG) (blk : blockdag.Block) :
    List Parent → Except Fault (Option blockdag.BlockError)
  | [] => .ok none
  | parent :: rest =>
    match b.Block parent.id with
    | none => .error Fault.explicitPanic
    | some p =>
      match (b.blockHeap p).IssuingTime, blk.IssuingTime with
      | .error f, _ => .error f
      | .ok _, .error f => .error f
      | .ok parentTime, .ok blockTime =>
        if parentTime > blockTime then
          .ok (some (blockdag.BlockError.timestampMonotonicity parent.id))
        else
          match (b.blockHeap p).SlotCommitmentID, blk.SlotCommitmentID with
          | .error f, _ => .error f
          | .ok _, .error f => .error f
          | .ok parentCommitment, .ok blockCommitment =>
            if parentCommitment.index > blockCommitment.index then
              .ok (some (blockdag.BlockError.commitmentMonotonicity parent.id))
            else checkParentsLoop b blk rest

/-- The method `checkParents`. -/
def checkParents (b : BlockDAG) (block : Nat) : Except Fault (Option blockdag.BlockError) :=
  match (b.blockHeap block).Parents with
  | .error f => .error f
  | .ok parents => checkParentsLoop b (b.blockHeap block) parents

/-- The method `isFutureBlock`. -/
def isFutureBlock (b : BlockDAG) (block : Nat) : Except Fault (BlockDAG × Bool) :=
  match (b.blockHeap block).modelsBlock with
  | none => .error Fault.nilDereference
  | some data =>
    match b.commitmentFunc data.slotCommitmentID.index with
    | some _ => .ok (b, false)
    | none =>
      let b1 := b.setBlock block (b.blockHeap block).SetFuture.1
      let r := b1.futureBlocks.getOrCreate data.slotCommitmentID.index
      let bucket : List Nat :=
        match mapGet r.2 data.slotCommitmentID with
        | some set => set
        | none => []
      let bucket1 := if block ∈ bucket then bucket else bucket ++ [block]
      .ok ({ b1 with futureBlocks :=
                r.1.put data.slotCommitmentID.index (mapSet r.2 data.slotCommitmentID bucket1) },
            true)

/-- The method `markSolid`; the result is the returned error. -/
def markSolid (b : BlockDAG) (block : Nat) : Except Fault (BlockDAG × Option blockdag.BlockError) :=
  let finish (b1 : BlockDAG) : Except Fault (BlockDAG × Option blockdag.BlockError) :=
    .ok ((b1.setBlock block (b1.blockHeap block).SetSolid.1).trigger
      (blockdag.Event.blockSolid block), none)
  if !(b.blockHeap block).future then
    match b.checkParents block with
    | .error f => .error f
    | .ok (some err) => .ok (b, some err)
    | .ok none =>
      match b.isFutureBlock block with
      | .error f => .error f
      | .ok (b1, true) => .ok (b1, none)
      | .ok (b1, false) => finish b1
  else finish b

/-- The method `registerChild`. -/
def registerChild (b : BlockDAG) (child : Nat) (parent : Parent) : BlockDAG :=
  if b.isRootBlock parent.id then b
  else
    let r := b.memStorage.getOrCreate parent.id.index
    match mapGet r.2 parent.id with
    | some parentBlock =>
      { b with memStorage := r.1 }.setBlock parentBlock
        ((b.blockHeap parentBlock).AppendChild child parent.type)
    | none =>
      let p := b.blockCount
      ({ b with blockHeap := fun q => if q = p then
                    (blockdag.NewMissingBlock parent.id).AppendChild child parent.type
                  else b.blockHeap q
                blockCount := p + 1
                memStorage := r.1.put parent.id.index (mapSet r.2 parent.id p) }.trigger
        (blockdag.Event.blockMissing p))

/-- The method `canAttachToParents`; the result is `(block, canAttach, err)`. -/
def canAttachToParents (b : BlockDAG) (storedBlock : Option Nat) (data : ModelBlock) :
    List Parent → BlockDAG × Option Nat × Bool × Option blockdag.BlockError
  | [] => (b, storedBlock, true, none)
  | parent :: rest =>
    if b.inEvictedSlot parent.id && !b.isRootBlock parent.id then
      let b1 := match storedBlock with
        | some sb => (b.SetInvalid sb (blockdag.BlockError.parentTooOld parent.id)).1
        | none => b
      (b1, storedBlock, false, some (blockdag.BlockError.parentTooOld parent.id))
    else canAttachToParents b storedBlock data rest

/-- The method `canAttach`. -/
def canAttach (b : BlockDAG) (data : ModelBlock) :
    BlockDAG × Option Nat × Bool × Option blockdag.BlockError :=
  if b.inEvictedSlot data.id && !b.isRootBlock data.id then
    (b, none, false, some (blockdag.BlockError.tooOld data.id))
  else
    match b.block data.id with
    | some storedBlock =>
      if !(b.blockHeap storedBlock).missing then (b, some storedBlock, false, none)
      else b.canAttachToParents (some storedBlock) data data.parents
    | none => b.canAttachToParents none data data.parents

/-- The method `attach`. -/
def attach (b : BlockDAG) (data : ModelBlock) :
    BlockDAG × Option Nat × Bool × Option blockdag.BlockError :=
  let r := b.canAttach data
  if !r.2.2.1 then r
  else
    let b1 := r.1
    let st := b1.memStorage.getOrCreate data.id.index
    let created : BlockDAG × Nat × Bool :=
      match mapGet st.2 data.id with
      | some p => ({ b1 with memStorage := st.1 }, p, false)
      | none =>
        let p := b1.blockCount
        ({ b1 with blockHeap := fun q => if q = p then blockdag.NewBlock data else b1.blockHeap q
                   blockCount := p + 1
                   memStorage := st.1.put data.id.index (mapSet st.2 data.id p) }, p, true)
    let b2 := created.1
    let blk := created.2.1
    if created.2.2 then
      (data.parents.foldl (fun acc parent => acc.registerChild blk parent) b2, some blk, true, r.2.2.2)
    else
      let u := (b2.blockHeap blk).Update data
      if !u.2 then (b2.setBlock blk u.1, some blk, false, r.2.2.2)
      else
        let b3 := (b2.setBlock blk u.1).trigger (blockdag.Event.missingBlockAttached blk)
        (data.parents.foldl (fun acc parent => acc.registerChild blk parent) b3, some blk, true,
          r.2.2.2)

/-- The method `Attach`. -/
def Attach (b : BlockDAG) (data : ModelBlock) :
    BlockDAG × Option Nat × Bool × Option blockdag.BlockError :=
  let r := b.attach data
  match r.2.1, r.2.2.1 with
  | some blk, true => ((r.1.trigger (blockdag.Event.blockAttached blk)).queue blk, r.2)
  | _, _ => r

end BlockDAG

/-! ## Calls, traces and scenarios -/

/-- The public calls of the chain manager that change its state. -/
inductive Call where
  | processCommitment (c : Commitment)
  | processCandidateCommitment (c : Commitment)
  | processCommitmentFromSource (c : Commitment) (source : Nat)
  | switchMainChain (head : CommitmentID)
  | evictUntil (index : Nat)
  | setRootCommitment (c : Commitment)

namespace Manager

/-- The state after one call that returns; a returned Go `error` leaves the state
as the call left it. -/
def call (m : Manager) : Call → Except Fault Manager
  | Call.processCommitment c =>
    match m.ProcessCommitment c with
    | .error f => .error f
    | .ok r => .ok r.1
  | Call.processCandidateCommitment c =>
    match m.ProcessCandidateCommitment c with
    | .error f => .error f
    | .ok r => .ok r.1
  | Call.processCommitmentFromSource c source =>
    match m.ProcessCommitmentFromSource c source with
    | .error f => .error f
    | .ok r => .ok r.1
  | Call.switchMainChain head =>
    match m.SwitchMainChain head with
    | .error f => .error f
    | .ok r => .ok r.1
  | Call.evictUntil index => m.EvictUntil index
  | Call.setRootCommitment c => m.SetRootCommitment c

/-- The state after a sequence of calls, each of which returns. -/
def calls (m : Manager) : List Call → Except Fault Manager
  | [] => .ok m
  | c :: rest =>
    match m.call c with
    | .error f => .error f
    | .ok m1 => calls m1 rest

/-- The state after a sequence of calls; the state is left as it is when a call
does not return. -/
def after (m : Manager) (cs : List Call) : Manager :=
  match m.calls cs with
  | .ok m1 => m1
  | .error _ => m

/-- The fork record `detectForks` builds for a source, the latest commitment of the
received chain and the forking point. -/
def forkOf (m : Manager) (source latest fp : Nat) : Fork :=
  { source := source
    commitment := (m.commitmentHeap latest).commitment
    forkingPoint := (m.commitmentHeap fp).commitment }

end Manager

namespace Scenario

/-- The main-chain commitment `M i` of slot `i`; `M 0` is the root. -/
def M (i : Nat) : Commitment := { id := ⟨i, 100 + i⟩, prevID := ⟨i - 1, 100 + i - 1⟩ }

/-- The commitment `F i` of slot `i` of the fork, with `F1.prev = M0`. -/
def F (i : Nat) : Commitment :=
  { id := ⟨i, 200 + i⟩, prevID := if i = 1 then (M 0).id else ⟨i - 1, 200 + i - 1⟩ }

/-- The peer `P`. -/
def peerP : Nat := 7

/-- A fresh manager (minimum fork depth 3) initialized with the root `M0`. -/
def fresh : Manager := Manager.NewManager.Initialize (M 0)

/-- Receipt of the main chain `M1..M5`. -/
def mainChain : List Call := [1, 2, 3, 4, 5].map (fun i => Call.processCommitment (M i))

/-- Receipt of `F1..Fk` from peer `P`, in that order. -/
def forkUpTo (k : Nat) : List Call :=
  (List.range k).map (fun i => Call.processCommitmentFromSource (F (i + 1)) peerP)

/-- Scenario D up to the receipt of `Fk`. -/
def scenarioD (k : Nat) : Manager := fresh.after (mainChain ++ forkUpTo k)

/-- A commitment of slot `2 ^ 63 + 1` whose parent is `F1`. -/
def farF2 : Commitment := { id := ⟨2 ^ 63 + 1, 202⟩, prevID := (F 1).id }

/-- The manager after `M1` and, from peer `P`, `F1`. -/
def shortFork : Manager :=
  fresh.after [Call.processCommitment (M 1), Call.processCommitmentFromSource (F 1) peerP]

/-- The manager `shortFork` after `processCommitment` of `farF2`. -/
def shortForkRegistered : Manager :=
  match shortFork.processCommitment farF2 with
  | .ok r => r.1
  | .error _ => shortFork

/-- The manager `shortFork` after `ProcessCommitmentFromSource` of `farF2`. -/
def shortForkReceived : Manager :=
  fresh.after [Call.processCommitment (M 1), Call.processCommitmentFromSource (F 1) peerP,
    Call.processCommitmentFromSource farF2 peerP]

end Scenario

namespace Scenario

/-- Scenario E: Scenario D followed by `SwitchMainChain(F5)`. -/
def scenarioE : Manager := (scenarioD 5).after [Call.switchMainChain (F 5).id]

/-- Scenario F: Scenario D followed by `EvictUntil(4)`. -/
def scenarioF : Manager := (scenarioD 5).after [Call.evictUntil 4]

end Scenario

namespace Manager

/-- The forking point is indexed, in `forkingPointsByCommitments`, under some
commitment of a slot between `lo` and `hi`. -/
def forkIndexedIn (m : Manager) (lo hi : Nat) (forkingPoint : CommitmentID) : Prop :=
  ∃ s, lo ≤ s ∧ s ≤ hi ∧ ∃ inner, m.forkingPointsByCommitments.get s = some inner ∧
    ∃ c, (c, forkingPoint) ∈ inner

end Manager

namespace Scenario

/-- The manager after `EvictUntil(2)` and the later receipt of `M1`. -/
def lateArrival : Manager := fresh.after [Call.evictUntil 2, Call.processCommitment (M 1)]

/-- The fork arrives out of order: `M1..M5`, then from peer `P` the commitments
`F2..F5` and last `F1`. -/
def outOfOrder : Manager :=
  fresh.after (mainChain ++ [2, 3, 4, 5, 1].map
    (fun i => Call.processCommitmentFromSource (F i) peerP))

end Scenario

namespace BlockDAG

/-- The blocks parked in the future-block bucket `(slot, commitment id)`. -/
def parked (b : BlockDAG) (slot : Nat) (id : CommitmentID) : List Nat :=
  match b.futureBlocks.get slot with
  | some storage =>
    match mapGet storage id with
    | some futureBlocks => futureBlocks
    | none => []
  | none => []

/-- The blocks parked in the bucket of slot `i` that is keyed by the id of the local
commitment of that slot. -/
def parkedUnderLocal (b : BlockDAG) (i : Nat) : List Nat :=
  match b.commitmentFunc i with
  | some cm => b.parked i cm.id
  | none => []

/-- The blocks parked under the local commitments of `count` slots from `i` on. -/
def parkedUnderLocalFrom (b : BlockDAG) : Nat → Nat → List Nat
  | 0, _ => []
  | count + 1, i => b.parkedUnderLocal i ++ parkedUnderLocalFrom b count (i + 1)

/-- A parent reference resolves to a block that is neither issued later than the
block nor declares a higher commitment slot: the two checks of `checkParents`. -/
def parentMonotone (b : BlockDAG) (blk : blockdag.Block) (parent : Parent) : Prop :=
  ∃ p parentTime blockTime parentCommitment blockCommitment,
    b.Block parent.id = some p ∧
    (b.blockHeap p).IssuingTime = .ok parentTime ∧ blk.IssuingTime = .ok blockTime ∧
    ¬ parentTime > blockTime ∧
    (b.blockHeap p).SlotCommitmentID = .ok parentCommitment ∧
    blk.SlotCommitmentID = .ok blockCommitment ∧
    parentCommitment.index ≤ blockCommitment.index

/-- Every parent of the block passes the two checks. -/
def parentsMonotone (b : BlockDAG) (block : Nat) : Prop :=
  ∃ parents, (b.blockHeap block).Parents = .ok parents ∧
    ∀ parent ∈ parents, b.parentMonotone (b.blockHeap block) parent

/-- A parent reference resolves to a block whose issuing time and commitment id can
be read. -/
def parentResolves (b : BlockDAG) (parent : Parent) : Prop :=
  ∃ p parentTime parentCommitment,
    b.Block parent.id = some p ∧
    (b.blockHeap p).IssuingTime = .ok parentTime ∧
    (b.blockHeap p).SlotCommitmentID = .ok parentCommitment

/-- The local node commits the slots up to `n`: the commitment lookup of the block
DAG answers for them with the commitment `(i, 500 + i)`. -/
def withCommittedUntil (b : BlockDAG) (n : Nat) : BlockDAG :=
  { b with commitmentFunc := fun i =>
      if i ≤ n then some { id := ⟨i, 500 + i⟩, prevID := ⟨i - 1, 499 + i⟩ } else none }

end BlockDAG

namespace Scenario

/-- The id of the genesis root block. -/
def genesisID : BlockID := ⟨0, 0⟩

/-- A block DAG that knows the genesis root block only and has committed the slots
up to 4. -/
def freshDAG : BlockDAG :=
  BlockDAG.withCommittedUntil
    { blockHeap := fun _ => blockdag.NewRootBlock genesisID ⟨0, 500⟩ 0
      blockCount := 1
      memStorage := IndexedStorage.empty
      futureBlocks := IndexedStorage.empty
      nextIndexToPromote := 0
      commitmentFunc := fun _ => none
      rootBlockProvider := fun id => if id = genesisID then some 0 else none
      inEvictedSlot := fun _ => false
      isRootBlock := fun id => decide (id = genesisID)
      solidifierQueue := []
      solidifierEvictedUntil := none
      events := [] } 4

/-- A block of slot 5, issued at time 10 on top of the genesis, that declares for
slot 5 a commitment id other than the one the local node will commit. -/
def foreignBlock : ModelBlock :=
  { id := ⟨5, 1⟩, issuingTime := 10, slotCommitmentID := ⟨5, 999⟩,
    parents := [⟨genesisID, ParentsType.strong⟩] }

/-- A block of slot 5 that declares the commitment id the local node will commit
for slot 5. -/
def localBlock : ModelBlock :=
  { id := ⟨5, 2⟩, issuingTime := 10, slotCommitmentID := ⟨5, 505⟩,
    parents := [⟨genesisID, ParentsType.strong⟩] }

/-- A block issued before its parent, the genesis of time 0. -/
def earlyBlock : ModelBlock :=
  { id := ⟨1, 3⟩, issuingTime := -1, slotCommitmentID := ⟨0, 500⟩,
    parents := [⟨genesisID, ParentsType.strong⟩] }

/-- The state after attaching a block and letting the solidifier call `markSolid`
on it (reference 1, the first block created). -/
def attachedAndMarked (data : ModelBlock) : BlockDAG :=
  match ((freshDAG.Attach data).1).markSolid 1 with
  | .ok r => r.1
  | .error _ => freshDAG

/-- The block `foreignBlock` is parked as a future block and the local node then
commits slot 5. -/
def parkedForeign : BlockDAG := (attachedAndMarked foreignBlock).withCommittedUntil 5

/-- The block `localBlock` is parked as a future block and the local node then
commits slot 5. -/
def parkedLocal : BlockDAG := (attachedAndMarked localBlock).withCommittedUntil 5

end Scenario

namespace Manager

/-- The structural facts about the heap that the calls of the manager keep: the
root commitment exists and has a chain; a chain commitment with a chain has a
published payload; the children of every chain commitment are allocated and
published; and the storage refers to allocated chain commitments. -/
structure WellFormed (m : Manager) : Prop where
  root : ∃ r, m.rootCommitment = some r ∧ r < m.commitmentCount ∧
    (m.commitmentHeap r).chain ≠ none
  chainPublished : ∀ p, (m.commitmentHeap p).chain ≠ none →
    (m.commitmentHeap p).commitment ≠ none
  childrenPublished : ∀ p id q, mapGet (m.commitmentHeap p).children id = some q →
    (m.commitmentHeap q).commitment ≠ none ∧ q < m.commitmentCount
  storageValid : ∀ s id q, m.commitmentsByID.lookup s id = some q → q < m.commitmentCount

end Manager

/-- The calls `ProcessCommitment`, `ProcessCandidateCommitment`,
`ProcessCommitmentFromSource` and `SwitchMainChain`. -/
def Call.isProcessOrSwitch : Call → Bool
  | Call.processCommitment _ => true
  | Call.processCandidateCommitment _ => true
  | Call.processCommitmentFromSource _ _ => true
  | Call.switchMainChain _ => true
  | Call.evictUntil _ => false
  | Call.setRootCommitment _ => false

namespace Scenario

/-- The fresh manager after the receipt of `F3`, whose parent `F2` is unknown. -/
def orphanArrival : Manager := fresh.after [Call.processCommitment (F 3)]

/-- The manager after `M1`, `M2`, then `SetRootCommitment(M2)`. -/
def rootMoved : Manager :=
  fresh.after [Call.processCommitment (M 1), Call.processCommitment (M 2),
    Call.setRootCommitment (M 2)]

end Scenario

namespace Manager

/-- The later state `m1` keeps what `m` allocated: the counter does not decrease,
published payloads stay published and the root commitment is the same. -/
def Grows (m m1 : Manager) : Prop :=
  m.commitmentCount ≤ m1.commitmentCount ∧ m1.rootCommitment = m.rootCommitment ∧
    ∀ q, q < m.commitmentCount → (m.commitmentHeap q).commitment ≠ none →
      (m1.commitmentHeap q).commitment ≠ none

end Manager

namespace Manager

/-- The state `m1` has the same tree skeleton as `m`: every chain commitment keeps
its id, payload and children, and the storage and the root are the same. -/
def KeepsSkeleton (m m1 : Manager) : Prop :=
  (∀ p, (m1.commitmentHeap p).id = (m.commitmentHeap p).id ∧
      (m1.commitmentHeap p).commitment = (m.commitmentHeap p).commitment ∧
      (m1.commitmentHeap p).children = (m.commitmentHeap p).children) ∧
    m1.commitmentsByID = m.commitmentsByID ∧ m1.rootCommitment = m.rootCommitment

/-- The state `m1` has the same skeleton and the same main-child designations as
`m`. -/
def KeepsLinks (m m1 : Manager) : Prop :=
  m.KeepsSkeleton m1 ∧
    ∀ p, (m1.commitmentHeap p).mainChildID = (m.commitmentHeap p).mainChildID

end Manager

namespace Scenario

/-- The block `B1` of Scenario A: slot 1, on top of the genesis. -/
def blockB1 : ModelBlock :=
  { id := ⟨1, 1⟩, issuingTime := 10, slotCommitmentID := ⟨0, 500⟩,
    parents := [⟨genesisID, ParentsType.strong⟩] }

/-- The block `B2` of Scenario A: slot 2, on top of `B1`. -/
def blockB2 : ModelBlock :=
  { id := ⟨2, 2⟩, issuingTime := 20, slotCommitmentID := ⟨0, 500⟩,
    parents := [⟨blockB1.id, ParentsType.strong⟩] }

/-- The block `B3` of Scenario A: slot 2, on top of `B2`. -/
def blockB3 : ModelBlock :=
  { id := ⟨2, 3⟩, issuingTime := 30, slotCommitmentID := ⟨0, 500⟩,
    parents := [⟨blockB2.id, ParentsType.strong⟩] }

/-- Scenario A: `B1`, `B3` and `B2` are attached in that order. -/
def scenarioA : BlockDAG :=
  (((freshDAG.Attach blockB1).1.Attach blockB3).1.Attach blockB2).1

/-- The eviction state has evicted the slots up to 1 (the genesis stays a root
block). -/
def withEvictedUntilOne (b : BlockDAG) : BlockDAG :=
  { b with inEvictedSlot := fun id => decide (id.index ≤ 1) }

/-- A block of the evicted slot 1 that is not a root block. -/
def oldBlock : ModelBlock :=
  { id := ⟨1, 40⟩, issuingTime := 5, slotCommitmentID := ⟨0, 500⟩,
    parents := [⟨⟨0, 77⟩, ParentsType.strong⟩] }

/-- A block of slot 3 whose weak parent `oldBlock` lies in the evicted slot 1. -/
def lateBlock : ModelBlock :=
  { id := ⟨3, 20⟩, issuingTime := 40, slotCommitmentID := ⟨0, 500⟩,
    parents := [⟨genesisID, ParentsType.strong⟩, ⟨oldBlock.id, ParentsType.weak⟩] }

/-- A block of slot 3 on top of `lateBlock`. -/
def lateChild : ModelBlock :=
  { id := ⟨3, 21⟩, issuingTime := 50, slotCommitmentID := ⟨0, 500⟩,
    parents := [⟨lateBlock.id, ParentsType.strong⟩] }

/-- The slots up to 1 are evicted and `lateChild` is attached, which leaves a
missing placeholder (reference 2) for its parent `lateBlock`. -/
def awaitingLateBlock : BlockDAG := ((withEvictedUntilOne freshDAG).Attach lateChild).1

/-- A block of slot 3 on top of `oldBlock` is attached, which leaves a missing
placeholder (reference 2) for `oldBlock`; then the eviction state evicts the slots
up to 1, while the storage of the block DAG still holds slot 1. -/
def awaitingOldBlock : BlockDAG :=
  withEvictedUntilOne (freshDAG.Attach
    { id := ⟨3, 22⟩, issuingTime := 50, slotCommitmentID := ⟨0, 500⟩,
      parents := [⟨oldBlock.id, ParentsType.strong⟩] }).1

end Scenario

/-! ## Weights -/

/-- Go wrap-around of an integer result to `int64`. -/
def wrapInt64 (x : Int) : Int := toInt64 (x % (uint64Modulus : Int)).toNat

namespace acceptance

/-- Modelled from the spec: the acceptance states
`{Pending, Accepted, Confirmed, Rejected}`. -/
inductive State where
  | pending
  | accepted
  | confirmed
  | rejected
deriving DecidableEq, Repr

/-- Modelled from the spec: the rank of a state in the order
`Confirmed > Accepted > Pending > Rejected`. -/
def State.rank : State → Nat
  | State.rejected => 0
  | State.pending => 1
  | State.accepted => 2
  | State.confirmed => 3

end acceptance

namespace account

/-- The collaborator `account.SelectedAccounts` of the library: the weights of the
known accounts, the selected members and the total weight of the members. -/
structure SelectedAccounts where
  accounts : List (Nat × Int)
  members : List Nat
  totalWeight : Int
deriving DecidableEq, Repr

/-- The call `SelectAccounts()` without arguments: an empty selection over the same
accounts. -/
def SelectedAccounts.SelectAccounts (s : SelectedAccounts) : SelectedAccounts :=
  { accounts := s.accounts, members := [], totalWeight := 0 }

/-- The call `Add(id)`: a known account that is not yet a member becomes one; the
result reports whether the selection changed. -/
def SelectedAccounts.Add (s : SelectedAccounts) (id : Nat) : SelectedAccounts × Bool :=
  match mapGet s.accounts id with
  | none => (s, false)
  | some weight =>
    if id ∈ s.members then (s, false)
    else ({ s with members := s.members ++ [id]
                   totalWeight := wrapInt64 (s.totalWeight + weight) }, true)

/-- The call `Delete(id)`: a member is removed; the result reports whether the
selection changed. -/
def SelectedAccounts.Delete (s : SelectedAccounts) (id : Nat) : SelectedAccounts × Bool :=
  if id ∈ s.members then
    match mapGet s.accounts id with
    | none => ({ s with members := s.members.erase id }, true)
    | some weight =>
      ({ s with members := s.members.erase id
                totalWeight := wrapInt64 (s.totalWeight - weight) }, true)
  else (s, false)

/-- The call `TotalWeight()`. -/
def SelectedAccounts.TotalWeight (s : SelectedAccounts) : Int := s.totalWeight

end account

namespace weight

/-- Modelled from the spec: the three-way result of a comparison. -/
inductive Comparison where
  | lighter
  | equal
  | heavier
deriving DecidableEq, Repr

/-- Modelled from the spec: the immutable value triple `(cumulative-weight: signed
64-bit, validators-weight: signed 64-bit, acceptance-state)`. -/
structure Value where
  cumulativeWeight : Int
  validatorsWeight : Int
  acceptanceState : acceptance.State
deriving DecidableEq, Repr

/-- Modelled from the spec: the cumulative weight of the triple. -/
def Value.CumulativeWeight (v : Value) : Int := v.cumulativeWeight

/-- Modelled from the spec: a copy of the triple with the cumulative weight set. -/
def Value.SetCumulativeWeight (v : Value) (cumulativeWeight : Int) : Value :=
  { v with cumulativeWeight := cumulativeWeight }

/-- Modelled from the spec: a copy with `delta` added to the cumulative weight, in
signed 64-bit arithmetic. -/
def Value.AddCumulativeWeight (v : Value) (delta : Int) : Value :=
  { v with cumulativeWeight := wrapInt64 (v.cumulativeWeight + delta) }

/-- Modelled from the spec: a copy with `delta` removed from the cumulative weight,
in signed 64-bit arithmetic. -/
def Value.RemoveCumulativeWeight (v : Value) (delta : Int) : Value :=
  { v with cumulativeWeight := wrapInt64 (v.cumulativeWeight - delta) }

/-- Modelled from the spec: the validators weight of the triple. -/
def Value.ValidatorsWeight (v : Value) : Int := v.validatorsWeight

/-- Modelled from the spec: a copy of the triple with the validators weight set. -/
def Value.SetValidatorsWeight (v : Value) (validatorsWeight : Int) : Value :=
  { v with validatorsWeight := validatorsWeight }

/-- Modelled from the spec: the acceptance state of the triple. -/
def Value.AcceptanceState (v : Value) : acceptance.State := v.acceptanceState

/-- Modelled from the spec: a copy of the triple with the acceptance state set. -/
def Value.SetAcceptanceState (v : Value) (acceptanceState : acceptance.State) : Value :=
  { v with acceptanceState := acceptanceState }

/-- Modelled from the spec: three-way comparison of two numbers. -/
def compareNumbers (a b : Int) : Comparison :=
  if a < b then Comparison.lighter else if b < a then Comparison.heavier else Comparison.equal

/-- Modelled from the spec: values are compared lexicographically, the acceptance
state first (with `Confirmed > Accepted > Pending > Rejected`), then the validators
weight, then the cumulative weight. -/
def Value.Compare (v other : Value) : Comparison :=
  match compareNumbers v.acceptanceState.rank other.acceptanceState.rank with
  | Comparison.equal =>
    match compareNumbers v.validatorsWeight other.validatorsWeight with
    | Comparison.equal => compareNumbers v.cumulativeWeight other.cumulativeWeight
    | r => r
  | r => r

/-- The struct `Weight`; `onUpdate` lists the values the event `OnUpdate` was
triggered with, in the order of the triggers. -/
structure Weight where
  onUpdate : List Value
  voters : account.SelectedAccounts
  value : Value
deriving DecidableEq, Repr

namespace Weight

/-- The constructor `New`; the zero value is `(0, 0, Pending)`. -/
def New (weights : account.SelectedAccounts) : Weight :=
  { onUpdate := [], voters := weights.SelectAccounts,
    value := { cumulativeWeight := 0, validatorsWeight := 0,
               acceptanceState := acceptance.State.pending } }

/-- The call `w.OnUpdate.Trigger(v)`. -/
def trigger (w : Weight) (v : Value) : Weight := { w with onUpdate := w.onUpdate ++ [v] }

/-- The method `CumulativeWeight`. -/
def CumulativeWeight (w : Weight) : Int := w.value.CumulativeWeight

/-- The method `SetCumulativeWeight`. -/
def SetCumulativeWeight (w : Weight) (cumulativeWeight : Int) : Weight :=
  if w.value.CumulativeWeight ≠ cumulativeWeight then
    let w1 : Weight := { w with value := w.value.SetCumulativeWeight cumulativeWeight }
    w1.trigger w1.value
  else w

/-- The method `AddCumulativeWeight`. -/
def AddCumulativeWeight (w : Weight) (delta : Int) : Weight :=
  if delta ≠ 0 then
    let w1 : Weight := { w with value := w.value.AddCumulativeWeight delta }
    w1.trigger w1.value
  else w

/-- The method `RemoveCumulativeWeight`. -/
def RemoveCumulativeWeight (w : Weight) (delta : Int) : Weight :=
  if delta ≠ 0 then
    let w1 : Weight := { w with value := w.value.RemoveCumulativeWeight delta }
    w1.trigger w1.value
  else w

/-- The method `updateValidatorsWeight`. -/
def updateValidatorsWeight (w : Weight) : Weight × Value × Bool :=
  let newValidatorWeight := w.voters.TotalWeight
  if w.value.ValidatorsWeight ≠ newValidatorWeight then
    let w1 : Weight := { w with value := w.value.SetValidatorsWeight newValidatorWeight }
    (w1, w1.value, true)
  else (w, w.value, false)

/-- The method `AddVoter`. -/
def AddVoter (w : Weight) (id : Nat) : Weight :=
  let r := w.voters.Add id
  let w1 : Weight := { w with voters := r.1 }
  if r.2 then
    let u := w1.updateValidatorsWeight
    if u.2.2 then u.1.trigger u.2.1 else u.1
  else w1

/-- The method `DeleteVoter`. -/
def DeleteVoter (w : Weight) (id : Nat) : Weight :=
  let r := w.voters.Delete id
  let w1 : Weight := { w with voters := r.1 }
  if r.2 then
    let u := w1.updateValidatorsWeight
    if u.2.2 then u.1.trigger u.2.1 else u.1
  else w1

/-- The method `AcceptanceState`. -/
def AcceptanceState (w : Weight) : acceptance.State := w.value.AcceptanceState

/-- The method `setAcceptanceState`; the result carries the previous state. -/
def setAcceptanceState (w : Weight) (acceptanceState : acceptance.State) :
    Weight × acceptance.State :=
  let previousState := w.value.AcceptanceState
  if previousState ≠ acceptanceState then
    ({ w with value := w.value.SetAcceptanceState acceptanceState }, previousState)
  else (w, previousState)

/-- The method `SetAcceptanceState`; the result carries the previous state. -/
def SetAcceptanceState (w : Weight) (acceptanceState : acceptance.State) :
    Weight × acceptance.State :=
  let r := w.setAcceptanceState acceptanceState
  if r.2 ≠ acceptanceState then (r.1.trigger r.1.value, r.2) else (r.1, r.2)

/-- The method `WithAcceptanceState`. -/
def WithAcceptanceState (w : Weight) (acceptanceState : acceptance.State) : Weight :=
  (w.setAcceptanceState acceptanceState).1

/-- The method `Value`. -/
def Value (w : Weight) : weight.Value := w.value

/-- The method `Compare`; a nil receiver or argument is `none`. -/
def Compare (w other : Option Weight) : Comparison :=
  match w, other with
  | none, none => Comparison.equal
  | none, some _ => Comparison.heavier
  | some _, none => Comparison.lighter
  | some w1, some other1 => w1.value.Compare other1.value

end Weight

/-- The operations that can change a `Weight`. -/
inductive Operation where
  | setCumulativeWeight (cumulativeWeight : Int)
  | addCumulativeWeight (delta : Int)
  | removeCumulativeWeight (delta : Int)
  | addVoter (id : Nat)
  | deleteVoter (id : Nat)
  | setAcceptanceState (acceptanceState : acceptance.State)
  | withAcceptanceState (acceptanceState : acceptance.State)
deriving DecidableEq, Repr

/-- The weight after one operation. -/
def Weight.apply (w : Weight) : Operation → Weight
  | Operation.setCumulativeWeight cumulativeWeight => w.SetCumulativeWeight cumulativeWeight
  | Operation.addCumulativeWeight delta => w.AddCumulativeWeight delta
  | Operation.removeCumulativeWeight delta => w.RemoveCumulativeWeight delta
  | Operation.addVoter id => w.AddVoter id
  | Operation.deleteVoter id => w.DeleteVoter id
  | Operation.setAcceptanceState acceptanceState => (w.SetAcceptanceState acceptanceState).1
  | Operation.withAcceptanceState acceptanceState => w.WithAcceptanceState acceptanceState

end weight

namespace Scenario

/-- Two known validators, of weight 10 and 20. -/
def validators : account.SelectedAccounts :=
  { accounts := [(1, 10), (2, 20)], members := [], totalWeight := 0 }

/-- A new weight over `validators`: the value `(0, 0, Pending)`. -/
def newWeight : weight.Weight := weight.Weight.New validators

end Scenario

/-! ## The order of `CommitmentMissing` and `MissingCommitmentReceived` -/

/-- One step of the scan of an event log for one commitment id. The state says
whether a `CommitmentMissing` of the id is still unanswered; the scan fails (`none`)
at a `MissingCommitmentReceived` of the id that answers no `CommitmentMissing`. -/
def Event.awaitStep (id : CommitmentID) (state : Option Bool) (e : Event) : Option Bool :=
  match state with
  | none => none
  | some pending =>
    match e with
    | Event.commitmentMissing id1 => if id1 = id then some true else some pending
    | Event.missingCommitmentReceived id1 =>
      if id1 = id then (if pending then some false else none) else some pending
    | _ => some pending

/-- The scan of an event log for one commitment id, from the oldest event on. -/
def Event.awaited (id : CommitmentID) (events : List Event) : Option Bool :=
  events.foldl (Event.awaitStep id) (some false)

/-- A step in the life of a manager: `Initialize` or one of the other public calls. -/
inductive Step where
  | init (c : Commitment)
  | call (c : Call)

namespace Manager

/-- The state after one step that returns. -/
def step (m : Manager) : Step → Except Fault Manager
  | Step.init c => .ok (m.Initialize c)
  | Step.call c => m.call c

/-- The state after a sequence of steps, each of which returns. -/
def steps (m : Manager) : List Step → Except Fault Manager
  | [] => .ok m
  | s :: rest =>
    match m.step s with
    | .error f => .error f
    | .ok m1 => steps m1 rest

/-- The facts about the storage and the event log that the calls of the manager
keep: a stored chain commitment is allocated and stored under its own id and slot;
a stored chain commitment without payload has an unanswered `CommitmentMissing`;
and no `MissingCommitmentReceived` was triggered without one. -/
structure Registered (m : Manager) : Prop where
  keyed : ∀ s id q, m.commitmentsByID.lookup s id = some q →
    (m.commitmentHeap q).id = id ∧ s = id.index ∧ q < m.commitmentCount
  awaited : ∀ s id q, m.commitmentsByID.lookup s id = some q →
    (m.commitmentHeap q).commitment = none → Event.awaited id m.events = some true
  ordered : ∀ id, Event.awaited id m.events ≠ none

/-- The later state `m1` has the ids and payloads of `m`, allocated no chain
commitment, stores nothing that `m` does not store and has the same scan of the
event log for every id. -/
def KeepsRegistry (m m1 : Manager) : Prop :=
  (∀ p, (m1.commitmentHeap p).id = (m.commitmentHeap p).id ∧
      (m1.commitmentHeap p).commitment = (m.commitmentHeap p).commitment) ∧
    m1.commitmentCount = m.commitmentCount ∧
    (∀ s id q, m1.commitmentsByID.lookup s id = some q →
      m.commitmentsByID.lookup s id = some q) ∧
    ∀ id, Event.awaited id m1.events = Event.awaited id m.events

end Manager
namespace Scenario

/-- The calls of a replay after a main-chain switch, none of them `EvictUntil`: the
main chain arrives as `M1`, `M3`, `M2`, then the fork `F1` arrives and becomes the
main chain, and then `M3` and `M2` arrive again. -/
def replayCalls : List Call :=
  [Call.processCommitment (M 1), Call.processCommitment (M 3), Call.processCommitment (M 2),
   Call.processCandidateCommitment (F 1), Call.switchMainChain (F 1).id,
   Call.processCandidateCommitment (M 3), Call.processCandidateCommitment (M 2)]

/-- The manager after `replayCalls`. -/
def replayAfterSwitch : Manager := fresh.after replayCalls

/-- The life of the manager `replayAfterSwitch`: `Initialize(M0)`, then
`replayCalls`. -/
def replaySteps : List Step := Step.init (M 0) :: replayCalls.map Step.call

end Scenario

namespace Manager

/-- The loop of `Commitments`: `amount` rounds from the commitment of the given id
along the previous-commitment ids; the result holds the chain commitments in the
order they were visited. -/
def commitmentsLoop (m : Manager) :
    Nat → CommitmentID → Except Fault (Except ManagerError (List Nat))
  | 0, _ => .ok (.ok [])
  | amount + 1, id =>
    match m.commitment id with
    | none => .ok (.error ManagerError.commitmentUnknown)
    | some currentCommitment =>
      match (m.commitmentHeap currentCommitment).commitment with
      | none => .error Fault.nilDereference
      | some cm =>
        match commitmentsLoop m amount cm.prevID with
        | .error f => .error f
        | .ok (.error e) => .ok (.error e)
        | .ok (.ok rest) => .ok (.ok (currentCommitment :: rest))

/-- The method `Commitments`; `make` panics for a negative length. -/
def Commitments (m : Manager) (id : CommitmentID) (amount : Int) :
    Except Fault (Except ManagerError (List Nat)) :=
  if amount < 0 then .error Fault.explicitPanic
  else m.commitmentsLoop amount.toNat id

end Manager

/-! ## The ledger -/

namespace ledgerstate

/-- Modelled from the spec: the ledger state store is an external collaborator, of
which the repository shows the key layout (`database_prefixes.go`: an output has an
unspent key exactly while it is unspent, and a spent record once it is spent) and
the test `AssertOutputUnspentAndSpentTransitions`. Outputs are named by numbers. -/
structure Manager where
  outputs : List Nat
  unspent : List Nat
  spent : List Nat
deriving DecidableEq, Repr

/-- Modelled from the spec: the empty store of `New`. -/
def New : Manager := { outputs := [], unspent := [], spent := [] }

/-- Modelled from the spec: `AddUnspentOutput` stores an output and its unspent key. -/
def Manager.AddUnspentOutput (m : Manager) (output : Nat) : Manager :=
  { m with outputs := output :: m.outputs, unspent := output :: m.unspent }

/-- Modelled from the spec: `ApplyDiff` stores the new outputs as unspent, and for
every spent output deletes the unspent key and stores the spent record. -/
def Manager.ApplyDiff (m : Manager) (newOutputs newSpents : List Nat) : Manager :=
  { outputs := newOutputs ++ m.outputs
    unspent := (newOutputs ++ m.unspent).filter (fun o => decide (o ∉ newSpents))
    spent := newSpents ++ m.spent }

/-- Modelled from the spec: `IsOutputIDUnspentWithoutLocking` reports whether the
unspent key of the output exists; the test requires true for an added output and
false once a diff has spent it. -/
def Manager.IsOutputIDUnspentWithoutLocking (m : Manager) (outputID : Nat) : Bool :=
  decide (outputID ∈ m.unspent)

end ledgerstate

namespace utxoledger

/-- The struct `Ledger` of `ledger.go`, reduced to its ledger state. -/
structure Ledger where
  ledgerState : ledgerstate.Manager
deriving DecidableEq, Repr

/-- The method `IsOutputSpent`; the error of the store is always nil here. -/
def Ledger.IsOutputSpent (l : Ledger) (outputID : Nat) : Bool :=
  l.ledgerState.IsOutputIDUnspentWithoutLocking outputID

end utxoledger

/-! ## Prunable storage -/

namespace prunable

/-- The function `indexToRealm` of `utils.go`, for a `uint64` index; `byte(x)` keeps
the low eight bits. -/
def indexToRealm (index : Nat) : List Nat :=
  [(0xff &&& index) % 256,
   (0xff &&& (index >>> 8)) % 256,
   (0xff &&& (index >>> 16)) % 256,
   (0xff &&& (index >>> 24)) % 256,
   (0xff &&& (index >>> 32)) % 256,
   (0xff &&& (index >>> 40)) % 256,
   (0xff &&& (index >>> 48)) % 256,
   (0xff &&& (index >>> 54)) % 256]

/-- The 8-byte little-endian encoding of a `uint64`: byte `i` is
`(index >> (8 * i)) & 0xff`. -/
def littleEndian (index : Nat) : List Nat :=
  (List.range 8).map (fun i => (index >>> (8 * i)) &&& 0xff)

end prunable

namespace Scenario

/-- The block DAG `freshDAG` after `PromoteFutureBlocksUntil(4)`. -/
def promotedUntilFour : BlockDAG :=
  match freshDAG.PromoteFutureBlocksUntil 4 with
  | .ok b => b
  | .error _ => freshDAG

/-- A ledger that holds the output 7 unspent. -/
def ledgerWithUnspent : utxoledger.Ledger :=
  { ledgerState := ledgerstate.New.AddUnspentOutput 7 }

/-- The ledger `ledgerWithUnspent` after a diff spent the output 7. -/
def ledgerWithSpent : utxoledger.Ledger :=
  { ledgerState := ledgerWithUnspent.ledgerState.ApplyDiff [] [7] }

end Scenario
namespace Manager

/-- The later state `m1` keeps the registry of `m` and has the same storage and the
same root commitment. -/
def KeepsStore (m m1 : Manager) : Prop :=
  m.KeepsRegistry m1 ∧ m1.commitmentsByID = m.commitmentsByID ∧
    m1.rootCommitment = m.rootCommitment

end Manager

/-! ## The state diff of the mempool -/

namespace mempoolv1

/-- Modelled from the spec: what the state diff reads of a `mempool.StateMetadata`,
the id of its output; `ref` tells two metadata objects of one output apart. -/
structure StateMetadata where
  id : Nat
  ref : Nat
deriving DecidableEq, Repr

/-- Modelled from the spec: what the state diff reads of a `TransactionMetadata`:
its id, its inputs and its outputs. -/
structure TransactionMetadata where
  id : Nat
  inputs : List StateMetadata
  outputs : List StateMetadata
deriving DecidableEq, Repr

/-- The struct `StateDiff`; the maps and the set of the library are association
lists and a list, and a state-usage counter is a Go `int`. -/
structure StateDiff where
  index : Nat
  spentOutputs : List (Nat × StateMetadata)
  createdOutputs : List (Nat × StateMetadata)
  executedTransactions : List (Nat × TransactionMetadata)
  stateUsageCounters : List (Nat × Int)
  mutations : List Nat
deriving DecidableEq, Repr

/-- The constructor `NewStateDiff`. -/
def NewStateDiff (index : Nat) : StateDiff :=
  { index := index, spentOutputs := [], createdOutputs := [], executedTransactions := [],
    stateUsageCounters := [], mutations := [] }

namespace StateDiff

/-- The method `DestroyedStates`. -/
def DestroyedStates (s : StateDiff) : List (Nat × StateMetadata) := s.spentOutputs

/-- The method `CreatedStates`. -/
def CreatedStates (s : StateDiff) : List (Nat × StateMetadata) := s.createdOutputs

/-- The method `ExecutedTransactions`. -/
def ExecutedTransactions (s : StateDiff) : List (Nat × TransactionMetadata) :=
  s.executedTransactions

/-- The state-usage counter of an output; an output without an entry counts 0, the
value `Compute` hands to its callback for a missing key. -/
def counter (s : StateDiff) (id : Nat) : Int := (mapGet s.stateUsageCounters id).getD 0

/-- The method `compactStateChanges`. -/
def compactStateChanges (s : StateDiff) (output : StateMetadata) (newValue : Int) : StateDiff :=
  if newValue > 0 then
    { s with createdOutputs := mapSet s.createdOutputs output.id output }
  else if newValue < 0 then
    { s with spentOutputs := mapSet s.spentOutputs output.id output }
  else
    { s with createdOutputs := mapDelete s.createdOutputs output.id
             spentOutputs := mapDelete s.spentOutputs output.id }

/-- The callback of the first loop of `updateCompactedStateChanges`, for one input:
`Compute` stores and returns `currentValue - direction`. -/
def updateInput (direction : Int) (s : StateDiff) (input : StateMetadata) : StateDiff :=
  let newValue := wrapInt64 (s.counter input.id - direction)
  ({ s with stateUsageCounters := mapSet s.stateUsageCounters input.id newValue }
    ).compactStateChanges input newValue

/-- The callback of the second loop of `updateCompactedStateChanges`, for one output:
`Compute` stores and returns `currentValue + direction`. -/
def updateOutput (direction : Int) (s : StateDiff) (output : StateMetadata) : StateDiff :=
  let newValue := wrapInt64 (s.counter output.id + direction)
  ({ s with stateUsageCounters := mapSet s.stateUsageCounters output.id newValue }
    ).compactStateChanges output newValue

/-- The method `updateCompactedStateChanges`. -/
def updateCompactedStateChanges (s : StateDiff) (transaction : TransactionMetadata)
    (direction : Int) : StateDiff :=
  transaction.outputs.foldl (updateOutput direction)
    (transaction.inputs.foldl (updateInput direction) s)

/-- The method `AddTransaction`. The hook `OnPending` it registers changes the
transaction, not the state diff: it calls `RollbackTransaction` when the transaction
becomes pending again. -/
def AddTransaction (s : StateDiff) (transaction : TransactionMetadata) : StateDiff :=
  let existed := mapHas s.executedTransactions transaction.id
  let s1 : StateDiff :=
    { s with executedTransactions := mapSet s.executedTransactions transaction.id transaction }
  if !existed then
    ({ s1 with mutations := if transaction.id ∈ s1.mutations then s1.mutations
                            else s1.mutations ++ [transaction.id] }
      ).updateCompactedStateChanges transaction 1
  else s1

/-- The method `RollbackTransaction`. -/
def RollbackTransaction (s : StateDiff) (transaction : TransactionMetadata) : StateDiff :=
  if mapHas s.executedTransactions transaction.id then
    ({ s with executedTransactions := mapDelete s.executedTransactions transaction.id
              mutations := s.mutations.erase transaction.id }
      ).updateCompactedStateChanges transaction (-1)
  else s

/-- The compacted state changes agree with the counters: an output is in
`CreatedStates` exactly when its counter is positive, and in `DestroyedStates`
exactly when its counter is negative. -/
def Compacted (s : StateDiff) : Prop :=
  ∀ id, (mapHas s.CreatedStates id = true ↔ s.counter id > 0) ∧
    (mapHas s.DestroyedStates id = true ↔ s.counter id < 0)

/-- Every counter is between `-n` and `n`. -/
def Bounded (s : StateDiff) (n : Nat) : Prop :=
  ∀ id, -(n : Int) ≤ s.counter id ∧ s.counter id ≤ (n : Int)

end StateDiff

/-- The two calls that change a state diff. -/
inductive DiffCall where
  | addTransaction (transaction : TransactionMetadata)
  | rollbackTransaction (transaction : TransactionMetadata)
deriving DecidableEq, Repr

/-- The number of counter updates a call can make. -/
def DiffCall.updates : DiffCall → Nat
  | DiffCall.addTransaction transaction =>
    transaction.inputs.length + transaction.outputs.length
  | DiffCall.rollbackTransaction transaction =>
    transaction.inputs.length + transaction.outputs.length

/-- The state diff after one call. -/
def StateDiff.call (s : StateDiff) : DiffCall → StateDiff
  | DiffCall.addTransaction transaction => s.AddTransaction transaction
  | DiffCall.rollbackTransaction transaction => s.RollbackTransaction transaction

/-- The state diff after a sequence of calls. -/
def StateDiff.calls (s : StateDiff) (cs : List DiffCall) : StateDiff :=
  cs.foldl StateDiff.call s

/-- The number of counter updates a sequence of calls can make. -/
def totalUpdates (cs : List DiffCall) : Nat := (cs.map DiffCall.updates).sum

end mempoolv1

namespace Scenario

/-- A transaction that spends the outputs 1 and 2 and creates the outputs 3 and 4. -/
def firstTransaction : mempoolv1.TransactionMetadata :=
  { id := 10, inputs := [⟨1, 0⟩, ⟨2, 0⟩], outputs := [⟨3, 0⟩, ⟨4, 0⟩] }

/-- A transaction that spends the outputs 3 and 5 and creates the output 6. -/
def secondTransaction : mempoolv1.TransactionMetadata :=
  { id := 11, inputs := [⟨3, 1⟩, ⟨5, 0⟩], outputs := [⟨6, 0⟩] }

end Scenario

/-! ## The children an attach registers -/

namespace blockdag

/-- The child list of one edge kind, the list `AppendChild` appends to. -/
def Block.childrenOf (b : Block) : ParentsType → List Nat
  | ParentsType.strong => b.strongChildren
  | ParentsType.weak => b.weakChildren
  | ParentsType.shallowLike => b.shallowLikeChildren

end blockdag

namespace BlockDAG

/-- The parent reference is not a root block, has the edge kind `k`, and the storage
holds the block object `q` under its id. -/
def refersTo (b : BlockDAG) (k : ParentsType) (q : Nat) (parent : Parent) : Bool :=
  !b.isRootBlock parent.id && decide (parent.type = k) &&
    decide (b.memStorage.lookup parent.id.index parent.id = some q)

/-- What the calls of `registerChild` for the parent references `ps` of the child
`blk` have done between the states `b0` and `acc`: the stored references are
allocated, the entries of `b0` are kept, every parent that is not a root block is
stored, every other new entry and every new block object is the placeholder of such
a parent that `b0` did not store, every child list has grown by one `blk` for each
reference that resolves to it, and one `BlockMissing` was triggered for each new
block object. -/
structure Registers (b0 acc : BlockDAG) (blk : Nat) (ps : List Parent) : Prop where
  roots : acc.isRootBlock = b0.isRootBlock
  count : b0.blockCount ≤ acc.blockCount
  alloc : ∀ s id q, acc.memStorage.lookup s id = some q → q < acc.blockCount
  kept : ∀ s id q, b0.memStorage.lookup s id = some q → acc.memStorage.lookup s id = some q
  stored : ∀ parent ∈ ps, b0.isRootBlock parent.id = false →
    ∃ p, acc.memStorage.lookup parent.id.index parent.id = some p
  fresh : ∀ s id q, acc.memStorage.lookup s id = some q →
    b0.memStorage.lookup s id = some q ∨
      (b0.blockCount ≤ q ∧ ∃ parent ∈ ps, parent.id = id ∧ s = id.index ∧
        b0.isRootBlock id = false ∧ b0.memStorage.lookup s id = none)
  placeholders : ∀ p, b0.blockCount ≤ p → p < acc.blockCount →
    ∃ parent ∈ ps, b0.isRootBlock parent.id = false ∧
      b0.memStorage.lookup parent.id.index parent.id = none ∧
      acc.memStorage.lookup parent.id.index parent.id = some p ∧
      (acc.blockHeap p).missing = true ∧ (acc.blockHeap p).missingBlockID = parent.id
  children : ∀ q k, q < acc.blockCount →
    (acc.blockHeap q).childrenOf k =
      (if q < b0.blockCount then (b0.blockHeap q).childrenOf k else []) ++
        List.replicate (ps.countP (acc.refersTo k q)) blk
  events : acc.events = b0.events ++
    (List.range' b0.blockCount (acc.blockCount - b0.blockCount)).map
      blockdag.Event.blockMissing

end BlockDAG

/-! ## The solidity closure of the commitment forest -/

namespace Manager

/-- The tree of the chain commitments: a stored reference is an allocated chain
commitment stored under its own id and slot; every allocated chain commitment is
stored; a payload has the id of its chain commitment; the root commitment is
allocated and published; a published chain commitment other than the root is the
child, under its id, of the chain commitment stored for its `PrevID`; and a child is
allocated, is not the root, and has a payload with the id it is held under and the
id of its parent as `PrevID`. -/
structure Skeleton (m : Manager) : Prop where
  keyed : ∀ s id q, m.commitmentsByID.lookup s id = some q →
    (m.commitmentHeap q).id = id ∧ s = id.index ∧ q < m.commitmentCount
  stored : ∀ q, q < m.commitmentCount → m.commitment (m.commitmentHeap q).id = some q
  payload : ∀ q c, (m.commitmentHeap q).commitment = some c → c.id = (m.commitmentHeap q).id
  root : ∃ r, m.rootCommitment = some r ∧ r < m.commitmentCount ∧
    (m.commitmentHeap r).commitment ≠ none
  registry : ∀ q c, (m.commitmentHeap q).commitment = some c → m.rootCommitment ≠ some q →
    ∃ p, m.commitment c.prevID = some p ∧ mapGet (m.commitmentHeap p).children c.id = some q
  kids : ∀ p id q, (id, q) ∈ (m.commitmentHeap p).children →
    q < m.commitmentCount ∧ m.rootCommitment ≠ some q ∧
      ∃ c, (m.commitmentHeap q).commitment = some c ∧ c.id = id ∧
        c.prevID = (m.commitmentHeap p).id

/-- The flags and chains of the chain commitments: the root commitment is solid and
has a chain; a chain commitment with a chain is published; a solid chain commitment
has a chain; a child that is not the designated main child has a chain; and a solid
chain commitment is the root or has a solid parent. -/
structure Marks (m : Manager) : Prop where
  rootSolid : ∀ r, m.rootCommitment = some r →
    (m.commitmentHeap r).solid = true ∧ (m.commitmentHeap r).chain ≠ none
  chainPublished : ∀ q, (m.commitmentHeap q).chain ≠ none →
    (m.commitmentHeap q).commitment ≠ none
  solidChain : ∀ q, (m.commitmentHeap q).solid = true → (m.commitmentHeap q).chain ≠ none
  forks : ∀ p id q, (id, q) ∈ (m.commitmentHeap p).children →
    (m.commitmentHeap p).mainChildID ≠ some id → (m.commitmentHeap q).chain ≠ none
  solidParent : ∀ q, (m.commitmentHeap q).solid = true → m.rootCommitment = some q ∨
    ∃ c p, (m.commitmentHeap q).commitment = some c ∧ m.commitment c.prevID = some p ∧
      (m.commitmentHeap p).solid = true

/-- Every child of a chain commitment with a chain has a chain, up to the children
`ex` still to be visited. -/
def ChainClosedUpTo (m : Manager) (ex : Nat → Prop) : Prop :=
  ∀ p id q, (id, q) ∈ (m.commitmentHeap p).children →
    (m.commitmentHeap p).chain ≠ none → (m.commitmentHeap q).chain ≠ none ∨ ex q

/-- Every child of a solid chain commitment is solid, up to the children `ex` still
to be visited. -/
def SolidClosedUpTo (m : Manager) (ex : Nat → Prop) : Prop :=
  ∀ p id q, (id, q) ∈ (m.commitmentHeap p).children →
    (m.commitmentHeap p).solid = true → (m.commitmentHeap q).solid = true ∨ ex q

/-- The invariant of the commitment forest between the calls. -/
structure Forest (m : Manager) : Prop where
  skeleton : m.Skeleton
  marks : m.Marks
  chainClosed : m.ChainClosedUpTo (fun _ => False)
  solidClosed : m.SolidClosedUpTo (fun _ => False)

/-- The state `m1` has the tree of `m`: the ids, payloads, children and main-child
designations, the storage, the counter and the root commitment are the same. -/
def SameTree (m m1 : Manager) : Prop :=
  (∀ q, (m1.commitmentHeap q).id = (m.commitmentHeap q).id ∧
      (m1.commitmentHeap q).commitment = (m.commitmentHeap q).commitment ∧
      (m1.commitmentHeap q).children = (m.commitmentHeap q).children ∧
      (m1.commitmentHeap q).mainChildID = (m.commitmentHeap q).mainChildID) ∧
    m1.commitmentsByID = m.commitmentsByID ∧ m1.commitmentCount = m.commitmentCount ∧
    m1.rootCommitment = m.rootCommitment

/-- What `registerCommitment` leaves, for its result `r`: the invariant of the forest
when the commitment was not new; otherwise the tree and the marks, with the chains
closed up to the main child of the new chain commitment and the solid flags closed up
to its children, and the returned solid flag is the one of the new chain commitment
when it has a chain. -/
def AfterRegister (r : Manager × Bool × Bool × Bool × Nat) : Prop :=
  (r.2.1 = false → r.1.Forest) ∧
  (r.2.1 = true → r.1.Skeleton ∧ r.1.Marks ∧
    r.1.ChainClosedUpTo (fun q => (r.1.commitmentHeap r.2.2.2.2).chain ≠ none ∧
      r.1.mainChild r.2.2.2.2 = some q) ∧
    r.1.SolidClosedUpTo (fun q => (r.1.commitmentHeap r.2.2.2.2).solid = true ∧
      q ∈ r.1.children r.2.2.2.2) ∧
    ((r.1.commitmentHeap r.2.2.2.2).chain ≠ none →
      r.2.2.1 = (r.1.commitmentHeap r.2.2.2.2).solid))

/-- The call is one of `ProcessCommitment`, `ProcessCandidateCommitment` and
`ProcessCommitmentFromSource` and carries out no chain switch: `ProcessCommitment`
of a commitment that is not new finds no forking point against the main chain. -/
def carriesNoSwitch (m : Manager) : Call → Bool
  | Call.processCommitment c =>
    match m.processCommitment c with
    | .ok (m1, false, _, some cc) =>
      match m1.forkingPointAgainstMainChain cc with
      | .ok (.ok none) => true
      | _ => false
    | _ => true
  | Call.processCandidateCommitment _ => true
  | Call.processCommitmentFromSource _ _ => true
  | Call.switchMainChain _ => false
  | Call.evictUntil _ => false
  | Call.setRootCommitment _ => false

/-- Every call of the sequence is a `Process*` call that carries out no chain switch
in the state it is made in. -/
def receives (m : Manager) : List Call → Bool
  | [] => true
  | c :: rest =>
    m.carriesNoSwitch c &&
      match m.call c with
      | .ok m1 => receives m1 rest
      | .error _ => true

end Manager

namespace Scenario

/-- Children arrive before their parents: `F2` from peer `P`, then `M2`, `M1` and, from
peer `P`, `F1`. -/
def parentsLast : List Call :=
  [Call.processCommitmentFromSource (F 2) peerP, Call.processCandidateCommitment (M 2),
    Call.processCommitment (M 1), Call.processCommitmentFromSource (F 1) peerP]

/-- The fresh manager after the calls of `parentsLast`. -/
def parentsArrived : Manager := fresh.after parentsLast

end Scenario

/-! ## Chains as sets of slots -/

/-- The commitment that a `Process*` call carries is of a later slot than its previous
commitment. -/
def Call.ascending : Call → Bool
  | Call.processCommitment c => decide (c.prevID.index < c.id.index)
  | Call.processCandidateCommitment c => decide (c.prevID.index < c.id.index)
  | Call.processCommitmentFromSource c _ => decide (c.prevID.index < c.id.index)
  | Call.switchMainChain _ => true
  | Call.evictUntil _ => true
  | Call.setRootCommitment _ => true

namespace Manager

/-- The chains of the chain commitments and their commitment sets: a parent is
allocated and its children are of later slots; a designated main child is a child;
a chain that is not allocated has an empty set; the chain of a chain commitment is
allocated and holds it under its slot; a chain commitment held by the set of a chain
has that chain and the slot it is held under; the forking point of an allocated chain
has that chain and the least slot of the chain; a chain commitment with a chain is its
forking point or the main child of a chain commitment with the same chain; a main
child with a chain has the chain of its parent; and a member of a chain that is not the
last one has a main child on the chain. -/
structure Chains (m : Manager) : Prop where
  parents : ∀ p id q, (id, q) ∈ (m.commitmentHeap p).children → p < m.commitmentCount
  slots : ∀ p id q, (id, q) ∈ (m.commitmentHeap p).children →
    (m.commitmentHeap p).id.index < (m.commitmentHeap q).id.index
  mainValid : ∀ p id, (m.commitmentHeap p).mainChildID = some id →
    ∃ q, (id, q) ∈ (m.commitmentHeap p).children
  fresh : ∀ ch, m.chainCount ≤ ch → (m.chainHeap ch).commitmentsByIndex = []
  allocated : ∀ q ch, (m.commitmentHeap q).chain = some ch → ch < m.chainCount
  member : ∀ q ch, (m.commitmentHeap q).chain = some ch →
    mapGet (m.chainHeap ch).commitmentsByIndex (m.commitmentHeap q).id.index = some q
  owner : ∀ ch i q, mapGet (m.chainHeap ch).commitmentsByIndex i = some q →
    (m.commitmentHeap q).chain = some ch ∧ (m.commitmentHeap q).id.index = i
  head : ∀ ch, ch < m.chainCount →
    (m.commitmentHeap (m.chainHeap ch).forkingPoint).chain = some ch
  least : ∀ q ch, (m.commitmentHeap q).chain = some ch →
    (m.commitmentHeap (m.chainHeap ch).forkingPoint).id.index ≤ (m.commitmentHeap q).id.index
  mainLine : ∀ q ch, (m.commitmentHeap q).chain = some ch →
    q = (m.chainHeap ch).forkingPoint ∨
      ∃ p id, (id, q) ∈ (m.commitmentHeap p).children ∧
        (m.commitmentHeap p).mainChildID = some id ∧ (m.commitmentHeap p).chain = some ch
  mainKeeps : ∀ p id q ch, (id, q) ∈ (m.commitmentHeap p).children →
    (m.commitmentHeap p).mainChildID = some id → (m.commitmentHeap q).chain = some ch →
    (m.commitmentHeap p).chain = some ch
  next : ∀ y q ch, (m.commitmentHeap y).chain = some ch → (m.commitmentHeap q).chain = some ch →
    (m.commitmentHeap y).id.index < (m.commitmentHeap q).id.index →
    ∃ id z, (id, z) ∈ (m.commitmentHeap y).children ∧
      (m.commitmentHeap y).mainChildID = some id ∧ (m.commitmentHeap z).chain = some ch

end Manager

namespace Scenario

end Scenario
namespace Scenario

/-- A commitment of slot 5 whose previous commitment is the root `M0`. -/
def slotJump : Commitment := { id := ⟨5, 401⟩, prevID := (M 0).id }

/-- A commitment of slot 5 whose previous commitment is `slotJump`, of the same slot. -/
def slotTwin : Commitment := { id := ⟨5, 402⟩, prevID := slotJump.id }

/-- The fresh manager after the receipt of `slotJump` and `slotTwin`. -/
def sameSlot : Manager :=
  fresh.after [Call.processCommitment slotJump, Call.processCommitment slotTwin]

end Scenario
namespace Manager

end Manager

namespace Scenario

end Scenario
namespace Manager

/-- The call carries out no chain switch: a `Process*` call as in `carriesNoSwitch`, or a
`SwitchMainChain` that returns before the reorganisation, for a commitment that is not
registered, for one whose forking point against the main chain is not determined (an
error is returned) and for one that is already on the chain of the root commitment. -/
def carriesOutNoSwitch (m : Manager) : Call → Bool
  | Call.switchMainChain head =>
    match m.commitment head with
    | none => true
    | some c =>
      match m.forkingPointAgainstMainChain c with
      | .ok (.ok none) => true
      | .ok (.error _) => true
      | _ => false
  | c => m.carriesNoSwitch c

/-- Every call of the sequence is a `Process*` or `SwitchMainChain` call that carries out
no chain switch in the state it is made in. -/
def switchFree (m : Manager) : List Call → Bool
  | [] => true
  | c :: rest =>
    m.carriesOutNoSwitch c &&
      match m.call c with
      | .ok m1 => switchFree m1 rest
      | .error _ => true

end Manager

namespace Scenario

end Scenario
namespace Scenario

end Scenario

/-! # Theorems -/

section MapLemmas

variable {K V : Type} [DecidableEq K]

theorem mapGet_mapSet_self (l : List (K × V)) (k : K) (v : V) :
    mapGet (mapSet l k v) k = some v := by
  induction l with
  | nil => simp [mapSet, mapGet]
  | cons e rest ih =>
    obtain ⟨k', v'⟩ := e
    by_cases h : k' = k
    · simp [mapSet, mapGet, h]
    · simp [mapSet, mapGet, h, ih]

end MapLemmas

/-! ## Fork detection -/

theorem forkDepth_of_small (a b : Nat) (ha : a < 2 ^ 63) (hb : b < 2 ^ 63) :
    Manager.forkDepth a b = (a : Int) - (b : Int) := by
  unfold Manager.forkDepth toInt64 subUint64 uint64Modulus
  split <;> omega

/-- What `detectForks` does once the forking point and the latest commitment of the
received chain are known. -/
theorem detectForks_spec (m : Manager) (c source fp ch latest : Nat)
    (hfp : m.forkingPointAgainstMainChain c = .ok (.ok (some fp)))
    (hch : (m.commitmentHeap c).chain = some ch)
    (hl : (m.chainHeap ch).latestCommitment = some latest) :
    ∃ m2, m.detectForks c source = .ok m2 ∧
      m2.commitmentHeap = m.commitmentHeap ∧
      ((m2.events = m.events ++ [Event.forkDetected (m.forkOf source latest fp)] ∧
          m2.ForkByForkingPoint (m.commitmentHeap fp).id = some (m.forkOf source latest fp) ∧
          m2.forkingPointsByCommitments.lookup (m.commitmentHeap c).id.index (m.commitmentHeap c).id
            = some (m.commitmentHeap fp).id) ↔
        (m.optsMinimumForkDepth ≤
            Manager.forkDepth (m.commitmentHeap latest).id.index (m.commitmentHeap fp).id.index ∧
          m.ForkByForkingPoint (m.commitmentHeap fp).id = none)) ∧
      (¬ (m.optsMinimumForkDepth ≤
            Manager.forkDepth (m.commitmentHeap latest).id.index (m.commitmentHeap fp).id.index ∧
          m.ForkByForkingPoint (m.commitmentHeap fp).id = none) → m2 = m) := by
  unfold Manager.detectForks
  simp only [hfp, hch, hl]
  by_cases hhas : mapHas m.forksByForkingPoint (m.commitmentHeap fp).id = true
  · have hne : m.ForkByForkingPoint (m.commitmentHeap fp).id ≠ none := by
      unfold Manager.ForkByForkingPoint; unfold mapHas at hhas
      intro h; simp [h] at hhas
    simp only [hhas, if_true]
    refine ⟨m, rfl, rfl, ?_, fun _ => rfl⟩
    constructor
    · intro h; have := h.1; simp at this
    · intro h; exact absurd h.2 hne
  · have hnone : m.ForkByForkingPoint (m.commitmentHeap fp).id = none := by
      unfold Manager.ForkByForkingPoint; unfold mapHas at hhas
      cases hg : mapGet m.forksByForkingPoint (m.commitmentHeap fp).id with
      | none => rfl
      | some x => simp [hg] at hhas
    simp only [hhas]
    by_cases hd : Manager.forkDepth (m.commitmentHeap latest).id.index (m.commitmentHeap fp).id.index
        < m.optsMinimumForkDepth
    · simp only [hd, if_true]
      refine ⟨m, rfl, rfl, ?_, fun _ => rfl⟩
      constructor
      · intro h; have := h.1; simp at this
      · intro h; omega
    · simp only [hd, if_false]
      refine ⟨_, rfl, rfl, ?_, ?_⟩
      · constructor
        · intro _; exact ⟨by omega, hnone⟩
        · intro _
          refine ⟨rfl, ?_, ?_⟩
          · simp [Manager.ForkByForkingPoint, Manager.trigger, Manager.forkOf, mapGet_mapSet_self]
          · simp [IndexedStorage.lookup, Manager.trigger, IndexedStorage.put, mapGet_mapSet_self]
      · intro h; exact absurd ⟨by omega, hnone⟩ h

/-- C1 (as amended): in `ProcessCommitmentFromSource`, for a received commitment
whose forking point against the main chain is `fp` and whose chain has the latest
commitment `L`, the fork `{source, L, fp}` is recorded (in the forks map and in the
index of forking points by commitment) and `ForkDetected` is triggered iff
`int64(L.slot - fp.slot) >= minimumForkDepth` and no fork is recorded for `fp`;
otherwise the state is left as `processCommitment` left it. For slot indices below
`2 ^ 63` the signed distance is the plain difference. In Scenario D (depth 3, root
`M0`, `M1..M5`, then `F1..F5` from peer `P`) the only event is one `ForkDetected`
`{P, F4, F1}`, triggered on `F4`. -/
theorem C1_fork_detection :
    (∀ (m m1 : Manager) (c : Commitment) (source : Nat) (isNew isSolid : Bool)
        (cc fp ch latest : Nat),
        m.processCommitment c = .ok (m1, isNew, isSolid, some cc) →
        m1.forkingPointAgainstMainChain cc = .ok (.ok (some fp)) →
        (m1.commitmentHeap cc).chain = some ch →
        (m1.chainHeap ch).latestCommitment = some latest →
        ∃ m2, m.ProcessCommitmentFromSource c source = .ok (m2, isSolid, some ch) ∧
          ((m2.events = m1.events ++ [Event.forkDetected (m1.forkOf source latest fp)] ∧
              m2.ForkByForkingPoint (m1.commitmentHeap fp).id
                = some (m1.forkOf source latest fp) ∧
              m2.forkingPointsByCommitments.lookup (m1.commitmentHeap cc).id.index
                (m1.commitmentHeap cc).id = some (m1.commitmentHeap fp).id) ↔
            (m1.optsMinimumForkDepth ≤
                Manager.forkDepth (m1.commitmentHeap latest).id.index (m1.commitmentHeap fp).id.index ∧
              m1.ForkByForkingPoint (m1.commitmentHeap fp).id = none)) ∧
          (¬ (m1.optsMinimumForkDepth ≤
                Manager.forkDepth (m1.commitmentHeap latest).id.index (m1.commitmentHeap fp).id.index ∧
              m1.ForkByForkingPoint (m1.commitmentHeap fp).id = none) → m2 = m1)) ∧
    (∀ a b : Nat, a < 2 ^ 63 → b < 2 ^ 63 → Manager.forkDepth a b = (a : Int) - (b : Int)) ∧
    ((Scenario.scenarioD 0).events = [] ∧ (Scenario.scenarioD 1).events = [] ∧
      (Scenario.scenarioD 2).events = [] ∧ (Scenario.scenarioD 3).events = [] ∧
      (Scenario.scenarioD 4).events
        = [Event.forkDetected ⟨Scenario.peerP, some (Scenario.F 4), some (Scenario.F 1)⟩] ∧
      (Scenario.scenarioD 5).events
        = [Event.forkDetected ⟨Scenario.peerP, some (Scenario.F 4), some (Scenario.F 1)⟩] ∧
      (Scenario.scenarioD 5).forksByForkingPoint
        = [((Scenario.F 1).id, ⟨Scenario.peerP, some (Scenario.F 4), some (Scenario.F 1)⟩)]) := by
  refine ⟨?_, forkDepth_of_small, ?_⟩
  · intro m m1 c source isNew isSolid cc fp ch latest hp hfp hch hl
    obtain ⟨m2, hd, hheap, hiff, hkeep⟩ := detectForks_spec m1 cc source fp ch latest hfp hch hl
    refine ⟨m2, ?_, hiff, hkeep⟩
    unfold Manager.ProcessCommitmentFromSource
    simp only [hp, hd, hheap, hch]
  · refine ⟨?_, ?_, ?_, ?_, ?_, ?_, ?_⟩ <;> decide

set_option maxRecDepth 100000 in
/-- C1, witness: the receipt of `F4` in Scenario D. -/
theorem C1_fork_detection_witness :
    ∃ m2, (Scenario.scenarioD 3).ProcessCommitmentFromSource (Scenario.F 4) Scenario.peerP
        = .ok (m2, true, some 1) ∧
      m2.events = [Event.forkDetected ⟨Scenario.peerP, some (Scenario.F 4), some (Scenario.F 1)⟩] := by
  have hp : (Scenario.scenarioD 3).processCommitment (Scenario.F 4)
      = .ok (((Scenario.scenarioD 3).registerCommitment (Scenario.F 4)).1, true, true, some 9) := by
    rfl
  obtain ⟨m2, h1, h2, _⟩ := C1_fork_detection.1 (Scenario.scenarioD 3) _ (Scenario.F 4)
    Scenario.peerP true true 9 6 1 9 hp (by rfl) (by rfl) (by rfl)
  refine ⟨m2, h1, ?_⟩
  have h3 := h2.2 ⟨by decide, by rfl⟩
  rw [h3.1]
  rfl

set_option maxRecDepth 100000 in
/-- C1, counterexample: with `M0`, `M1`, the fork `F1` from peer `P` and then, from
`P`, a commitment of slot `2 ^ 63 + 1` on top of `F1`, the forking point is `F1`
(slot 1), the latest commitment of the received chain has slot `2 ^ 63 + 1`, the
difference `2 ^ 63` is at least the minimum fork depth 3 and no fork is recorded
for `F1`; yet no fork is recorded and no event is triggered. -/
theorem C1_counterexample :
    Scenario.shortFork.processCommitment Scenario.farF2
        = .ok (Scenario.shortForkRegistered, true, true, some 3) ∧
      Scenario.shortForkRegistered.forkingPointAgainstMainChain 3 = .ok (.ok (some 2)) ∧
      (Scenario.shortForkRegistered.commitmentHeap 3).chain = some 1 ∧
      (Scenario.shortForkRegistered.chainHeap 1).latestCommitment = some 3 ∧
      (Scenario.shortForkRegistered.commitmentHeap 2).id = (Scenario.F 1).id ∧
      ((Scenario.shortForkRegistered.commitmentHeap 3).id.index : Int)
          - ((Scenario.shortForkRegistered.commitmentHeap 2).id.index : Int)
        ≥ Scenario.shortForkRegistered.optsMinimumForkDepth ∧
      Scenario.shortForkRegistered.ForkByForkingPoint (Scenario.F 1).id = none ∧
      (Scenario.shortFork.ProcessCommitmentFromSource Scenario.farF2 Scenario.peerP).toOption.map
          (fun r => (r.1.events, r.1.forksByForkingPoint)) = some ([], []) := by
  refine ⟨by rfl, by rfl, by rfl, by rfl, by rfl, by decide, by rfl, by rfl⟩

/-! ## Main-child paths -/

set_option maxRecDepth 100000 in
/-- C4, counterexample: in Scenario F, `EvictUntil(4)` returns and the subsequent
`ProcessCommitmentFromSource(F4, P)` returns without triggering `ForkDetected`: the
only new event is `CommitmentMissing(F3)`. -/
theorem C4_counterexample :
    ((Scenario.scenarioD 5).EvictUntil 4).toOption.map (fun r => r.events)
        = some [Event.forkDetected ⟨Scenario.peerP, some (Scenario.F 4), some (Scenario.F 1)⟩] ∧
      (Scenario.scenarioF.ProcessCommitmentFromSource (Scenario.F 4) Scenario.peerP).toOption.map
          (fun r => r.1.events)
        = some [Event.forkDetected ⟨Scenario.peerP, some (Scenario.F 4), some (Scenario.F 1)⟩,
            Event.commitmentMissing (Scenario.F 3).id] := by
  refine ⟨by rfl, by rfl⟩

set_option maxRecDepth 100000 in
/-- C4 (as amended): Scenario F. With the fork `{P, F4, F1}` of Scenario D recorded,
`EvictUntil(4)` deletes the fork record of `F1` and the chain commitments of the
slots up to 4; a subsequent `ProcessCommitmentFromSource(F4, P)` registers `F4`
anew as a commitment that is not solid and has no chain (its parent `F3` is a
fresh placeholder, announced by `CommitmentMissing`), so it records no fork and
triggers no `ForkDetected`. -/
theorem C4_scenario_F :
    (Scenario.scenarioD 5).ForkByForkingPoint (Scenario.F 1).id
        = some ⟨Scenario.peerP, some (Scenario.F 4), some (Scenario.F 1)⟩ ∧
      ((Scenario.scenarioD 5).EvictUntil 4).toOption.map
          (fun r => (r.ForkByForkingPoint (Scenario.F 1).id, r.commitment (Scenario.F 4).id,
            r.commitment (Scenario.F 3).id))
        = some (none, none, none) ∧
      (Scenario.scenarioF.ProcessCommitmentFromSource (Scenario.F 4) Scenario.peerP).toOption.map
          (fun r => (r.2, r.1.events.drop Scenario.scenarioF.events.length,
            r.1.ForkByForkingPoint (Scenario.F 1).id,
            (r.1.commitment (Scenario.F 4).id).map
              (fun p => ((r.1.commitmentHeap p).solid, (r.1.commitmentHeap p).chain))))
        = some ((false, none), [Event.commitmentMissing (Scenario.F 3).id], none,
            some (false, none)) := by
  refine ⟨by rfl, by rfl, by rfl⟩

/-! ## Eviction -/

section MapLemmas

variable {K V : Type} [DecidableEq K]

theorem mapGet_mapDelete (l : List (K × V)) (k k' : K) :
    mapGet (mapDelete l k) k' = if k = k' then none else mapGet l k' := by
  induction l with
  | nil => simp [mapDelete, mapGet]
  | cons e rest ih =>
    obtain ⟨a, v⟩ := e
    unfold mapDelete
    by_cases h : a = k
    · rw [if_pos h, ih]
      by_cases h2 : k = k'
      · rw [if_pos h2, if_pos h2]
      · rw [if_neg h2, if_neg h2]
        have h3 : ¬ a = k' := by rw [h]; exact h2
        simp [mapGet, h3]
    · rw [if_neg h]
      unfold mapGet
      by_cases h3 : a = k'
      · have h2 : ¬ k = k' := by rw [← h3]; exact fun hk => h hk.symm
        rw [if_pos h3, if_neg h2, if_pos h3]
      · rw [if_neg h3, if_neg h3, ih]

theorem mapGet_foldl_mapDelete {W : Type} (inner : List (W × K)) (forks : List (K × V)) (k : K) :
    ((∃ e ∈ inner, e.2 = k) →
        mapGet (inner.foldl (fun acc e => mapDelete acc e.2) forks) k = none) ∧
      ((¬ ∃ e ∈ inner, e.2 = k) →
        mapGet (inner.foldl (fun acc e => mapDelete acc e.2) forks) k = mapGet forks k) := by
  induction inner generalizing forks with
  | nil => simp
  | cons e rest ih =>
    simp only [List.foldl_cons]
    by_cases hr : ∃ x ∈ rest, x.2 = k
    · constructor
      · intro _; exact (ih (mapDelete forks e.2)).1 hr
      · intro hn
        exfalso; apply hn
        obtain ⟨x, hx, hxk⟩ := hr
        exact ⟨x, List.mem_cons_of_mem _ hx, hxk⟩
    · have hrest := (ih (mapDelete forks e.2)).2 hr
      constructor
      · intro he
        obtain ⟨x, hx, hxk⟩ := he
        rcases List.mem_cons.mp hx with h | h
        · subst h
          rw [hrest, mapGet_mapDelete, if_pos hxk]
        · exact absurd ⟨x, h, hxk⟩ hr
      · intro hn
        have hek : e.2 ≠ k := fun h => hn ⟨e, List.mem_cons_self _ _, h⟩
        rw [hrest, mapGet_mapDelete, if_neg hek]

end MapLemmas

theorem evictLoop_commitmentsByID (count current : Nat) (m : Manager) (s : Nat) :
    (Manager.evictLoop count current m).commitmentsByID s
      = if current ≤ s ∧ s < current + count then none else m.commitmentsByID s := by
  induction count generalizing current m with
  | zero =>
    have : ¬ (current ≤ s ∧ s < current + 0) := by omega
    rw [if_neg this]
    rfl
  | succ k ih =>
    unfold Manager.evictLoop
    simp only []
    rw [ih]
    by_cases h1 : current + 1 ≤ s ∧ s < current + 1 + k
    · have h2 : current ≤ s ∧ s < current + (k + 1) := by omega
      rw [if_pos h1, if_pos h2]
    · rw [if_neg h1]
      by_cases h3 : s = current
      · have h2 : current ≤ s ∧ s < current + (k + 1) := by omega
        rw [if_pos h2]
        simp [Manager.evict, IndexedStorage.evict, h3]
      · have h2 : ¬ (current ≤ s ∧ s < current + (k + 1)) := by omega
        rw [if_neg h2]
        simp [Manager.evict, IndexedStorage.evict, h3]

theorem evictLoop_forkingPoints (count current : Nat) (m : Manager) (s : Nat) :
    (Manager.evictLoop count current m).forkingPointsByCommitments s
      = if current ≤ s ∧ s < current + count then none else m.forkingPointsByCommitments s := by
  induction count generalizing current m with
  | zero =>
    have : ¬ (current ≤ s ∧ s < current + 0) := by omega
    rw [if_neg this]
    rfl
  | succ k ih =>
    unfold Manager.evictLoop
    simp only []
    rw [ih]
    by_cases h1 : current + 1 ≤ s ∧ s < current + 1 + k
    · have h2 : current ≤ s ∧ s < current + (k + 1) := by omega
      rw [if_pos h1, if_pos h2]
    · rw [if_neg h1]
      by_cases h3 : s = current
      · have h2 : current ≤ s ∧ s < current + (k + 1) := by omega
        rw [if_pos h2]
        simp [Manager.evict, IndexedStorage.evict, h3]
      · have h2 : ¬ (current ≤ s ∧ s < current + (k + 1)) := by omega
        rw [if_neg h2]
        simp [Manager.evict, IndexedStorage.evict, h3]

theorem evict_forks (m : Manager) (s : Nat) (k : CommitmentID) :
    ((∃ inner, m.forkingPointsByCommitments s = some inner ∧ ∃ c, (c, k) ∈ inner) →
        mapGet (m.evict s).forksByForkingPoint k = none) ∧
      ((¬ ∃ inner, m.forkingPointsByCommitments s = some inner ∧ ∃ c, (c, k) ∈ inner) →
        mapGet (m.evict s).forksByForkingPoint k = mapGet m.forksByForkingPoint k) := by
  unfold Manager.evict IndexedStorage.evict
  cases hs : m.forkingPointsByCommitments s with
  | none => simp
  | some inner =>
    simp only []
    have hiff : (∃ e ∈ inner, e.2 = k) ↔ ∃ c, (c, k) ∈ inner := by
      constructor
      · rintro ⟨⟨c, k'⟩, he, hk⟩
        simp only at hk
        subst hk
        exact ⟨c, he⟩
      · rintro ⟨c, hc⟩
        exact ⟨(c, k), hc, rfl⟩
    have h := mapGet_foldl_mapDelete inner m.forksByForkingPoint k
    constructor
    · rintro ⟨inner', hi, hc⟩
      cases hi
      exact h.1 (hiff.mpr hc)
    · intro hn
      apply h.2
      intro he
      exact hn ⟨inner, rfl, hiff.mp he⟩

theorem evictLoop_forks (count current : Nat) (m : Manager) (k : CommitmentID) :
    ((∃ s, current ≤ s ∧ s < current + count ∧
          ∃ inner, m.forkingPointsByCommitments s = some inner ∧ ∃ c, (c, k) ∈ inner) →
        mapGet (Manager.evictLoop count current m).forksByForkingPoint k = none) ∧
      ((¬ ∃ s, current ≤ s ∧ s < current + count ∧
          ∃ inner, m.forkingPointsByCommitments s = some inner ∧ ∃ c, (c, k) ∈ inner) →
        mapGet (Manager.evictLoop count current m).forksByForkingPoint k
          = mapGet m.forksByForkingPoint k) := by
  induction count generalizing current m with
  | zero =>
    constructor
    · rintro ⟨s, h1, h2, _⟩; omega
    · intro _; rfl
  | succ j ih =>
    unfold Manager.evictLoop
    simp only []
    have hfp : ∀ s, current + 1 ≤ s →
        ({ m.evict current with
            lastEvictedSlot := (m.evict current).lastEvictedSlot.MarkEvicted current } :
          Manager).forkingPointsByCommitments s = m.forkingPointsByCommitments s := by
      intro s hs
      have : s ≠ current := by omega
      simp [Manager.evict, IndexedStorage.evict, this]
    have hih := ih (current + 1)
      { m.evict current with
        lastEvictedSlot := (m.evict current).lastEvictedSlot.MarkEvicted current }
    have hev := evict_forks m current k
    by_cases hrest : ∃ s, current + 1 ≤ s ∧ s < current + 1 + j ∧
        ∃ inner, m.forkingPointsByCommitments s = some inner ∧ ∃ c, (c, k) ∈ inner
    · have hrest' : ∃ s, current + 1 ≤ s ∧ s < current + 1 + j ∧
          ∃ inner, ({ m.evict current with
              lastEvictedSlot := (m.evict current).lastEvictedSlot.MarkEvicted current } :
            Manager).forkingPointsByCommitments s = some inner ∧ ∃ c, (c, k) ∈ inner := by
        obtain ⟨s, h1, h2, h3⟩ := hrest
        exact ⟨s, h1, h2, by rw [hfp s h1]; exact h3⟩
      constructor
      · intro _; exact hih.1 hrest'
      · intro hn
        exfalso; apply hn
        obtain ⟨s, h1, h2, h3⟩ := hrest
        exact ⟨s, by omega, by omega, h3⟩
    · have hrest' : ¬ ∃ s, current + 1 ≤ s ∧ s < current + 1 + j ∧
          ∃ inner, ({ m.evict current with
              lastEvictedSlot := (m.evict current).lastEvictedSlot.MarkEvicted current } :
            Manager).forkingPointsByCommitments s = some inner ∧ ∃ c, (c, k) ∈ inner := by
        rintro ⟨s, h1, h2, h3⟩
        exact hrest ⟨s, h1, h2, by rw [hfp s h1] at h3; exact h3⟩
      have hkeep := hih.2 hrest'
      constructor
      · rintro ⟨s, h1, h2, h3⟩
        by_cases hs : s = current
        · subst hs
          rw [hkeep]; exact hev.1 h3
        · exact absurd ⟨s, by omega, by omega, h3⟩ hrest
      · intro hn
        rw [hkeep]
        apply hev.2
        intro h3
        exact hn ⟨current, le_refl _, by omega, h3⟩

theorem EvictUntil_eq (m m1 : Manager) (n : Nat) (h : m.EvictUntil n = .ok m1) :
    n + 1 ≠ uint64Modulus ∧
      m1 = Manager.evictLoop (n + 1 - m.lastEvictedSlot.NextIndex) m.lastEvictedSlot.NextIndex m := by
  unfold Manager.EvictUntil at h
  by_cases hn : n + 1 = uint64Modulus
  · simp [hn] at h
  · simp only [hn, if_false] at h
    exact ⟨hn, (Except.ok.inj h).symm⟩

/-- C5 (as amended): after `EvictUntil(n)` has returned, the chain-commitment
storage holds nothing in the slots from the first non-evicted slot
(`lastEvictedSlot.NextIndex()`) up to `n`, and every other slot is as before: the
slots evicted by earlier calls are not visited again. So no chain commitment of a
slot `<= n` remains provided none was stored in an already evicted slot. -/
theorem C5_evict_until_storage (m m1 : Manager) (n : Nat) (h : m.EvictUntil n = .ok m1) :
    (∀ s, m.lastEvictedSlot.NextIndex ≤ s → s ≤ n → m1.commitmentsByID.get s = none) ∧
      (∀ id : CommitmentID, m.lastEvictedSlot.NextIndex ≤ id.index → id.index ≤ n →
        m1.commitment id = none) ∧
      (∀ s, s < m.lastEvictedSlot.NextIndex ∨ n < s →
        m1.commitmentsByID.get s = m.commitmentsByID.get s) ∧
      ((∀ s, s < m.lastEvictedSlot.NextIndex → m.commitmentsByID.get s = none) →
        ∀ s, s ≤ n → m1.commitmentsByID.get s = none) := by
  obtain ⟨_, hm1⟩ := EvictUntil_eq m m1 n h
  have hget : ∀ s, m1.commitmentsByID.get s
      = if m.lastEvictedSlot.NextIndex ≤ s ∧ s ≤ n then none else m.commitmentsByID.get s := by
    intro s
    subst hm1
    unfold IndexedStorage.get
    rw [evictLoop_commitmentsByID]
    by_cases hr : m.lastEvictedSlot.NextIndex ≤ s ∧ s ≤ n
    · have : m.lastEvictedSlot.NextIndex ≤ s ∧
          s < m.lastEvictedSlot.NextIndex + (n + 1 - m.lastEvictedSlot.NextIndex) := by omega
      rw [if_pos hr, if_pos this]
    · have : ¬ (m.lastEvictedSlot.NextIndex ≤ s ∧
          s < m.lastEvictedSlot.NextIndex + (n + 1 - m.lastEvictedSlot.NextIndex)) := by omega
      rw [if_neg hr, if_neg this]
  refine ⟨?_, ?_, ?_, ?_⟩
  · intro s h1 h2
    rw [hget, if_pos ⟨h1, h2⟩]
  · intro id h1 h2
    have := hget id.index
    rw [if_pos ⟨h1, h2⟩] at this
    unfold Manager.commitment IndexedStorage.lookup
    unfold IndexedStorage.get at this
    rw [this]
  · intro s hs
    have : ¬ (m.lastEvictedSlot.NextIndex ≤ s ∧ s ≤ n) := by omega
    rw [hget, if_neg this]
  · intro hbelow s hs
    rw [hget]
    by_cases hr : m.lastEvictedSlot.NextIndex ≤ s ∧ s ≤ n
    · rw [if_pos hr]
    · rw [if_neg hr]
      exact hbelow s (by omega)

set_option maxRecDepth 100000 in
/-- C5, witness: `EvictUntil(4)` in Scenario D empties the slots 0 and 4. -/
theorem C5_evict_until_storage_witness :
    Scenario.scenarioF.commitmentsByID.get 0 = none ∧
      Scenario.scenarioF.commitmentsByID.get 4 = none := by
  have h : (Scenario.scenarioD 5).EvictUntil 4 = .ok Scenario.scenarioF := by rfl
  have h4 := (C5_evict_until_storage (Scenario.scenarioD 5) Scenario.scenarioF 4 h).1
  have hn : (Scenario.scenarioD 5).lastEvictedSlot.NextIndex = 0 := by rfl
  exact ⟨h4 0 (by omega) (by omega), h4 4 (by omega) (by omega)⟩

set_option maxRecDepth 100000 in
/-- C5, counterexample: after `EvictUntil(2)` on the fresh manager the commitment
`M1` (parent `M0`) is received; the later `EvictUntil(3)` returns and the storage
still holds `M1` in slot 1 and the parent placeholder `M0` in slot 0. -/
theorem C5_counterexample :
    (Scenario.lateArrival.EvictUntil 3).toOption.map
        (fun r => (r.commitment (Scenario.M 1).id, r.commitment (Scenario.M 0).id,
          r.lastEvictedSlot.index))
      = some (some 2, some 1, some 3) := by
  rfl

/-- C6 (as amended): after `EvictUntil(n)` has returned, a fork is deleted from the
forks-by-forking-point map if and only if it was recorded and its forking point is
indexed, in `forkingPointsByCommitments`, under a commitment of a slot evicted by
this call (the commitment whose receipt triggered the detection); every other
fork record is kept as it was. -/
theorem C6_evict_until_forks (m m1 : Manager) (n : Nat) (h : m.EvictUntil n = .ok m1)
    (forkingPoint : CommitmentID) :
    (m.forkIndexedIn m.lastEvictedSlot.NextIndex n forkingPoint →
        m1.ForkByForkingPoint forkingPoint = none) ∧
      (¬ m.forkIndexedIn m.lastEvictedSlot.NextIndex n forkingPoint →
        m1.ForkByForkingPoint forkingPoint = m.ForkByForkingPoint forkingPoint) ∧
      ((m.ForkByForkingPoint forkingPoint ≠ none ∧ m1.ForkByForkingPoint forkingPoint = none) ↔
        (m.ForkByForkingPoint forkingPoint ≠ none ∧
          m.forkIndexedIn m.lastEvictedSlot.NextIndex n forkingPoint)) := by
  obtain ⟨_, hm1⟩ := EvictUntil_eq m m1 n h
  have hl := evictLoop_forks (n + 1 - m.lastEvictedSlot.NextIndex) m.lastEvictedSlot.NextIndex m
    forkingPoint
  rw [← hm1] at hl
  have hiff : m.forkIndexedIn m.lastEvictedSlot.NextIndex n forkingPoint ↔
      ∃ s, m.lastEvictedSlot.NextIndex ≤ s ∧
        s < m.lastEvictedSlot.NextIndex + (n + 1 - m.lastEvictedSlot.NextIndex) ∧
        ∃ inner, m.forkingPointsByCommitments s = some inner ∧ ∃ c, (c, forkingPoint) ∈ inner := by
    unfold Manager.forkIndexedIn IndexedStorage.get
    constructor
    · rintro ⟨s, h1, h2, h3⟩; exact ⟨s, h1, by omega, h3⟩
    · rintro ⟨s, h1, h2, h3⟩; exact ⟨s, h1, by omega, h3⟩
  have h1 : m.forkIndexedIn m.lastEvictedSlot.NextIndex n forkingPoint →
      m1.ForkByForkingPoint forkingPoint = none := fun hi => hl.1 (hiff.mp hi)
  have h2 : ¬ m.forkIndexedIn m.lastEvictedSlot.NextIndex n forkingPoint →
      m1.ForkByForkingPoint forkingPoint = m.ForkByForkingPoint forkingPoint :=
    fun hi => hl.2 (fun hx => hi (hiff.mpr hx))
  refine ⟨h1, h2, ?_⟩
  constructor
  · rintro ⟨hrec, hdel⟩
    refine ⟨hrec, ?_⟩
    by_contra hni
    rw [h2 hni] at hdel
    exact hrec hdel
  · rintro ⟨hrec, hi⟩
    exact ⟨hrec, h1 hi⟩

set_option maxRecDepth 100000 in
/-- C6, witness: `EvictUntil(4)` in Scenario D deletes the fork of `F1`, indexed
under `F4` in slot 4. -/
theorem C6_evict_until_forks_witness :
    Scenario.scenarioF.ForkByForkingPoint (Scenario.F 1).id = none := by
  have h : (Scenario.scenarioD 5).EvictUntil 4 = .ok Scenario.scenarioF := by rfl
  refine (C6_evict_until_forks (Scenario.scenarioD 5) Scenario.scenarioF 4 h (Scenario.F 1).id).1
    ⟨4, ?_, le_refl _, [((Scenario.F 4).id, (Scenario.F 1).id)], by rfl, (Scenario.F 4).id, ?_⟩
  · have : (Scenario.scenarioD 5).lastEvictedSlot.NextIndex = 0 := by rfl
    omega
  · exact List.mem_singleton.mpr rfl

set_option maxRecDepth 100000 in
/-- C6, counterexample: when `F2..F5` arrive before `F1`, the fork is detected on the
receipt of `F1` with `F5` as the observed commitment stored in the fork record;
`EvictUntil(1)` evicts the slots 0 and 1 only, and yet deletes this fork, whose
observed commitment `F5` lies in slot 5. -/
theorem C6_counterexample :
    Scenario.outOfOrder.ForkByForkingPoint (Scenario.F 1).id
        = some ⟨Scenario.peerP, some (Scenario.F 5), some (Scenario.F 1)⟩ ∧
      Scenario.outOfOrder.lastEvictedSlot.NextIndex = 0 ∧
      (Scenario.F 5).id.index = 5 ∧
      (Scenario.outOfOrder.EvictUntil 1).toOption.map
          (fun r => r.ForkByForkingPoint (Scenario.F 1).id) = some none := by
  refine ⟨by rfl, by rfl, by rfl, by rfl⟩

/-! ## Promotion of future blocks -/

theorem parkedUnderLocalFrom_congr (b b1 : BlockDAG) (count i : Nat)
    (hc : b1.commitmentFunc = b.commitmentFunc)
    (hf : ∀ s, i ≤ s → s < i + count → b1.futureBlocks s = b.futureBlocks s) :
    b1.parkedUnderLocalFrom count i = b.parkedUnderLocalFrom count i := by
  induction count generalizing i with
  | zero => rfl
  | succ k ih =>
    unfold BlockDAG.parkedUnderLocalFrom
    have h1 : b1.parkedUnderLocal i = b.parkedUnderLocal i := by
      unfold BlockDAG.parkedUnderLocal BlockDAG.parked IndexedStorage.get
      rw [hc, hf i (le_refl _) (by omega)]
    rw [h1, ih (i + 1) (fun s h2 h3 => hf s (by omega) (by omega))]

theorem mem_parkedUnderLocalFrom (b : BlockDAG) (count i blk : Nat) :
    blk ∈ b.parkedUnderLocalFrom count i ↔
      ∃ s, i ≤ s ∧ s < i + count ∧ blk ∈ b.parkedUnderLocal s := by
  induction count generalizing i with
  | zero =>
    simp only [BlockDAG.parkedUnderLocalFrom, List.not_mem_nil, false_iff]
    rintro ⟨s, h1, h2, _⟩; omega
  | succ k ih =>
    unfold BlockDAG.parkedUnderLocalFrom
    rw [List.mem_append, ih]
    constructor
    · rintro (h | ⟨s, h1, h2, h3⟩)
      · exact ⟨i, le_refl _, by omega, h⟩
      · exact ⟨s, by omega, by omega, h3⟩
    · rintro ⟨s, h1, h2, h3⟩
      by_cases hs : s = i
      · subst hs; exact Or.inl h3
      · exact Or.inr ⟨s, by omega, by omega, h3⟩

theorem promoteSlot_spec (b b1 : BlockDAG) (i : Nat) (h : b.promoteSlot i = .ok b1) :
    b.commitmentFunc i ≠ none ∧
      b1 = { b with solidifierQueue := b.solidifierQueue ++ b.parkedUnderLocal i
                    futureBlocks := (b.futureBlocks.evict i).1 } := by
  unfold BlockDAG.promoteSlot at h
  cases hc : b.commitmentFunc i with
  | none => simp [hc] at h
  | some cm =>
    simp only [hc] at h
    refine ⟨by simp, ?_⟩
    have := (Except.ok.inj h).symm
    rw [this]
    simp only [BlockDAG.parkedUnderLocal, BlockDAG.parked, hc]

theorem promoteLoop_spec (count i : Nat) (b b1 : BlockDAG)
    (h : BlockDAG.promoteLoop count i b = .ok b1) :
    b1 = { b with
            solidifierQueue := b.solidifierQueue ++ b.parkedUnderLocalFrom count i
            futureBlocks := fun s =>
              if i ≤ s ∧ s < i + count then none else b.futureBlocks s } ∧
      ∀ s, i ≤ s → s < i + count → b.commitmentFunc s ≠ none := by
  induction count generalizing i b with
  | zero =>
    unfold BlockDAG.promoteLoop at h
    have hb := (Except.ok.inj h).symm
    subst hb
    constructor
    · have hf : (fun s => if i ≤ s ∧ s < i + 0 then none else b1.futureBlocks s)
          = b1.futureBlocks := by
        funext s
        have : ¬ (i ≤ s ∧ s < i + 0) := by omega
        rw [if_neg this]
      simp only [BlockDAG.parkedUnderLocalFrom, List.append_nil, hf]
    · intro s h1 h2; omega
  | succ k ih =>
    unfold BlockDAG.promoteLoop at h
    cases hs : b.promoteSlot i with
    | error f => simp [hs] at h
    | ok b2 =>
      simp only [hs] at h
      obtain ⟨hc, hb2⟩ := promoteSlot_spec b b2 i hs
      obtain ⟨hb1, hrest⟩ := ih (i + 1) b2 h
      have hcf : b2.commitmentFunc = b.commitmentFunc := by rw [hb2]
      have hfb : ∀ s, i + 1 ≤ s → s < i + 1 + k → b2.futureBlocks s = b.futureBlocks s := by
        intro s h1 _
        have : s ≠ i := by omega
        rw [hb2]
        simp [IndexedStorage.evict, this]
      have hpark := parkedUnderLocalFrom_congr b b2 k (i + 1) hcf hfb
      constructor
      · rw [hb1, hpark, hb2]
        have hf : (fun s => if i + 1 ≤ s ∧ s < i + 1 + k then none
              else (b.futureBlocks.evict i).1 s)
            = fun s => if i ≤ s ∧ s < i + (k + 1) then none else b.futureBlocks s := by
          funext s
          by_cases h1 : i + 1 ≤ s ∧ s < i + 1 + k
          · have h2 : i ≤ s ∧ s < i + (k + 1) := by omega
            rw [if_pos h1, if_pos h2]
          · rw [if_neg h1]
            by_cases h3 : s = i
            · have h2 : i ≤ s ∧ s < i + (k + 1) := by omega
              rw [if_pos h2]
              simp [IndexedStorage.evict, h3]
            · have h2 : ¬ (i ≤ s ∧ s < i + (k + 1)) := by omega
              rw [if_neg h2]
              simp [IndexedStorage.evict, h3]
        simp only [BlockDAG.parkedUnderLocalFrom, List.append_assoc, hf]
      · intro s h1 h2
        by_cases h3 : s = i
        · subst h3; exact hc
        · have := hrest s (by omega) (by omega)
          rw [hcf] at this
          exact this

theorem PromoteFutureBlocksUntil_spec (b b1 : BlockDAG) (index : Nat)
    (h : b.PromoteFutureBlocksUntil index = .ok b1) :
    index + 1 ≠ uint64Modulus ∧
      b1 = { b with
              solidifierQueue := b.solidifierQueue ++
                b.parkedUnderLocalFrom (index + 1 - b.nextIndexToPromote) b.nextIndexToPromote
              futureBlocks := fun s =>
                if b.nextIndexToPromote ≤ s ∧ s ≤ index then none else b.futureBlocks s
              nextIndexToPromote := succUint64 index } ∧
      ∀ s, b.nextIndexToPromote ≤ s → s ≤ index → b.commitmentFunc s ≠ none := by
  unfold BlockDAG.PromoteFutureBlocksUntil at h
  cases hl : BlockDAG.promoteLoop (index + 1 - b.nextIndexToPromote) b.nextIndexToPromote b with
  | error f => simp [hl] at h
  | ok b2 =>
    simp only [hl] at h
    by_cases hn : index + 1 = uint64Modulus
    · simp only [hn, if_true] at h
      cases hw : BlockDAG.promoteLoop b.nextIndexToPromote 0 b2 with
      | error f => simp [hw] at h
      | ok b3 => simp [hw] at h
    · simp only [hn, if_false] at h
      obtain ⟨hb2, hall⟩ := promoteLoop_spec _ _ b b2 hl
      refine ⟨hn, ?_, fun s h1 h2 => hall s h1 (by omega)⟩
      have hb1 := (Except.ok.inj h).symm
      rw [hb1, hb2]
      have hf : (fun s => if b.nextIndexToPromote ≤ s ∧
              s < b.nextIndexToPromote + (index + 1 - b.nextIndexToPromote) then none
            else b.futureBlocks s)
          = fun s => if b.nextIndexToPromote ≤ s ∧ s ≤ index then none else b.futureBlocks s := by
        funext s
        by_cases h1 : b.nextIndexToPromote ≤ s ∧ s ≤ index
        · have h2 : b.nextIndexToPromote ≤ s ∧
              s < b.nextIndexToPromote + (index + 1 - b.nextIndexToPromote) := by omega
          rw [if_pos h1, if_pos h2]
        · have h2 : ¬ (b.nextIndexToPromote ≤ s ∧
              s < b.nextIndexToPromote + (index + 1 - b.nextIndexToPromote)) := by omega
          rw [if_neg h1, if_neg h2]
      simp only [hf]

/-- C8 (as amended): when `PromoteFutureBlocksUntil(s)` returns for a slot
`s >= nextIndexToPromote`, the local node has a commitment `cm` for `s`, and the
blocks handed to the solidifier queue are exactly the blocks parked, for the slots
from `nextIndexToPromote` to `s`, in the bucket keyed by the id of the local
commitment of the slot. So a block parked under `(s, id)` is queued again when
`id` is the id of `cm`; a block parked only under another commitment id is not
queued, and the whole future-block storage of slot `s` is dropped. -/
theorem C8_promote_requeues_local (b b1 : BlockDAG) (s : Nat)
    (hs : b.nextIndexToPromote ≤ s) (h : b.PromoteFutureBlocksUntil s = .ok b1) :
    ∃ cm, b.commitmentFunc s = some cm ∧
      b1.solidifierQueue = b.solidifierQueue ++
        b.parkedUnderLocalFrom (s + 1 - b.nextIndexToPromote) b.nextIndexToPromote ∧
      (∀ blk, blk ∈ b.parked s cm.id →
        blk ∈ b.parkedUnderLocalFrom (s + 1 - b.nextIndexToPromote) b.nextIndexToPromote) ∧
      (∀ blk, blk ∈ b.parkedUnderLocalFrom (s + 1 - b.nextIndexToPromote) b.nextIndexToPromote ↔
        ∃ i, b.nextIndexToPromote ≤ i ∧ i ≤ s ∧ blk ∈ b.parkedUnderLocal i) ∧
      b1.futureBlocks.get s = none ∧
      (∀ id, b1.parked s id = []) := by
  obtain ⟨_, hb1, hall⟩ := PromoteFutureBlocksUntil_spec b b1 s h
  have hcs := hall s hs (le_refl _)
  cases hc : b.commitmentFunc s with
  | none => exact absurd hc hcs
  | some cm =>
    have hmem : ∀ blk, blk ∈ b.parkedUnderLocalFrom (s + 1 - b.nextIndexToPromote)
          b.nextIndexToPromote ↔
        ∃ i, b.nextIndexToPromote ≤ i ∧ i ≤ s ∧ blk ∈ b.parkedUnderLocal i := by
      intro blk
      rw [mem_parkedUnderLocalFrom]
      constructor
      · rintro ⟨i, h1, h2, h3⟩; exact ⟨i, h1, by omega, h3⟩
      · rintro ⟨i, h1, h2, h3⟩; exact ⟨i, h1, by omega, h3⟩
    have hget : b1.futureBlocks.get s = none := by
      rw [hb1]
      simp only [IndexedStorage.get]
      rw [if_pos ⟨hs, le_refl _⟩]
    refine ⟨cm, rfl, ?_, ?_, hmem, hget, ?_⟩
    · rw [hb1]
    · intro blk hblk
      rw [hmem]
      refine ⟨s, hs, le_refl _, ?_⟩
      unfold BlockDAG.parkedUnderLocal
      rw [hc]
      exact hblk
    · intro id
      unfold BlockDAG.parked
      rw [hget]

/-- C8, witness: a block parked under the id of the local commitment of slot 5 is
queued again by `PromoteFutureBlocksUntil(5)`. -/
theorem C8_promote_requeues_local_witness :
    ∃ b1, Scenario.parkedLocal.PromoteFutureBlocksUntil 5 = .ok b1 ∧
      b1.solidifierQueue = [1, 1] := by
  have hp : Scenario.parkedLocal.PromoteFutureBlocksUntil 5
      = .ok (match Scenario.parkedLocal.PromoteFutureBlocksUntil 5 with
          | .ok r => r
          | .error _ => Scenario.parkedLocal) := by rfl
  obtain ⟨cm, _, hq, _⟩ := C8_promote_requeues_local Scenario.parkedLocal _ 5 (by decide) hp
  exact ⟨_, hp, by rw [hq]; rfl⟩

/-- C8, counterexample: a block of slot 5 is parked as a future block under the
commitment id `(5, 999)` it declared; the local node commits slot 5 with the id
`(5, 505)`; `PromoteFutureBlocksUntil(5)` returns without handing the block to the
solidifier queue again (the queue still holds it once, from `Attach`) and drops
the bucket. -/
theorem C8_counterexample :
    Scenario.parkedForeign.parked 5 Scenario.foreignBlock.slotCommitmentID = [1] ∧
      (Scenario.parkedForeign.blockHeap 1).modelsBlock = some Scenario.foreignBlock ∧
      (Scenario.parkedForeign.blockHeap 1).future = true ∧
      Scenario.parkedForeign.nextIndexToPromote = 0 ∧
      Scenario.parkedForeign.solidifierQueue = [1] ∧
      (Scenario.parkedForeign.PromoteFutureBlocksUntil 5).toOption.map
          (fun r => (r.solidifierQueue, r.parked 5 Scenario.foreignBlock.slotCommitmentID,
            r.nextIndexToPromote)) = some ([1], [], 6) := by
  refine ⟨by rfl, by rfl, by rfl, by rfl, by rfl, by rfl⟩

/-- C9: `PromoteFutureBlocksUntil` is idempotent per slot: when the call for a slot
`s` returns, an immediately repeated call for `s` returns the very same state, so
it hands no block to the solidifier, evicts nothing and leaves `nextIndexToPromote`
and the future-block storage unchanged. -/
theorem C9_promote_idempotent (b b1 : BlockDAG) (s : Nat) (hs : s < uint64Modulus)
    (h : b.PromoteFutureBlocksUntil s = .ok b1) :
    b1.PromoteFutureBlocksUntil s = .ok b1 := by
  obtain ⟨hn, hb1, _⟩ := PromoteFutureBlocksUntil_spec b b1 s h
  have hnext : b1.nextIndexToPromote = s + 1 := by
    rw [hb1]
    simp only [succUint64]
    apply Nat.mod_eq_of_lt
    unfold uint64Modulus at hs hn ⊢
    omega
  unfold BlockDAG.PromoteFutureBlocksUntil
  have hcount : s + 1 - b1.nextIndexToPromote = 0 := by omega
  rw [hcount]
  simp only [BlockDAG.promoteLoop, hn, if_false]
  congr 1
  cases b1
  simp only [BlockDAG.mk.injEq, and_true, true_and]
  simp only at hnext
  rw [hnext]
  simp only [succUint64]
  apply Nat.mod_eq_of_lt
  unfold uint64Modulus at hs hn ⊢
  omega

/-- C9, witness: promoting slot 5 twice. -/
theorem C9_promote_idempotent_witness :
    ∃ b1, Scenario.parkedLocal.PromoteFutureBlocksUntil 5 = .ok b1 ∧
      b1.PromoteFutureBlocksUntil 5 = .ok b1 := by
  have hp : Scenario.parkedLocal.PromoteFutureBlocksUntil 5
      = .ok (match Scenario.parkedLocal.PromoteFutureBlocksUntil 5 with
          | .ok r => r
          | .error _ => Scenario.parkedLocal) := by rfl
  exact ⟨_, hp, C9_promote_idempotent Scenario.parkedLocal _ 5 (by decide) hp⟩

/-! ## Solidification: `markSolid` and `checkParents` -/

theorem checkParentsLoop_none_iff (b : BlockDAG) (blk : blockdag.Block) (ps : List Parent) :
    b.checkParentsLoop blk ps = .ok none ↔ ∀ parent ∈ ps, b.parentMonotone blk parent := by
  induction ps with
  | nil => simp [BlockDAG.checkParentsLoop]
  | cons parent rest ih =>
    unfold BlockDAG.checkParentsLoop
    simp only [List.mem_cons, forall_eq_or_imp]
    cases hp : b.Block parent.id with
    | none =>
      simp only []
      constructor
      · intro h; cases h
      · rintro ⟨⟨p, _, _, _, _, h1, _⟩, _⟩
        rw [hp] at h1; cases h1
    | some p =>
      simp only []
      cases hpt : (b.blockHeap p).IssuingTime with
      | error f =>
        simp only []
        constructor
        · intro h; cases h
        · rintro ⟨⟨p', _, _, _, _, h1, h2, _⟩, _⟩
          rw [hp] at h1; cases h1
          rw [hpt] at h2; cases h2
      | ok pt =>
        cases hbt : blk.IssuingTime with
        | error f =>
          simp only []
          constructor
          · intro h; cases h
          · rintro ⟨⟨p', _, _, _, _, _, _, h3, _⟩, _⟩
            rw [hbt] at h3; cases h3
        | ok bt =>
          simp only []
          by_cases hgt : pt > bt
          · rw [if_pos hgt]
            constructor
            · intro h; cases h
            · rintro ⟨⟨p', pt', bt', _, _, h1, h2, h3, h4, _⟩, _⟩
              rw [hp] at h1; cases h1
              rw [hpt] at h2; cases h2
              rw [hbt] at h3; cases h3
              exact absurd hgt h4
          · rw [if_neg hgt]
            cases hpc : (b.blockHeap p).SlotCommitmentID with
            | error f =>
              simp only []
              constructor
              · intro h; cases h
              · rintro ⟨⟨p', _, _, _, _, h1, _, _, _, h5, _⟩, _⟩
                rw [hp] at h1; cases h1
                rw [hpc] at h5; cases h5
            | ok pc =>
              cases hbc : blk.SlotCommitmentID with
              | error f =>
                simp only []
                constructor
                · intro h; cases h
                · rintro ⟨⟨p', _, _, _, _, _, _, _, _, _, h6, _⟩, _⟩
                  rw [hbc] at h6; cases h6
              | ok bc =>
                simp only []
                by_cases hci : pc.index > bc.index
                · rw [if_pos hci]
                  constructor
                  · intro h; cases h
                  · rintro ⟨⟨p', _, _, pc', bc', h1, _, _, _, h5, h6, h7⟩, _⟩
                    rw [hp] at h1; cases h1
                    rw [hpc] at h5; cases h5
                    rw [hbc] at h6; cases h6
                    omega
                · rw [if_neg hci, ih]
                  constructor
                  · intro h
                    exact ⟨⟨p, pt, bt, pc, bc, hp, hpt, hbt, hgt, hpc, hbc, by omega⟩, h⟩
                  · intro h; exact h.2

theorem checkParentsLoop_no_fault (b : BlockDAG) (blk : blockdag.Block) (ps : List Parent)
    (blockTime : Int) (blockCommitment : CommitmentID)
    (hbt : blk.IssuingTime = .ok blockTime) (hbc : blk.SlotCommitmentID = .ok blockCommitment)
    (hres : ∀ parent ∈ ps, b.parentResolves parent) :
    ∃ r, b.checkParentsLoop blk ps = .ok r := by
  induction ps with
  | nil => exact ⟨none, rfl⟩
  | cons parent rest ih =>
    obtain ⟨p, pt, pc, h1, h2, h3⟩ := hres parent (List.mem_cons_self _ _)
    unfold BlockDAG.checkParentsLoop
    simp only [h1, h2, h3, hbt, hbc]
    by_cases hgt : pt > blockTime
    · rw [if_pos hgt]; exact ⟨_, rfl⟩
    · rw [if_neg hgt]
      by_cases hci : pc.index > blockCommitment.index
      · rw [if_pos hci]; exact ⟨_, rfl⟩
      · rw [if_neg hci]
        exact ih (fun q hq => hres q (List.mem_cons_of_mem _ hq))

theorem checkParents_none_iff (b : BlockDAG) (block : Nat) :
    b.checkParents block = .ok none ↔ b.parentsMonotone block := by
  unfold BlockDAG.checkParents BlockDAG.parentsMonotone
  cases hp : (b.blockHeap block).Parents with
  | error f =>
    constructor
    · intro h; simp at h
    · rintro ⟨ps, h1, _⟩; simp at h1
  | ok ps =>
    simp only []
    rw [checkParentsLoop_none_iff]
    constructor
    · intro h; exact ⟨ps, rfl, h⟩
    · rintro ⟨ps', h1, h2⟩
      cases h1
      exact h2

theorem markSolid_first_visit (b b1 : BlockDAG) (block : Nat) (err : Option blockdag.BlockError)
    (hf : (b.blockHeap block).future = false) (h : b.markSolid block = .ok (b1, err)) :
    (err = none → b.parentsMonotone block ∧
      ((b1 = (b.setBlock block (b.blockHeap block).SetSolid.1).trigger
            (blockdag.Event.blockSolid block)) ∨
        ((b1.blockHeap block).future = true ∧
          (b1.blockHeap block).solid = (b.blockHeap block).solid ∧ b1.events = b.events ∧
          ∃ data, (b.blockHeap block).modelsBlock = some data ∧
            block ∈ b1.parked data.slotCommitmentID.index data.slotCommitmentID))) ∧
      (err ≠ none → b1 = b ∧ b.checkParents block = .ok err ∧ ¬ b.parentsMonotone block) := by
  unfold BlockDAG.markSolid at h
  simp only [hf, Bool.not_false, if_true] at h
  cases hc : b.checkParents block with
  | error f => simp [hc] at h
  | ok r =>
    cases r with
    | some e =>
      simp only [hc] at h
      have h1 := Except.ok.inj h
      have hb : b = b1 := (Prod.mk.inj h1).1
      have he : some e = err := (Prod.mk.inj h1).2
      subst hb; subst he
      refine ⟨fun h => by simp at h, fun _ => ⟨rfl, rfl, ?_⟩⟩
      intro hm
      rw [← checkParents_none_iff, hc] at hm
      simp at hm
    | none =>
      simp only [hc] at h
      have hmono := (checkParents_none_iff b block).mp hc
      unfold BlockDAG.isFutureBlock at h
      cases hd : (b.blockHeap block).modelsBlock with
      | none => simp [hd] at h
      | some data =>
        simp only [hd] at h
        cases hcf : b.commitmentFunc data.slotCommitmentID.index with
        | some cm =>
          simp only [hcf] at h
          have h1 := Except.ok.inj h
          have hb := (Prod.mk.inj h1).1
          have he := (Prod.mk.inj h1).2
          subst he
          refine ⟨fun _ => ⟨hmono, Or.inl hb.symm⟩, fun h => absurd rfl h⟩
        | none =>
          simp only [hcf] at h
          have h1 := Except.ok.inj h
          have hb := (Prod.mk.inj h1).1
          have he := (Prod.mk.inj h1).2
          subst he
          refine ⟨fun _ => ⟨hmono, Or.inr ?_⟩, fun h => absurd rfl h⟩
          subst hb
          refine ⟨?_, ?_, rfl, data, rfl, ?_⟩
          · simp [BlockDAG.setBlock, blockdag.Block.SetFuture, hf]
          · simp [BlockDAG.setBlock, blockdag.Block.SetFuture, hf]
          · simp only [BlockDAG.parked, IndexedStorage.get, IndexedStorage.put, if_true,
              mapGet_mapSet_self]
            by_cases hmem : block ∈ (match mapGet ((b.setBlock block
                (b.blockHeap block).SetFuture.1).futureBlocks.getOrCreate
                  data.slotCommitmentID.index).2 data.slotCommitmentID with
                | some set => set
                | none => [])
            · rw [if_pos hmem]; exact hmem
            · rw [if_neg hmem]; exact List.mem_append_right _ (List.mem_singleton.mpr rfl)

theorem markSolid_second_visit (b : BlockDAG) (block : Nat)
    (hf : (b.blockHeap block).future = true) :
    b.markSolid block = .ok ((b.setBlock block (b.blockHeap block).SetSolid.1).trigger
      (blockdag.Event.blockSolid block), none) := by
  unfold BlockDAG.markSolid
  simp [hf]

theorem setSolid_solid (blk : blockdag.Block) : blk.SetSolid.1.solid = true := by
  unfold blockdag.Block.SetSolid
  cases h : blk.solid <;> simp [h]

/-- C10: whenever `markSolid` sets a block `B` solid, every parent `P` of `B`
resolves and satisfies `P.SlotCommitmentID().Index() <= B.SlotCommitmentID().Index()`
and `not P.IssuingTime().After(B.IssuingTime())`. On the first visit (`B` not yet
flagged future) a nil result means that all parents passed the two checks, after
which `B` is either set solid with `BlockSolid` triggered, or parked as a future
block (flagged future, not set solid, no event); on the second visit (`B` flagged
future, which only a first visit that passed the checks does) `B` is set solid and
`BlockSolid` is triggered without a new check. If a check fails on the first
visit, `markSolid` returns the error and leaves the state as it is, so `B` is not
set solid and `BlockSolid` is not triggered; this is what happens whenever all
parents resolve and one of them violates a check. -/
theorem C10_markSolid_parent_monotonicity :
    (∀ (b b1 : BlockDAG) (block : Nat), (b.blockHeap block).future = false →
        b.markSolid block = .ok (b1, none) →
        b.parentsMonotone block ∧
          ((b1 = (b.setBlock block (b.blockHeap block).SetSolid.1).trigger
                (blockdag.Event.blockSolid block) ∧ (b1.blockHeap block).solid = true) ∨
            ((b1.blockHeap block).future = true ∧
              (b1.blockHeap block).solid = (b.blockHeap block).solid ∧ b1.events = b.events ∧
              ∀ b2 : BlockDAG, (b2.blockHeap block).future = true →
                ∃ b3, b2.markSolid block = .ok (b3, none) ∧ (b3.blockHeap block).solid = true ∧
                  b3.events = b2.events ++ [blockdag.Event.blockSolid block]))) ∧
      (∀ (b b1 : BlockDAG) (block : Nat) (err : blockdag.BlockError),
        (b.blockHeap block).future = false → b.markSolid block = .ok (b1, some err) →
        b1 = b ∧ ¬ b.parentsMonotone block) ∧
      (∀ (b : BlockDAG) (block : Nat) (parents : List Parent) (blockTime : Int)
          (blockCommitment : CommitmentID),
        (b.blockHeap block).future = false →
        (b.blockHeap block).Parents = .ok parents →
        (b.blockHeap block).IssuingTime = .ok blockTime →
        (b.blockHeap block).SlotCommitmentID = .ok blockCommitment →
        (∀ parent ∈ parents, b.parentResolves parent) →
        (∃ parent ∈ parents, ¬ b.parentMonotone (b.blockHeap block) parent) →
        ∃ err, b.markSolid block = .ok (b, some err)) := by
  refine ⟨?_, ?_, ?_⟩
  · intro b b1 block hf h
    obtain ⟨hmono, hcases⟩ := (markSolid_first_visit b b1 block none hf h).1 rfl
    refine ⟨hmono, ?_⟩
    rcases hcases with h1 | ⟨h1, h2, h3, _⟩
    · left
      refine ⟨h1, ?_⟩
      rw [h1]
      simp [BlockDAG.trigger, BlockDAG.setBlock, setSolid_solid]
    · right
      refine ⟨h1, h2, h3, ?_⟩
      intro b2 hf2
      refine ⟨_, markSolid_second_visit b2 block hf2, ?_, ?_⟩
      · simp [BlockDAG.trigger, BlockDAG.setBlock, setSolid_solid]
      · simp [BlockDAG.trigger, BlockDAG.setBlock]
  · intro b b1 block err hf h
    obtain ⟨h1, _, h3⟩ := (markSolid_first_visit b b1 block (some err) hf h).2 (by simp)
    exact ⟨h1, h3⟩
  · intro b block parents blockTime blockCommitment hf hp hbt hbc hres hbad
    obtain ⟨r, hr⟩ := checkParentsLoop_no_fault b (b.blockHeap block) parents blockTime
      blockCommitment hbt hbc hres
    cases r with
    | none =>
      exfalso
      obtain ⟨parent, hmem, hnot⟩ := hbad
      exact hnot ((checkParentsLoop_none_iff b (b.blockHeap block) parents).mp hr parent hmem)
    | some err =>
      refine ⟨err, ?_⟩
      unfold BlockDAG.markSolid
      simp only [hf, Bool.not_false, if_true]
      unfold BlockDAG.checkParents
      simp only [hp, hr]

set_option maxRecDepth 100000 in
/-- C10, witness: the first visit of a block of slot 5 whose declared commitment
slot is not committed yet parks it after the checks, and the second visit sets it
solid. -/
theorem C10_markSolid_parent_monotonicity_witness :
    ((Scenario.freshDAG.Attach Scenario.localBlock).1).parentsMonotone 1 ∧
      ((Scenario.attachedAndMarked Scenario.localBlock).markSolid 1).toOption.map
          (fun r => (r.2, (r.1.blockHeap 1).solid, r.1.events))
        = some (none, true, [blockdag.Event.blockAttached 1, blockdag.Event.blockSolid 1]) ∧
      ((Scenario.freshDAG.Attach Scenario.earlyBlock).1.markSolid 1).toOption.map
          (fun r => (r.2, (r.1.blockHeap 1).solid, r.1.events))
        = some (some (blockdag.BlockError.timestampMonotonicity Scenario.genesisID), false,
            [blockdag.Event.blockAttached 1]) := by
  have hm : ((Scenario.freshDAG.Attach Scenario.localBlock).1).markSolid 1
      = .ok (Scenario.attachedAndMarked Scenario.localBlock, none) := by rfl
  exact ⟨(C10_markSolid_parent_monotonicity.1 _ _ 1 (by rfl) hm).1, by rfl, by rfl⟩

/-! ## Well-formedness of the heap -/

section MapLemmas

variable {K V : Type} [DecidableEq K]

theorem mapGet_mapSet (l : List (K × V)) (k k' : K) (v : V) :
    mapGet (mapSet l k v) k' = if k = k' then some v else mapGet l k' := by
  induction l with
  | nil =>
    by_cases h : k = k'
    · simp [mapSet, mapGet, h]
    · simp [mapSet, mapGet, h]
  | cons e rest ih =>
    obtain ⟨a, w⟩ := e
    unfold mapSet
    by_cases h : a = k
    · rw [if_pos h]
      by_cases h2 : k = k'
      · rw [if_pos h2]; simp [mapGet, h2]
      · rw [if_neg h2]
        have h3 : ¬ a = k' := by rw [h]; exact h2
        simp [mapGet, h2, h3]
    · rw [if_neg h]
      by_cases h3 : a = k'
      · have h2 : ¬ k = k' := by rw [← h3]; exact fun hk => h hk.symm
        simp [mapGet, h3, h2]
      · simp [mapGet, h3, ih]

end MapLemmas

theorem WellFormed_congr (m m1 : Manager) (h : m.WellFormed)
    (h1 : m1.commitmentHeap = m.commitmentHeap) (h2 : m1.commitmentCount = m.commitmentCount)
    (h3 : m1.rootCommitment = m.rootCommitment) (h4 : m1.commitmentsByID = m.commitmentsByID) :
    m1.WellFormed := by
  constructor
  · rw [h1, h2, h3]; exact h.root
  · rw [h1]; exact h.chainPublished
  · rw [h1, h2]; exact h.childrenPublished
  · rw [h2, h4]; exact h.storageValid

theorem WellFormed_setCommitment (m : Manager) (p : Nat) (c : ChainCommitment)
    (h : m.WellFormed)
    (hchain : c.chain ≠ none → c.commitment ≠ none)
    (hpub : (m.commitmentHeap p).commitment ≠ none → c.commitment ≠ none)
    (hkeep : (m.commitmentHeap p).chain ≠ none → c.chain ≠ none)
    (hch : ∀ id q, mapGet c.children id = some q →
      (m.commitmentHeap q).commitment ≠ none ∧ q < m.commitmentCount) :
    (m.setCommitment p c).WellFormed := by
  have hheap : ∀ q, (m.setCommitment p c).commitmentHeap q
      = if q = p then c else m.commitmentHeap q := fun q => rfl
  have hpubAll : ∀ q, (m.commitmentHeap q).commitment ≠ none →
      ((m.setCommitment p c).commitmentHeap q).commitment ≠ none := by
    intro q hq
    rw [hheap]
    by_cases hqp : q = p
    · rw [if_pos hqp]; subst hqp; exact hpub hq
    · rw [if_neg hqp]; exact hq
  constructor
  · obtain ⟨r, h1, h2, h3⟩ := h.root
    refine ⟨r, h1, h2, ?_⟩
    rw [hheap]
    by_cases hrp : r = p
    · rw [if_pos hrp]; subst hrp; exact hkeep h3
    · rw [if_neg hrp]; exact h3
  · intro q hq
    rw [hheap] at hq ⊢
    by_cases hqp : q = p
    · rw [if_pos hqp] at hq ⊢; exact hchain hq
    · rw [if_neg hqp] at hq ⊢; exact h.chainPublished q hq
  · intro q id x hx
    rw [hheap] at hx
    by_cases hqp : q = p
    · rw [if_pos hqp] at hx
      obtain ⟨h1, h2⟩ := hch id x hx
      exact ⟨hpubAll x h1, h2⟩
    · rw [if_neg hqp] at hx
      obtain ⟨h1, h2⟩ := h.childrenPublished q id x hx
      exact ⟨hpubAll x h1, h2⟩
  · exact h.storageValid

theorem WellFormed_NewChain (m : Manager) (fp : Nat) (h : m.WellFormed) :
    (m.NewChain fp).1.WellFormed :=
  WellFormed_congr m _ h rfl rfl rfl rfl

theorem WellFormed_chainAddCommitment (m : Manager) (chain c : Nat) (h : m.WellFormed) :
    (m.chainAddCommitment chain c).WellFormed :=
  WellFormed_congr m _ h rfl rfl rfl rfl

theorem WellFormed_setChain (m : Manager) (p : Nat) (c : Chain) (h : m.WellFormed) :
    (m.setChain p c).WellFormed :=
  WellFormed_congr m _ h rfl rfl rfl rfl

theorem WellFormed_trigger (m : Manager) (e : Event) (h : m.WellFormed) :
    (m.trigger e).WellFormed :=
  WellFormed_congr m _ h rfl rfl rfl rfl

theorem WellFormed_publishCommitment (m : Manager) (p : Nat) (c : Commitment)
    (h : m.WellFormed) : (m.publishCommitment p c).1.WellFormed := by
  cases hc : (m.commitmentHeap p).commitment with
  | some x => simp only [Manager.publishCommitment, hc]; exact h
  | none =>
    simp only [Manager.publishCommitment, hc]
    apply WellFormed_setCommitment m p _ h
    · intro _; simp
    · intro _; simp
    · intro hk; exact hk
    · intro id q hq; exact h.childrenPublished p id q hq

theorem publishCommitment_published (m : Manager) (p : Nat) (c : Commitment) :
    ((m.publishCommitment p c).1.commitmentHeap p).commitment ≠ none := by
  cases hc : (m.commitmentHeap p).commitment with
  | some x => simp [Manager.publishCommitment, hc]
  | none => simp [Manager.publishCommitment, hc, Manager.setCommitment]

theorem publishCommitment_count (m : Manager) (p : Nat) (c : Commitment) :
    (m.publishCommitment p c).1.commitmentCount = m.commitmentCount := by
  cases hc : (m.commitmentHeap p).commitment <;>
    simp [Manager.publishCommitment, hc, Manager.setCommitment]

theorem WellFormed_publishChain (m : Manager) (p chain : Nat) (h : m.WellFormed)
    (hp : (m.commitmentHeap p).commitment ≠ none) : (m.publishChain p chain).1.WellFormed := by
  cases hc : (m.commitmentHeap p).chain with
  | some x => simp only [Manager.publishChain, hc]; exact h
  | none =>
    simp only [Manager.publishChain, hc]
    apply WellFormed_setCommitment m p _ h
    · intro _; exact hp
    · intro hk; exact hk
    · intro _; simp
    · intro id q hq; exact h.childrenPublished p id q hq

theorem WellFormed_replaceChain (m : Manager) (p chain : Nat) (h : m.WellFormed)
    (hp : (m.commitmentHeap p).commitment ≠ none) : (m.replaceChain p chain).WellFormed := by
  unfold Manager.replaceChain
  apply WellFormed_setCommitment m p _ h
  · intro _; exact hp
  · intro hk; exact hk
  · intro _; simp
  · intro id q hq; exact h.childrenPublished p id q hq

theorem WellFormed_setSolid (m : Manager) (p : Nat) (solid : Bool) (h : m.WellFormed) :
    (m.setSolid p solid).1.WellFormed := by
  by_cases hs : (m.commitmentHeap p).solid = solid
  · simp only [Manager.setSolid, hs, if_true]; exact h
  · simp only [Manager.setSolid, hs, if_false]
    apply WellFormed_setCommitment m p _ h
    · exact h.chainPublished p
    · intro hk; exact hk
    · intro hk; exact hk
    · intro id q hq; exact h.childrenPublished p id q hq

theorem WellFormed_setMainChild (m : Manager) (p child : Nat) (h : m.WellFormed) :
    (m.setMainChild p child).1.WellFormed := by
  by_cases hs : mapHas (m.commitmentHeap p).children (m.commitmentHeap child).id = true
  · simp only [Manager.setMainChild, hs, if_true]
    apply WellFormed_setCommitment m p _ h
    · exact h.chainPublished p
    · intro hk; exact hk
    · intro hk; exact hk
    · intro id q hq; exact h.childrenPublished p id q hq
  · simp only [Manager.setMainChild, hs]
    exact h

theorem WellFormed_deleteChild (m : Manager) (p child : Nat) (h : m.WellFormed) :
    (m.deleteChild p child).WellFormed := by
  unfold Manager.deleteChild
  apply WellFormed_setCommitment m p _ h
  · exact h.chainPublished p
  · intro hk; exact hk
  · intro hk; exact hk
  · intro id q hq
    simp only [mapGet_mapDelete] at hq
    by_cases hid : (m.commitmentHeap child).id = id
    · rw [if_pos hid] at hq; cases hq
    · rw [if_neg hid] at hq; exact h.childrenPublished p id q hq

theorem WellFormed_commitmentRegisterChild (m : Manager) (parent child : Nat) (h : m.WellFormed)
    (hp : (m.commitmentHeap child).commitment ≠ none) (hc : child < m.commitmentCount) :
    (m.commitmentRegisterChild parent child).1.WellFormed := by
  unfold Manager.commitmentRegisterChild
  have hset : ∀ mc : Option CommitmentID,
      (m.setCommitment parent
        { m.commitmentHeap parent with
          children := mapSet (m.commitmentHeap parent).children (m.commitmentHeap child).id child
          mainChildID := mc }).WellFormed := by
    intro mc
    apply WellFormed_setCommitment m parent _ h
    · exact h.chainPublished parent
    · intro hk; exact hk
    · intro hk; exact hk
    · intro id q hq
      simp only [mapGet_mapSet] at hq
      by_cases hid : (m.commitmentHeap child).id = id
      · rw [if_pos hid] at hq
        cases hq
        exact ⟨hp, hc⟩
      · rw [if_neg hid] at hq; exact h.childrenPublished parent id q hq
  simp only []
  split
  · exact WellFormed_NewChain _ _ (hset _)
  · exact hset _

theorem Grows_refl (m : Manager) : m.Grows m := ⟨le_refl _, rfl, fun _ _ h => h⟩

theorem Grows_trans (m m1 m2 : Manager) (h1 : m.Grows m1) (h2 : m1.Grows m2) : m.Grows m2 :=
  ⟨le_trans h1.1 h2.1, h2.2.1.trans h1.2.1,
    fun q hq hp => h2.2.2 q (lt_of_lt_of_le hq h1.1) (h1.2.2 q hq hp)⟩

theorem Grows_congr (m m1 : Manager) (h1 : m1.commitmentHeap = m.commitmentHeap)
    (h2 : m1.commitmentCount = m.commitmentCount) (h3 : m1.rootCommitment = m.rootCommitment) :
    m.Grows m1 :=
  ⟨by rw [h2], h3, fun q _ hp => by rw [h1]; exact hp⟩

theorem Grows_setCommitment (m : Manager) (p : Nat) (c : ChainCommitment)
    (hpub : (m.commitmentHeap p).commitment ≠ none → c.commitment ≠ none) :
    m.Grows (m.setCommitment p c) := by
  refine ⟨le_refl _, rfl, ?_⟩
  intro q _ hq
  show (if q = p then c else m.commitmentHeap q).commitment ≠ none
  by_cases hqp : q = p
  · rw [if_pos hqp]; subst hqp; exact hpub hq
  · rw [if_neg hqp]; exact hq

theorem Grows_publishCommitment (m : Manager) (p : Nat) (c : Commitment) :
    m.Grows (m.publishCommitment p c).1 := by
  cases hc : (m.commitmentHeap p).commitment with
  | some x => simp only [Manager.publishCommitment, hc]; exact Grows_refl m
  | none =>
    simp only [Manager.publishCommitment, hc]
    exact Grows_setCommitment m p _ (fun _ => by simp)

theorem Grows_publishChain (m : Manager) (p chain : Nat) :
    m.Grows (m.publishChain p chain).1 := by
  cases hc : (m.commitmentHeap p).chain with
  | some x => simp only [Manager.publishChain, hc]; exact Grows_refl m
  | none =>
    simp only [Manager.publishChain, hc]
    exact Grows_setCommitment m p _ (fun h => h)

theorem Grows_replaceChain (m : Manager) (p chain : Nat) :
    m.Grows (m.replaceChain p chain) :=
  Grows_setCommitment m p _ (fun h => h)

theorem Grows_setSolid (m : Manager) (p : Nat) (solid : Bool) :
    m.Grows (m.setSolid p solid).1 := by
  by_cases hs : (m.commitmentHeap p).solid = solid
  · simp only [Manager.setSolid, hs, if_true]; exact Grows_refl m
  · simp only [Manager.setSolid, hs, if_false]
    exact Grows_setCommitment m p _ (fun h => h)

theorem Grows_setMainChild (m : Manager) (p child : Nat) :
    m.Grows (m.setMainChild p child).1 := by
  by_cases hs : mapHas (m.commitmentHeap p).children (m.commitmentHeap child).id = true
  · simp only [Manager.setMainChild, hs, if_true]
    exact Grows_setCommitment m p _ (fun h => h)
  · simp only [Manager.setMainChild, hs]
    exact Grows_refl m

theorem Grows_deleteChild (m : Manager) (p child : Nat) : m.Grows (m.deleteChild p child) :=
  Grows_setCommitment m p _ (fun h => h)

theorem Grows_NewChain (m : Manager) (fp : Nat) : m.Grows (m.NewChain fp).1 :=
  Grows_congr m _ rfl rfl rfl

theorem Grows_chainAddCommitment (m : Manager) (chain c : Nat) :
    m.Grows (m.chainAddCommitment chain c) :=
  Grows_congr m _ rfl rfl rfl

theorem Grows_commitmentRegisterChild (m : Manager) (parent child : Nat) :
    m.Grows (m.commitmentRegisterChild parent child).1 := by
  unfold Manager.commitmentRegisterChild
  have hset : ∀ mc : Option CommitmentID,
      m.Grows (m.setCommitment parent
        { m.commitmentHeap parent with
          children := mapSet (m.commitmentHeap parent).children (m.commitmentHeap child).id child
          mainChildID := mc }) :=
    fun mc => Grows_setCommitment m parent _ (fun h => h)
  simp only []
  split
  · exact Grows_trans _ _ _ (hset _) (Grows_NewChain _ _)
  · exact hset _

theorem registerChild_spec (m : Manager) (parent child : Nat) (h : m.WellFormed)
    (hp : (m.commitmentHeap child).commitment ≠ none) (hc : child < m.commitmentCount) :
    (m.registerChild parent child).1.WellFormed ∧ m.Grows (m.registerChild parent child).1 := by
  have h1 := WellFormed_commitmentRegisterChild m parent child h hp hc
  have g1 := Grows_commitmentRegisterChild m parent child
  unfold Manager.registerChild
  simp only []
  split
  · rename_i chain _
    have hp1 := g1.2.2 child hc hp
    have h2 := WellFormed_chainAddCommitment _ chain child h1
    have g2 := Grows_trans _ _ _ g1 (Grows_chainAddCommitment _ chain child)
    have h3 := WellFormed_publishChain _ child chain h2 hp1
    have g3 := Grows_trans _ _ _ g2 (Grows_publishChain _ child chain)
    exact ⟨WellFormed_setSolid _ _ _ h3, Grows_trans _ _ _ g3 (Grows_setSolid _ _ _)⟩
  · exact ⟨h1, g1⟩

theorem getOrCreateCommitment_spec (m : Manager) (id : CommitmentID) (h : m.WellFormed) :
    (m.getOrCreateCommitment id).1.WellFormed ∧ m.Grows (m.getOrCreateCommitment id).1 ∧
      (m.getOrCreateCommitment id).2.1 < (m.getOrCreateCommitment id).1.commitmentCount := by
  unfold Manager.getOrCreateCommitment
  simp only []
  cases hs : m.commitmentsByID id.index with
  | none =>
    have hg : mapGet (m.commitmentsByID.getOrCreate id.index).2 id = none := by
      simp [IndexedStorage.getOrCreate, hs, mapGet]
    simp only [hg]
    refine ⟨?_, ⟨Nat.le_succ _, rfl, ?_⟩, Nat.lt_succ_self _⟩
    · constructor
      · obtain ⟨r, h1, h2, h3⟩ := h.root
        refine ⟨r, h1, Nat.lt_succ_of_lt h2, ?_⟩
        have : r ≠ m.commitmentCount := by omega
        simp only [this, if_false]
        exact h3
      · intro p hp
        by_cases hpc : p = m.commitmentCount
        · simp [hpc, NewChainCommitment] at hp
        · simp only [hpc, if_false] at hp ⊢
          exact h.chainPublished p hp
      · intro p cid q hq
        by_cases hpc : p = m.commitmentCount
        · simp [hpc, NewChainCommitment, mapGet] at hq
        · simp only [hpc, if_false] at hq
          obtain ⟨h1, h2⟩ := h.childrenPublished p cid q hq
          have : q ≠ m.commitmentCount := by omega
          simp only [this, if_false]
          exact ⟨h1, Nat.lt_succ_of_lt h2⟩
      · intro s cid q hq
        simp only [IndexedStorage.lookup, IndexedStorage.put, IndexedStorage.getOrCreate, hs] at hq
        by_cases hsi : s = id.index
        · simp only [hsi, if_true, mapSet, mapGet] at hq
          by_cases hid : id = cid
          · simp only [hid, if_true] at hq
            cases hq; exact Nat.lt_succ_self _
          · simp [hid] at hq
        · simp only [hsi, if_false] at hq
          exact Nat.lt_succ_of_lt (h.storageValid s cid q hq)
    · intro q hq hp
      have : q ≠ m.commitmentCount := by omega
      simp only [this, if_false]
      exact hp
  | some inner =>
    have hgc : m.commitmentsByID.getOrCreate id.index = (m.commitmentsByID, inner) := by
      simp [IndexedStorage.getOrCreate, hs]
    simp only [hgc]
    cases hg : mapGet inner id with
    | some p =>
      simp only []
      refine ⟨WellFormed_congr m _ h rfl rfl rfl rfl, Grows_congr m _ rfl rfl rfl, ?_⟩
      apply h.storageValid id.index id p
      simp [IndexedStorage.lookup, hs, hg]
    | none =>
      simp only []
      refine ⟨?_, ⟨Nat.le_succ _, rfl, ?_⟩, Nat.lt_succ_self _⟩
      · constructor
        · obtain ⟨r, h1, h2, h3⟩ := h.root
          refine ⟨r, h1, Nat.lt_succ_of_lt h2, ?_⟩
          have : r ≠ m.commitmentCount := by omega
          simp only [this, if_false]
          exact h3
        · intro p hp
          by_cases hpc : p = m.commitmentCount
          · simp [hpc, NewChainCommitment] at hp
          · simp only [hpc, if_false] at hp ⊢
            exact h.chainPublished p hp
        · intro p cid q hq
          by_cases hpc : p = m.commitmentCount
          · simp [hpc, NewChainCommitment, mapGet] at hq
          · simp only [hpc, if_false] at hq
            obtain ⟨h1, h2⟩ := h.childrenPublished p cid q hq
            have : q ≠ m.commitmentCount := by omega
            simp only [this, if_false]
            exact ⟨h1, Nat.lt_succ_of_lt h2⟩
        · intro s cid q hq
          simp only [IndexedStorage.lookup, IndexedStorage.put] at hq
          by_cases hsi : s = id.index
          · simp only [hsi, if_true, mapGet_mapSet] at hq
            by_cases hid : id = cid
            · simp only [hid, if_true] at hq
              cases hq; exact Nat.lt_succ_self _
            · simp only [hid, if_false] at hq
              apply Nat.lt_succ_of_lt (h.storageValid id.index cid q _)
              simp [IndexedStorage.lookup, hs, hq]
          · simp only [hsi, if_false] at hq
            exact Nat.lt_succ_of_lt (h.storageValid s cid q hq)
      · intro q hq hp
        have : q ≠ m.commitmentCount := by omega
        simp only [this, if_false]
        exact hp

theorem walkerPushAll_mem (queue seen xs : List Nat) (y : Nat)
    (h : y ∈ (Manager.walkerPushAll queue seen xs).1) : y ∈ queue ∨ y ∈ xs := by
  induction xs generalizing queue seen with
  | nil => exact Or.inl h
  | cons x rest ih =>
    unfold Manager.walkerPushAll at h
    by_cases hx : x ∈ seen
    · rw [if_pos hx] at h
      rcases ih queue seen h with h1 | h1
      · exact Or.inl h1
      · exact Or.inr (List.mem_cons_of_mem _ h1)
    · rw [if_neg hx] at h
      rcases ih (queue ++ [x]) (x :: seen) h with h1 | h1
      · rcases List.mem_append.mp h1 with h2 | h2
        · exact Or.inl h2
        · rw [List.mem_singleton.mp h2]; exact Or.inr (List.mem_cons_self _ _)
      · exact Or.inr (List.mem_cons_of_mem _ h1)

/-- An invariant of the steps of a walk, with a condition on the walked elements
that the steps hand on, holds after the walk. -/
theorem walk_invariant (step : Manager → Nat → Manager × List Nat)
    (I : Manager → Prop) (Q : Manager → Nat → Prop)
    (hstep : ∀ m x, I m → Q m x →
      I (step m x).1 ∧ (∀ y ∈ (step m x).2, Q (step m x).1 y) ∧
        ∀ y, Q m y → Q (step m x).1 y)
    (fuel : Nat) (queue seen : List Nat) (m m1 : Manager)
    (hI : I m) (hQ : ∀ x ∈ queue, Q m x)
    (h : Manager.walk step fuel queue seen m = .ok m1) : I m1 := by
  induction fuel generalizing queue seen m with
  | zero =>
    cases queue with
    | nil =>
      simp only [Manager.walk] at h
      cases h; exact hI
    | cons x rest => simp [Manager.walk] at h
  | succ k ih =>
    cases queue with
    | nil =>
      simp only [Manager.walk] at h
      cases h; exact hI
    | cons x rest =>
      simp only [Manager.walk] at h
      obtain ⟨h1, h2, h3⟩ := hstep m x hI (hQ x (List.mem_cons_self _ _))
      apply ih _ _ (step m x).1 h1 _ h
      intro y hy
      rcases walkerPushAll_mem _ _ _ y hy with hy1 | hy1
      · exact h3 y (hQ y (List.mem_cons_of_mem _ hy1))
      · exact h2 y hy1

theorem mainChild_published (m : Manager) (p q : Nat) (h : m.WellFormed)
    (hq : m.mainChild p = some q) :
    (m.commitmentHeap q).commitment ≠ none ∧ q < m.commitmentCount := by
  unfold Manager.mainChild at hq
  cases hid : (m.commitmentHeap p).mainChildID with
  | none => simp [hid] at hq
  | some id =>
    simp only [hid] at hq
    exact h.childrenPublished p id q hq

theorem registerCommitment_spec (m : Manager) (c : Commitment) (h : m.WellFormed) :
    (m.registerCommitment c).1.WellFormed ∧ m.Grows (m.registerCommitment c).1 ∧
      (m.registerCommitment c).2.2.2.2 < (m.registerCommitment c).1.commitmentCount ∧
      (((m.registerCommitment c).1.commitmentHeap (m.registerCommitment c).2.2.2.2).commitment
        ≠ none) := by
  unfold Manager.registerCommitment
  simp only []
  have s1 := getOrCreateCommitment_spec m c.prevID h
  generalize m.getOrCreateCommitment c.prevID = r1 at s1 ⊢
  obtain ⟨m1, parent, created⟩ := r1
  obtain ⟨w1, g1, _⟩ := s1
  simp only at w1 g1 ⊢
  have hm1t : ∃ m1t : Manager, m1t = (if created = true then
      m1.trigger (Event.commitmentMissing (m1.commitmentHeap parent).id) else m1) ∧
      m1t.WellFormed ∧ m.Grows m1t := by
    refine ⟨_, rfl, ?_, ?_⟩
    · split
      · exact WellFormed_trigger _ _ w1
      · exact w1
    · split
      · exact Grows_trans _ _ _ g1 (Grows_congr _ _ rfl rfl rfl)
      · exact g1
  obtain ⟨m1t, hm1t, w1t, g1t⟩ := hm1t
  rw [← hm1t]
  have s2 := getOrCreateCommitment_spec m1t c.id w1t
  generalize m1t.getOrCreateCommitment c.id = r2 at s2 ⊢
  obtain ⟨m2, cc, created2⟩ := r2
  obtain ⟨w2, g2, v2⟩ := s2
  simp only at w2 g2 v2 ⊢
  have w3 := WellFormed_publishCommitment m2 cc c w2
  have g3 := Grows_publishCommitment m2 cc c
  have p3 := publishCommitment_published m2 cc c
  have c3 := publishCommitment_count m2 cc c
  generalize m2.publishCommitment cc c = r3 at w3 g3 p3 c3 ⊢
  obtain ⟨m3, published⟩ := r3
  simp only at w3 g3 p3 c3 ⊢
  have v3 : cc < m3.commitmentCount := by rw [c3]; exact v2
  cases published with
  | false =>
    simp only [Bool.not_false, if_true]
    exact ⟨w3, Grows_trans _ _ _ g1t (Grows_trans _ _ _ g2 g3), v3, p3⟩
  | true =>
    simp only [Bool.not_true, Bool.false_eq_true, if_false]
    have hm4 : ∃ m4 : Manager, m4 = (if (!created2) = true then
        m3.trigger (Event.missingCommitmentReceived (m3.commitmentHeap cc).id) else m3) ∧
        m4.WellFormed ∧ m3.Grows m4 ∧ m4.commitmentHeap = m3.commitmentHeap := by
      refine ⟨_, rfl, ?_, ?_, ?_⟩
      · split
        · exact WellFormed_trigger _ _ w3
        · exact w3
      · split
        · exact Grows_congr _ _ rfl rfl rfl
        · exact Grows_refl _
      · split <;> rfl
    obtain ⟨m4, hm4, w4, g4, hh4⟩ := hm4
    rw [← hm4]
    have p4 : (m4.commitmentHeap cc).commitment ≠ none := by rw [hh4]; exact p3
    have v4 : cc < m4.commitmentCount := lt_of_lt_of_le v3 g4.1
    obtain ⟨w5, g5⟩ := registerChild_spec m4 parent cc w4 p4 v4
    refine ⟨w5, ?_, lt_of_lt_of_le v4 g5.1, g5.2.2 _ v4 p4⟩
    exact Grows_trans _ _ _ g1t (Grows_trans _ _ _ g2 (Grows_trans _ _ _ g3
      (Grows_trans _ _ _ g4 g5)))

theorem propagateChainToMainChild_step (m0 : Manager) (chain : Nat) (m : Manager) (x : Nat)
    (hI : m.WellFormed ∧ m0.Grows m)
    (hQ : x < m.commitmentCount ∧ (m.commitmentHeap x).commitment ≠ none) :
    ((Manager.propagateChainToMainChild chain m x).1.WellFormed ∧
        m0.Grows (Manager.propagateChainToMainChild chain m x).1) ∧
      (∀ y ∈ (Manager.propagateChainToMainChild chain m x).2,
        y < (Manager.propagateChainToMainChild chain m x).1.commitmentCount ∧
          ((Manager.propagateChainToMainChild chain m x).1.commitmentHeap y).commitment ≠ none) ∧
      ∀ y, (y < m.commitmentCount ∧ (m.commitmentHeap y).commitment ≠ none) →
        (y < (Manager.propagateChainToMainChild chain m x).1.commitmentCount ∧
          ((Manager.propagateChainToMainChild chain m x).1.commitmentHeap y).commitment ≠ none) := by
  have w1 := WellFormed_publishChain m x chain hI.1 hQ.2
  have g1 := Grows_publishChain m x chain
  unfold Manager.propagateChainToMainChild
  simp only []
  generalize m.publishChain x chain = r at w1 g1 ⊢
  obtain ⟨m1, published⟩ := r
  simp only at w1 g1 ⊢
  cases published with
  | false =>
    simp only [Bool.not_false, if_true]
    refine ⟨⟨w1, Grows_trans _ _ _ hI.2 g1⟩, fun y hy => absurd hy (List.not_mem_nil y), ?_⟩
    intro y hy
    exact ⟨lt_of_lt_of_le hy.1 g1.1, g1.2.2 y hy.1 hy.2⟩
  | true =>
    simp only [Bool.not_true, Bool.false_eq_true, if_false]
    have w2 := WellFormed_chainAddCommitment m1 chain x w1
    have g2 : m.Grows (m1.chainAddCommitment chain x) :=
      Grows_trans _ _ _ g1 (Grows_chainAddCommitment m1 chain x)
    have hst : ∀ y, (y < m.commitmentCount ∧ (m.commitmentHeap y).commitment ≠ none) →
        (y < (m1.chainAddCommitment chain x).commitmentCount ∧
          ((m1.chainAddCommitment chain x).commitmentHeap y).commitment ≠ none) :=
      fun y hy => ⟨lt_of_lt_of_le hy.1 g2.1, g2.2.2 y hy.1 hy.2⟩
    cases hmc : (m1.chainAddCommitment chain x).mainChild x with
    | none =>
      simp only []
      exact ⟨⟨w2, Grows_trans _ _ _ hI.2 g2⟩, fun y hy => absurd hy (List.not_mem_nil y), hst⟩
    | some mc =>
      simp only []
      refine ⟨⟨w2, Grows_trans _ _ _ hI.2 g2⟩, ?_, hst⟩
      intro y hy
      rw [List.mem_singleton.mp hy]
      have := mainChild_published _ x mc w2 hmc
      exact ⟨this.2, this.1⟩

theorem propagateReplaceChainToMainChild_step (m0 : Manager) (chain : Nat) (m : Manager)
    (x : Nat) (hI : m.WellFormed ∧ m0.Grows m)
    (hQ : x < m.commitmentCount ∧ (m.commitmentHeap x).commitment ≠ none) :
    ((Manager.propagateReplaceChainToMainChild chain m x).1.WellFormed ∧
        m0.Grows (Manager.propagateReplaceChainToMainChild chain m x).1) ∧
      (∀ y ∈ (Manager.propagateReplaceChainToMainChild chain m x).2,
        y < (Manager.propagateReplaceChainToMainChild chain m x).1.commitmentCount ∧
          ((Manager.propagateReplaceChainToMainChild chain m x).1.commitmentHeap y).commitment
            ≠ none) ∧
      ∀ y, (y < m.commitmentCount ∧ (m.commitmentHeap y).commitment ≠ none) →
        (y < (Manager.propagateReplaceChainToMainChild chain m x).1.commitmentCount ∧
          ((Manager.propagateReplaceChainToMainChild chain m x).1.commitmentHeap y).commitment
            ≠ none) := by
  have w2 : ((m.replaceChain x chain).chainAddCommitment chain x).WellFormed :=
    WellFormed_chainAddCommitment _ chain x (WellFormed_replaceChain m x chain hI.1 hQ.2)
  have g2 : m.Grows ((m.replaceChain x chain).chainAddCommitment chain x) :=
    Grows_trans _ _ _ (Grows_replaceChain m x chain) (Grows_chainAddCommitment _ chain x)
  have hst : ∀ y, (y < m.commitmentCount ∧ (m.commitmentHeap y).commitment ≠ none) →
      (y < ((m.replaceChain x chain).chainAddCommitment chain x).commitmentCount ∧
        (((m.replaceChain x chain).chainAddCommitment chain x).commitmentHeap y).commitment
          ≠ none) :=
    fun y hy => ⟨lt_of_lt_of_le hy.1 g2.1, g2.2.2 y hy.1 hy.2⟩
  unfold Manager.propagateReplaceChainToMainChild
  simp only []
  cases hmc : ((m.replaceChain x chain).chainAddCommitment chain x).mainChild x with
  | none =>
    simp only []
    exact ⟨⟨w2, Grows_trans _ _ _ hI.2 g2⟩, fun y hy => absurd hy (List.not_mem_nil y), hst⟩
  | some mc =>
    simp only []
    refine ⟨⟨w2, Grows_trans _ _ _ hI.2 g2⟩, ?_, hst⟩
    intro y hy
    rw [List.mem_singleton.mp hy]
    have := mainChild_published _ x mc w2 hmc
    exact ⟨this.2, this.1⟩

theorem propagateSolidity_step (m0 : Manager) (m : Manager) (x : Nat)
    (hI : m.WellFormed ∧ m0.Grows m) :
    (Manager.propagateSolidity m x).1.WellFormed ∧ m0.Grows (Manager.propagateSolidity m x).1 := by
  have w1 := WellFormed_setSolid m x true hI.1
  have g1 := Grows_setSolid m x true
  unfold Manager.propagateSolidity
  simp only []
  split
  · exact ⟨w1, Grows_trans _ _ _ hI.2 g1⟩
  · exact ⟨w1, Grows_trans _ _ _ hI.2 g1⟩

theorem deleteAllChildrenFromCache_step (m0 : Manager) (m : Manager) (x : Nat)
    (hI : m.WellFormed ∧ m0.Grows m) :
    (Manager.deleteAllChildrenFromCache m x).1.WellFormed ∧
      m0.Grows (Manager.deleteAllChildrenFromCache m x).1 := by
  unfold Manager.deleteAllChildrenFromCache
  simp only []
  cases hs : m.commitmentsByID.get (m.commitmentHeap x).id.index with
  | none => exact hI
  | some inner =>
    simp only []
    refine ⟨?_, Grows_trans _ _ _ hI.2 (Grows_congr _ _ rfl rfl rfl)⟩
    constructor
    · exact hI.1.root
    · exact hI.1.chainPublished
    · exact hI.1.childrenPublished
    · intro s id q hq
      simp only [IndexedStorage.lookup, IndexedStorage.put] at hq
      by_cases hsi : s = (m.commitmentHeap x).id.index
      · simp only [hsi, if_true, mapGet_mapDelete] at hq
        by_cases hid : (m.commitmentHeap x).id = id
        · rw [if_pos hid] at hq; cases hq
        · rw [if_neg hid] at hq
          apply hI.1.storageValid (m.commitmentHeap x).id.index id q
          unfold IndexedStorage.get at hs
          simp [IndexedStorage.lookup, hs, hq]
      · simp only [hsi, if_false] at hq
        exact hI.1.storageValid s id q hq

theorem walk_propagateChain_spec (chain fuel : Nat) (queue seen : List Nat) (m m1 : Manager)
    (hw : m.WellFormed)
    (hq : ∀ x ∈ queue, x < m.commitmentCount ∧ (m.commitmentHeap x).commitment ≠ none)
    (h : Manager.walk (Manager.propagateChainToMainChild chain) fuel queue seen m = .ok m1) :
    m1.WellFormed ∧ m.Grows m1 :=
  walk_invariant (Manager.propagateChainToMainChild chain)
    (fun s => s.WellFormed ∧ m.Grows s)
    (fun s x => x < s.commitmentCount ∧ (s.commitmentHeap x).commitment ≠ none)
    (fun s x hI hQ => propagateChainToMainChild_step m chain s x hI hQ)
    fuel queue seen m m1 ⟨hw, Grows_refl m⟩ hq h

theorem walk_propagateReplace_spec (chain fuel : Nat) (queue seen : List Nat) (m m1 : Manager)
    (hw : m.WellFormed)
    (hq : ∀ x ∈ queue, x < m.commitmentCount ∧ (m.commitmentHeap x).commitment ≠ none)
    (h : Manager.walk (Manager.propagateReplaceChainToMainChild chain) fuel queue seen m
      = .ok m1) :
    m1.WellFormed ∧ m.Grows m1 :=
  walk_invariant (Manager.propagateReplaceChainToMainChild chain)
    (fun s => s.WellFormed ∧ m.Grows s)
    (fun s x => x < s.commitmentCount ∧ (s.commitmentHeap x).commitment ≠ none)
    (fun s x hI hQ => propagateReplaceChainToMainChild_step m chain s x hI hQ)
    fuel queue seen m m1 ⟨hw, Grows_refl m⟩ hq h

theorem walk_propagateSolidity_spec (fuel : Nat) (queue seen : List Nat) (m m1 : Manager)
    (hw : m.WellFormed)
    (h : Manager.walk Manager.propagateSolidity fuel queue seen m = .ok m1) :
    m1.WellFormed ∧ m.Grows m1 :=
  walk_invariant Manager.propagateSolidity
    (fun s => s.WellFormed ∧ m.Grows s) (fun _ _ => True)
    (fun s x hI _ => ⟨propagateSolidity_step m s x hI, fun _ _ => trivial, fun _ _ => trivial⟩)
    fuel queue seen m m1 ⟨hw, Grows_refl m⟩ (fun _ _ => trivial) h

theorem walk_deleteAll_spec (fuel : Nat) (queue seen : List Nat) (m m1 : Manager)
    (hw : m.WellFormed)
    (h : Manager.walk Manager.deleteAllChildrenFromCache fuel queue seen m = .ok m1) :
    m1.WellFormed ∧ m.Grows m1 :=
  walk_invariant Manager.deleteAllChildrenFromCache
    (fun s => s.WellFormed ∧ m.Grows s) (fun _ _ => True)
    (fun s x hI _ => ⟨deleteAllChildrenFromCache_step m s x hI, fun _ _ => trivial,
      fun _ _ => trivial⟩)
    fuel queue seen m m1 ⟨hw, Grows_refl m⟩ (fun _ _ => trivial) h

theorem processCommitment_spec (m m1 : Manager) (c : Commitment) (r : Bool × Bool × Option Nat)
    (hw : m.WellFormed) (h : m.processCommitment c = .ok (m1, r)) :
    m1.WellFormed ∧ m.Grows m1 := by
  unfold Manager.processCommitment at h
  split at h
  · cases h
  · split at h
    · split at h
      · cases h; exact ⟨hw, Grows_refl m⟩
      · cases h; exact ⟨WellFormed_trigger _ _ hw, Grows_congr _ _ rfl rfl rfl⟩
    · have s := registerCommitment_spec m c hw
      simp only [] at h
      generalize m.registerCommitment c = rc at s h
      obtain ⟨m2, isNew, isSolid, wasForked, cc⟩ := rc
      obtain ⟨w2, g2, v2, p2⟩ := s
      simp only at w2 g2 v2 p2 h
      split at h
      · cases h; exact ⟨w2, g2⟩
      · rename_i chain hchain
        split at h
        · cases h; exact ⟨w2, g2⟩
        · have hafter : ∀ m3, (match m2.mainChild cc with
              | none => Except.ok m2
              | some mc => Manager.walk (Manager.propagateChainToMainChild chain)
                  m2.commitmentCount [mc] [mc] m2) = Except.ok m3 →
              m3.WellFormed ∧ m2.Grows m3 := by
            intro m3 h3
            split at h3
            · cases h3; exact ⟨w2, Grows_refl _⟩
            · rename_i mc hmc
              apply walk_propagateChain_spec chain _ _ _ m2 m3 w2 _ h3
              intro x hx
              rw [List.mem_singleton.mp hx]
              have := mainChild_published m2 cc mc w2 hmc
              exact ⟨this.2, this.1⟩
          split at h
          · cases h
          · rename_i m3 h3
            obtain ⟨w3, g3⟩ := hafter m3 h3
            split at h
            · split at h
              · cases h
              · rename_i m4 h4
                cases h
                obtain ⟨w4, g4⟩ := walk_propagateSolidity_spec _ _ _ m3 _ w3 h4
                exact ⟨w4, Grows_trans _ _ _ g2 (Grows_trans _ _ _ g3 g4)⟩
            · cases h
              exact ⟨w3, Grows_trans _ _ _ g2 g3⟩

theorem detectForks_wellFormed (m m1 : Manager) (c source : Nat) (hw : m.WellFormed)
    (h : m.detectForks c source = .ok m1) : m1.WellFormed ∧ m.Grows m1 := by
  unfold Manager.detectForks at h
  split at h
  · cases h
  · cases h; exact ⟨hw, Grows_refl m⟩
  · cases h; exact ⟨hw, Grows_refl m⟩
  · simp only [] at h
    split at h
    · cases h; exact ⟨hw, Grows_refl m⟩
    · split at h
      · cases h
      · split at h
        · cases h
        · split at h
          · cases h; exact ⟨hw, Grows_refl m⟩
          · cases h
            exact ⟨WellFormed_congr m _ hw rfl rfl rfl rfl, Grows_congr _ _ rfl rfl rfl⟩

theorem switchLoop_wellFormed (forkingPoint fuel fp : Nat) (m m1 : Manager)
    (e : Option ManagerError) (hw : m.WellFormed)
    (h : Manager.switchLoop forkingPoint fuel fp m = .ok (m1, e)) :
    m1.WellFormed ∧ m.Grows m1 := by
  induction fuel generalizing fp m with
  | zero => simp [Manager.switchLoop] at h
  | succ k ih =>
    unfold Manager.switchLoop at h
    split at h
    · cases h
    · split at h
      · cases h
      · rename_i fpParent _
        split at h
        · cases h
        · rename_i mc hmc
          simp only [] at h
          have hp := mainChild_published m fpParent mc hw hmc
          have w1 := WellFormed_NewChain m mc hw
          have g1 := Grows_NewChain m mc
          have w2 := WellFormed_setMainChild (m.NewChain mc).1 fpParent fp w1
          have g2 := Grows_trans _ _ _ g1 (Grows_setMainChild (m.NewChain mc).1 fpParent fp)
          split at h
          · cases h; exact ⟨w2, g2⟩
          · split at h
            · cases h
            · rename_i m3 h3
              have hq : ∀ x ∈ [mc],
                  x < ((m.NewChain mc).1.setMainChild fpParent fp).1.commitmentCount ∧
                  (((m.NewChain mc).1.setMainChild fpParent fp).1.commitmentHeap x).commitment
                    ≠ none := by
                intro x hx
                rw [List.mem_singleton.mp hx]
                exact ⟨lt_of_lt_of_le hp.2 g2.1, g2.2.2 mc hp.2 hp.1⟩
              obtain ⟨w3, g3⟩ := walk_propagateReplace_spec _ _ _ _ _ m3 w2 hq h3
              split at h
              · cases h; exact ⟨w3, Grows_trans _ _ _ g2 g3⟩
              · split at h
                · cases h
                · obtain ⟨w4, g4⟩ := ih _ m3 w3 h
                  exact ⟨w4, Grows_trans _ _ _ g2 (Grows_trans _ _ _ g3 g4)⟩

theorem switchMainChainToCommitment_wellFormed (m m1 : Manager) (c : Nat)
    (e : Option ManagerError) (hw : m.WellFormed)
    (h : m.switchMainChainToCommitment c = .ok (m1, e)) :
    m1.WellFormed ∧ m.Grows m1 := by
  unfold Manager.switchMainChainToCommitment at h
  split at h
  · cases h
  · cases h; exact ⟨hw, Grows_refl m⟩
  · cases h; exact ⟨hw, Grows_refl m⟩
  · split at h
    · cases h
    · split at h
      · cases h; exact ⟨hw, Grows_refl m⟩
      · rename_i parentCommitment _
        simp only [] at h
        split at h
        · cases h
        · split at h
          · cases h
          · rename_i m2 e2 h2
            cases h
            exact switchLoop_wellFormed _ _ _ m _ _ hw h2
          · rename_i m2 h2
            obtain ⟨w2, g2⟩ := switchLoop_wellFormed _ _ _ m m2 none hw h2
            split at h
            · cases h
            · split at h
              · cases h
              · rename_i snapshotChain _
                split at h
                · cases h
                · rename_i oldMain _
                  have w3 := WellFormed_deleteChild _ parentCommitment oldMain
                    (WellFormed_setChain m2 snapshotChain
                      ((m2.chainHeap snapshotChain).dropCommitmentsAfter
                        (m2.commitmentHeap c).id.index) w2)
                  have g3 : m2.Grows ((m2.setChain snapshotChain
                      ((m2.chainHeap snapshotChain).dropCommitmentsAfter
                        (m2.commitmentHeap c).id.index)).deleteChild parentCommitment oldMain) :=
                    Grows_trans _ _ _ (Grows_congr _ _ rfl rfl rfl) (Grows_deleteChild _ _ _)
                  split at h
                  · split at h
                    · cases h
                    · rename_i m4 h4
                      cases h
                      obtain ⟨w4, g4⟩ := walk_deleteAll_spec _ _ _ _ _ w3 h4
                      exact ⟨w4, Grows_trans _ _ _ g2 (Grows_trans _ _ _ g3 g4)⟩
                  · cases h
                    exact ⟨w3, Grows_trans _ _ _ g2 g3⟩

theorem Initialize_wellFormed (depth : Int) (c0 : Commitment) :
    ((Manager.NewManagerWithDepth depth).Initialize c0).WellFormed ∧
      ((Manager.NewManagerWithDepth depth).Initialize c0).rootCommitment = some 0 := by
  have hheap : ∀ q, (((Manager.NewManagerWithDepth depth).Initialize c0).commitmentHeap q)
      = if q = 0 then
          { id := c0.id, commitment := some c0, solid := true, mainChildID := none,
            children := [], chain := some 0 }
        else NewChainCommitment ⟨0, 0⟩ := by
    intro q
    by_cases hq : q = 0
    · subst hq
      simp [Manager.Initialize, Manager.NewManagerWithDepth, Manager.getOrCreateCommitment,
        IndexedStorage.getOrCreate, IndexedStorage.empty, mapGet, Manager.publishCommitment,
        Manager.setSolid, Manager.NewChain, Manager.publishChain, Manager.setCommitment,
        NewChainCommitment, NewEvictionIndex]
    · simp [Manager.Initialize, Manager.NewManagerWithDepth, Manager.getOrCreateCommitment,
        IndexedStorage.getOrCreate, IndexedStorage.empty, mapGet, Manager.publishCommitment,
        Manager.setSolid, Manager.NewChain, Manager.publishChain, Manager.setCommitment,
        NewChainCommitment, NewEvictionIndex, hq]
  have hcount : ((Manager.NewManagerWithDepth depth).Initialize c0).commitmentCount = 1 := by
    simp [Manager.Initialize, Manager.NewManagerWithDepth, Manager.getOrCreateCommitment,
      IndexedStorage.getOrCreate, IndexedStorage.empty, mapGet, Manager.publishCommitment,
      Manager.setSolid, Manager.NewChain, Manager.publishChain, Manager.setCommitment,
      NewChainCommitment, NewEvictionIndex]
  have hroot : ((Manager.NewManagerWithDepth depth).Initialize c0).rootCommitment = some 0 := by
    simp [Manager.Initialize, Manager.NewManagerWithDepth, Manager.getOrCreateCommitment,
      IndexedStorage.getOrCreate, IndexedStorage.empty, mapGet, Manager.publishCommitment,
      Manager.setSolid, Manager.NewChain, Manager.publishChain, Manager.setCommitment,
      NewChainCommitment, NewEvictionIndex]
  have hstore : ∀ s id q,
      ((Manager.NewManagerWithDepth depth).Initialize c0).commitmentsByID.lookup s id = some q →
        q = 0 := by
    intro s id q hq
    have hst : ((Manager.NewManagerWithDepth depth).Initialize c0).commitmentsByID
        = (IndexedStorage.empty.put c0.id.index []).put c0.id.index [(c0.id, 0)] := rfl
    rw [hst] at hq
    simp only [IndexedStorage.lookup, IndexedStorage.put, IndexedStorage.empty] at hq
    by_cases hs : s = c0.id.index
    · simp only [hs, if_true, mapGet] at hq
      by_cases hid : c0.id = id
      · simp only [hid, if_true] at hq
        exact (Option.some.inj hq).symm
      · simp [hid] at hq
    · simp [hs] at hq
  refine ⟨?_, hroot⟩
  constructor
  · refine ⟨0, hroot, by rw [hcount]; exact Nat.lt_succ_self 0, ?_⟩
    rw [hheap]; simp
  · intro p hp
    rw [hheap] at hp ⊢
    by_cases hq : p = 0
    · simp [hq]
    · simp [hq, NewChainCommitment] at hp
  · intro p id q hq
    rw [hheap] at hq
    by_cases hp : p = 0
    · simp [hp, mapGet] at hq
    · simp [hp, NewChainCommitment, mapGet] at hq
  · intro s id q hq
    rw [hstore s id q hq, hcount]
    exact Nat.lt_succ_self 0

theorem call_wellFormed (m m1 : Manager) (c : Call) (hc : c.isProcessOrSwitch = true)
    (hw : m.WellFormed) (h : m.call c = .ok m1) : m1.WellFormed ∧ m.Grows m1 := by
  cases c with
  | processCommitment cm =>
    simp only [Manager.call] at h
    split at h
    · cases h
    · rename_i r hr
      cases h
      unfold Manager.ProcessCommitment at hr
      split at hr
      · cases hr
      · rename_i m2 _ _ hp
        cases hr
        exact processCommitment_spec m _ cm _ hw hp
      · rename_i m2 isNew isSolid cc hp
        obtain ⟨w2, g2⟩ := processCommitment_spec m m2 cm _ hw hp
        split at hr
        · split at hr
          · cases hr
          · cases hr
          · rename_i m3 h3
            cases hr
            obtain ⟨w3, g3⟩ := switchMainChainToCommitment_wellFormed m2 _ cc none w2 h3
            exact ⟨w3, Grows_trans _ _ _ g2 g3⟩
        · cases hr
          exact ⟨w2, g2⟩
  | processCandidateCommitment cm =>
    simp only [Manager.call] at h
    split at h
    · cases h
    · rename_i r hr
      cases h
      unfold Manager.ProcessCandidateCommitment at hr
      split at hr
      · cases hr
      · rename_i m2 _ _ hp
        cases hr
        exact processCommitment_spec m _ cm _ hw hp
      · rename_i m2 _ isSolid cc hp
        cases hr
        exact processCommitment_spec m _ cm _ hw hp
  | processCommitmentFromSource cm source =>
    simp only [Manager.call] at h
    split at h
    · cases h
    · rename_i r hr
      cases h
      unfold Manager.ProcessCommitmentFromSource at hr
      split at hr
      · cases hr
      · rename_i m2 _ _ hp
        cases hr
        exact processCommitment_spec m _ cm _ hw hp
      · rename_i m2 _ isSolid cc hp
        obtain ⟨w2, g2⟩ := processCommitment_spec m m2 cm _ hw hp
        split at hr
        · cases hr
        · rename_i m3 h3
          cases hr
          obtain ⟨w3, g3⟩ := detectForks_wellFormed m2 _ cc source w2 h3
          exact ⟨w3, Grows_trans _ _ _ g2 g3⟩
  | switchMainChain head =>
    simp only [Manager.call] at h
    split at h
    · cases h
    · rename_i r hr
      cases h
      unfold Manager.SwitchMainChain at hr
      split at hr
      · cases hr; exact ⟨hw, Grows_refl _⟩
      · rename_i cc _
        obtain ⟨m2, e⟩ := r
        exact switchMainChainToCommitment_wellFormed m m2 cc e hw hr
  | evictUntil n => simp [Call.isProcessOrSwitch] at hc
  | setRootCommitment cm => simp [Call.isProcessOrSwitch] at hc

theorem calls_wellFormed (cs : List Call) (m m1 : Manager)
    (hcs : ∀ c ∈ cs, c.isProcessOrSwitch = true) (hw : m.WellFormed)
    (h : m.calls cs = .ok m1) : m1.WellFormed ∧ m.Grows m1 := by
  induction cs generalizing m with
  | nil =>
    simp only [Manager.calls] at h
    cases h; exact ⟨hw, Grows_refl _⟩
  | cons c rest ih =>
    simp only [Manager.calls] at h
    split at h
    · cases h
    · rename_i m2 h2
      obtain ⟨w2, g2⟩ := call_wellFormed m m2 c (hcs c (List.mem_cons_self _ _)) hw h2
      obtain ⟨w3, g3⟩ := ih m2 (fun x hx => hcs x (List.mem_cons_of_mem _ hx)) w2 h
      exact ⟨w3, Grows_trans _ _ _ g2 g3⟩

/-! ## Chain membership -/

set_option maxRecDepth 100000 in
/-- C7, counterexample: on the fresh manager with root `M0`, `ProcessCommitment(F3)`
(the parent `F2` is unknown) returns, and the storage then holds the parent
placeholder `F2` and the commitment `F3`, both with a nil chain. Moreover, after
the switch of Scenario E the stored commitment `M1` is contained in the commitment
sets of two chains, the root's chain and the chain created for the displaced
commitments. And a chain holds one commitment per slot: when `slotJump` and its child
`slotTwin`, both of slot 5, have been received, the stored commitment `slotJump`
(reference 1) has the chain 0, the only chain, whose commitment set holds `slotTwin`
(reference 2) under slot 5, so `slotJump` is not contained in the set of its chain. -/
theorem C7_counterexample :
    (Scenario.fresh.calls [Call.processCommitment (Scenario.F 3)]).toOption.map
        (fun m => (m.commitment (Scenario.F 2).id, m.commitment (Scenario.F 3).id,
          (m.commitmentHeap 1).chain, (m.commitmentHeap 2).chain))
      = some (some 1, some 2, none, none) ∧
      Scenario.scenarioE.commitment (Scenario.M 1).id = some 1 ∧
      mapGet (Scenario.scenarioE.chainHeap 0).commitmentsByIndex 1 = some 1 ∧
      mapGet (Scenario.scenarioE.chainHeap 2).commitmentsByIndex 1 = some 1 ∧
      Scenario.fresh.calls
          [Call.processCommitment Scenario.slotJump, Call.processCommitment Scenario.slotTwin]
        = .ok Scenario.sameSlot ∧
      Scenario.sameSlot.commitment Scenario.slotJump.id = some 1 ∧
      (Scenario.sameSlot.commitmentHeap 1).chain = some 0 ∧
      (Scenario.sameSlot.chainHeap 0).commitmentsByIndex = [(0, 0), (5, 2)] ∧
      Scenario.sameSlot.chainCount = 1 := by
  refine ⟨by rfl, by rfl, by rfl, by rfl, by rfl, by rfl, by rfl, by rfl, by rfl⟩

/-! ## The main-chain switch -/

theorem KeepsSkeleton_refl (m : Manager) : m.KeepsSkeleton m :=
  ⟨fun _ => ⟨rfl, rfl, rfl⟩, rfl, rfl⟩

theorem KeepsSkeleton_trans (m m1 m2 : Manager) (h1 : m.KeepsSkeleton m1)
    (h2 : m1.KeepsSkeleton m2) : m.KeepsSkeleton m2 :=
  ⟨fun p => ⟨(h2.1 p).1.trans (h1.1 p).1, (h2.1 p).2.1.trans (h1.1 p).2.1,
      (h2.1 p).2.2.trans (h1.1 p).2.2⟩,
    h2.2.1.trans h1.2.1, h2.2.2.trans h1.2.2⟩

theorem KeepsLinks_refl (m : Manager) : m.KeepsLinks m :=
  ⟨KeepsSkeleton_refl m, fun _ => rfl⟩

theorem KeepsLinks_trans (m m1 m2 : Manager) (h1 : m.KeepsLinks m1) (h2 : m1.KeepsLinks m2) :
    m.KeepsLinks m2 :=
  ⟨KeepsSkeleton_trans _ _ _ h1.1 h2.1, fun p => (h2.2 p).trans (h1.2 p)⟩

theorem KeepsLinks_setCommitment (m : Manager) (p : Nat) (c : ChainCommitment)
    (h1 : c.id = (m.commitmentHeap p).id)
    (h2 : c.commitment = (m.commitmentHeap p).commitment)
    (h3 : c.children = (m.commitmentHeap p).children)
    (h4 : c.mainChildID = (m.commitmentHeap p).mainChildID) :
    m.KeepsLinks (m.setCommitment p c) := by
  refine ⟨⟨?_, rfl, rfl⟩, ?_⟩
  · intro q
    show (if q = p then c else m.commitmentHeap q).id = _ ∧
      (if q = p then c else m.commitmentHeap q).commitment = _ ∧
      (if q = p then c else m.commitmentHeap q).children = _
    by_cases hq : q = p
    · rw [if_pos hq, hq]; exact ⟨h1, h2, h3⟩
    · rw [if_neg hq]; exact ⟨rfl, rfl, rfl⟩
  · intro q
    show (if q = p then c else m.commitmentHeap q).mainChildID = _
    by_cases hq : q = p
    · rw [if_pos hq, hq]; exact h4
    · rw [if_neg hq]

theorem KeepsLinks_congr (m m1 : Manager) (h1 : m1.commitmentHeap = m.commitmentHeap)
    (h2 : m1.commitmentsByID = m.commitmentsByID) (h3 : m1.rootCommitment = m.rootCommitment) :
    m.KeepsLinks m1 :=
  ⟨⟨fun p => by rw [h1]; exact ⟨rfl, rfl, rfl⟩, h2, h3⟩, fun p => by rw [h1]⟩

theorem KeepsLinks_NewChain (m : Manager) (fp : Nat) : m.KeepsLinks (m.NewChain fp).1 :=
  KeepsLinks_congr m _ rfl rfl rfl

theorem KeepsLinks_chainAddCommitment (m : Manager) (chain c : Nat) :
    m.KeepsLinks (m.chainAddCommitment chain c) :=
  KeepsLinks_congr m _ rfl rfl rfl

theorem KeepsLinks_setChain (m : Manager) (p : Nat) (c : Chain) : m.KeepsLinks (m.setChain p c) :=
  KeepsLinks_congr m _ rfl rfl rfl

theorem KeepsLinks_replaceChain (m : Manager) (p chain : Nat) :
    m.KeepsLinks (m.replaceChain p chain) :=
  KeepsLinks_setCommitment m p _ rfl rfl rfl rfl

theorem KeepsLinks_propagateReplace (chain : Nat) (m : Manager) (x : Nat) :
    m.KeepsLinks (Manager.propagateReplaceChainToMainChild chain m x).1 := by
  have h : m.KeepsLinks ((m.replaceChain x chain).chainAddCommitment chain x) :=
    KeepsLinks_trans _ _ _ (KeepsLinks_replaceChain m x chain)
      (KeepsLinks_chainAddCommitment _ chain x)
  unfold Manager.propagateReplaceChainToMainChild
  simp only []
  split <;> exact h

theorem walk_propagateReplace_links (chain fuel : Nat) (queue seen : List Nat) (m m1 : Manager)
    (h : Manager.walk (Manager.propagateReplaceChainToMainChild chain) fuel queue seen m
      = .ok m1) : m.KeepsLinks m1 :=
  walk_invariant (Manager.propagateReplaceChainToMainChild chain)
    (fun s => m.KeepsLinks s) (fun _ _ => True)
    (fun s x hI _ => ⟨KeepsLinks_trans _ _ _ hI (KeepsLinks_propagateReplace chain s x),
      fun _ _ => trivial, fun _ _ => trivial⟩)
    fuel queue seen m m1 (KeepsLinks_refl m) (fun _ _ => trivial) h

/-- What `setMainChild` does when it returns no error. -/
theorem setMainChild_ok (m m1 : Manager) (p child : Nat)
    (h : m.setMainChild p child = (m1, none)) :
    mapHas (m.commitmentHeap p).children (m.commitmentHeap child).id = true ∧
      m1 = m.setCommitment p
        { m.commitmentHeap p with mainChildID := some (m.commitmentHeap child).id } := by
  unfold Manager.setMainChild at h
  simp only [] at h
  split at h
  · rename_i hs
    exact ⟨hs, ((Prod.mk.inj h).1).symm⟩
  · cases h

theorem KeepsSkeleton_setMainChild (m : Manager) (p child : Nat) :
    m.KeepsSkeleton (m.setMainChild p child).1 := by
  unfold Manager.setMainChild
  simp only []
  split
  · refine ⟨?_, rfl, rfl⟩
    intro q
    show (if q = p then _ else m.commitmentHeap q).id = _ ∧
      (if q = p then _ else m.commitmentHeap q).commitment = _ ∧
      (if q = p then _ else m.commitmentHeap q).children = _
    by_cases hq : q = p
    · rw [if_pos hq, hq]; exact ⟨rfl, rfl, rfl⟩
    · rw [if_neg hq]; exact ⟨rfl, rfl, rfl⟩
  · exact KeepsSkeleton_refl m

theorem switchLoop_skeleton (forkingPoint fuel fp : Nat) (m m1 : Manager)
    (e : Option ManagerError) (h : Manager.switchLoop forkingPoint fuel fp m = .ok (m1, e)) :
    m.KeepsSkeleton m1 := by
  induction fuel generalizing fp m with
  | zero => simp [Manager.switchLoop] at h
  | succ k ih =>
    unfold Manager.switchLoop at h
    split at h
    · cases h
    · split at h
      · cases h
      · rename_i fpParent _
        split at h
        · cases h
        · rename_i mc hmc
          simp only [] at h
          have s2 : m.KeepsSkeleton ((m.NewChain mc).1.setMainChild fpParent fp).1 :=
            KeepsSkeleton_trans _ _ _ (KeepsLinks_NewChain m mc).1
              (KeepsSkeleton_setMainChild _ fpParent fp)
          split at h
          · cases h; exact s2
          · split at h
            · cases h
            · rename_i m3 h3
              have s3 := KeepsSkeleton_trans _ _ _ s2
                (walk_propagateReplace_links _ _ _ _ _ m3 h3).1
              split at h
              · cases h; exact s3
              · split at h
                · cases h
                · exact KeepsSkeleton_trans _ _ _ s3 (ih _ m3 h)

/-- The reorganisation loop when the chain of the new head forks off the main chain
directly: one round, which changes the main-child designation of the parent of the
forking point and nothing else of the tree. -/
theorem switchLoop_direct (forkingPoint fuel : Nat) (m m1 : Manager)
    (h : Manager.switchLoop forkingPoint fuel forkingPoint m = .ok (m1, none)) :
    ∃ fc parent, (m.commitmentHeap forkingPoint).commitment = some fc ∧
      m.commitment fc.prevID = some parent ∧
      mapHas (m.commitmentHeap parent).children (m.commitmentHeap forkingPoint).id = true ∧
      m.KeepsSkeleton m1 ∧
      ∀ p, (m1.commitmentHeap p).mainChildID
        = if p = parent then some (m.commitmentHeap forkingPoint).id
          else (m.commitmentHeap p).mainChildID := by
  have hskel := switchLoop_skeleton forkingPoint fuel forkingPoint m m1 none h
  cases fuel with
  | zero => simp [Manager.switchLoop] at h
  | succ k =>
    unfold Manager.switchLoop at h
    split at h
    · cases h
    · rename_i fpc hfpc
      split at h
      · cases h
      · rename_i fpParent hpar
        split at h
        · cases h
        · rename_i mc hmc
          simp only [] at h
          split at h
          · cases h
          · rename_i herr
            split at h
            · cases h
            · rename_i m3 h3
              have hset := setMainChild_ok (m.NewChain mc).1
                ((m.NewChain mc).1.setMainChild fpParent forkingPoint).1 fpParent forkingPoint
                (Prod.ext rfl herr)
              have l3 := walk_propagateReplace_links _ _ _ _ _ m3 h3
              simp only [if_true] at h
              cases h
              refine ⟨fpc, fpParent, hfpc, hpar, hset.1, hskel, ?_⟩
              intro p
              rw [l3.2 p, hset.2]
              by_cases hp : p = fpParent
              · simp [Manager.setCommitment, Manager.NewChain, hp]
              · simp [Manager.setCommitment, Manager.NewChain, hp]

/-- C11: for a block whose slot is evicted and whose id is not a root block,
`Attach` returns `(nil, false, error)` and leaves the whole state as it was: no
event is triggered, nothing is queued for solidification and neither the block
storage nor any block object changes. -/
theorem C11_attach_evicted (b : BlockDAG) (data : ModelBlock)
    (hEvicted : b.inEvictedSlot data.id = true) (hRoot : b.isRootBlock data.id = false) :
    b.Attach data = (b, none, false, some (blockdag.BlockError.tooOld data.id)) := by
  simp [BlockDAG.Attach, BlockDAG.attach, BlockDAG.canAttach, hEvicted, hRoot]

/-- C11 at a concrete input: the block `oldBlock` of the evicted slot 1. -/
theorem C11_attach_evicted_witness :
    Scenario.awaitingOldBlock.Attach Scenario.oldBlock =
      (Scenario.awaitingOldBlock, none, false,
        some (blockdag.BlockError.tooOld Scenario.oldBlock.id)) :=
  C11_attach_evicted Scenario.awaitingOldBlock Scenario.oldBlock (by decide) (by decide)

/-- C13: for block data whose slot is not evicted (or whose id is a root block) and
whose id is already stored as a non-missing block, `Attach` returns the stored block
with `wasAttached = false` and a nil error and leaves the whole state as it was: no
event is triggered, no child is appended and nothing is queued. -/
theorem C13_attach_present (b : BlockDAG) (data : ModelBlock) (p : Nat)
    (hSlot : ¬ (b.inEvictedSlot data.id = true ∧ b.isRootBlock data.id = false))
    (hStored : b.block data.id = some p) (hPresent : (b.blockHeap p).missing = false) :
    b.Attach data = (b, some p, false, none) := by
  have h : (b.inEvictedSlot data.id && !b.isRootBlock data.id) = false := by
    cases h1 : b.inEvictedSlot data.id <;> cases h2 : b.isRootBlock data.id <;> simp_all
  simp [BlockDAG.Attach, BlockDAG.attach, BlockDAG.canAttach, h, hStored, hPresent]

set_option maxRecDepth 100000 in
/-- C13 at a concrete input: `B1` arrives again after Scenario A. -/
theorem C13_attach_present_witness :
    Scenario.scenarioA.Attach Scenario.blockB1 = (Scenario.scenarioA, some 1, false, none) :=
  C13_attach_present Scenario.scenarioA Scenario.blockB1 1 (by decide) (by rfl) (by rfl)

set_option maxRecDepth 100000 in
/-- C14, the order of the claim fails: in Scenario A the references 1, 2 and 3 are
the blocks `B1`, `B3` and `B2`; the event log is not the claimed one,
`BlockMissing(B2)` comes before `BlockAttached(B3)`, and `B2` is notified twice,
by `MissingBlockAttached` and by `BlockAttached`. -/
theorem C14_counterexample :
    (Scenario.scenarioA.blockHeap 1).ID = .ok Scenario.blockB1.id ∧
    (Scenario.scenarioA.blockHeap 2).ID = .ok Scenario.blockB3.id ∧
    (Scenario.scenarioA.blockHeap 3).ID = .ok Scenario.blockB2.id ∧
    Scenario.scenarioA.events ≠
      [blockdag.Event.blockAttached 1, blockdag.Event.blockAttached 2,
       blockdag.Event.blockMissing 3, blockdag.Event.missingBlockAttached 3] ∧
    Scenario.scenarioA.events.indexOf (blockdag.Event.blockMissing 3) <
      Scenario.scenarioA.events.indexOf (blockdag.Event.blockAttached 2) ∧
    blockdag.Event.missingBlockAttached 3 ∈ Scenario.scenarioA.events ∧
    blockdag.Event.blockAttached 3 ∈ Scenario.scenarioA.events := by
  refine ⟨by rfl, by rfl, by rfl, by decide, by decide, by decide, by decide⟩

set_option maxRecDepth 100000 in
/-- C14 amended: in Scenario A the references 1, 2 and 3 are the blocks `B1`, `B3`
and `B2`, and the attach-side events are, in this order, `BlockAttached(B1)`,
`BlockMissing(B2)`, `BlockAttached(B3)`, `MissingBlockAttached(B2)` and
`BlockAttached(B2)`; the blocks are queued for solidification in the order of their
arrival. -/
theorem C14_scenario_A :
    (Scenario.scenarioA.blockHeap 1).ID = .ok Scenario.blockB1.id ∧
    (Scenario.scenarioA.blockHeap 2).ID = .ok Scenario.blockB3.id ∧
    (Scenario.scenarioA.blockHeap 3).ID = .ok Scenario.blockB2.id ∧
    Scenario.scenarioA.events =
      [blockdag.Event.blockAttached 1, blockdag.Event.blockMissing 3,
       blockdag.Event.blockAttached 2, blockdag.Event.missingBlockAttached 3,
       blockdag.Event.blockAttached 3] ∧
    Scenario.scenarioA.solidifierQueue = [1, 2, 3] := by
  refine ⟨by rfl, by rfl, by rfl, by rfl, by rfl⟩
/-- The loop of `canAttachToParents` stops at a parent of an evicted slot that is not
a root block: it marks the stored placeholder, if there is one, invalid and returns
the error for that parent. -/
theorem canAttachToParents_reject (b : BlockDAG) (storedBlock : Option Nat) (data : ModelBlock)
    (parents : List Parent)
    (h : ∃ parent ∈ parents, b.inEvictedSlot parent.id = true ∧ b.isRootBlock parent.id = false) :
    ∃ parent ∈ parents, b.inEvictedSlot parent.id = true ∧ b.isRootBlock parent.id = false ∧
      b.canAttachToParents storedBlock data parents =
        ((match storedBlock with
          | some sb => (b.SetInvalid sb (blockdag.BlockError.parentTooOld parent.id)).1
          | none => b), storedBlock, false,
         some (blockdag.BlockError.parentTooOld parent.id)) := by
  induction parents with
  | nil => obtain ⟨parent, hmem, _⟩ := h; cases hmem
  | cons parent rest ih =>
    by_cases hp : (b.inEvictedSlot parent.id && !b.isRootBlock parent.id) = true
    · refine ⟨parent, List.mem_cons_self _ _, ?_, ?_, ?_⟩
      · cases h1 : b.inEvictedSlot parent.id <;> simp_all
      · cases h2 : b.isRootBlock parent.id <;> simp_all
      · simp only [BlockDAG.canAttachToParents, hp, if_true]
    · have hrest : ∃ q ∈ rest, b.inEvictedSlot q.id = true ∧ b.isRootBlock q.id = false := by
        obtain ⟨q, hmem, h1, h2⟩ := h
        rcases List.mem_cons.mp hmem with heq | hmem
        · subst heq
          exact absurd (by simp [h1, h2]) hp
        · exact ⟨q, hmem, h1, h2⟩
      obtain ⟨q, hmem, h1, h2, heq⟩ := ih hrest
      refine ⟨q, List.mem_cons_of_mem _ hmem, h1, h2, ?_⟩
      simp only [BlockDAG.canAttachToParents, hp]
      exact heq

/-- The method `SetInvalid` sets the flag `invalid` of the block and triggers
`BlockInvalid` unless the flag was already set. -/
theorem SetInvalid_eq (b : BlockDAG) (sb : Nat) (reason : blockdag.BlockError) :
    (b.SetInvalid sb reason).1 =
      { b with
        blockHeap := fun q => if q = sb then { b.blockHeap sb with invalid := true }
          else b.blockHeap q
        events := if (b.blockHeap sb).invalid then b.events
          else b.events ++ [blockdag.Event.blockInvalid sb reason] } := by
  cases hinv : (b.blockHeap sb).invalid
  · simp [BlockDAG.SetInvalid, blockdag.Block.SetInvalid, hinv, BlockDAG.setBlock,
      BlockDAG.trigger]
  · have hb : ({ b.blockHeap sb with invalid := true } : blockdag.Block) = b.blockHeap sb := by
      generalize b.blockHeap sb = blk at hinv
      cases blk
      simp only at hinv
      subst hinv
      rfl
    simp [BlockDAG.SetInvalid, blockdag.Block.SetInvalid, hinv, BlockDAG.setBlock, hb]

/-- C12 amended: for a block whose own slot is not evicted (or whose id is a root
block), that is not stored as a non-missing block and has a parent, of any edge
kind, in an evicted slot that is not a root block, `Attach` returns the stored
placeholder (or nil), `wasAttached = false` and the error for such a parent. Without
a placeholder the state is unchanged. With a placeholder the only changes are that
its flag `invalid` is set and, if and only if the flag was not set before, one
`BlockInvalid` event for it is appended; in both cases the block storage and the
solidification queue are unchanged, and no block object gains a child or the block
data. -/
theorem C12_attach_evicted_parent (b : BlockDAG) (data : ModelBlock)
    (hSlot : ¬ (b.inEvictedSlot data.id = true ∧ b.isRootBlock data.id = false))
    (hNotStored : ∀ p, b.block data.id = some p → (b.blockHeap p).missing = true)
    (hParent : ∃ parent ∈ data.parents,
      b.inEvictedSlot parent.id = true ∧ b.isRootBlock parent.id = false) :
    ∃ parent ∈ data.parents, b.inEvictedSlot parent.id = true ∧ b.isRootBlock parent.id = false ∧
      (b.Attach data).2 =
        (b.block data.id, false, some (blockdag.BlockError.parentTooOld parent.id)) ∧
      (b.Attach data).1.memStorage = b.memStorage ∧
      (b.Attach data).1.solidifierQueue = b.solidifierQueue ∧
      (match b.block data.id with
       | none => (b.Attach data).1 = b
       | some sb =>
         (b.Attach data).1 =
           { b with
             blockHeap := fun q => if q = sb then { b.blockHeap sb with invalid := true }
               else b.blockHeap q
             events := if (b.blockHeap sb).invalid then b.events
               else b.events ++ [blockdag.Event.blockInvalid sb
                 (blockdag.BlockError.parentTooOld parent.id)] }) := by
  have h : (b.inEvictedSlot data.id && !b.isRootBlock data.id) = false := by
    cases h1 : b.inEvictedSlot data.id <;> cases h2 : b.isRootBlock data.id <;> simp_all
  cases hst : b.block data.id with
  | none =>
    obtain ⟨parent, hmem, h1, h2, heq⟩ := canAttachToParents_reject b none data data.parents hParent
    refine ⟨parent, hmem, h1, h2, ?_⟩
    have hA : b.Attach data =
        (b, none, false, some (blockdag.BlockError.parentTooOld parent.id)) := by
      simp [BlockDAG.Attach, BlockDAG.attach, BlockDAG.canAttach, h, hst, heq]
    rw [hA]
    exact ⟨rfl, rfl, rfl, rfl⟩
  | some sb =>
    have hmiss := hNotStored sb hst
    obtain ⟨parent, hmem, h1, h2, heq⟩ :=
      canAttachToParents_reject b (some sb) data data.parents hParent
    refine ⟨parent, hmem, h1, h2, ?_⟩
    have hA : b.Attach data =
        ((b.SetInvalid sb (blockdag.BlockError.parentTooOld parent.id)).1, some sb, false,
          some (blockdag.BlockError.parentTooOld parent.id)) := by
      simp [BlockDAG.Attach, BlockDAG.attach, BlockDAG.canAttach, h, hst, hmiss, heq]
    rw [hA, SetInvalid_eq]
    exact ⟨rfl, rfl, rfl, rfl⟩

set_option maxRecDepth 100000 in
/-- C12 amended at a concrete input: `lateBlock`, for which a placeholder exists,
arrives with its weak parent in the evicted slot 1. -/
theorem C12_attach_evicted_parent_witness :
    ∃ parent ∈ Scenario.lateBlock.parents,
      Scenario.awaitingLateBlock.inEvictedSlot parent.id = true ∧
      Scenario.awaitingLateBlock.isRootBlock parent.id = false ∧
      (Scenario.awaitingLateBlock.Attach Scenario.lateBlock).2 =
        (Scenario.awaitingLateBlock.block Scenario.lateBlock.id, false,
          some (blockdag.BlockError.parentTooOld parent.id)) ∧
      (Scenario.awaitingLateBlock.Attach Scenario.lateBlock).1.memStorage =
        Scenario.awaitingLateBlock.memStorage ∧
      (Scenario.awaitingLateBlock.Attach Scenario.lateBlock).1.solidifierQueue =
        Scenario.awaitingLateBlock.solidifierQueue ∧
      (match Scenario.awaitingLateBlock.block Scenario.lateBlock.id with
       | none => (Scenario.awaitingLateBlock.Attach Scenario.lateBlock).1 =
           Scenario.awaitingLateBlock
       | some sb =>
         (Scenario.awaitingLateBlock.Attach Scenario.lateBlock).1 =
           { Scenario.awaitingLateBlock with
             blockHeap := fun q => if q = sb then
                 { Scenario.awaitingLateBlock.blockHeap sb with invalid := true }
               else Scenario.awaitingLateBlock.blockHeap q
             events := if (Scenario.awaitingLateBlock.blockHeap sb).invalid then
                 Scenario.awaitingLateBlock.events
               else Scenario.awaitingLateBlock.events ++ [blockdag.Event.blockInvalid sb
                 (blockdag.BlockError.parentTooOld parent.id)] }) :=
  C12_attach_evicted_parent Scenario.awaitingLateBlock Scenario.lateBlock (by decide)
    (fun p hp => by
      have h2 : Scenario.awaitingLateBlock.block Scenario.lateBlock.id = some 2 := by rfl
      rw [h2] at hp
      cases hp
      rfl)
    ⟨⟨Scenario.oldBlock.id, ParentsType.weak⟩, by decide, by decide, by decide⟩

set_option maxRecDepth 100000 in
/-- C12 fails in two ways. First, `oldBlock` is not stored as a non-missing block
(reference 2 is its missing placeholder) and has a parent in an evicted slot that is
not a root block, but its own slot is evicted too: `Attach` rejects it before the
parents are looked at, and the placeholder is neither marked invalid nor is
`BlockInvalid` triggered. Second, when `lateBlock` arrives a second time its
placeholder (reference 2, still missing) is already invalid, and this `Attach`
triggers no `BlockInvalid`. -/
theorem C12_counterexample :
    (Scenario.awaitingOldBlock.block Scenario.oldBlock.id = some 2 ∧
     (Scenario.awaitingOldBlock.blockHeap 2).missing = true ∧
     (∃ parent ∈ Scenario.oldBlock.parents,
        Scenario.awaitingOldBlock.inEvictedSlot parent.id = true ∧
        Scenario.awaitingOldBlock.isRootBlock parent.id = false) ∧
     (Scenario.awaitingOldBlock.Attach Scenario.oldBlock).2 =
       (none, false, some (blockdag.BlockError.tooOld Scenario.oldBlock.id)) ∧
     ((Scenario.awaitingOldBlock.Attach Scenario.oldBlock).1.blockHeap 2).invalid = false ∧
     (Scenario.awaitingOldBlock.Attach Scenario.oldBlock).1.events =
       Scenario.awaitingOldBlock.events) ∧
    ((Scenario.awaitingLateBlock.Attach Scenario.lateBlock).1.block Scenario.lateBlock.id =
       some 2 ∧
     ((Scenario.awaitingLateBlock.Attach Scenario.lateBlock).1.blockHeap 2).missing = true ∧
     (∃ parent ∈ Scenario.lateBlock.parents,
        (Scenario.awaitingLateBlock.Attach Scenario.lateBlock).1.inEvictedSlot parent.id = true ∧
        (Scenario.awaitingLateBlock.Attach Scenario.lateBlock).1.isRootBlock parent.id = false) ∧
     ((Scenario.awaitingLateBlock.Attach Scenario.lateBlock).1.Attach Scenario.lateBlock).1.events =
       (Scenario.awaitingLateBlock.Attach Scenario.lateBlock).1.events) := by
  refine ⟨⟨by rfl, by rfl, ⟨⟨⟨0, 77⟩, ParentsType.strong⟩, by decide, by decide, by decide⟩,
    by rfl, by rfl, by rfl⟩,
    ⟨by rfl, by rfl, ⟨⟨Scenario.oldBlock.id, ParentsType.weak⟩, by decide, by decide, by decide⟩,
    by rfl⟩⟩

/-! ## Commitments at or below the root, and fork analysis on unsolid commitments -/

/-- C15: in a manager whose root commitment is set and published, `processCommitment`
of the root commitment itself returns the root chain commitment with
`isNew = false` and `isSolid = true` and leaves the whole state, the events
included, as it was; `processCommitment` of a commitment of a slot strictly below
the root's returns no chain commitment, with `isNew = false` and `isSolid = false`,
and its only effect is one `CommitmentBelowRoot` event with the id of the
commitment, so that the storage is unchanged in both cases. -/
theorem C15_process_at_or_below_root (m : Manager) (root : Nat) (rc : Commitment)
    (hRoot : m.rootCommitment = some root)
    (hPublished : (m.commitmentHeap root).commitment = some rc) :
    m.processCommitment rc = .ok (m, false, true, some root) ∧
    ∀ c : Commitment, c.index < rc.index →
      m.processCommitment c =
        .ok (m.trigger (Event.commitmentBelowRoot c.id), false, false, none) ∧
      (m.trigger (Event.commitmentBelowRoot c.id)).events =
        m.events ++ [Event.commitmentBelowRoot c.id] ∧
      (m.trigger (Event.commitmentBelowRoot c.id)).commitmentsByID = m.commitmentsByID ∧
      (m.trigger (Event.commitmentBelowRoot c.id)).commitmentHeap = m.commitmentHeap := by
  constructor
  · simp [Manager.processCommitment, Manager.evaluateAgainstRootCommitment, hRoot, hPublished]
  · intro c hlt
    have hne : c ≠ rc := by
      intro hc
      subst hc
      exact Nat.lt_irrefl _ hlt
    refine ⟨?_, rfl, rfl, rfl⟩
    simp [Manager.processCommitment, Manager.evaluateAgainstRootCommitment, hRoot, hPublished,
      hne, Nat.le_of_lt hlt]

set_option maxRecDepth 100000 in
/-- C15 at a concrete input: the manager whose root was moved from `M0` to `M2`
receives `M2` and `M1`. -/
theorem C15_process_at_or_below_root_witness :
    Scenario.rootMoved.processCommitment (Scenario.M 2) =
      .ok (Scenario.rootMoved, false, true, some 2) ∧
    Scenario.rootMoved.processCommitment (Scenario.M 1) =
      .ok (Scenario.rootMoved.trigger (Event.commitmentBelowRoot (Scenario.M 1).id),
        false, false, none) :=
  ⟨(C15_process_at_or_below_root Scenario.rootMoved 2 (Scenario.M 2) (by rfl) (by rfl)).1,
   ((C15_process_at_or_below_root Scenario.rootMoved 2 (Scenario.M 2) (by rfl) (by rfl)).2
      (Scenario.M 1) (by decide)).1⟩
/-- Lookup in a storage after `Get(index, true)` and `Set(k, v)` on the slot's map. -/
theorem lookup_getOrCreate_put {K V : Type} [DecidableEq K] (s : IndexedStorage K V) (i : Nat)
    (k : K) (v : V) (j : Nat) (k' : K) :
    ((s.getOrCreate i).1.put i (mapSet (s.getOrCreate i).2 k v)).lookup j k' =
      if j = i ∧ k = k' then some v else s.lookup j k' := by
  by_cases hj : j = i
  · subst hj
    cases hs : s j with
    | none =>
      simp only [IndexedStorage.getOrCreate, hs, IndexedStorage.lookup, IndexedStorage.put,
        if_true, mapGet_mapSet, true_and]
      by_cases hk : k = k' <;> simp [hk, mapGet]
    | some inner =>
      simp only [IndexedStorage.getOrCreate, hs, IndexedStorage.lookup, IndexedStorage.put,
        if_true, mapGet_mapSet, true_and]
  · cases hs : s i with
    | none =>
      simp [IndexedStorage.getOrCreate, hs, IndexedStorage.lookup, IndexedStorage.put, hj]
    | some inner =>
      simp [IndexedStorage.getOrCreate, hs, IndexedStorage.lookup, IndexedStorage.put, hj]

/-- The method `getOrCreateCommitment` on a stored id returns the stored chain
commitment and changes nothing. -/
theorem getOrCreateCommitment_found (m : Manager) (id : CommitmentID) (p : Nat)
    (h : m.commitment id = some p) : m.getOrCreateCommitment id = (m, p, false) := by
  unfold Manager.commitment IndexedStorage.lookup at h
  cases hs : m.commitmentsByID id.index with
  | none => rw [hs] at h; cases h
  | some inner =>
    rw [hs] at h
    simp only at h
    simp only [Manager.getOrCreateCommitment, IndexedStorage.getOrCreate, hs, h]

/-- The method `getOrCreateCommitment` on an id that is not stored allocates a
placeholder and stores it under the id. -/
theorem getOrCreateCommitment_missing (m : Manager) (id : CommitmentID)
    (h : m.commitment id = none) :
    m.getOrCreateCommitment id =
      ({ m with
         commitmentHeap := fun q => if q = m.commitmentCount then NewChainCommitment id
           else m.commitmentHeap q
         commitmentCount := m.commitmentCount + 1
         commitmentsByID := (m.commitmentsByID.getOrCreate id.index).1.put id.index
           (mapSet (m.commitmentsByID.getOrCreate id.index).2 id m.commitmentCount) },
       m.commitmentCount, true) := by
  unfold Manager.commitment IndexedStorage.lookup at h
  cases hs : m.commitmentsByID id.index with
  | none => simp [Manager.getOrCreateCommitment, IndexedStorage.getOrCreate, hs, mapGet]
  | some inner =>
    rw [hs] at h
    simp only at h
    simp only [Manager.getOrCreateCommitment, IndexedStorage.getOrCreate, hs, h]

/-- The method `registerCommitment` on a commitment that is stored and published:
the parent is looked up or created, and the stored chain commitment is returned as
not new, with its fields as they were. -/
theorem registerCommitment_published (m : Manager) (c : Commitment) (cc : Nat)
    (hReg : m.commitment c.id = some cc) (hPub : (m.commitmentHeap cc).commitment ≠ none)
    (hValid : cc < m.commitmentCount) :
    ∃ m1, m.registerCommitment c = (m1, false, (m.commitmentHeap cc).solid, false, cc) ∧
      m1.commitmentHeap cc = m.commitmentHeap cc ∧ m1.rootCommitment = m.rootCommitment := by
  have key : ∀ m1 : Manager, m1.commitment c.id = some cc →
      m1.commitmentHeap cc = m.commitmentHeap cc → m1.rootCommitment = m.rootCommitment →
      ∀ parent, ∃ m2, (let r2 := m1.getOrCreateCommitment c.id
        let cc := r2.2.1
        let r3 := r2.1.publishCommitment cc c
        if !r3.2 then (r3.1, false, (r3.1.commitmentHeap cc).solid, false, cc)
        else
          let m4 := if !r2.2.2 then
                      r3.1.trigger (Event.missingCommitmentReceived (r3.1.commitmentHeap cc).id)
                    else r3.1
          let r5 := m4.registerChild parent cc
          (r5.1, true, r5.2.1, r5.2.2.2, cc)) =
          (m2, false, (m.commitmentHeap cc).solid, false, cc) ∧
        m2.commitmentHeap cc = m.commitmentHeap cc ∧ m2.rootCommitment = m.rootCommitment := by
    intro m1 h1 h2 h3 parent
    refine ⟨m1, ?_, h2, h3⟩
    have hp : (m1.commitmentHeap cc).commitment ≠ none := by rw [h2]; exact hPub
    cases hpc : (m1.commitmentHeap cc).commitment with
    | none => exact absurd hpc hp
    | some pc =>
      have hpm : (m.commitmentHeap cc).commitment = some pc := by rw [← h2]; exact hpc
      simp only [getOrCreateCommitment_found m1 c.id cc h1, Manager.publishCommitment, h2, hpm,
        Bool.not_false, if_true]
  cases hparent : m.commitment c.prevID with
  | some p =>
    obtain ⟨m2, e2, hh, hr⟩ := key m hReg rfl rfl p
    refine ⟨m2, ?_, hh, hr⟩
    simp only [Manager.registerCommitment, getOrCreateCommitment_found m c.prevID p hparent]
    exact e2
  | none =>
    have hne : cc ≠ m.commitmentCount := Nat.ne_of_lt hValid
    have hidne : c.prevID ≠ c.id := by
      intro heq
      rw [heq] at hparent
      rw [hparent] at hReg
      cases hReg
    obtain ⟨m2, e2, hh, hr⟩ := key
      (({ m with
         commitmentHeap := fun q => if q = m.commitmentCount then NewChainCommitment c.prevID
           else m.commitmentHeap q
         commitmentCount := m.commitmentCount + 1
         commitmentsByID := (m.commitmentsByID.getOrCreate c.prevID.index).1.put c.prevID.index
           (mapSet (m.commitmentsByID.getOrCreate c.prevID.index).2 c.prevID
             m.commitmentCount) } : Manager).trigger
        (Event.commitmentMissing (NewChainCommitment c.prevID).id))
      (by
        simp only [Manager.commitment, Manager.trigger, lookup_getOrCreate_put]
        rw [if_neg (fun h => hidne h.2)]
        exact hReg)
      (by simp [Manager.trigger, hne])
      rfl m.commitmentCount
    refine ⟨m2, ?_, hh, hr⟩
    simp only [Manager.registerCommitment, getOrCreateCommitment_missing m c.prevID hparent,
      if_true]
    exact e2

/-- C16 amended: for a commitment that is registered in the manager but is not solid
or has no chain, `SwitchMainChain(id)` returns `ErrCommitmentNotSolid` and leaves
the whole state as it was, while `ProcessCommitment` of that commitment, when it is
already published and lies above the published root, does not return to its caller:
it panics on that error. -/
theorem C16_fork_analysis_not_solid (m : Manager) (id : CommitmentID) (cc : Nat)
    (hReg : m.commitment id = some cc)
    (hNotSolid : (m.commitmentHeap cc).solid = false ∨ (m.commitmentHeap cc).chain = none) :
    m.SwitchMainChain id = .ok (m, some ManagerError.commitmentNotSolid) ∧
    ∀ (c : Commitment) (root : Nat) (rc : Commitment), c.id = id →
      m.rootCommitment = some root → (m.commitmentHeap root).commitment = some rc →
      rc.index < c.index → (m.commitmentHeap cc).commitment ≠ none → cc < m.commitmentCount →
      m.ProcessCommitment c = .error Fault.explicitPanic := by
  have hfp : ∀ m1 : Manager, m1.commitmentHeap cc = m.commitmentHeap cc →
      m1.forkingPointAgainstMainChain cc = .ok (.error ManagerError.commitmentNotSolid) := by
    intro m1 h1
    unfold Manager.forkingPointAgainstMainChain
    rw [h1]
    rcases hNotSolid with h | h
    · simp [h]
    · simp [h]
  constructor
  · simp only [Manager.SwitchMainChain, hReg, Manager.switchMainChainToCommitment, hfp m rfl]
  · intro c root rc hid hRoot hPub hlt hcp hValid
    subst hid
    obtain ⟨m1, hreg, hheap, _⟩ := registerCommitment_published m c cc hReg hcp hValid
    have hne : c ≠ rc := by
      intro hc
      subst hc
      exact Nat.lt_irrefl _ hlt
    have hnle : ¬ c.index ≤ rc.index := Nat.not_le_of_lt hlt
    have hproc : m.processCommitment c = .ok (m1, false, (m.commitmentHeap cc).solid, some cc) := by
      simp only [Manager.processCommitment, Manager.evaluateAgainstRootCommitment, hRoot, hPub,
        hreg, hne, hnle, decide_False, Bool.or_false, Bool.false_eq_true, if_false,
        Bool.not_false, if_true]
      cases (m1.commitmentHeap cc).chain <;> rfl
    simp only [Manager.ProcessCommitment, hproc, Bool.not_false, if_true,
      Manager.switchMainChainToCommitment, hfp m1 hheap]

set_option maxRecDepth 100000 in
/-- C16 amended at a concrete input: `F3`, received before its parent `F2`, is
registered (reference 2) but not solid. -/
theorem C16_fork_analysis_not_solid_witness :
    Scenario.orphanArrival.SwitchMainChain (Scenario.F 3).id =
      .ok (Scenario.orphanArrival, some ManagerError.commitmentNotSolid) ∧
    Scenario.orphanArrival.ProcessCommitment (Scenario.F 3) = .error Fault.explicitPanic :=
  ⟨(C16_fork_analysis_not_solid Scenario.orphanArrival (Scenario.F 3).id 2 (by rfl)
      (Or.inl (by rfl))).1,
   (C16_fork_analysis_not_solid Scenario.orphanArrival (Scenario.F 3).id 2 (by rfl)
      (Or.inl (by rfl))).2 (Scenario.F 3) 0 (Scenario.M 0) rfl (by rfl) (by rfl) (by decide)
      (by decide) (by decide)⟩

set_option maxRecDepth 100000 in
/-- C16 fails for `ProcessCommitment`: after the fresh manager received `F3`, whose
parent is unknown, `F3` is registered (reference 2) and not solid, and a second
`ProcessCommitment(F3)` does not return to its caller but panics. -/
theorem C16_counterexample :
    Scenario.fresh.calls [Call.processCommitment (Scenario.F 3)] = .ok Scenario.orphanArrival ∧
    Scenario.orphanArrival.commitment (Scenario.F 3).id = some 2 ∧
    (Scenario.orphanArrival.commitmentHeap 2).solid = false ∧
    Scenario.orphanArrival.ProcessCommitment (Scenario.F 3) = .error Fault.explicitPanic := by
  refine ⟨by rfl, by rfl, by rfl, by rfl⟩

/-! ## Weights -/

/-- C17: `SetAcceptanceState(s)` returns the state the weight had before the call,
leaves the weight with the acceptance state `s`, changes neither the cumulative
weight nor the validators weight (nor the voters), and triggers `OnUpdate`, once and
with the new value, if and only if the returned previous state differs from `s`. -/
theorem C17_set_acceptance_state (w : weight.Weight) (s : acceptance.State) :
    (w.SetAcceptanceState s).2 = w.AcceptanceState ∧
    (w.SetAcceptanceState s).1.AcceptanceState = s ∧
    (w.SetAcceptanceState s).1.value.cumulativeWeight = w.value.cumulativeWeight ∧
    (w.SetAcceptanceState s).1.value.validatorsWeight = w.value.validatorsWeight ∧
    (w.SetAcceptanceState s).1.voters = w.voters ∧
    ((w.SetAcceptanceState s).2 ≠ s →
      (w.SetAcceptanceState s).1.onUpdate = w.onUpdate ++ [(w.SetAcceptanceState s).1.value]) ∧
    ((w.SetAcceptanceState s).2 = s → (w.SetAcceptanceState s).1.onUpdate = w.onUpdate) := by
  by_cases h : w.value.acceptanceState = s
  · simp [weight.Weight.SetAcceptanceState, weight.Weight.setAcceptanceState,
      weight.Weight.AcceptanceState, weight.Value.AcceptanceState, h]
  · simp [weight.Weight.SetAcceptanceState, weight.Weight.setAcceptanceState,
      weight.Weight.AcceptanceState, weight.Value.AcceptanceState,
      weight.Value.SetAcceptanceState, weight.Weight.trigger, h]

/-- C18 fails for `WithAcceptanceState`: on a new weight, whose state is `Pending`,
`WithAcceptanceState(Accepted)` changes the value and triggers no `OnUpdate`. -/
theorem C18_counterexample :
    Scenario.newWeight.value.acceptanceState = acceptance.State.pending ∧
    (Scenario.newWeight.WithAcceptanceState acceptance.State.accepted).value ≠
      Scenario.newWeight.value ∧
    (Scenario.newWeight.WithAcceptanceState acceptance.State.accepted).onUpdate =
      Scenario.newWeight.onUpdate ∧
    (Scenario.newWeight.WithAcceptanceState acceptance.State.accepted).onUpdate = [] := by
  refine ⟨by rfl, by decide, by rfl, by rfl⟩

/-- C18 amended: every operation other than `WithAcceptanceState` that changes the
value of the weight in any tier triggers `OnUpdate` exactly once, with the new
value; `WithAcceptanceState(s)` sets the acceptance state to `s` and never triggers
`OnUpdate`. -/
theorem C18_update_triggers (w : weight.Weight) :
    (∀ operation : weight.Operation,
      (∀ s, operation ≠ weight.Operation.withAcceptanceState s) →
      (w.apply operation).value ≠ w.value →
      (w.apply operation).onUpdate = w.onUpdate ++ [(w.apply operation).value]) ∧
    ∀ s, (w.WithAcceptanceState s).value = { w.value with acceptanceState := s } ∧
      (w.WithAcceptanceState s).onUpdate = w.onUpdate := by
  constructor
  · intro operation hop hchange
    cases operation with
    | setCumulativeWeight x =>
      simp only [weight.Weight.apply, weight.Weight.SetCumulativeWeight] at hchange ⊢
      by_cases h : w.value.CumulativeWeight = x
      · simp [h] at hchange
      · simp [h, weight.Weight.trigger]
    | addCumulativeWeight d =>
      simp only [weight.Weight.apply, weight.Weight.AddCumulativeWeight] at hchange ⊢
      by_cases h : d = 0
      · simp [h] at hchange
      · simp [h, weight.Weight.trigger]
    | removeCumulativeWeight d =>
      simp only [weight.Weight.apply, weight.Weight.RemoveCumulativeWeight] at hchange ⊢
      by_cases h : d = 0
      · simp [h] at hchange
      · simp [h, weight.Weight.trigger]
    | addVoter id =>
      simp only [weight.Weight.apply, weight.Weight.AddVoter,
        weight.Weight.updateValidatorsWeight] at hchange ⊢
      cases hr : (w.voters.Add id).2
      · simp [hr] at hchange
      · by_cases h : w.value.ValidatorsWeight = (w.voters.Add id).1.TotalWeight
        · simp [hr, h] at hchange
        · simp [hr, h, weight.Weight.trigger]
    | deleteVoter id =>
      simp only [weight.Weight.apply, weight.Weight.DeleteVoter,
        weight.Weight.updateValidatorsWeight] at hchange ⊢
      cases hr : (w.voters.Delete id).2
      · simp [hr] at hchange
      · by_cases h : w.value.ValidatorsWeight = (w.voters.Delete id).1.TotalWeight
        · simp [hr, h] at hchange
        · simp [hr, h, weight.Weight.trigger]
    | setAcceptanceState s =>
      simp only [weight.Weight.apply, weight.Weight.SetAcceptanceState,
        weight.Weight.setAcceptanceState] at hchange ⊢
      by_cases h : w.value.AcceptanceState = s
      · simp [h] at hchange
      · simp [h, weight.Weight.trigger]
    | withAcceptanceState s => exact absurd rfl (hop s)
  · intro s
    by_cases h : w.value.acceptanceState = s
    · subst h
      simp [weight.Weight.WithAcceptanceState, weight.Weight.setAcceptanceState,
        weight.Value.AcceptanceState]
    · simp [weight.Weight.WithAcceptanceState, weight.Weight.setAcceptanceState,
        weight.Value.AcceptanceState, weight.Value.SetAcceptanceState, h]

/-- C19: `Compare` with nil operands: a nil weight compared with a non-nil weight is
`Heavier`, a non-nil weight compared with nil is `Lighter`, nil compared with nil is
`Equal`, and for two non-nil weights the result is the comparison of their current
values. -/
theorem C19_compare_nil (o other : weight.Weight) :
    weight.Weight.Compare none (some o) = weight.Comparison.heavier ∧
    weight.Weight.Compare (some o) none = weight.Comparison.lighter ∧
    weight.Weight.Compare none none = weight.Comparison.equal ∧
    weight.Weight.Compare (some o) (some other) = o.Value.Compare other.Value :=
  ⟨rfl, rfl, rfl, rfl⟩

/-- C17 at a concrete input: a new weight is accepted. -/
theorem C17_set_acceptance_state_witness :
    (Scenario.newWeight.SetAcceptanceState acceptance.State.accepted).2 =
      acceptance.State.pending ∧
    (Scenario.newWeight.SetAcceptanceState acceptance.State.accepted).1.onUpdate =
      [{ cumulativeWeight := 0, validatorsWeight := 0,
         acceptanceState := acceptance.State.accepted }] :=
  ⟨(C17_set_acceptance_state Scenario.newWeight acceptance.State.accepted).1,
   ((C17_set_acceptance_state Scenario.newWeight acceptance.State.accepted).2.2.2.2.2.1
      (by decide)).trans (by rfl)⟩

/-- C18 amended at a concrete input: the first validator votes for a new weight. -/
theorem C18_update_triggers_witness :
    (Scenario.newWeight.apply (weight.Operation.addVoter 1)).onUpdate =
      [{ cumulativeWeight := 0, validatorsWeight := 10,
         acceptanceState := acceptance.State.pending }] :=
  ((C18_update_triggers Scenario.newWeight).1 (weight.Operation.addVoter 1)
    (fun s h => by cases h) (by decide)).trans (by rfl)

/-! ## The order of `CommitmentMissing` and `MissingCommitmentReceived` -/

theorem awaited_append (id : CommitmentID) (events : List Event) (e : Event) :
    Event.awaited id (events ++ [e]) = Event.awaitStep id (Event.awaited id events) e := by
  simp [Event.awaited, List.foldl_append]

theorem Registered_of_keeps (m m1 : Manager) (h : m.Registered) (k : m.KeepsRegistry m1) :
    m1.Registered := by
  obtain ⟨k1, k2, k3, k4⟩ := k
  constructor
  · intro s id q hq
    obtain ⟨a, b, c⟩ := h.keyed s id q (k3 s id q hq)
    exact ⟨(k1 q).1.trans a, b, by rw [k2]; exact c⟩
  · intro s id q hq hn
    rw [k4]
    exact h.awaited s id q (k3 s id q hq) (by rw [← (k1 q).2]; exact hn)
  · intro id
    rw [k4]
    exact h.ordered id

theorem KeepsRegistry_refl (m : Manager) : m.KeepsRegistry m :=
  ⟨fun _ => ⟨rfl, rfl⟩, rfl, fun _ _ _ h => h, fun _ => rfl⟩

theorem KeepsRegistry_trans (m m1 m2 : Manager) (h1 : m.KeepsRegistry m1)
    (h2 : m1.KeepsRegistry m2) : m.KeepsRegistry m2 := by
  obtain ⟨a1, b1, c1, d1⟩ := h1
  obtain ⟨a2, b2, c2, d2⟩ := h2
  exact ⟨fun p => ⟨(a2 p).1.trans (a1 p).1, (a2 p).2.trans (a1 p).2⟩, b2.trans b1,
    fun s id q h => c1 s id q (c2 s id q h), fun id => (d2 id).trans (d1 id)⟩

/-- Two states with the same chain commitments, counter, storage and events. -/
theorem KeepsRegistry_congr (m m1 : Manager) (h1 : m1.commitmentHeap = m.commitmentHeap)
    (h2 : m1.commitmentCount = m.commitmentCount) (h3 : m1.commitmentsByID = m.commitmentsByID)
    (h4 : m1.events = m.events) : m.KeepsRegistry m1 :=
  ⟨fun p => by rw [h1]; exact ⟨rfl, rfl⟩, h2, fun s id q h => by rw [← h3]; exact h,
    fun id => by rw [h4]⟩

theorem KeepsRegistry_setCommitment (m : Manager) (p : Nat) (c : ChainCommitment)
    (h1 : c.id = (m.commitmentHeap p).id) (h2 : c.commitment = (m.commitmentHeap p).commitment) :
    m.KeepsRegistry (m.setCommitment p c) := by
  refine ⟨fun q => ?_, rfl, fun _ _ _ h => h, fun _ => rfl⟩
  by_cases hq : q = p
  · subst hq
    simp [Manager.setCommitment, h1, h2]
  · simp [Manager.setCommitment, hq]

theorem KeepsRegistry_NewChain (m : Manager) (p : Nat) : m.KeepsRegistry (m.NewChain p).1 :=
  KeepsRegistry_congr _ _ rfl rfl rfl rfl

theorem KeepsRegistry_setChain (m : Manager) (p : Nat) (c : Chain) :
    m.KeepsRegistry (m.setChain p c) :=
  KeepsRegistry_congr _ _ rfl rfl rfl rfl

theorem KeepsRegistry_chainAddCommitment (m : Manager) (chain commitment : Nat) :
    m.KeepsRegistry (m.chainAddCommitment chain commitment) :=
  KeepsRegistry_congr _ _ rfl rfl rfl rfl

theorem KeepsRegistry_publishChain (m : Manager) (p chain : Nat) :
    m.KeepsRegistry (m.publishChain p chain).1 := by
  unfold Manager.publishChain
  cases h : (m.commitmentHeap p).chain with
  | none => simp only [h]; exact KeepsRegistry_setCommitment _ _ _ rfl rfl
  | some _ => simp only [h]; exact KeepsRegistry_refl m

theorem KeepsRegistry_replaceChain (m : Manager) (p chain : Nat) :
    m.KeepsRegistry (m.replaceChain p chain) :=
  KeepsRegistry_setCommitment _ _ _ rfl rfl

theorem KeepsRegistry_setSolid (m : Manager) (p : Nat) (solid : Bool) :
    m.KeepsRegistry (m.setSolid p solid).1 := by
  unfold Manager.setSolid
  by_cases h : (m.commitmentHeap p).solid = solid
  · simp only [h, if_true]; exact KeepsRegistry_refl m
  · simp only [h, if_false]; exact KeepsRegistry_setCommitment _ _ _ rfl rfl

theorem KeepsRegistry_setMainChild (m : Manager) (p child : Nat) :
    m.KeepsRegistry (m.setMainChild p child).1 := by
  unfold Manager.setMainChild
  cases h : mapHas (m.commitmentHeap p).children (m.commitmentHeap child).id
  · simp only [h]; exact KeepsRegistry_refl m
  · simp only [h, if_true]; exact KeepsRegistry_setCommitment _ _ _ rfl rfl

theorem KeepsRegistry_deleteChild (m : Manager) (p child : Nat) :
    m.KeepsRegistry (m.deleteChild p child) :=
  KeepsRegistry_setCommitment _ _ _ rfl rfl

theorem KeepsRegistry_commitmentRegisterChild (m : Manager) (parent child : Nat) :
    m.KeepsRegistry (m.commitmentRegisterChild parent child).1 := by
  unfold Manager.commitmentRegisterChild
  have hset : ∀ mc : Option CommitmentID,
      m.KeepsRegistry (m.setCommitment parent
        { m.commitmentHeap parent with
          children := mapSet (m.commitmentHeap parent).children (m.commitmentHeap child).id child
          mainChildID := mc }) :=
    fun mc => KeepsRegistry_setCommitment m parent _ rfl rfl
  simp only []
  split
  · exact KeepsRegistry_trans _ _ _ (hset _) (KeepsRegistry_NewChain _ _)
  · exact hset _

theorem KeepsRegistry_registerChild (m : Manager) (parent child : Nat) :
    m.KeepsRegistry (m.registerChild parent child).1 := by
  unfold Manager.registerChild
  simp only []
  have h0 := KeepsRegistry_commitmentRegisterChild m parent child
  split
  · exact KeepsRegistry_trans _ _ _ h0 (KeepsRegistry_trans _ _ _
      (KeepsRegistry_trans _ _ _ (KeepsRegistry_chainAddCommitment _ _ _)
        (KeepsRegistry_publishChain _ _ _)) (KeepsRegistry_setSolid _ _ _))
  · exact h0

/-- An event other than `CommitmentMissing` and `MissingCommitmentReceived` does not
change the scan of the event log. -/
theorem KeepsRegistry_trigger (m : Manager) (e : Event)
    (h1 : ∀ id, e ≠ Event.commitmentMissing id)
    (h2 : ∀ id, e ≠ Event.missingCommitmentReceived id) : m.KeepsRegistry (m.trigger e) := by
  refine ⟨fun _ => ⟨rfl, rfl⟩, rfl, fun _ _ _ h => h, fun id => ?_⟩
  simp only [Manager.trigger, awaited_append]
  cases hs : Event.awaited id m.events with
  | none => rfl
  | some pending =>
    cases e with
    | commitmentMissing id1 => exact absurd rfl (h1 id1)
    | missingCommitmentReceived id1 => exact absurd rfl (h2 id1)
    | commitmentBelowRoot _ => rfl
    | forkDetected _ => rfl

theorem KeepsRegistry_propagateChain (chain : Nat) (m : Manager) (child : Nat) :
    m.KeepsRegistry (Manager.propagateChainToMainChild chain m child).1 := by
  unfold Manager.propagateChainToMainChild
  simp only []
  have h1 := KeepsRegistry_publishChain m child chain
  split
  · exact h1
  · have h2 := KeepsRegistry_trans _ _ _ h1
      (KeepsRegistry_chainAddCommitment (m.publishChain child chain).1 chain child)
    split
    · exact h2
    · exact h2

theorem KeepsRegistry_propagateReplace (chain : Nat) (m : Manager) (child : Nat) :
    m.KeepsRegistry (Manager.propagateReplaceChainToMainChild chain m child).1 := by
  unfold Manager.propagateReplaceChainToMainChild
  simp only []
  have h2 := KeepsRegistry_trans _ _ _ (KeepsRegistry_replaceChain m child chain)
    (KeepsRegistry_chainAddCommitment (m.replaceChain child chain) chain child)
  split
  · exact h2
  · exact h2

theorem KeepsRegistry_propagateSolidity (m : Manager) (child : Nat) :
    m.KeepsRegistry (Manager.propagateSolidity m child).1 := by
  unfold Manager.propagateSolidity
  simp only []
  have h1 := KeepsRegistry_setSolid m child true
  split
  · exact h1
  · exact h1

theorem KeepsRegistry_deleteAllChildrenFromCache (m : Manager) (child : Nat) :
    m.KeepsRegistry (Manager.deleteAllChildrenFromCache m child).1 := by
  unfold Manager.deleteAllChildrenFromCache
  simp only []
  cases hs : m.commitmentsByID.get (m.commitmentHeap child).id.index with
  | none => exact KeepsRegistry_refl m
  | some inner =>
    refine ⟨fun _ => ⟨rfl, rfl⟩, rfl, fun s id q h => ?_, fun _ => rfl⟩
    simp only [IndexedStorage.lookup, IndexedStorage.put] at h ⊢
    by_cases hi : s = (m.commitmentHeap child).id.index
    · subst hi
      simp only [if_true, mapGet_mapDelete] at h
      have hs1 : m.commitmentsByID (m.commitmentHeap child).id.index = some inner := hs
      rw [hs1]
      by_cases hk : (m.commitmentHeap child).id = id
      · simp [hk] at h
      · simpa [hk] using h
    · simpa [hi] using h

/-- A walk whose steps keep the registry keeps it. -/
theorem walk_keepsRegistry (step : Manager → Nat → Manager × List Nat)
    (hstep : ∀ (m : Manager) (x : Nat), m.KeepsRegistry (step m x).1)
    (fuel : Nat) (queue seen : List Nat) (m m1 : Manager)
    (h : Manager.walk step fuel queue seen m = .ok m1) : m.KeepsRegistry m1 :=
  walk_invariant step (fun x => m.KeepsRegistry x) (fun _ _ => True)
    (fun m2 x h2 _ => ⟨KeepsRegistry_trans _ _ _ h2 (hstep m2 x), fun _ _ => trivial,
      fun _ _ => trivial⟩)
    fuel queue seen m m1 (KeepsRegistry_refl m) (fun _ _ => trivial) h

theorem KeepsRegistry_evict (m : Manager) (index : Nat) : m.KeepsRegistry (m.evict index) := by
  refine ⟨fun _ => ⟨rfl, rfl⟩, rfl, fun s id q h => ?_, fun _ => rfl⟩
  simp only [Manager.evict, IndexedStorage.lookup, IndexedStorage.evict] at h ⊢
  by_cases hi : s = index
  · simp [hi] at h
  · simpa [hi] using h

theorem KeepsRegistry_evictLoop (count current : Nat) (m : Manager) :
    m.KeepsRegistry (Manager.evictLoop count current m) := by
  induction count generalizing current m with
  | zero => exact KeepsRegistry_refl m
  | succ k ih =>
    simp only [Manager.evictLoop]
    exact KeepsRegistry_trans _ _ _
      (KeepsRegistry_trans _ _ _ (KeepsRegistry_evict m current)
        (KeepsRegistry_congr _ _ rfl rfl rfl rfl)) (ih _ _)

theorem detectForks_keepsRegistry (m m1 : Manager) (c source : Nat)
    (h : m.detectForks c source = .ok m1) : m.KeepsRegistry m1 := by
  unfold Manager.detectForks at h
  split at h
  · cases h
  · cases h; exact KeepsRegistry_refl m
  · cases h; exact KeepsRegistry_refl m
  · simp only [] at h
    split at h
    · cases h; exact KeepsRegistry_refl m
    · split at h
      · cases h
      · split at h
        · cases h
        · split at h
          · cases h; exact KeepsRegistry_refl m
          · cases h
            exact KeepsRegistry_trans _ _ _ (KeepsRegistry_congr m _ rfl rfl rfl rfl)
              (KeepsRegistry_trigger _ _ (fun _ h => by cases h) (fun _ h => by cases h))

theorem switchLoop_keepsRegistry (forkingPoint fuel fp : Nat) (m m1 : Manager)
    (e : Option ManagerError)
    (h : Manager.switchLoop forkingPoint fuel fp m = .ok (m1, e)) : m.KeepsRegistry m1 := by
  induction fuel generalizing fp m with
  | zero => simp [Manager.switchLoop] at h
  | succ k ih =>
    unfold Manager.switchLoop at h
    split at h
    · cases h
    · split at h
      · cases h
      · rename_i fpParent _
        split at h
        · cases h
        · rename_i mc hmc
          simp only [] at h
          have g2 := KeepsRegistry_trans _ _ _ (KeepsRegistry_NewChain m mc)
            (KeepsRegistry_setMainChild (m.NewChain mc).1 fpParent fp)
          split at h
          · cases h; exact g2
          · split at h
            · cases h
            · rename_i m3 h3
              have g3 := walk_keepsRegistry _ (KeepsRegistry_propagateReplace _) _ _ _ _ m3 h3
              split at h
              · cases h; exact KeepsRegistry_trans _ _ _ g2 g3
              · split at h
                · cases h
                · exact KeepsRegistry_trans _ _ _ g2 (KeepsRegistry_trans _ _ _ g3 (ih _ m3 h))

theorem switchMainChainToCommitment_keepsRegistry (m m1 : Manager) (c : Nat)
    (e : Option ManagerError)
    (h : m.switchMainChainToCommitment c = .ok (m1, e)) : m.KeepsRegistry m1 := by
  unfold Manager.switchMainChainToCommitment at h
  split at h
  · cases h
  · cases h; exact KeepsRegistry_refl m
  · cases h; exact KeepsRegistry_refl m
  · split at h
    · cases h
    · split at h
      · cases h; exact KeepsRegistry_refl m
      · rename_i parentCommitment _
        simp only [] at h
        split at h
        · cases h
        · split at h
          · cases h
          · rename_i m2 e2 h2
            cases h
            exact switchLoop_keepsRegistry _ _ _ m _ _ h2
          · rename_i m2 h2
            have g2 := switchLoop_keepsRegistry _ _ _ m m2 none h2
            split at h
            · cases h
            · split at h
              · cases h
              · rename_i snapshotChain _
                split at h
                · cases h
                · rename_i oldMain _
                  have g3 : m2.KeepsRegistry ((m2.setChain snapshotChain
                      ((m2.chainHeap snapshotChain).dropCommitmentsAfter
                        (m2.commitmentHeap c).id.index)).deleteChild parentCommitment oldMain) :=
                    KeepsRegistry_trans _ _ _ (KeepsRegistry_setChain _ _ _)
                      (KeepsRegistry_deleteChild _ _ _)
                  split at h
                  · split at h
                    · cases h
                    · rename_i m4 h4
                      cases h
                      exact KeepsRegistry_trans _ _ _ g2 (KeepsRegistry_trans _ _ _ g3
                        (walk_keepsRegistry _ KeepsRegistry_deleteAllChildrenFromCache
                          _ _ _ _ _ h4))
                  · cases h
                    exact KeepsRegistry_trans _ _ _ g2 g3

/-- Allocating a placeholder for an id that is not stored, and triggering
`CommitmentMissing` for it, keeps the facts about storage and event log. -/
theorem Registered_placeholder (m : Manager) (id : CommitmentID) (h : m.Registered) :
    (({ m with
        commitmentHeap := fun q => if q = m.commitmentCount then NewChainCommitment id
          else m.commitmentHeap q
        commitmentCount := m.commitmentCount + 1
        commitmentsByID := (m.commitmentsByID.getOrCreate id.index).1.put id.index
          (mapSet (m.commitmentsByID.getOrCreate id.index).2 id m.commitmentCount) } :
      Manager).trigger (Event.commitmentMissing id)).Registered := by
  have hstep : ∀ k, ∃ b, Event.awaitStep k (Event.awaited k m.events)
      (Event.commitmentMissing id) = some b ∧ (id = k → b = true) ∧
      (Event.awaited k m.events = some true → b = true) := by
    intro k
    cases hs : Event.awaited k m.events with
    | none => exact absurd hs (h.ordered k)
    | some pending =>
      by_cases hk : id = k
      · exact ⟨true, by simp [Event.awaitStep, hk], fun _ => rfl, fun _ => rfl⟩
      · exact ⟨pending, by simp [Event.awaitStep, hk], fun e => absurd e hk,
          fun e => by cases e; rfl⟩
  constructor
  · intro s k q hq
    simp only [Manager.trigger, lookup_getOrCreate_put] at hq ⊢
    by_cases hn : s = id.index ∧ id = k
    · rw [if_pos hn] at hq
      cases hq
      obtain ⟨h1, h2⟩ := hn
      subst h2
      simp [NewChainCommitment, h1]
    · rw [if_neg hn] at hq
      obtain ⟨a, b, c⟩ := h.keyed s k q hq
      have hne : q ≠ m.commitmentCount := Nat.ne_of_lt c
      simp only [hne, if_false]
      exact ⟨a, b, Nat.lt_succ_of_lt c⟩
  · intro s k q hq hn
    simp only [Manager.trigger, lookup_getOrCreate_put] at hq hn
    simp only [Manager.trigger, awaited_append]
    obtain ⟨b, hb, hb1, hb2⟩ := hstep k
    rw [hb]
    by_cases hc : s = id.index ∧ id = k
    · rw [hb1 hc.2]
    · rw [if_neg hc] at hq
      obtain ⟨_, _, c⟩ := h.keyed s k q hq
      have hne : q ≠ m.commitmentCount := Nat.ne_of_lt c
      simp only [hne, if_false] at hn
      rw [hb2 (h.awaited s k q hq hn)]
  · intro k
    simp only [Manager.trigger, awaited_append]
    obtain ⟨b, hb, _, _⟩ := hstep k
    rw [hb]
    exact fun e => by cases e

/-- Publishing the payload of a stored placeholder, and triggering
`MissingCommitmentReceived` for it, keeps the facts about storage and event log. -/
theorem Registered_received (m : Manager) (c : Commitment) (q : Nat) (h : m.Registered)
    (hq : m.commitment c.id = some q) (hn : (m.commitmentHeap q).commitment = none) :
    ((m.setCommitment q { m.commitmentHeap q with commitment := some c }).trigger
      (Event.missingCommitmentReceived c.id)).Registered := by
  have hpending := h.awaited c.id.index c.id q hq hn
  have hother : ∀ k, k ≠ c.id →
      Event.awaitStep k (Event.awaited k m.events) (Event.missingCommitmentReceived c.id) =
        Event.awaited k m.events := by
    intro k hk
    cases hs : Event.awaited k m.events with
    | none => rfl
    | some pending => simp [Event.awaitStep, Ne.symm hk]
  have hheap : ∀ p, ((m.setCommitment q { m.commitmentHeap q with commitment := some c }).trigger
      (Event.missingCommitmentReceived c.id)).commitmentHeap p =
      if p = q then { m.commitmentHeap q with commitment := some c } else m.commitmentHeap p :=
    fun p => rfl
  constructor
  · intro s k p hp
    have hp1 : m.commitmentsByID.lookup s k = some p := hp
    obtain ⟨a, b, d⟩ := h.keyed s k p hp1
    refine ⟨?_, b, d⟩
    rw [hheap]
    by_cases hpq : p = q
    · subst hpq; simpa using a
    · simpa [hpq] using a
  · intro s k p hp hnone
    have hp1 : m.commitmentsByID.lookup s k = some p := hp
    rw [hheap] at hnone
    have hpq : p ≠ q := by
      intro hpq
      simp [hpq] at hnone
    simp only [hpq, if_false] at hnone
    have hk : k ≠ c.id := by
      intro hk
      subst hk
      obtain ⟨_, b, _⟩ := h.keyed s c.id p hp1
      subst b
      have : m.commitmentsByID.lookup c.id.index c.id = some q := hq
      rw [this] at hp1
      cases hp1
      exact hpq rfl
    simp only [Manager.trigger, Manager.setCommitment, awaited_append]
    rw [hother k hk]
    exact h.awaited s k p hp1 hnone
  · intro k
    simp only [Manager.trigger, Manager.setCommitment, awaited_append]
    by_cases hk : k = c.id
    · subst hk
      rw [hpending]
      simp [Event.awaitStep]
    · rw [hother k hk]
      exact h.ordered k

/-- Allocating and publishing a chain commitment for an id that is not stored keeps
the facts about storage and event log. -/
theorem Registered_created (m : Manager) (c : Commitment) (h : m.Registered) :
    (({ m with
        commitmentHeap := fun q => if q = m.commitmentCount then NewChainCommitment c.id
          else m.commitmentHeap q
        commitmentCount := m.commitmentCount + 1
        commitmentsByID := (m.commitmentsByID.getOrCreate c.id.index).1.put c.id.index
          (mapSet (m.commitmentsByID.getOrCreate c.id.index).2 c.id m.commitmentCount) } :
      Manager).setCommitment m.commitmentCount
        { NewChainCommitment c.id with commitment := some c }).Registered := by
  constructor
  · intro s k q hq
    simp only [Manager.setCommitment, lookup_getOrCreate_put] at hq ⊢
    by_cases hn : s = c.id.index ∧ c.id = k
    · rw [if_pos hn] at hq
      cases hq
      obtain ⟨h1, h2⟩ := hn
      subst h2
      simp [NewChainCommitment, h1]
    · rw [if_neg hn] at hq
      obtain ⟨a, b, d⟩ := h.keyed s k q hq
      have hne : q ≠ m.commitmentCount := Nat.ne_of_lt d
      simp only [hne, if_false]
      exact ⟨a, b, Nat.lt_succ_of_lt d⟩
  · intro s k q hq hn
    simp only [Manager.setCommitment, lookup_getOrCreate_put] at hq hn
    show Event.awaited k m.events = some true
    by_cases hc : s = c.id.index ∧ c.id = k
    · rw [if_pos hc] at hq
      cases hq
      simp at hn
    · rw [if_neg hc] at hq
      obtain ⟨_, _, d⟩ := h.keyed s k q hq
      have hne : q ≠ m.commitmentCount := Nat.ne_of_lt d
      simp only [hne, if_false] at hn
      exact h.awaited s k q hq hn
  · intro k
    exact h.ordered k

theorem registerCommitment_registered (m : Manager) (c : Commitment) (h : m.Registered) :
    (m.registerCommitment c).1.Registered := by
  have key : ∀ m1 : Manager, m1.Registered → ∀ parent,
      (let r2 := m1.getOrCreateCommitment c.id
        let cc := r2.2.1
        let r3 := r2.1.publishCommitment cc c
        if !r3.2 then (r3.1, false, (r3.1.commitmentHeap cc).solid, false, cc)
        else
          let m4 := if !r2.2.2 then
                      r3.1.trigger (Event.missingCommitmentReceived (r3.1.commitmentHeap cc).id)
                    else r3.1
          let r5 := m4.registerChild parent cc
          ((r5.1, true, r5.2.1, r5.2.2.2, cc) :
            Manager × Bool × Bool × Bool × Nat)).1.Registered := by
    intro m1 h1 parent
    cases hst : m1.commitment c.id with
    | some q =>
      cases hpc : (m1.commitmentHeap q).commitment with
      | some pc =>
        simp only [getOrCreateCommitment_found m1 c.id q hst, Manager.publishCommitment, hpc,
          Bool.not_false, if_true]
        exact h1
      | none =>
        have hid : (m1.commitmentHeap q).id = c.id := (h1.keyed c.id.index c.id q hst).1
        have hreg := Registered_received m1 c q h1 hst hpc
        simp only [getOrCreateCommitment_found m1 c.id q hst, Manager.publishCommitment, hpc,
          Bool.not_true, Bool.not_false, if_true, Bool.false_eq_true, if_false]
        refine Registered_of_keeps _ _ ?_ (KeepsRegistry_registerChild _ parent q)
        have hid2 : ((m1.setCommitment q
            { m1.commitmentHeap q with commitment := some c }).commitmentHeap q).id = c.id := by
          simp [Manager.setCommitment, hid]
        rw [hid2]
        exact hreg
    | none =>
      have hreg := Registered_created m1 c h1
      simp only [getOrCreateCommitment_missing m1 c.id hst, Manager.publishCommitment,
        if_true, NewChainCommitment, Bool.not_true, Bool.false_eq_true, if_false]
      exact Registered_of_keeps _ _ hreg (KeepsRegistry_registerChild _ parent _)
  cases hparent : m.commitment c.prevID with
  | some p =>
    simp only [Manager.registerCommitment, getOrCreateCommitment_found m c.prevID p hparent]
    exact key m h p
  | none =>
    have hreg := Registered_placeholder m c.prevID h
    simp only [Manager.registerCommitment, getOrCreateCommitment_missing m c.prevID hparent,
      if_true]
    exact key _ hreg m.commitmentCount

theorem processCommitment_registered (m m1 : Manager) (c : Commitment)
    (r : Bool × Bool × Option Nat) (hw : m.Registered)
    (h : m.processCommitment c = .ok (m1, r)) : m1.Registered := by
  unfold Manager.processCommitment at h
  split at h
  · cases h
  · split at h
    · split at h
      · cases h; exact hw
      · cases h
        exact Registered_of_keeps _ _ hw
          (KeepsRegistry_trigger _ _ (fun _ e => by cases e) (fun _ e => by cases e))
    · have s := registerCommitment_registered m c hw
      simp only [] at h
      generalize m.registerCommitment c = rc at s h
      obtain ⟨m2, isNew, isSolid, wasForked, cc⟩ := rc
      simp only at s h
      split at h
      · cases h; exact s
      · rename_i chain hchain
        split at h
        · cases h; exact s
        · have hafter : ∀ m3, (match m2.mainChild cc with
              | none => Except.ok m2
              | some mc => Manager.walk (Manager.propagateChainToMainChild chain)
                  m2.commitmentCount [mc] [mc] m2) = Except.ok m3 → m2.KeepsRegistry m3 := by
            intro m3 h3
            split at h3
            · cases h3; exact KeepsRegistry_refl _
            · exact walk_keepsRegistry _ (KeepsRegistry_propagateChain chain) _ _ _ _ _ h3
          split at h
          · cases h
          · rename_i m3 h3
            have g3 := hafter m3 h3
            split at h
            · split at h
              · cases h
              · rename_i m4 h4
                cases h
                exact Registered_of_keeps _ _ (Registered_of_keeps _ _ s g3)
                  (walk_keepsRegistry _ KeepsRegistry_propagateSolidity _ _ _ _ _ h4)
            · cases h
              exact Registered_of_keeps _ _ s g3

theorem call_registered (m m1 : Manager) (c : Call) (hw : m.Registered)
    (h : m.call c = .ok m1) : m1.Registered := by
  cases c with
  | processCommitment cm =>
    simp only [Manager.call] at h
    split at h
    · cases h
    · rename_i r hr
      cases h
      unfold Manager.ProcessCommitment at hr
      split at hr
      · cases hr
      · rename_i m2 _ _ hp
        cases hr
        exact processCommitment_registered m _ cm _ hw hp
      · rename_i m2 isNew isSolid cc hp
        have w2 := processCommitment_registered m m2 cm _ hw hp
        split at hr
        · split at hr
          · cases hr
          · cases hr
          · rename_i m3 h3
            cases hr
            exact Registered_of_keeps _ _ w2
              (switchMainChainToCommitment_keepsRegistry m2 m3 cc none h3)
        · cases hr; exact w2
  | processCandidateCommitment cm =>
    simp only [Manager.call] at h
    split at h
    · cases h
    · rename_i r hr
      cases h
      unfold Manager.ProcessCandidateCommitment at hr
      split at hr
      · cases hr
      · rename_i m2 _ _ hp
        cases hr
        exact processCommitment_registered m _ cm _ hw hp
      · rename_i m2 _ isSolid cc hp
        cases hr
        exact processCommitment_registered m m2 cm _ hw hp
  | processCommitmentFromSource cm source =>
    simp only [Manager.call] at h
    split at h
    · cases h
    · rename_i r hr
      cases h
      unfold Manager.ProcessCommitmentFromSource at hr
      split at hr
      · cases hr
      · rename_i m2 _ _ hp
        cases hr
        exact processCommitment_registered m _ cm _ hw hp
      · rename_i m2 _ isSolid cc hp
        have w2 := processCommitment_registered m m2 cm _ hw hp
        split at hr
        · cases hr
        · rename_i m3 h3
          cases hr
          exact Registered_of_keeps _ _ w2 (detectForks_keepsRegistry m2 m3 cc source h3)
  | switchMainChain head =>
    simp only [Manager.call] at h
    split at h
    · cases h
    · rename_i r hr
      cases h
      unfold Manager.SwitchMainChain at hr
      split at hr
      · cases hr; exact hw
      · obtain ⟨m2, e⟩ := r
        exact Registered_of_keeps _ _ hw (switchMainChainToCommitment_keepsRegistry m m2 _ e hr)
  | evictUntil index =>
    simp only [Manager.call, Manager.EvictUntil] at h
    split at h
    · cases h
    · cases h
      exact Registered_of_keeps _ _ hw (KeepsRegistry_evictLoop _ _ m)
  | setRootCommitment cm =>
    simp only [Manager.call, Manager.SetRootCommitment] at h
    split at h
    · cases h
    · split at h
      · cases h
      · split at h
        · cases h
        · split at h
          · cases h
          · split at h
            · cases h
            · cases h
              exact Registered_of_keeps _ _ hw (KeepsRegistry_congr m _ rfl rfl rfl rfl)

theorem Registered_publishCommitment (m : Manager) (p : Nat) (c : Commitment)
    (h : m.Registered) : (m.publishCommitment p c).1.Registered := by
  unfold Manager.publishCommitment
  cases hpc : (m.commitmentHeap p).commitment with
  | some _ => simp only [hpc]; exact h
  | none =>
    simp only [hpc]
    have hheap : ∀ q, (m.setCommitment p
        { m.commitmentHeap p with commitment := some c }).commitmentHeap q =
        if q = p then { m.commitmentHeap p with commitment := some c } else m.commitmentHeap q :=
      fun q => rfl
    constructor
    · intro s k q hq
      have hq1 : m.commitmentsByID.lookup s k = some q := hq
      obtain ⟨a, b, d⟩ := h.keyed s k q hq1
      refine ⟨?_, b, d⟩
      rw [hheap]
      by_cases hqp : q = p
      · subst hqp; simpa using a
      · simpa [hqp] using a
    · intro s k q hq hnone
      have hq1 : m.commitmentsByID.lookup s k = some q := hq
      rw [hheap] at hnone
      have hqp : q ≠ p := by
        intro hqp
        simp [hqp] at hnone
      simp only [hqp, if_false] at hnone
      exact h.awaited s k q hq1 hnone
    · exact h.ordered

theorem Initialize_registered (m : Manager) (c : Commitment) (h : m.Registered) :
    (m.Initialize c).Registered := by
  have tail : ∀ m2 : Manager, m2.Registered → ∀ root,
      (((m2.setSolid root true).1.NewChain root).1.publishChain root
        ((m2.setSolid root true).1.NewChain root).2).1.Registered := by
    intro m2 h2 root
    exact Registered_of_keeps _ _ h2
      (KeepsRegistry_trans _ _ _ (KeepsRegistry_setSolid m2 root true)
        (KeepsRegistry_trans _ _ _ (KeepsRegistry_NewChain _ root)
          (KeepsRegistry_publishChain _ root _)))
  cases hst : m.commitment c.id with
  | some q =>
    simp only [Manager.Initialize, getOrCreateCommitment_found m c.id q hst]
    apply tail
    apply Registered_publishCommitment
    exact Registered_of_keeps _ _ h (KeepsRegistry_congr m _ rfl rfl rfl rfl)
  | none =>
    simp only [Manager.Initialize, getOrCreateCommitment_missing m c.id hst]
    apply tail
    simp only [Manager.publishCommitment, if_true, NewChainCommitment]
    exact Registered_of_keeps _ _ (Registered_created m c h)
      (KeepsRegistry_congr _ _ rfl rfl rfl rfl)

theorem NewManagerWithDepth_registered (depth : Int) :
    (Manager.NewManagerWithDepth depth).Registered := by
  constructor
  · intro s id q hq
    simp [Manager.NewManagerWithDepth, IndexedStorage.lookup, IndexedStorage.empty] at hq
  · intro s id q hq
    simp [Manager.NewManagerWithDepth, IndexedStorage.lookup, IndexedStorage.empty] at hq
  · intro id
    simp [Manager.NewManagerWithDepth, Event.awaited]

theorem steps_registered (steps : List Step) (m m1 : Manager) (hw : m.Registered)
    (h : m.steps steps = .ok m1) : m1.Registered := by
  induction steps generalizing m with
  | nil =>
    simp only [Manager.steps] at h
    cases h; exact hw
  | cons s rest ih =>
    simp only [Manager.steps] at h
    split at h
    · cases h
    · rename_i m2 h2
      refine ih m2 ?_ h
      cases s with
      | init c =>
        simp only [Manager.step] at h2
        cases h2
        exact Initialize_registered m c hw
      | call c => exact call_registered m m2 c hw h2

theorem awaitStep_foldl_none (id : CommitmentID) (events : List Event) :
    events.foldl (Event.awaitStep id) none = none := by
  induction events with
  | nil => rfl
  | cons e rest ih => simpa [List.foldl, Event.awaitStep] using ih

/-- Without a `CommitmentMissing` of the id, a scan that starts with nothing
unanswered ends with nothing unanswered, or fails. -/
theorem awaitStep_foldl_idle (id : CommitmentID) (events : List Event)
    (h : Event.commitmentMissing id ∉ events) :
    events.foldl (Event.awaitStep id) (some false) = some false ∨
      events.foldl (Event.awaitStep id) (some false) = none := by
  induction events with
  | nil => exact Or.inl rfl
  | cons e rest ih =>
    have hrest : Event.commitmentMissing id ∉ rest := fun hm => h (List.mem_cons_of_mem _ hm)
    have he : e ≠ Event.commitmentMissing id := fun heq => h (heq ▸ List.mem_cons_self _ _)
    have hstep : Event.awaitStep id (some false) e = some false ∨
        Event.awaitStep id (some false) e = none := by
      cases e with
      | commitmentMissing id1 =>
        have : id1 ≠ id := fun hid => he (by rw [hid])
        exact Or.inl (by simp [Event.awaitStep, this])
      | missingCommitmentReceived id1 =>
        by_cases hid : id1 = id
        · exact Or.inr (by simp [Event.awaitStep, hid])
        · exact Or.inl (by simp [Event.awaitStep, hid])
      | commitmentBelowRoot _ => exact Or.inl rfl
      | forkDetected _ => exact Or.inl rfl
    simp only [List.foldl]
    rcases hstep with hs | hs
    · rw [hs]; exact ih hrest
    · rw [hs]; exact Or.inr (awaitStep_foldl_none id rest)

/-- A scan that answers a `MissingCommitmentReceived` of the id and does not fail
had a `CommitmentMissing` unanswered, and has none unanswered after it. -/
theorem awaitStep_received (id : CommitmentID) (state : Option Bool) (post : List Event)
    (h : (Event.missingCommitmentReceived id :: post).foldl (Event.awaitStep id) state ≠ none) :
    state = some true ∧
      (Event.missingCommitmentReceived id :: post).foldl (Event.awaitStep id) state =
        post.foldl (Event.awaitStep id) (some false) := by
  cases state with
  | none => exact absurd (awaitStep_foldl_none id _) h
  | some pending =>
    cases pending with
    | false =>
      exfalso
      apply h
      simp only [List.foldl, Event.awaitStep, if_true, Bool.false_eq_true, if_false]
      exact awaitStep_foldl_none id post
    | true =>
      refine ⟨rfl, ?_⟩
      simp [List.foldl, Event.awaitStep]

/-- What a scan that does not fail says about the event log: every
`MissingCommitmentReceived` of the id has a `CommitmentMissing` of the id before it,
and between two of them there is a further `CommitmentMissing` of the id. -/
theorem awaited_order (id : CommitmentID) (events : List Event)
    (h : Event.awaited id events ≠ none) :
    (∀ pre post, events = pre ++ Event.missingCommitmentReceived id :: post →
      Event.commitmentMissing id ∈ pre) ∧
    (∀ pre mid post, events = pre ++ Event.missingCommitmentReceived id ::
        (mid ++ Event.missingCommitmentReceived id :: post) →
      Event.commitmentMissing id ∈ mid) := by
  constructor
  · intro pre post he
    by_contra hmem
    subst he
    simp only [Event.awaited, List.foldl_append] at h
    obtain ⟨hs, _⟩ := awaitStep_received id _ post h
    rcases awaitStep_foldl_idle id pre hmem with h1 | h1
    · rw [h1] at hs; cases hs
    · rw [h1] at hs; cases hs
  · intro pre mid post he
    by_contra hmem
    subst he
    simp only [Event.awaited, List.foldl_append] at h
    obtain ⟨_, hs⟩ := awaitStep_received id _ _ h
    rw [hs, List.foldl_append] at h
    obtain ⟨hs2, _⟩ := awaitStep_received id _ post h
    rcases awaitStep_foldl_idle id mid hmem with h1 | h1
    · rw [h1] at hs2; cases hs2
    · rw [h1] at hs2; cases hs2

/-- C20 amended: after every sequence of `Initialize`, `ProcessCommitment`,
`ProcessCandidateCommitment`, `ProcessCommitmentFromSource`, `SwitchMainChain`,
`EvictUntil` and `SetRootCommitment` calls on a new manager, each of which returns,
every `MissingCommitmentReceived(id)` in the event log has a `CommitmentMissing(id)`
before it, and between two `MissingCommitmentReceived(id)` there is a further
`CommitmentMissing(id)`: each `CommitmentMissing(id)` is answered at most once. -/
theorem C20_missing_commitment_received (depth : Int) (steps : List Step) (m : Manager)
    (id : CommitmentID) (h : (Manager.NewManagerWithDepth depth).steps steps = .ok m) :
    (∀ pre post, m.events = pre ++ Event.missingCommitmentReceived id :: post →
      Event.commitmentMissing id ∈ pre) ∧
    (∀ pre mid post, m.events = pre ++ Event.missingCommitmentReceived id ::
        (mid ++ Event.missingCommitmentReceived id :: post) →
      Event.commitmentMissing id ∈ mid) :=
  awaited_order id m.events
    ((steps_registered steps _ m (NewManagerWithDepth_registered depth) h).ordered id)

set_option maxRecDepth 100000 in
/-- C20 amended at a concrete input: the replay after a main-chain switch, for the
id of `M2`. -/
theorem C20_missing_commitment_received_witness :
    Manager.NewManager.steps Scenario.replaySteps = .ok Scenario.replayAfterSwitch ∧
    (∀ pre post, Scenario.replayAfterSwitch.events =
        pre ++ Event.missingCommitmentReceived (Scenario.M 2).id :: post →
      Event.commitmentMissing (Scenario.M 2).id ∈ pre) ∧
    (∀ pre mid post, Scenario.replayAfterSwitch.events =
        pre ++ Event.missingCommitmentReceived (Scenario.M 2).id ::
          (mid ++ Event.missingCommitmentReceived (Scenario.M 2).id :: post) →
      Event.commitmentMissing (Scenario.M 2).id ∈ mid) :=
  ⟨by rfl, C20_missing_commitment_received 3 Scenario.replaySteps Scenario.replayAfterSwitch
    (Scenario.M 2).id (by rfl)⟩

set_option maxRecDepth 100000 in
/-- C20 fails without an eviction: the main chain arrives as `M1`, `M3`, `M2`, the
fork `F1` becomes the main chain, which drops `M2` and `M3` from the storage, and
`M3` and `M2` arrive again. No slot was ever evicted, and after the first
`CommitmentMissing(M2)` the event `MissingCommitmentReceived(M2)` is triggered
twice. -/
theorem C20_counterexample :
    Scenario.fresh.calls Scenario.replayCalls = .ok Scenario.replayAfterSwitch ∧
    Scenario.replayCalls.all (fun c => match c with
      | Call.evictUntil _ => false
      | _ => true) = true ∧
    Scenario.replayAfterSwitch.lastEvictedSlot.index = none ∧
    (Scenario.fresh.after (Scenario.replayCalls.take 5)).commitment (Scenario.M 2).id = none ∧
    Scenario.replayAfterSwitch.events =
      [Event.commitmentMissing (Scenario.M 2).id,
       Event.missingCommitmentReceived (Scenario.M 2).id,
       Event.commitmentMissing (Scenario.M 2).id,
       Event.missingCommitmentReceived (Scenario.M 2).id] := by
  refine ⟨by rfl, by rfl, by rfl, by rfl, by rfl⟩

/-! ## Prunable storage, ledger, and the remaining calls -/

theorem byte_mask (x : Nat) : (0xff &&& x) % 256 = x &&& 0xff := by
  have h : x &&& 0xff = x % 256 := Nat.and_pow_two_sub_one_eq_mod x 8
  rw [Nat.land_comm, h, Nat.mod_mod]

/-- C30: `indexToRealm` is not the little-endian encoding. Its bytes 0 to 6 are the
bytes `(index >> (8 * i)) & 0xff` of the index, but its last byte is
`(index >> 54) & 0xff`, the shift being 54 where the encoding has 56: the realm of
`2 ^ 56` ends in 4 where the encoding ends in 1, and the distinct 64-bit indices 0
and `2 ^ 62` have the same realm. -/
theorem C30_indexToRealm_last_byte :
    (∀ index i, i < 7 →
      (prunable.indexToRealm index)[i]? = some ((index >>> (8 * i)) &&& 0xff)) ∧
    (∀ index, (prunable.indexToRealm index)[7]? = some ((index >>> 54) &&& 0xff)) ∧
    prunable.indexToRealm (2 ^ 56) = [0, 0, 0, 0, 0, 0, 0, 4] ∧
    prunable.littleEndian (2 ^ 56) = [0, 0, 0, 0, 0, 0, 0, 1] ∧
    ((0 : Nat) ≠ 2 ^ 62 ∧ 2 ^ 62 < uint64Modulus ∧
      prunable.indexToRealm 0 = prunable.indexToRealm (2 ^ 62)) := by
  refine ⟨?_, ?_, by decide, by decide, by decide, by decide, by decide⟩
  · intro index i hi
    interval_cases i <;> simp [prunable.indexToRealm, byte_mask]
  · intro index
    simp [prunable.indexToRealm, byte_mask]

/-- C29: `IsOutputSpent` returns the unspent flag of the ledger state: it is true
for an output that is stored and unspent, and false for an output that has been
spent. -/
theorem C29_is_output_spent_inverted :
    (∀ (l : utxoledger.Ledger) (outputID : Nat),
      l.IsOutputSpent outputID = l.ledgerState.IsOutputIDUnspentWithoutLocking outputID) ∧
    (7 ∈ Scenario.ledgerWithUnspent.ledgerState.outputs ∧
      7 ∉ Scenario.ledgerWithUnspent.ledgerState.spent ∧
      Scenario.ledgerWithUnspent.IsOutputSpent 7 = true) ∧
    (7 ∈ Scenario.ledgerWithSpent.ledgerState.spent ∧
      Scenario.ledgerWithSpent.IsOutputSpent 7 = false) := by
  refine ⟨fun _ _ => rfl, ⟨by decide, by decide, by decide⟩, ⟨by decide, by decide⟩⟩

set_option maxRecDepth 100000 in
/-- C26 fails: after `PromoteFutureBlocksUntil(4)` the next slot to promote is 5, and
`PromoteFutureBlocksUntil(2)` then sets it back to 3. -/
theorem C26_counterexample :
    Scenario.freshDAG.PromoteFutureBlocksUntil 4 = .ok Scenario.promotedUntilFour ∧
    Scenario.promotedUntilFour.nextIndexToPromote = 5 ∧
    ∃ b, Scenario.promotedUntilFour.PromoteFutureBlocksUntil 2 = .ok b ∧
      b.nextIndexToPromote = 3 := by
  refine ⟨by rfl, by rfl, _, by rfl, by rfl⟩

/-- C26 amended: when `PromoteFutureBlocksUntil(index)` returns, the next slot to
promote is `index + 1`, whatever it was before; so it has not decreased exactly when
it was at most `index + 1` before the call. -/
theorem C26_next_index_to_promote (b b1 : BlockDAG) (index : Nat)
    (hIndex : index < uint64Modulus) (h : b.PromoteFutureBlocksUntil index = .ok b1) :
    b1.nextIndexToPromote = index + 1 ∧
      (b.nextIndexToPromote ≤ b1.nextIndexToPromote ↔ b.nextIndexToPromote ≤ index + 1) := by
  obtain ⟨hn, hb, _⟩ := PromoteFutureBlocksUntil_spec b b1 index h
  have hnext : b1.nextIndexToPromote = index + 1 := by
    rw [hb]
    show succUint64 index = index + 1
    unfold succUint64
    exact Nat.mod_eq_of_lt (by omega)
  exact ⟨hnext, by rw [hnext]⟩

set_option maxRecDepth 100000 in
/-- C26 amended at a concrete input: the first promotion of `freshDAG`. -/
theorem C26_next_index_to_promote_witness :
    Scenario.promotedUntilFour.nextIndexToPromote = 4 + 1 ∧
      (Scenario.freshDAG.nextIndexToPromote ≤ Scenario.promotedUntilFour.nextIndexToPromote ↔
        Scenario.freshDAG.nextIndexToPromote ≤ 4 + 1) :=
  C26_next_index_to_promote Scenario.freshDAG Scenario.promotedUntilFour 4 (by decide) (by rfl)

set_option maxRecDepth 100000 in
/-- C27: `Commitments` panics at a parent placeholder. After the fresh manager
received `F3`, whose parent `F2` is unknown, `F3` (reference 2) is stored and
published and `F2` (reference 1) is a stored placeholder: `Commitments(F3, 1)`
returns `F3`, `Commitments(F3, 2)` and `Commitments(F2, 1)` dereference the nil
payload of the placeholder, and `Commitments(F1, 1)` returns
`ErrCommitmentUnknown`. -/
theorem C27_commitments_placeholder :
    Scenario.orphanArrival.commitment (Scenario.F 2).id = some 1 ∧
    (Scenario.orphanArrival.commitmentHeap 1).commitment = none ∧
    Scenario.orphanArrival.Commitments (Scenario.F 3).id 1 = .ok (.ok [2]) ∧
    Scenario.orphanArrival.Commitments (Scenario.F 3).id 2 = .error Fault.nilDereference ∧
    Scenario.orphanArrival.Commitments (Scenario.F 2).id 1 = .error Fault.nilDereference ∧
    Scenario.orphanArrival.Commitments (Scenario.F 1).id 1 =
      .ok (.error ManagerError.commitmentUnknown) := by
  refine ⟨by rfl, by rfl, by rfl, by rfl, by rfl, by rfl⟩

/-! ## Processing a commitment twice -/

theorem KeepsStore_refl (m : Manager) : m.KeepsStore m := ⟨KeepsRegistry_refl m, rfl, rfl⟩

theorem KeepsStore_trans (m m1 m2 : Manager) (h1 : m.KeepsStore m1) (h2 : m1.KeepsStore m2) :
    m.KeepsStore m2 :=
  ⟨KeepsRegistry_trans _ _ _ h1.1 h2.1, h2.2.1.trans h1.2.1, h2.2.2.trans h1.2.2⟩

theorem KeepsStore_setCommitment (m : Manager) (p : Nat) (c : ChainCommitment)
    (h1 : c.id = (m.commitmentHeap p).id) (h2 : c.commitment = (m.commitmentHeap p).commitment) :
    m.KeepsStore (m.setCommitment p c) :=
  ⟨KeepsRegistry_setCommitment m p c h1 h2, rfl, rfl⟩

theorem KeepsStore_NewChain (m : Manager) (p : Nat) : m.KeepsStore (m.NewChain p).1 :=
  ⟨KeepsRegistry_NewChain m p, rfl, rfl⟩

theorem KeepsStore_chainAddCommitment (m : Manager) (chain commitment : Nat) :
    m.KeepsStore (m.chainAddCommitment chain commitment) :=
  ⟨KeepsRegistry_chainAddCommitment m chain commitment, rfl, rfl⟩

theorem KeepsStore_publishChain (m : Manager) (p chain : Nat) :
    m.KeepsStore (m.publishChain p chain).1 := by
  unfold Manager.publishChain
  cases h : (m.commitmentHeap p).chain with
  | none => simp only [h]; exact KeepsStore_setCommitment _ _ _ rfl rfl
  | some _ => simp only [h]; exact KeepsStore_refl m

theorem KeepsStore_setSolid (m : Manager) (p : Nat) (solid : Bool) :
    m.KeepsStore (m.setSolid p solid).1 := by
  unfold Manager.setSolid
  by_cases h : (m.commitmentHeap p).solid = solid
  · simp only [h, if_true]; exact KeepsStore_refl m
  · simp only [h, if_false]; exact KeepsStore_setCommitment _ _ _ rfl rfl

theorem KeepsStore_commitmentRegisterChild (m : Manager) (parent child : Nat) :
    m.KeepsStore (m.commitmentRegisterChild parent child).1 := by
  unfold Manager.commitmentRegisterChild
  have hset : ∀ mc : Option CommitmentID,
      m.KeepsStore (m.setCommitment parent
        { m.commitmentHeap parent with
          children := mapSet (m.commitmentHeap parent).children (m.commitmentHeap child).id child
          mainChildID := mc }) :=
    fun mc => KeepsStore_setCommitment m parent _ rfl rfl
  simp only []
  split
  · exact KeepsStore_trans _ _ _ (hset _) (KeepsStore_NewChain _ _)
  · exact hset _

theorem KeepsStore_registerChild (m : Manager) (parent child : Nat) :
    m.KeepsStore (m.registerChild parent child).1 := by
  unfold Manager.registerChild
  simp only []
  have h0 := KeepsStore_commitmentRegisterChild m parent child
  split
  · exact KeepsStore_trans _ _ _ h0 (KeepsStore_trans _ _ _
      (KeepsStore_trans _ _ _ (KeepsStore_chainAddCommitment _ _ _)
        (KeepsStore_publishChain _ _ _)) (KeepsStore_setSolid _ _ _))
  · exact h0

theorem KeepsStore_propagateChain (chain : Nat) (m : Manager) (child : Nat) :
    m.KeepsStore (Manager.propagateChainToMainChild chain m child).1 := by
  unfold Manager.propagateChainToMainChild
  simp only []
  have h1 := KeepsStore_publishChain m child chain
  split
  · exact h1
  · have h2 := KeepsStore_trans _ _ _ h1
      (KeepsStore_chainAddCommitment (m.publishChain child chain).1 chain child)
    split
    · exact h2
    · exact h2

theorem KeepsStore_propagateSolidity (m : Manager) (child : Nat) :
    m.KeepsStore (Manager.propagateSolidity m child).1 := by
  unfold Manager.propagateSolidity
  simp only []
  have h1 := KeepsStore_setSolid m child true
  split
  · exact h1
  · exact h1

/-- A walk whose steps keep the store keeps it. -/
theorem walk_keepsStore (step : Manager → Nat → Manager × List Nat)
    (hstep : ∀ (m : Manager) (x : Nat), m.KeepsStore (step m x).1)
    (fuel : Nat) (queue seen : List Nat) (m m1 : Manager)
    (h : Manager.walk step fuel queue seen m = .ok m1) : m.KeepsStore m1 :=
  walk_invariant step (fun x => m.KeepsStore x) (fun _ _ => True)
    (fun m2 x h2 _ => ⟨KeepsStore_trans _ _ _ h2 (hstep m2 x), fun _ _ => trivial,
      fun _ _ => trivial⟩)
    fuel queue seen m m1 (KeepsStore_refl m) (fun _ _ => trivial) h

/-- What `registerCommitment` leaves behind: the commitment is stored and published,
its parent is stored, and an allocated and published root keeps its payload. -/
theorem registerCommitment_stores (m : Manager) (c : Commitment) (root : Nat)
    (hroot : root < m.commitmentCount) (hpay : (m.commitmentHeap root).commitment ≠ none) :
    (m.registerCommitment c).1.commitment c.id = some (m.registerCommitment c).2.2.2.2 ∧
    ((m.registerCommitment c).1.commitmentHeap (m.registerCommitment c).2.2.2.2).commitment
      ≠ none ∧
    (m.registerCommitment c).1.commitment c.prevID ≠ none ∧
    (m.registerCommitment c).1.rootCommitment = m.rootCommitment ∧
    ((m.registerCommitment c).1.commitmentHeap root).commitment =
      (m.commitmentHeap root).commitment := by
  have key : ∀ m1 : Manager, m1.commitment c.prevID ≠ none → root < m1.commitmentCount →
      (m1.commitmentHeap root).commitment = (m.commitmentHeap root).commitment →
      m1.rootCommitment = m.rootCommitment → ∀ parent,
      ∀ r : Manager × Bool × Bool × Bool × Nat,
      r = (let r2 := m1.getOrCreateCommitment c.id
        let cc := r2.2.1
        let r3 := r2.1.publishCommitment cc c
        if !r3.2 then (r3.1, false, (r3.1.commitmentHeap cc).solid, false, cc)
        else
          let m4 := if !r2.2.2 then
                      r3.1.trigger (Event.missingCommitmentReceived (r3.1.commitmentHeap cc).id)
                    else r3.1
          let r5 := m4.registerChild parent cc
          (r5.1, true, r5.2.1, r5.2.2.2, cc)) →
      r.1.commitment c.id = some r.2.2.2.2 ∧
      (r.1.commitmentHeap r.2.2.2.2).commitment ≠ none ∧
      r.1.commitment c.prevID ≠ none ∧
      r.1.rootCommitment = m.rootCommitment ∧
      (r.1.commitmentHeap root).commitment = (m.commitmentHeap root).commitment := by
    intro m1 hprev hr1 hrp hrr parent r hr
    cases hst : m1.commitment c.id with
    | some q =>
      cases hpc : (m1.commitmentHeap q).commitment with
      | some pc =>
        simp only [getOrCreateCommitment_found m1 c.id q hst, Manager.publishCommitment, hpc,
          Bool.not_false, if_true] at hr
        subst hr
        exact ⟨hst, by simp [hpc], hprev, hrr, hrp⟩
      | none =>
        simp only [getOrCreateCommitment_found m1 c.id q hst, Manager.publishCommitment, hpc,
          Bool.not_true, Bool.not_false, if_true, Bool.false_eq_true, if_false] at hr
        subst hr
        have hk := KeepsStore_registerChild
          ((m1.setCommitment q { m1.commitmentHeap q with commitment := some c }).trigger
            (Event.missingCommitmentReceived
              ((m1.setCommitment q
                { m1.commitmentHeap q with commitment := some c }).commitmentHeap q).id))
          parent q
        obtain ⟨⟨k1, _, _, _⟩, k2, k3⟩ := hk
        have hne : root ≠ q := by
          intro he
          subst he
          rw [hpc] at hrp
          exact hpay hrp.symm
        refine ⟨?_, ?_, ?_, ?_, ?_⟩
        · show IndexedStorage.lookup _ _ _ = _
          rw [k2]; exact hst
        · rw [(k1 q).2]
          simp [Manager.trigger, Manager.setCommitment]
        · show IndexedStorage.lookup _ _ _ ≠ _
          rw [k2]; exact hprev
        · rw [k3]; exact hrr
        · rw [(k1 root).2]
          simp only [Manager.trigger, Manager.setCommitment, hne, if_false]
          exact hrp
    | none =>
      simp only [getOrCreateCommitment_missing m1 c.id hst, Manager.publishCommitment,
        if_true, NewChainCommitment, Bool.not_true, Bool.false_eq_true, if_false] at hr
      subst hr
      have hk := KeepsStore_registerChild
        (({ m1 with
            commitmentHeap := fun q => if q = m1.commitmentCount then NewChainCommitment c.id
              else m1.commitmentHeap q
            commitmentCount := m1.commitmentCount + 1
            commitmentsByID := (m1.commitmentsByID.getOrCreate c.id.index).1.put c.id.index
              (mapSet (m1.commitmentsByID.getOrCreate c.id.index).2 c.id
                m1.commitmentCount) } : Manager).setCommitment m1.commitmentCount
          { NewChainCommitment c.id with commitment := some c })
        parent m1.commitmentCount
      obtain ⟨⟨k1, _, _, _⟩, k2, k3⟩ := hk
      have hne : root ≠ m1.commitmentCount := Nat.ne_of_lt hr1
      refine ⟨?_, ?_, ?_, ?_, ?_⟩
      · show IndexedStorage.lookup _ _ _ = _
        simp only [NewChainCommitment] at k2
        rw [k2]
        simp [Manager.setCommitment, lookup_getOrCreate_put]
      · simp only [NewChainCommitment] at k1
        rw [(k1 _).2]
        simp [Manager.setCommitment]
      · show IndexedStorage.lookup _ _ _ ≠ _
        simp only [NewChainCommitment] at k2
        rw [k2]
        simp only [Manager.setCommitment, lookup_getOrCreate_put]
        split
        · simp
        · exact hprev
      · simp only [NewChainCommitment] at k3
        rw [k3]; exact hrr
      · simp only [NewChainCommitment] at k1
        rw [(k1 root).2]
        simp only [Manager.setCommitment, hne, if_false]
        exact hrp
  cases hparent : m.commitment c.prevID with
  | some p =>
    apply key m (by simp [hparent]) hroot rfl rfl p
    simp only [Manager.registerCommitment, getOrCreateCommitment_found m c.prevID p hparent]
    rfl
  | none =>
    have hne : root ≠ m.commitmentCount := Nat.ne_of_lt hroot
    apply key
      (({ m with
         commitmentHeap := fun q => if q = m.commitmentCount then NewChainCommitment c.prevID
           else m.commitmentHeap q
         commitmentCount := m.commitmentCount + 1
         commitmentsByID := (m.commitmentsByID.getOrCreate c.prevID.index).1.put c.prevID.index
           (mapSet (m.commitmentsByID.getOrCreate c.prevID.index).2 c.prevID
             m.commitmentCount) } : Manager).trigger
        (Event.commitmentMissing (NewChainCommitment c.prevID).id))
      (by simp [Manager.commitment, Manager.trigger, lookup_getOrCreate_put])
      (Nat.lt_succ_of_lt hroot)
      (by simp [Manager.trigger, hne])
      rfl m.commitmentCount
    simp only [Manager.registerCommitment, getOrCreateCommitment_missing m c.prevID hparent,
      if_true]

/-- What `processCommitment` of a commitment above the root leaves behind. -/
theorem processCommitment_stores (m m1 : Manager) (c rc : Commitment) (root : Nat)
    (r : Bool × Bool × Option Nat)
    (hRoot : m.rootCommitment = some root) (hAllocated : root < m.commitmentCount)
    (hPublished : (m.commitmentHeap root).commitment = some rc) (hAbove : rc.index < c.index)
    (h : m.processCommitment c = .ok (m1, r)) :
    ∃ cc, r.2.2 = some cc ∧ m1.commitment c.id = some cc ∧
      (m1.commitmentHeap cc).commitment ≠ none ∧ m1.commitment c.prevID ≠ none ∧
      m1.rootCommitment = some root ∧ (m1.commitmentHeap root).commitment = some rc := by
  have hne : c ≠ rc := by
    intro hc
    subst hc
    exact Nat.lt_irrefl _ hAbove
  have hnle : ¬ c.index ≤ rc.index := Nat.not_le_of_lt hAbove
  have s := registerCommitment_stores m c root hAllocated (by simp [hPublished])
  unfold Manager.processCommitment at h
  simp only [Manager.evaluateAgainstRootCommitment, hRoot, hPublished, hne, hnle, decide_False,
    Bool.or_false, Bool.false_eq_true, if_false] at h
  generalize m.registerCommitment c = rcm at s h
  obtain ⟨m2, isNew, isSolid, wasForked, cc⟩ := rcm
  obtain ⟨s1, s2, s3, s4, s5⟩ := s
  simp only at s1 s2 s3 s4 s5 h
  have fin : ∀ m3 : Manager, m2.KeepsStore m3 →
      m3.commitment c.id = some cc ∧ (m3.commitmentHeap cc).commitment ≠ none ∧
      m3.commitment c.prevID ≠ none ∧ m3.rootCommitment = some root ∧
      (m3.commitmentHeap root).commitment = some rc := by
    intro m3 k
    obtain ⟨⟨k1, _, _, _⟩, k2, k3⟩ := k
    refine ⟨?_, ?_, ?_, ?_, ?_⟩
    · show IndexedStorage.lookup _ _ _ = _
      rw [k2]; exact s1
    · rw [(k1 cc).2]; exact s2
    · show IndexedStorage.lookup _ _ _ ≠ _
      rw [k2]; exact s3
    · rw [k3, s4]; exact hRoot
    · rw [(k1 root).2, s5]; exact hPublished
  split at h
  · cases h; exact ⟨cc, rfl, fin _ (KeepsStore_refl _)⟩
  · rename_i chain hchain
    split at h
    · cases h; exact ⟨cc, rfl, fin _ (KeepsStore_refl _)⟩
    · have hafter : ∀ m3, (match m2.mainChild cc with
          | none => Except.ok m2
          | some mc => Manager.walk (Manager.propagateChainToMainChild chain)
              m2.commitmentCount [mc] [mc] m2) = Except.ok m3 → m2.KeepsStore m3 := by
        intro m3 h3
        split at h3
        · cases h3; exact KeepsStore_refl _
        · exact walk_keepsStore _ (KeepsStore_propagateChain chain) _ _ _ _ _ h3
      split at h
      · cases h
      · rename_i m3 h3
        have g3 := hafter m3 h3
        split at h
        · split at h
          · cases h
          · rename_i m4 h4
            cases h
            exact ⟨cc, rfl, fin _ (KeepsStore_trans _ _ _ g3
              (walk_keepsStore _ KeepsStore_propagateSolidity _ _ _ _ _ h4))⟩
        · cases h
          exact ⟨cc, rfl, fin _ g3⟩

/-- C21: in a manager whose root commitment is allocated and published, after a
`ProcessCandidateCommitment(c)` of a commitment `c` above the root has returned,
the commitment is stored, and a second `ProcessCandidateCommitment(c)` leaves the
whole state as it is, so that it triggers no event and changes no children set,
main child, chain or solid flag; its `registerCommitment` reports `isNew = false`,
and it returns the solid flag and the chain that the chain commitment of `c` has
in that state. -/
theorem C21_reprocessing_idempotent (m m1 : Manager) (c rc : Commitment) (root : Nat)
    (r : Bool × Option Nat)
    (hRoot : m.rootCommitment = some root) (hAllocated : root < m.commitmentCount)
    (hPublished : (m.commitmentHeap root).commitment = some rc) (hAbove : rc.index < c.index)
    (hFirst : m.ProcessCandidateCommitment c = .ok (m1, r)) :
    ∃ cc, m1.commitment c.id = some cc ∧
      m1.registerCommitment c = (m1, false, (m1.commitmentHeap cc).solid, false, cc) ∧
      m1.ProcessCandidateCommitment c =
        .ok (m1, (m1.commitmentHeap cc).solid, (m1.commitmentHeap cc).chain) := by
  have hp : ∃ r1, m.processCommitment c = .ok (m1, r1) := by
    unfold Manager.ProcessCandidateCommitment at hFirst
    split at hFirst
    · cases hFirst
    · rename_i m2 _ _ hp
      cases hFirst
      exact ⟨_, hp⟩
    · rename_i m2 _ isSolid cc hp
      cases hFirst
      exact ⟨_, hp⟩
  obtain ⟨r1, hp1⟩ := hp
  obtain ⟨cc, _, hst, hpub, hprev, hroot1, hpay1⟩ :=
    processCommitment_stores m m1 c rc root r1 hRoot hAllocated hPublished hAbove hp1
  have hne : c ≠ rc := by
    intro hc
    subst hc
    exact Nat.lt_irrefl _ hAbove
  have hnle : ¬ c.index ≤ rc.index := Nat.not_le_of_lt hAbove
  cases hparent : m1.commitment c.prevID with
  | none => exact absurd hparent hprev
  | some p =>
    cases hpc : (m1.commitmentHeap cc).commitment with
    | none => exact absurd hpc hpub
    | some pc =>
      have hreg : m1.registerCommitment c =
          (m1, false, (m1.commitmentHeap cc).solid, false, cc) := by
        simp only [Manager.registerCommitment, getOrCreateCommitment_found m1 c.prevID p hparent,
          getOrCreateCommitment_found m1 c.id cc hst, Manager.publishCommitment, hpc,
          Bool.not_false, if_true, Bool.false_eq_true, if_false]
      have hproc : m1.processCommitment c =
          .ok (m1, false, (m1.commitmentHeap cc).solid, some cc) := by
        simp only [Manager.processCommitment, Manager.evaluateAgainstRootCommitment, hroot1,
          hpay1, hreg, hne, hnle, decide_False, Bool.or_false, Bool.false_eq_true, if_false,
          Bool.not_false, if_true]
        cases (m1.commitmentHeap cc).chain <;> rfl
      refine ⟨cc, hst, hreg, ?_⟩
      simp only [Manager.ProcessCandidateCommitment, hproc]

set_option maxRecDepth 100000 in
/-- C21 at a concrete input: `F3`, whose parent is unknown, is received twice by the
fresh manager. -/
theorem C21_reprocessing_idempotent_witness :
    ∃ cc, Scenario.orphanArrival.commitment (Scenario.F 3).id = some cc ∧
      Scenario.orphanArrival.registerCommitment (Scenario.F 3) =
        (Scenario.orphanArrival, false, (Scenario.orphanArrival.commitmentHeap cc).solid,
          false, cc) ∧
      Scenario.orphanArrival.ProcessCandidateCommitment (Scenario.F 3) =
        .ok (Scenario.orphanArrival, (Scenario.orphanArrival.commitmentHeap cc).solid,
          (Scenario.orphanArrival.commitmentHeap cc).chain) :=
  C21_reprocessing_idempotent Scenario.fresh Scenario.orphanArrival (Scenario.F 3) (Scenario.M 0)
    0 (false, none) (by rfl) (by decide) (by rfl) (by decide) (by rfl)

/-! ## Future parking, and the repeated main-chain switch -/

/-- C24: for a block that is not yet flagged future and whose parents pass the two
checks of `checkParents`, with `data` the block data: if the local commitment lookup
fails for the declared commitment slot, `markSolid` returns nil, flags the block
future, has it parked in the bucket `(declared slot, declared commitment id)`,
leaves its solid flag as it was and triggers no event; if the lookup succeeds, the
block is set solid, `BlockSolid` is triggered for it and the future-block storage is
left as it was. -/
theorem C24_future_parking (b : BlockDAG) (block : Nat) (data : ModelBlock)
    (hFuture : (b.blockHeap block).future = false)
    (hParents : b.checkParents block = .ok none)
    (hData : (b.blockHeap block).modelsBlock = some data) :
    (b.commitmentFunc data.slotCommitmentID.index = none →
      ∃ b1, b.markSolid block = .ok (b1, none) ∧
        (b1.blockHeap block).future = true ∧
        block ∈ b1.parked data.slotCommitmentID.index data.slotCommitmentID ∧
        (b1.blockHeap block).solid = (b.blockHeap block).solid ∧
        b1.events = b.events) ∧
    (b.commitmentFunc data.slotCommitmentID.index ≠ none →
      ∃ b1, b.markSolid block = .ok (b1, none) ∧
        (b1.blockHeap block).solid = true ∧
        b1.events = b.events ++ [blockdag.Event.blockSolid block] ∧
        b1.futureBlocks = b.futureBlocks ∧
        (b1.blockHeap block).future = false) := by
  constructor
  · intro hcf
    have hm : ∃ b1, b.markSolid block = .ok (b1, none) := by
      unfold BlockDAG.markSolid
      simp only [hFuture, Bool.not_false, if_true, hParents]
      unfold BlockDAG.isFutureBlock
      simp only [hData, hcf]
      exact ⟨_, rfl⟩
    obtain ⟨b1, h1⟩ := hm
    obtain ⟨hnone, _⟩ := markSolid_first_visit b b1 block none hFuture h1
    obtain ⟨_, hcase⟩ := hnone rfl
    refine ⟨b1, h1, ?_⟩
    rcases hcase with hsolid | ⟨h2, h3, h4, data1, h5, h6⟩
    · exfalso
      unfold BlockDAG.markSolid at h1
      simp only [hFuture, Bool.not_false, if_true, hParents] at h1
      unfold BlockDAG.isFutureBlock at h1
      simp only [hData, hcf] at h1
      have hb := (Prod.mk.inj (Except.ok.inj h1)).1
      have hev : b1.events = b.events := by rw [← hb]; rfl
      rw [hsolid] at hev
      simp [BlockDAG.trigger, BlockDAG.setBlock] at hev
    · rw [hData] at h5
      cases h5
      exact ⟨h2, h6, h3, h4⟩
  · intro hcf
    cases hc : b.commitmentFunc data.slotCommitmentID.index with
    | none => exact absurd hc hcf
    | some cm =>
      refine ⟨(b.setBlock block (b.blockHeap block).SetSolid.1).trigger
        (blockdag.Event.blockSolid block), ?_, ?_, rfl, rfl, ?_⟩
      · unfold BlockDAG.markSolid
        simp only [hFuture, Bool.not_false, if_true, hParents]
        unfold BlockDAG.isFutureBlock
        simp only [hData, hc]
      · simp only [BlockDAG.trigger, BlockDAG.setBlock, if_true]
        exact setSolid_solid _
      · simp only [BlockDAG.trigger, BlockDAG.setBlock, if_true]
        unfold blockdag.Block.SetSolid
        cases hs : (b.blockHeap block).solid <;> simp [hs, hFuture]

set_option maxRecDepth 100000 in
/-- C24 at a concrete input: `foreignBlock` declares a commitment of slot 5, which
the local node has not committed, and is parked; `blockB1` declares a commitment
of slot 0 and is set solid. -/
theorem C24_future_parking_witness :
    (∃ b1, (Scenario.freshDAG.Attach Scenario.foreignBlock).1.markSolid 1 = .ok (b1, none) ∧
      (b1.blockHeap 1).future = true ∧
      1 ∈ b1.parked Scenario.foreignBlock.slotCommitmentID.index
        Scenario.foreignBlock.slotCommitmentID ∧
      (b1.blockHeap 1).solid =
        ((Scenario.freshDAG.Attach Scenario.foreignBlock).1.blockHeap 1).solid ∧
      b1.events = (Scenario.freshDAG.Attach Scenario.foreignBlock).1.events) ∧
    (∃ b1, (Scenario.freshDAG.Attach Scenario.blockB1).1.markSolid 1 = .ok (b1, none) ∧
      (b1.blockHeap 1).solid = true ∧
      b1.events = (Scenario.freshDAG.Attach Scenario.blockB1).1.events ++
        [blockdag.Event.blockSolid 1] ∧
      b1.futureBlocks = (Scenario.freshDAG.Attach Scenario.blockB1).1.futureBlocks ∧
      (b1.blockHeap 1).future = false) :=
  ⟨(C24_future_parking (Scenario.freshDAG.Attach Scenario.foreignBlock).1 1
      Scenario.foreignBlock (by rfl) (by rfl) (by rfl)).1 (by rfl),
   (C24_future_parking (Scenario.freshDAG.Attach Scenario.blockB1).1 1
      Scenario.blockB1 (by rfl) (by rfl) (by rfl)).2 (by decide)⟩

set_option maxRecDepth 100000 in
/-- C25, a defect of `switchMainChainToCommitment`, in Scenario E. `SwitchMainChain(F5)`
returned nil and made `F1` (reference 6) the main child of the root commitment
(reference 0), but `F5` (reference 10) keeps the chain of the fork, which is not the
chain of the root commitment, so the guard "commitment is already part of the main
chain" does not recognise it: the forking point against the main chain is still `F1`.
The repeated `SwitchMainChain(F5)` returns nil and takes the new main chain apart:
`F1` is no longer a child of the root commitment, which is left without a main child,
and `F5` is no longer in the storage. -/
theorem C25_repeated_switch :
    (Scenario.scenarioD 5).SwitchMainChain (Scenario.F 5).id = .ok (Scenario.scenarioE, none) ∧
    Scenario.scenarioE.rootCommitment = some 0 ∧
    Scenario.scenarioE.commitment (Scenario.F 5).id = some 10 ∧
    (Scenario.scenarioE.commitmentHeap 10).chain ≠ (Scenario.scenarioE.commitmentHeap 0).chain ∧
    Scenario.scenarioE.forkingPointAgainstMainChain 10 = .ok (.ok (some 6)) ∧
    Scenario.scenarioE.mainChild 0 = some 6 ∧
    ∃ m, Scenario.scenarioE.SwitchMainChain (Scenario.F 5).id = .ok (m, none) ∧
      (m.commitmentHeap 0).children = [] ∧ m.mainChild 0 = none ∧
      m.commitment (Scenario.F 5).id = none := by
  refine ⟨by rfl, by rfl, by rfl, by decide, by rfl, by rfl, _, by rfl, by rfl, by rfl, by rfl⟩

/-- The guard "commitment is already part of the main chain": for a registered solid
commitment whose chain is the chain of the root commitment,
`forkingPointAgainstMainChain` yields no forking point and `SwitchMainChain(id)`
returns nil and leaves the whole state as it is, however often it is repeated. -/
theorem switch_on_main_chain_noop (m : Manager) (head : CommitmentID) (c root : Nat)
    (hReg : m.commitment head = some c) (hSolid : (m.commitmentHeap c).solid = true)
    (hRoot : m.rootCommitment = some root)
    (hChain : (m.commitmentHeap c).chain = (m.commitmentHeap root).chain)
    (hSome : (m.commitmentHeap c).chain ≠ none) :
    m.forkingPointAgainstMainChain c = .ok (.ok none) ∧
    m.SwitchMainChain head = .ok (m, none) ∧
    (∀ n : Nat, m.calls (List.replicate n (Call.switchMainChain head)) = .ok m) := by
  have hfp : m.forkingPointAgainstMainChain c = .ok (.ok none) := by
    unfold Manager.forkingPointAgainstMainChain
    simp only [hSolid, hSome, hRoot, Bool.not_true, Bool.false_or, decide_False,
      Bool.false_eq_true, if_false]
    cases m.chainCount <;> simp [Manager.forkingPointLoop, hChain]
  have hsw : m.SwitchMainChain head = .ok (m, none) := by
    simp only [Manager.SwitchMainChain, hReg, Manager.switchMainChainToCommitment, hfp]
  refine ⟨hfp, hsw, ?_⟩
  intro n
  induction n with
  | zero => rfl
  | succ k ih =>
    simp only [List.replicate, Manager.calls, Manager.call, hsw]
    exact ih

set_option maxRecDepth 100000 in
/-- The guard at a concrete input: `M5` is on the main chain of Scenario D. -/
theorem switch_on_main_chain_noop_scenarioD :
    (Scenario.scenarioD 5).forkingPointAgainstMainChain 5 = .ok (.ok none) ∧
    (Scenario.scenarioD 5).SwitchMainChain (Scenario.M 5).id =
      .ok (Scenario.scenarioD 5, none) ∧
    (∀ n : Nat, (Scenario.scenarioD 5).calls
      (List.replicate n (Call.switchMainChain (Scenario.M 5).id)) =
        .ok (Scenario.scenarioD 5)) :=
  switch_on_main_chain_noop (Scenario.scenarioD 5) (Scenario.M 5).id 5 0 (by rfl) (by rfl)
    (by rfl) (by rfl) (by decide)

/-! ## The state diff of the mempool -/

theorem wrapInt64_eq (x : Int) (h1 : -(2 ^ 63 : Int) ≤ x) (h2 : x < 2 ^ 63) :
    wrapInt64 x = x := by
  unfold wrapInt64 toInt64 uint64Modulus
  have hm : (((2 : Nat) ^ 64 : Nat) : Int) = 18446744073709551616 := by norm_num
  rw [hm]
  have h64 : (2 : Nat) ^ 64 = 18446744073709551616 := by norm_num
  have h63 : (2 : Nat) ^ 63 = 9223372036854775808 := by norm_num
  have h63i : (2 : Int) ^ 63 = 9223372036854775808 := by norm_num
  rw [h64, h63]
  rw [h63i] at h1 h2
  split <;> omega

theorem mapHas_mapSet {K V : Type} [DecidableEq K] (l : List (K × V)) (k k' : K) (v : V) :
    mapHas (mapSet l k v) k' = if k = k' then true else mapHas l k' := by
  unfold mapHas
  rw [mapGet_mapSet]
  split <;> simp

theorem mapHas_mapDelete {K V : Type} [DecidableEq K] (l : List (K × V)) (k k' : K) :
    mapHas (mapDelete l k) k' = if k = k' then false else mapHas l k' := by
  unfold mapHas
  rw [mapGet_mapDelete]
  split <;> simp

theorem updateInput_eq (direction : Int) (s : mempoolv1.StateDiff)
    (input : mempoolv1.StateMetadata) :
    mempoolv1.StateDiff.updateInput direction s input =
      mempoolv1.StateDiff.updateOutput (-direction) s input := by
  unfold mempoolv1.StateDiff.updateInput mempoolv1.StateDiff.updateOutput
  rw [Int.sub_eq_add_neg]

/-- One counter update by 1 or -1, away from the overflow, keeps the compacted state
changes in agreement with the counters. -/
theorem updateOutput_spec (delta : Int) (s : mempoolv1.StateDiff)
    (output : mempoolv1.StateMetadata) (n : Nat)
    (hd : delta = 1 ∨ delta = -1) (hc : s.Compacted) (hb : s.Bounded n)
    (hn : (n : Int) + 1 < 2 ^ 63) :
    (mempoolv1.StateDiff.updateOutput delta s output).Compacted ∧
    (mempoolv1.StateDiff.updateOutput delta s output).Bounded (n + 1) ∧
    (∀ id, (mempoolv1.StateDiff.updateOutput delta s output).counter id =
      if id = output.id then s.counter id + delta else s.counter id) ∧
    (mempoolv1.StateDiff.updateOutput delta s output).executedTransactions =
      s.executedTransactions := by
  have h63i : (2 : Int) ^ 63 = 9223372036854775808 := by norm_num
  rw [h63i] at hn
  have hbo := hb output.id
  have hv : wrapInt64 (s.counter output.id + delta) = s.counter output.id + delta := by
    apply wrapInt64_eq
    · rw [h63i]; rcases hd with h | h <;> omega
    · rw [h63i]; rcases hd with h | h <;> omega
  have hcount : ∀ id, (mempoolv1.StateDiff.updateOutput delta s output).counter id =
      if id = output.id then s.counter id + delta else s.counter id := by
    intro id
    have hctr : (mempoolv1.StateDiff.updateOutput delta s output).stateUsageCounters =
        mapSet s.stateUsageCounters output.id (s.counter output.id + delta) := by
      unfold mempoolv1.StateDiff.updateOutput mempoolv1.StateDiff.compactStateChanges
      simp only [hv]
      split
      · rfl
      · split <;> rfl
    unfold mempoolv1.StateDiff.counter at hctr ⊢
    rw [hctr, mapGet_mapSet]
    by_cases hid : id = output.id
    · subst hid; simp
    · have : ¬ output.id = id := fun h => hid h.symm
      simp [hid, this]
  refine ⟨?_, ?_, hcount, ?_⟩
  · intro id
    have hold := hc id
    rw [hcount id]
    unfold mempoolv1.StateDiff.updateOutput mempoolv1.StateDiff.compactStateChanges
    simp only [hv]
    unfold mempoolv1.StateDiff.CreatedStates mempoolv1.StateDiff.DestroyedStates at hold ⊢
    by_cases hid : id = output.id
    · subst hid
      simp only [if_true]
      by_cases hpos : s.counter output.id + delta > 0
      · rw [if_pos hpos]
        simp only [mapHas_mapSet, if_true]
        refine ⟨⟨fun _ => hpos, fun _ => trivial⟩, ?_⟩
        rw [hold.2]
        constructor
        · intro h; rcases hd with h1 | h1 <;> omega
        · intro h; omega
      · rw [if_neg hpos]
        by_cases hneg : s.counter output.id + delta < 0
        · rw [if_pos hneg]
          simp only [mapHas_mapSet, if_true]
          refine ⟨?_, ⟨fun _ => hneg, fun _ => trivial⟩⟩
          rw [hold.1]
          constructor
          · intro h; rcases hd with h1 | h1 <;> omega
          · intro h; omega
        · rw [if_neg hneg]
          simp only [mapHas_mapDelete, if_true]
          exact ⟨⟨fun h => Bool.noConfusion h, fun h => absurd h hpos⟩,
            ⟨fun h => Bool.noConfusion h, fun h => absurd h hneg⟩⟩
    · have hne : ¬ output.id = id := fun h => hid h.symm
      simp only [hid, if_false]
      split
      · simp only [mapHas_mapSet, hne, if_false]; exact hold
      · split
        · simp only [mapHas_mapSet, hne, if_false]; exact hold
        · simp only [mapHas_mapDelete, hne, if_false]; exact hold
  · intro id
    rw [hcount id]
    have hbi := hb id
    split
    · push_cast; rcases hd with h | h <;> omega
    · push_cast; omega
  · unfold mempoolv1.StateDiff.updateOutput mempoolv1.StateDiff.compactStateChanges
    simp only []
    split
    · rfl
    · split <;> rfl

theorem Bounded_mono (s : mempoolv1.StateDiff) (n k : Nat) (h : s.Bounded n) (hk : n ≤ k) :
    s.Bounded k := by
  intro id
  have := h id
  constructor <;> omega

/-- A loop of counter updates by 1 or -1, away from the overflow. -/
theorem foldl_updateOutput_spec (delta : Int) (hd : delta = 1 ∨ delta = -1)
    (l : List mempoolv1.StateMetadata) (s : mempoolv1.StateDiff) (n : Nat)
    (hc : s.Compacted) (hb : s.Bounded n) (hn : (n : Int) + l.length < 2 ^ 63) :
    (l.foldl (mempoolv1.StateDiff.updateOutput delta) s).Compacted ∧
    (l.foldl (mempoolv1.StateDiff.updateOutput delta) s).Bounded (n + l.length) ∧
    (∀ id, (l.foldl (mempoolv1.StateDiff.updateOutput delta) s).counter id =
      s.counter id + delta * ((l.map (fun o => o.id)).count id : Nat)) ∧
    (l.foldl (mempoolv1.StateDiff.updateOutput delta) s).executedTransactions =
      s.executedTransactions := by
  induction l generalizing s n with
  | nil =>
    refine ⟨hc, hb, ?_, rfl⟩
    intro id
    simp
  | cons o rest ih =>
    simp only [List.foldl, List.length_cons] at hn ⊢
    have hn1 : (n : Int) + 1 < 2 ^ 63 := by
      have : (0 : Int) ≤ (rest.length : Int) := Int.ofNat_nonneg _
      push_cast at hn
      omega
    obtain ⟨c1, b1, k1, e1⟩ := updateOutput_spec delta s o n hd hc hb hn1
    have hn2 : ((n + 1 : Nat) : Int) + rest.length < 2 ^ 63 := by
      push_cast at hn ⊢
      omega
    obtain ⟨c2, b2, k2, e2⟩ := ih (mempoolv1.StateDiff.updateOutput delta s o) (n + 1) c1 b1 hn2
    refine ⟨c2, ?_, ?_, e2.trans e1⟩
    · have : n + 1 + rest.length = n + (rest.length + 1) := by omega
      rw [← this]; exact b2
    · intro id
      rw [k2 id, k1 id]
      simp only [List.map_cons, List.count_cons]
      by_cases hid : id = o.id
      · subst hid
        simp only [if_true, beq_self_eq_true]
        push_cast
        ring
      · have hne : ¬ (o.id == id) = true := by
          intro h
          exact hid (beq_iff_eq.mp h).symm
        simp only [hid, if_false, hne]
        push_cast
        ring

/-- The method `updateCompactedStateChanges`, away from the overflow. -/
theorem updateCompactedStateChanges_spec (s : mempoolv1.StateDiff)
    (t : mempoolv1.TransactionMetadata) (direction : Int) (n : Nat)
    (hd : direction = 1 ∨ direction = -1) (hc : s.Compacted) (hb : s.Bounded n)
    (hn : (n : Int) + (t.inputs.length + t.outputs.length : Nat) < 2 ^ 63) :
    (s.updateCompactedStateChanges t direction).Compacted ∧
    (s.updateCompactedStateChanges t direction).Bounded
      (n + (t.inputs.length + t.outputs.length)) ∧
    (∀ id, (s.updateCompactedStateChanges t direction).counter id =
      s.counter id - direction * ((t.inputs.map (fun o => o.id)).count id : Nat) +
        direction * ((t.outputs.map (fun o => o.id)).count id : Nat)) ∧
    (s.updateCompactedStateChanges t direction).executedTransactions =
      s.executedTransactions := by
  have hfun : mempoolv1.StateDiff.updateInput direction =
      mempoolv1.StateDiff.updateOutput (-direction) := by
    funext s1 o
    exact updateInput_eq direction s1 o
  have hd' : -direction = 1 ∨ -direction = -1 := by
    rcases hd with h | h
    · right; rw [h]
    · left; rw [h]; rfl
  unfold mempoolv1.StateDiff.updateCompactedStateChanges
  rw [hfun]
  push_cast at hn
  have hin : (0 : Int) ≤ (t.inputs.length : Int) := Int.ofNat_nonneg _
  have hout : (0 : Int) ≤ (t.outputs.length : Int) := Int.ofNat_nonneg _
  obtain ⟨c1, b1, k1, e1⟩ := foldl_updateOutput_spec (-direction) hd' t.inputs s n hc hb
    (by omega)
  obtain ⟨c2, b2, k2, e2⟩ := foldl_updateOutput_spec direction hd t.outputs _
    (n + t.inputs.length) c1 b1 (by push_cast; omega)
  refine ⟨c2, ?_, ?_, e2.trans e1⟩
  · have : n + t.inputs.length + t.outputs.length = n + (t.inputs.length + t.outputs.length) := by
      omega
    rw [← this]; exact b2
  · intro id
    rw [k2 id, k1 id]
    ring

theorem AddTransaction_spec (s : mempoolv1.StateDiff) (t : mempoolv1.TransactionMetadata)
    (n : Nat) (hNew : mapHas s.executedTransactions t.id = false)
    (hc : s.Compacted) (hb : s.Bounded n)
    (hn : (n : Int) + (t.inputs.length + t.outputs.length : Nat) < 2 ^ 63) :
    (s.AddTransaction t).Compacted ∧
    (s.AddTransaction t).Bounded (n + (t.inputs.length + t.outputs.length)) ∧
    (∀ id, (s.AddTransaction t).counter id =
      s.counter id - ((t.inputs.map (fun o => o.id)).count id : Nat) +
        ((t.outputs.map (fun o => o.id)).count id : Nat)) ∧
    (s.AddTransaction t).executedTransactions = mapSet s.executedTransactions t.id t := by
  unfold mempoolv1.StateDiff.AddTransaction
  simp only [hNew, Bool.not_false, if_true]
  obtain ⟨c1, b1, k1, e1⟩ := updateCompactedStateChanges_spec
    { s with executedTransactions := mapSet s.executedTransactions t.id t
             mutations := if t.id ∈ s.mutations then s.mutations else s.mutations ++ [t.id] }
    t 1 n (Or.inl rfl) hc hb hn
  refine ⟨c1, b1, fun id => ?_, e1⟩
  rw [k1 id]
  show s.counter id - _ + _ = _
  ring

theorem RollbackTransaction_spec (s : mempoolv1.StateDiff) (t : mempoolv1.TransactionMetadata)
    (n : Nat) (hOld : mapHas s.executedTransactions t.id = true)
    (hc : s.Compacted) (hb : s.Bounded n)
    (hn : (n : Int) + (t.inputs.length + t.outputs.length : Nat) < 2 ^ 63) :
    (s.RollbackTransaction t).Compacted ∧
    (s.RollbackTransaction t).Bounded (n + (t.inputs.length + t.outputs.length)) ∧
    (∀ id, (s.RollbackTransaction t).counter id =
      s.counter id + ((t.inputs.map (fun o => o.id)).count id : Nat) -
        ((t.outputs.map (fun o => o.id)).count id : Nat)) ∧
    (s.RollbackTransaction t).executedTransactions = mapDelete s.executedTransactions t.id := by
  unfold mempoolv1.StateDiff.RollbackTransaction
  simp only [hOld, if_true]
  obtain ⟨c1, b1, k1, e1⟩ := updateCompactedStateChanges_spec
    { s with executedTransactions := mapDelete s.executedTransactions t.id
             mutations := s.mutations.erase t.id }
    t (-1) n (Or.inr rfl) hc hb hn
  refine ⟨c1, b1, fun id => ?_, e1⟩
  rw [k1 id]
  show s.counter id - _ + _ = _
  ring

theorem call_spec (s : mempoolv1.StateDiff) (c : mempoolv1.DiffCall) (n : Nat)
    (hc : s.Compacted) (hb : s.Bounded n) (hn : (n : Int) + (c.updates : Nat) < 2 ^ 63) :
    (s.call c).Compacted ∧ (s.call c).Bounded (n + c.updates) := by
  cases c with
  | addTransaction t =>
    simp only [mempoolv1.StateDiff.call, mempoolv1.DiffCall.updates] at hn ⊢
    cases hex : mapHas s.executedTransactions t.id
    · obtain ⟨c1, b1, _, _⟩ := AddTransaction_spec s t n hex hc hb hn
      exact ⟨c1, b1⟩
    · have he : s.AddTransaction t =
          { s with executedTransactions := mapSet s.executedTransactions t.id t } := by
        unfold mempoolv1.StateDiff.AddTransaction
        simp [hex]
      rw [he]
      exact ⟨hc, Bounded_mono _ n _ hb (Nat.le_add_right _ _)⟩
  | rollbackTransaction t =>
    simp only [mempoolv1.StateDiff.call, mempoolv1.DiffCall.updates] at hn ⊢
    cases hex : mapHas s.executedTransactions t.id
    · have he : s.RollbackTransaction t = s := by
        unfold mempoolv1.StateDiff.RollbackTransaction
        simp [hex]
      rw [he]
      exact ⟨hc, Bounded_mono _ n _ hb (Nat.le_add_right _ _)⟩
    · obtain ⟨c1, b1, _, _⟩ := RollbackTransaction_spec s t n hex hc hb hn
      exact ⟨c1, b1⟩

theorem calls_spec (cs : List mempoolv1.DiffCall) (s : mempoolv1.StateDiff) (n : Nat)
    (hc : s.Compacted) (hb : s.Bounded n)
    (hn : n + mempoolv1.totalUpdates cs < 2 ^ 63) :
    (s.calls cs).Compacted ∧ (s.calls cs).Bounded (n + mempoolv1.totalUpdates cs) := by
  induction cs generalizing s n with
  | nil => exact ⟨hc, hb⟩
  | cons c rest ih =>
    simp only [mempoolv1.StateDiff.calls, List.foldl, mempoolv1.totalUpdates, List.map_cons,
      List.sum_cons] at hn ⊢
    have h1 : n + c.updates < 2 ^ 63 := by omega
    have h2 : (n : Int) + (c.updates : Nat) < 2 ^ 63 := by exact_mod_cast h1
    obtain ⟨c1, b1⟩ := call_spec s c n hc hb h2
    have := ih (s.call c) (n + c.updates) c1 b1 (by
      simp only [mempoolv1.totalUpdates]
      omega)
    simp only [mempoolv1.StateDiff.calls, mempoolv1.totalUpdates] at this
    rw [← Nat.add_assoc]
    exact this

theorem NewStateDiff_spec (index : Nat) :
    (mempoolv1.NewStateDiff index).Compacted ∧ (mempoolv1.NewStateDiff index).Bounded 0 := by
  constructor
  · intro id
    simp [mempoolv1.NewStateDiff, mempoolv1.StateDiff.CreatedStates,
      mempoolv1.StateDiff.DestroyedStates, mempoolv1.StateDiff.counter, mapHas, mapGet]
  · intro id
    simp [mempoolv1.NewStateDiff, mempoolv1.StateDiff.counter, mapGet]

/-- C28: for a state diff reached from `NewStateDiff` by `AddTransaction` and
`RollbackTransaction` calls and a transaction that is not among its executed
transactions, with all the counter updates made so far and the ones of the round
trip fewer than `2 ^ 63` (so that no counter, a Go `int`, overflows):
`AddTransaction(t)` followed by `RollbackTransaction(t)` restores the set of
executed transaction ids, the state-usage counter of every output and the id sets
of `CreatedStates` and `DestroyedStates`; and before, between and after the two
calls an output id is in `CreatedStates` exactly when its counter is positive and
in `DestroyedStates` exactly when its counter is negative. -/
theorem C28_state_diff_round_trip (index : Nat) (cs : List mempoolv1.DiffCall)
    (t : mempoolv1.TransactionMetadata)
    (hUpdates : mempoolv1.totalUpdates cs + 2 * (t.inputs.length + t.outputs.length) < 2 ^ 63)
    (hNew : mapHas ((mempoolv1.NewStateDiff index).calls cs).ExecutedTransactions t.id = false) :
    (∀ id, mapHas ((((mempoolv1.NewStateDiff index).calls cs).AddTransaction
        t).RollbackTransaction t).ExecutedTransactions id =
      mapHas ((mempoolv1.NewStateDiff index).calls cs).ExecutedTransactions id) ∧
    (∀ id, ((((mempoolv1.NewStateDiff index).calls cs).AddTransaction
        t).RollbackTransaction t).counter id =
      ((mempoolv1.NewStateDiff index).calls cs).counter id) ∧
    (∀ id, mapHas ((((mempoolv1.NewStateDiff index).calls cs).AddTransaction
        t).RollbackTransaction t).CreatedStates id =
      mapHas ((mempoolv1.NewStateDiff index).calls cs).CreatedStates id) ∧
    (∀ id, mapHas ((((mempoolv1.NewStateDiff index).calls cs).AddTransaction
        t).RollbackTransaction t).DestroyedStates id =
      mapHas ((mempoolv1.NewStateDiff index).calls cs).DestroyedStates id) ∧
    ((mempoolv1.NewStateDiff index).calls cs).Compacted ∧
    (((mempoolv1.NewStateDiff index).calls cs).AddTransaction t).Compacted ∧
    ((((mempoolv1.NewStateDiff index).calls cs).AddTransaction t).RollbackTransaction
      t).Compacted := by
  have h63 : ((2 ^ 63 : Nat) : Int) = 2 ^ 63 := by norm_num
  have hU : ((mempoolv1.totalUpdates cs + 2 * (t.inputs.length + t.outputs.length) : Nat) : Int)
      < 2 ^ 63 := by
    rw [← h63]
    exact Int.ofNat_lt.mpr hUpdates
  push_cast at hU
  have hin : (0 : Int) ≤ (t.inputs.length : Int) := Int.ofNat_nonneg _
  have hout : (0 : Int) ≤ (t.outputs.length : Int) := Int.ofNat_nonneg _
  have htot : (0 : Int) ≤ (mempoolv1.totalUpdates cs : Int) := Int.ofNat_nonneg _
  obtain ⟨c0, b0⟩ := NewStateDiff_spec index
  obtain ⟨c1, b1⟩ := calls_spec cs (mempoolv1.NewStateDiff index) 0 c0 b0 (by omega)
  generalize (mempoolv1.NewStateDiff index).calls cs = s at hNew c1 b1 ⊢
  obtain ⟨c2, b2, k2, e2⟩ := AddTransaction_spec s t _ hNew c1 b1 (by push_cast; omega)
  have hOld : mapHas (s.AddTransaction t).executedTransactions t.id = true := by
    rw [e2, mapHas_mapSet]; simp
  obtain ⟨c3, b3, k3, e3⟩ := RollbackTransaction_spec (s.AddTransaction t) t _ hOld c2 b2
    (by push_cast; omega)
  have hcount : ∀ id, ((s.AddTransaction t).RollbackTransaction t).counter id = s.counter id := by
    intro id
    rw [k3 id, k2 id]
    ring
  refine ⟨?_, hcount, ?_, ?_, c1, c2, c3⟩
  · intro id
    show mapHas ((s.AddTransaction t).RollbackTransaction t).executedTransactions id = _
    rw [e3, e2, mapHas_mapDelete, mapHas_mapSet]
    by_cases hid : t.id = id
    · subst hid
      simp only [if_true]
      exact hNew.symm
    · simp [hid]
      rfl
  · intro id
    rw [Bool.eq_iff_iff, (c3 id).1, (c1 id).1, hcount id]
  · intro id
    rw [Bool.eq_iff_iff, (c3 id).2, (c1 id).2, hcount id]

/-- C28 at a concrete input: the second transaction is added to a state diff that
holds the first one, and rolled back. -/
theorem C28_state_diff_round_trip_witness :
    (∀ id, mapHas ((((mempoolv1.NewStateDiff 1).calls
          [mempoolv1.DiffCall.addTransaction Scenario.firstTransaction]).AddTransaction
        Scenario.secondTransaction).RollbackTransaction
          Scenario.secondTransaction).CreatedStates id =
      mapHas ((mempoolv1.NewStateDiff 1).calls
        [mempoolv1.DiffCall.addTransaction Scenario.firstTransaction]).CreatedStates id) ∧
    (((mempoolv1.NewStateDiff 1).calls
        [mempoolv1.DiffCall.addTransaction Scenario.firstTransaction]).AddTransaction
      Scenario.secondTransaction).Compacted :=
  ⟨(C28_state_diff_round_trip 1 [mempoolv1.DiffCall.addTransaction Scenario.firstTransaction]
      Scenario.secondTransaction (by decide) (by decide)).2.2.1,
   (C28_state_diff_round_trip 1 [mempoolv1.DiffCall.addTransaction Scenario.firstTransaction]
      Scenario.secondTransaction (by decide) (by decide)).2.2.2.2.2.1⟩

/-! ## Attaching blocks: the registration of children -/

theorem childrenOf_AppendChild (b : blockdag.Block) (c : Nat) (t k : ParentsType) :
    (b.AppendChild c t).childrenOf k = b.childrenOf k ++ (if t = k then [c] else []) := by
  cases t <;> cases k <;> simp [blockdag.Block.AppendChild, blockdag.Block.childrenOf]

theorem AppendChild_missing (b : blockdag.Block) (c : Nat) (t : ParentsType) :
    (b.AppendChild c t).missing = b.missing ∧
      (b.AppendChild c t).missingBlockID = b.missingBlockID := by
  cases t <;> exact ⟨rfl, rfl⟩

theorem lookup_getOrCreate {K V : Type} [DecidableEq K] (s : IndexedStorage K V) (i j : Nat)
    (k : K) : (s.getOrCreate i).1.lookup j k = s.lookup j k := by
  cases hs : s i with
  | some inner => simp [IndexedStorage.getOrCreate, hs]
  | none =>
    by_cases hj : j = i
    · subst hj
      simp [IndexedStorage.getOrCreate, hs, IndexedStorage.lookup, IndexedStorage.put, mapGet]
    · simp [IndexedStorage.getOrCreate, hs, IndexedStorage.lookup, IndexedStorage.put, hj]

theorem mapGet_getOrCreate {K V : Type} [DecidableEq K] (s : IndexedStorage K V) (i : Nat)
    (k : K) : mapGet (s.getOrCreate i).2 k = s.lookup i k := by
  cases hs : s i with
  | some inner => simp [IndexedStorage.getOrCreate, hs, IndexedStorage.lookup]
  | none => simp [IndexedStorage.getOrCreate, hs, IndexedStorage.lookup, mapGet]

theorem registerChild_root (b : BlockDAG) (blk : Nat) (parent : Parent)
    (h : b.isRootBlock parent.id = true) : b.registerChild blk parent = b := by
  simp [BlockDAG.registerChild, h]

theorem registerChild_stored (b : BlockDAG) (blk : Nat) (parent : Parent) (pp : Nat)
    (h : b.isRootBlock parent.id = false)
    (hs : b.memStorage.lookup parent.id.index parent.id = some pp) :
    b.registerChild blk parent =
      { b with memStorage := (b.memStorage.getOrCreate parent.id.index).1 }.setBlock pp
        ((b.blockHeap pp).AppendChild blk parent.type) := by
  have hg := mapGet_getOrCreate b.memStorage parent.id.index parent.id
  rw [hs] at hg
  simp only [BlockDAG.registerChild, h, hg]
  rfl

theorem registerChild_absent (b : BlockDAG) (blk : Nat) (parent : Parent)
    (h : b.isRootBlock parent.id = false)
    (hs : b.memStorage.lookup parent.id.index parent.id = none) :
    b.registerChild blk parent =
      ({ b with blockHeap := fun q => if q = b.blockCount then
                    (blockdag.NewMissingBlock parent.id).AppendChild blk parent.type
                  else b.blockHeap q
                blockCount := b.blockCount + 1
                memStorage := (b.memStorage.getOrCreate parent.id.index).1.put parent.id.index
                  (mapSet (b.memStorage.getOrCreate parent.id.index).2 parent.id
                    b.blockCount) }.trigger
        (blockdag.Event.blockMissing b.blockCount)) := by
  have hg := mapGet_getOrCreate b.memStorage parent.id.index parent.id
  rw [hs] at hg
  simp only [BlockDAG.registerChild, h, hg]
  rfl

theorem Registers_nil (b0 : BlockDAG) (blk : Nat)
    (hAlloc : ∀ s id q, b0.memStorage.lookup s id = some q → q < b0.blockCount) :
    BlockDAG.Registers b0 b0 blk [] := by
  refine ⟨rfl, Nat.le_refl _, hAlloc, fun _ _ _ h => h, ?_, fun _ _ _ h => Or.inl h, ?_, ?_, ?_⟩
  · intro parent hmem; cases hmem
  · intro p h1 h2; omega
  · intro q k hq
    simp [hq]
  · simp

theorem Registers_root (b0 acc : BlockDAG) (blk : Nat) (ps : List Parent) (parent : Parent)
    (h : BlockDAG.Registers b0 acc blk ps) (hroot : acc.isRootBlock parent.id = true) :
    BlockDAG.Registers b0 (acc.registerChild blk parent) blk (ps ++ [parent]) := by
  rw [registerChild_root _ _ _ hroot]
  have hroot0 : b0.isRootBlock parent.id = true := by rw [← h.roots]; exact hroot
  refine ⟨h.roots, h.count, h.alloc, h.kept, ?_, ?_, ?_, ?_, h.events⟩
  · intro par hmem hnr
    rcases List.mem_append.mp hmem with hm | hm
    · exact h.stored par hm hnr
    · rw [List.mem_singleton.mp hm, hroot0] at hnr; cases hnr
  · intro s id q hq
    rcases h.fresh s id q hq with h1 | ⟨h1, par, hm, h2⟩
    · exact Or.inl h1
    · exact Or.inr ⟨h1, par, List.mem_append_left _ hm, h2⟩
  · intro p h1 h2
    obtain ⟨par, hm, rest⟩ := h.placeholders p h1 h2
    exact ⟨par, List.mem_append_left _ hm, rest⟩
  · intro q k hq
    rw [h.children q k hq, List.countP_append]
    have h0 : [parent].countP (acc.refersTo k q) = 0 := by
      simp [BlockDAG.refersTo, hroot]
    rw [h0, Nat.add_zero]

theorem Registers_stored (b0 acc : BlockDAG) (blk : Nat) (ps : List Parent) (parent : Parent)
    (pp : Nat) (h : BlockDAG.Registers b0 acc blk ps)
    (hroot : acc.isRootBlock parent.id = false)
    (hs : acc.memStorage.lookup parent.id.index parent.id = some pp) :
    BlockDAG.Registers b0 (acc.registerChild blk parent) blk (ps ++ [parent]) := by
  rw [registerChild_stored _ _ _ pp hroot hs]
  have hl : ∀ s id, ({ acc with memStorage := (acc.memStorage.getOrCreate parent.id.index).1
      }.setBlock pp ((acc.blockHeap pp).AppendChild blk parent.type)).memStorage.lookup s id =
      acc.memStorage.lookup s id := fun s id => lookup_getOrCreate _ _ _ _
  have hr : ∀ k q, ({ acc with memStorage := (acc.memStorage.getOrCreate parent.id.index).1
      }.setBlock pp ((acc.blockHeap pp).AppendChild blk parent.type)).refersTo k q =
      acc.refersTo k q := by
    intro k q
    funext par
    simp only [BlockDAG.refersTo, hl]
    rfl
  refine ⟨h.roots, h.count, ?_, ?_, ?_, ?_, ?_, ?_, h.events⟩
  · intro s id q hq
    rw [hl] at hq
    exact h.alloc s id q hq
  · intro s id q hq
    rw [hl]
    exact h.kept s id q hq
  · intro par hmem hnr
    rcases List.mem_append.mp hmem with hm | hm
    · obtain ⟨p, hp⟩ := h.stored par hm hnr
      exact ⟨p, by rw [hl]; exact hp⟩
    · rw [List.mem_singleton.mp hm]
      exact ⟨pp, by rw [hl]; exact hs⟩
  · intro s id q hq
    rw [hl] at hq
    rcases h.fresh s id q hq with h1 | ⟨h1, par, hm, h2⟩
    · exact Or.inl h1
    · exact Or.inr ⟨h1, par, List.mem_append_left _ hm, h2⟩
  · intro p h1 h2
    obtain ⟨par, hm, hr0, hn, hst, hmiss, hid⟩ := h.placeholders p h1 h2
    refine ⟨par, List.mem_append_left _ hm, hr0, hn, by rw [hl]; exact hst, ?_⟩
    by_cases hp : p = pp
    · subst hp
      simp only [BlockDAG.setBlock, if_true]
      rw [(AppendChild_missing _ _ _).1, (AppendChild_missing _ _ _).2]
      exact ⟨hmiss, hid⟩
    · simp only [BlockDAG.setBlock, if_neg hp]
      exact ⟨hmiss, hid⟩
  · intro q k hq
    rw [hr, List.countP_append]
    have hq0 : q < acc.blockCount := hq
    by_cases hp : q = pp
    · subst hp
      simp only [BlockDAG.setBlock, if_true]
      rw [childrenOf_AppendChild, h.children q k hq0]
      by_cases hk : parent.type = k
      · have h1 : [parent].countP (acc.refersTo k q) = 1 := by
          simp [BlockDAG.refersTo, hroot, hk, hs]
        rw [h1, if_pos hk, List.replicate_succ', List.append_assoc]
      · have h1 : [parent].countP (acc.refersTo k q) = 0 := by
          simp [BlockDAG.refersTo, hk]
        rw [h1, if_neg hk, Nat.add_zero, List.append_nil]
    · simp only [BlockDAG.setBlock, if_neg hp]
      have h1 : [parent].countP (acc.refersTo k q) = 0 := by
        have : pp ≠ q := fun e => hp e.symm
        simp [BlockDAG.refersTo, hs, this]
      rw [h1, Nat.add_zero]
      exact h.children q k hq0

theorem Registers_absent (b0 acc : BlockDAG) (blk : Nat) (ps : List Parent) (parent : Parent)
    (h : BlockDAG.Registers b0 acc blk ps)
    (hroot : acc.isRootBlock parent.id = false)
    (hs : acc.memStorage.lookup parent.id.index parent.id = none) :
    BlockDAG.Registers b0 (acc.registerChild blk parent) blk (ps ++ [parent]) := by
  rw [registerChild_absent _ _ _ hroot hs]
  generalize hacc : ({ acc with
      blockHeap := fun q => if q = acc.blockCount then
          (blockdag.NewMissingBlock parent.id).AppendChild blk parent.type
        else acc.blockHeap q
      blockCount := acc.blockCount + 1
      memStorage := (acc.memStorage.getOrCreate parent.id.index).1.put parent.id.index
        (mapSet (acc.memStorage.getOrCreate parent.id.index).2 parent.id
          acc.blockCount) } : BlockDAG).trigger
        (blockdag.Event.blockMissing acc.blockCount) = acc1
  have hroots : acc1.isRootBlock = acc.isRootBlock := by rw [← hacc]; rfl
  have hcount : acc1.blockCount = acc.blockCount + 1 := by rw [← hacc]; rfl
  have hevents : acc1.events = acc.events ++ [blockdag.Event.blockMissing acc.blockCount] := by
    rw [← hacc]; rfl
  have hheap : ∀ q, acc1.blockHeap q = if q = acc.blockCount then
      (blockdag.NewMissingBlock parent.id).AppendChild blk parent.type
      else acc.blockHeap q := by
    intro q; rw [← hacc]; rfl
  have hl : ∀ s id, acc1.memStorage.lookup s id =
      if s = parent.id.index ∧ parent.id = id then some acc.blockCount
      else acc.memStorage.lookup s id := by
    intro s id
    rw [← hacc]
    exact lookup_getOrCreate_put _ _ _ _ _ _
  have hold : ∀ s id q, acc.memStorage.lookup s id = some q →
      acc1.memStorage.lookup s id = some q := by
    intro s id q hq
    rw [hl]
    by_cases hk : s = parent.id.index ∧ parent.id = id
    · obtain ⟨h1, h2⟩ := hk
      subst h1; subst h2
      rw [hs] at hq; cases hq
    · rw [if_neg hk]; exact hq
  have hnew : acc1.memStorage.lookup parent.id.index parent.id = some acc.blockCount := by
    rw [hl]; simp
  have hroot0 : b0.isRootBlock parent.id = false := by rw [← h.roots]; exact hroot
  have hnone0 : b0.memStorage.lookup parent.id.index parent.id = none := by
    cases hb : b0.memStorage.lookup parent.id.index parent.id with
    | none => rfl
    | some x => rw [h.kept _ _ _ hb] at hs; cases hs
  have hc := h.count
  have hrefers : ∀ k q, ∀ par ∈ ps, acc1.refersTo k q par = acc.refersTo k q par := by
    intro k q par hmem
    cases hpr : b0.isRootBlock par.id with
    | true => simp [BlockDAG.refersTo, hroots, h.roots, hpr]
    | false =>
      obtain ⟨p, hp⟩ := h.stored par hmem hpr
      simp only [BlockDAG.refersTo, hroots, hold _ _ _ hp, hp]
  refine ⟨hroots.trans h.roots, by omega, ?_, ?_, ?_, ?_, ?_, ?_, ?_⟩
  · intro s id q hq
    rw [hl] at hq
    by_cases hk : s = parent.id.index ∧ parent.id = id
    · rw [if_pos hk] at hq
      cases hq; omega
    · rw [if_neg hk] at hq
      have := h.alloc s id q hq
      omega
  · intro s id q hq
    exact hold s id q (h.kept s id q hq)
  · intro par hmem hnr
    rcases List.mem_append.mp hmem with hm | hm
    · obtain ⟨p, hp⟩ := h.stored par hm hnr
      exact ⟨p, hold _ _ _ hp⟩
    · rw [List.mem_singleton.mp hm]
      exact ⟨_, hnew⟩
  · intro s id q hq
    rw [hl] at hq
    by_cases hk : s = parent.id.index ∧ parent.id = id
    · rw [if_pos hk] at hq
      obtain ⟨h1, h2⟩ := hk
      subst h2
      cases hq
      refine Or.inr ⟨hc, parent, List.mem_append_right _ (List.mem_singleton.mpr rfl), rfl, h1,
        hroot0, ?_⟩
      rw [h1]; exact hnone0
    · rw [if_neg hk] at hq
      rcases h.fresh s id q hq with h1 | ⟨h1, par, hm, h2⟩
      · exact Or.inl h1
      · exact Or.inr ⟨h1, par, List.mem_append_left _ hm, h2⟩
  · intro p h1 h2
    by_cases hp : p = acc.blockCount
    · subst hp
      refine ⟨parent, List.mem_append_right _ (List.mem_singleton.mpr rfl), hroot0, hnone0, hnew,
        ?_⟩
      rw [hheap, if_pos rfl, (AppendChild_missing _ _ _).1, (AppendChild_missing _ _ _).2]
      exact ⟨rfl, rfl⟩
    · obtain ⟨par, hm, hr0, hn, hst, hmiss⟩ := h.placeholders p h1 (by omega)
      refine ⟨par, List.mem_append_left _ hm, hr0, hn, hold _ _ _ hst, ?_⟩
      rw [hheap, if_neg hp]
      exact hmiss
  · intro q k hq
    rw [List.countP_append, List.countP_congr (fun par hmem => by rw [hrefers k q par hmem])]
    by_cases hp : q = acc.blockCount
    · subst hp
      have hlt : ¬ acc.blockCount < b0.blockCount := by omega
      rw [hheap, if_pos rfl, childrenOf_AppendChild, if_neg hlt]
      have h0 : ps.countP (acc.refersTo k acc.blockCount) = 0 := by
        rw [List.countP_eq_zero]
        intro par _ hpar
        simp only [BlockDAG.refersTo, Bool.and_eq_true, decide_eq_true_eq] at hpar
        have := h.alloc _ _ _ hpar.2
        omega
      rw [h0, Nat.zero_add]
      by_cases hk : parent.type = k
      · have h1 : [parent].countP (acc1.refersTo k acc.blockCount) = 1 := by
          simp [BlockDAG.refersTo, hroots, hroot, hk, hnew]
        rw [h1, if_pos hk]
        cases k <;> rfl
      · have h1 : [parent].countP (acc1.refersTo k acc.blockCount) = 0 := by
          simp [BlockDAG.refersTo, hk]
        rw [h1, if_neg hk]
        cases k <;> rfl
    · rw [hheap, if_neg hp]
      have h1 : [parent].countP (acc1.refersTo k q) = 0 := by
        have : acc.blockCount ≠ q := fun e => hp e.symm
        simp [BlockDAG.refersTo, hnew, this]
      rw [h1, Nat.add_zero]
      exact h.children q k (by omega)
  · rw [hevents, h.events, hcount]
    have e : acc.blockCount + 1 - b0.blockCount = (acc.blockCount - b0.blockCount) + 1 := by
      omega
    rw [e, List.range'_1_concat, List.map_append, List.append_assoc]
    have e2 : b0.blockCount + (acc.blockCount - b0.blockCount) = acc.blockCount := by omega
    rw [e2]
    rfl

theorem Registers_step (b0 acc : BlockDAG) (blk : Nat) (ps : List Parent) (parent : Parent)
    (h : BlockDAG.Registers b0 acc blk ps) :
    BlockDAG.Registers b0 (acc.registerChild blk parent) blk (ps ++ [parent]) := by
  cases hroot : acc.isRootBlock parent.id with
  | true => exact Registers_root b0 acc blk ps parent h hroot
  | false =>
    cases hs : acc.memStorage.lookup parent.id.index parent.id with
    | some pp => exact Registers_stored b0 acc blk ps parent pp h hroot hs
    | none => exact Registers_absent b0 acc blk ps parent h hroot hs

theorem Registers_foldl (b0 : BlockDAG) (blk : Nat) (rest : List Parent) :
    ∀ (acc : BlockDAG) (ps : List Parent), BlockDAG.Registers b0 acc blk ps →
      BlockDAG.Registers b0 (rest.foldl (fun acc parent => acc.registerChild blk parent) acc)
        blk (ps ++ rest) := by
  induction rest with
  | nil => intro acc ps h; simpa using h
  | cons parent rest ih =>
    intro acc ps h
    have := ih (acc.registerChild blk parent) (ps ++ [parent]) (Registers_step b0 acc blk ps parent h)
    simpa [List.append_assoc] using this

theorem canAttachToParents_accept (b : BlockDAG) (sb : Option Nat) (data : ModelBlock)
    (parents : List Parent) (b1 : BlockDAG) (sb1 : Option Nat)
    (e : Option blockdag.BlockError)
    (h : b.canAttachToParents sb data parents = (b1, sb1, true, e)) : b1 = b := by
  induction parents with
  | nil =>
    simp only [BlockDAG.canAttachToParents, Prod.mk.injEq] at h
    exact h.1.symm
  | cons parent rest ih =>
    by_cases hp : (b.inEvictedSlot parent.id && !b.isRootBlock parent.id) = true
    · simp only [BlockDAG.canAttachToParents, hp, if_true, Prod.mk.injEq] at h
      exact absurd h.2.2.1 (by decide)
    · simp only [BlockDAG.canAttachToParents, hp] at h
      exact ih h

theorem canAttach_accept (b : BlockDAG) (data : ModelBlock) (b1 : BlockDAG) (sb1 : Option Nat)
    (e : Option blockdag.BlockError) (h : b.canAttach data = (b1, sb1, true, e)) : b1 = b := by
  unfold BlockDAG.canAttach at h
  split at h
  · simp only [Prod.mk.injEq] at h
    exact absurd h.2.2.1 (by decide)
  · split at h
    · split at h
      · simp only [Prod.mk.injEq] at h
        exact absurd h.2.2.1 (by decide)
      · exact canAttachToParents_accept _ _ _ _ _ _ _ h
    · exact canAttachToParents_accept _ _ _ _ _ _ _ h

/-- The state `attach` hands to the loop over the parent references when it goes on:
the block is stored under its id, as a new object or as the updated placeholder, no
other entry and no child list has changed, and at most `MissingBlockAttached` was
triggered. -/
theorem attach_success (b : BlockDAG) (data : ModelBlock) (b1 : BlockDAG) (blk : Nat)
    (err : Option blockdag.BlockError)
    (hAlloc : ∀ s id q, b.memStorage.lookup s id = some q → q < b.blockCount)
    (h : b.attach data = (b1, some blk, true, err)) :
    ∃ b3 : BlockDAG,
      b1 = data.parents.foldl (fun acc parent => acc.registerChild blk parent) b3 ∧
      b3.isRootBlock = b.isRootBlock ∧ b.blockCount ≤ b3.blockCount ∧
      (∀ s id q, b3.memStorage.lookup s id = some q → q < b3.blockCount) ∧
      (∀ s id, b3.memStorage.lookup s id =
        if s = data.id.index ∧ data.id = id then some blk else b.memStorage.lookup s id) ∧
      (∀ q k, q < b3.blockCount → (b3.blockHeap q).childrenOf k =
        if q < b.blockCount then (b.blockHeap q).childrenOf k else []) ∧
      ∃ pre, (pre = [] ∨ pre = [blockdag.Event.missingBlockAttached blk]) ∧
        b3.events = b.events ++ pre := by
  unfold BlockDAG.attach at h
  generalize hr : b.canAttach data = r at h
  obtain ⟨b0, sb, flag, e⟩ := r
  cases flag with
  | false =>
    simp only [Bool.not_false, if_true, Prod.mk.injEq] at h
    exact absurd h.2.2.1 (by decide)
  | true =>
    have hb0 := canAttach_accept b data b0 sb e hr
    subst hb0
    simp only [Bool.not_true, Bool.false_eq_true, if_false] at h
    have hg := mapGet_getOrCreate b0.memStorage data.id.index data.id
    cases hs : b0.memStorage.lookup data.id.index data.id with
    | none =>
      rw [hs] at hg
      simp only [hg, if_true, Prod.mk.injEq, Option.some.injEq] at h
      obtain ⟨h1, h2, _, _⟩ := h
      subst h2
      refine ⟨_, h1.symm, rfl, Nat.le_succ _, ?_, ?_, ?_, [], Or.inl rfl, ?_⟩
      · intro s id q hq
        simp only [lookup_getOrCreate_put] at hq
        by_cases hk : s = data.id.index ∧ data.id = id
        · rw [if_pos hk] at hq
          cases hq
          exact Nat.lt_succ_self _
        · rw [if_neg hk] at hq
          exact Nat.lt_succ_of_lt (hAlloc s id q hq)
      · intro s id
        simp only [lookup_getOrCreate_put]
      · intro q k hq
        by_cases hq0 : q = b0.blockCount
        · subst hq0
          simp only [if_true, Nat.lt_irrefl, if_false]
          cases k <;> rfl
        · have hlt : q < b0.blockCount := by
            have : q < b0.blockCount + 1 := hq
            omega
          simp only [if_neg hq0, if_pos hlt]
      · simp
    | some p =>
      rw [hs] at hg
      simp only [hg, Bool.false_eq_true, if_false] at h
      cases hm : (b0.blockHeap p).missing with
      | false =>
        simp only [blockdag.Block.Update, hm, Bool.not_false, if_true, Prod.mk.injEq] at h
        exact absurd h.2.2.1 (by decide)
      | true =>
        simp only [blockdag.Block.Update, hm, Bool.not_true, Bool.false_eq_true, if_false,
          Prod.mk.injEq, Option.some.injEq] at h
        obtain ⟨h1, h2, _, _⟩ := h
        subst h2
        refine ⟨_, h1.symm, rfl, Nat.le_refl _, ?_, ?_, ?_,
          [blockdag.Event.missingBlockAttached p], Or.inr rfl, rfl⟩
        · intro s id q hq
          have hq1 : (b0.memStorage.getOrCreate data.id.index).1.lookup s id = some q := hq
          rw [lookup_getOrCreate] at hq1
          exact hAlloc s id q hq1
        · intro s id
          show (b0.memStorage.getOrCreate data.id.index).1.lookup s id = _
          rw [lookup_getOrCreate]
          by_cases hk : s = data.id.index ∧ data.id = id
          · rw [if_pos hk]
            obtain ⟨e1, e2⟩ := hk
            subst e1; subst e2
            exact hs
          · rw [if_neg hk]
        · intro q k hq
          have hlt : q < b0.blockCount := hq
          rw [if_pos hlt]
          simp only [BlockDAG.trigger, BlockDAG.setBlock]
          by_cases hqp : q = p
          · subst hqp
            simp only [if_true]
            cases k <;> rfl
          · simp only [if_neg hqp]

/-- C23: after a successful `Attach` of a new block `B` (`wasAttached = true`), in a
block DAG whose stored references are allocated and for a block that is not its own
parent: for every parent reference `(P, kind)` with `P` not a root block the storage
holds an entry for `P` and `B` occurs in the child list of that kind of the stored
block; the events triggered are at most `MissingBlockAttached(B)`, then one
`BlockMissing` for each new block object, then `BlockAttached(B)`, where the new
block objects are missing placeholders, one for each distinct parent id that is not
a root block and was absent from the storage before the call; every other storage
entry is one of before the call or the one of `B`; and every child list has grown by
exactly one `B` per parent reference that is not a root block and resolves to it, so
that root-block parents get no placeholder and no child entry. -/
theorem C23_attach_registers_children (b : BlockDAG) (data : ModelBlock) (b1 : BlockDAG)
    (blk : Nat) (err : Option blockdag.BlockError)
    (hAlloc : ∀ s id q, b.memStorage.lookup s id = some q → q < b.blockCount)
    (hSelf : ∀ parent ∈ data.parents, parent.id ≠ data.id)
    (hAttach : b.Attach data = (b1, some blk, true, err)) :
    (∀ parent ∈ data.parents, b.isRootBlock parent.id = false →
      ∃ p, b1.memStorage.lookup parent.id.index parent.id = some p ∧
        blk ∈ (b1.blockHeap p).childrenOf parent.type) ∧
    (∃ k pre, (pre = [] ∨ pre = [blockdag.Event.missingBlockAttached blk]) ∧
      k ≤ b1.blockCount ∧
      b1.events = b.events ++ pre ++
        (List.range' (b1.blockCount - k) k).map blockdag.Event.blockMissing ++
        [blockdag.Event.blockAttached blk] ∧
      (∀ p, b1.blockCount - k ≤ p → p < b1.blockCount →
        ∃ parent ∈ data.parents, b.isRootBlock parent.id = false ∧
          b.memStorage.lookup parent.id.index parent.id = none ∧
          b1.memStorage.lookup parent.id.index parent.id = some p ∧
          (b1.blockHeap p).missing = true ∧ (b1.blockHeap p).ID = .ok parent.id) ∧
      (∀ parent ∈ data.parents, b.isRootBlock parent.id = false →
        b.memStorage.lookup parent.id.index parent.id = none →
        ∃ p, b1.blockCount - k ≤ p ∧ p < b1.blockCount ∧
          b1.memStorage.lookup parent.id.index parent.id = some p)) ∧
    (∀ s id q, b1.memStorage.lookup s id = some q →
      b.memStorage.lookup s id = some q ∨ id = data.id ∨
        ∃ parent ∈ data.parents, parent.id = id ∧ b.isRootBlock id = false ∧
          b.memStorage.lookup s id = none) ∧
    (∀ q k, q < b1.blockCount → (b1.blockHeap q).childrenOf k =
      (if q < b.blockCount then (b.blockHeap q).childrenOf k else []) ++
        List.replicate (data.parents.countP (b1.refersTo k q)) blk) := by
  unfold BlockDAG.Attach at hAttach
  generalize hr : b.attach data = r at hAttach
  obtain ⟨x, ob, flag, e⟩ := r
  have hx : ob = some blk ∧ flag = true ∧
      b1 = (x.trigger (blockdag.Event.blockAttached blk)).queue blk := by
    cases ob with
    | none =>
      simp only [Prod.mk.injEq] at hAttach
      exact absurd hAttach.2.1 (by simp)
    | some y =>
      cases flag with
      | false =>
        simp only [Prod.mk.injEq] at hAttach
        exact absurd hAttach.2.2.1 (by decide)
      | true =>
        simp only [Prod.mk.injEq, Option.some.injEq] at hAttach
        obtain ⟨h1, h2, _⟩ := hAttach
        subst h2
        exact ⟨rfl, rfl, h1.symm⟩
  obtain ⟨hob, hflag, hb1⟩ := hx
  subst hob; subst hflag
  obtain ⟨b3, hfold, hroots, hcount, halloc, hlook, hchildren, pre, hpre, hevents⟩ :=
    attach_success b data x blk e hAlloc hr
  have hR : BlockDAG.Registers b3 x blk data.parents := by
    have := Registers_foldl b3 blk data.parents b3 [] (Registers_nil b3 blk halloc)
    rw [← hfold] at this
    simpa using this
  have hstore : b1.memStorage = x.memStorage := by rw [hb1]; rfl
  have hheap : b1.blockHeap = x.blockHeap := by rw [hb1]; rfl
  have hcnt : b1.blockCount = x.blockCount := by rw [hb1]; rfl
  have hroot1 : b1.isRootBlock = b.isRootBlock := by
    rw [hb1]; exact hR.roots.trans hroots
  have hev : b1.events = x.events ++ [blockdag.Event.blockAttached blk] := by rw [hb1]; rfl
  have hrefers : ∀ k q, b1.refersTo k q = x.refersTo k q := by
    intro k q
    funext par
    simp only [BlockDAG.refersTo, hstore, hroot1, hR.roots, hroots]
  have hc3 := hR.count
  have hkids : ∀ q k, q < b1.blockCount → (b1.blockHeap q).childrenOf k =
      (if q < b.blockCount then (b.blockHeap q).childrenOf k else []) ++
        List.replicate (data.parents.countP (b1.refersTo k q)) blk := by
    intro q k hq
    rw [hcnt] at hq
    rw [hheap, hrefers, hR.children q k hq]
    by_cases hq3 : q < b3.blockCount
    · rw [if_pos hq3, hchildren q k hq3]
    · have hq0 : ¬ q < b.blockCount := by omega
      rw [if_neg hq3, if_neg hq0]
  have hnone3 : ∀ s id, b3.memStorage.lookup s id = none → b.memStorage.lookup s id = none := by
    intro s id h3
    rw [hlook] at h3
    by_cases hk : s = data.id.index ∧ data.id = id
    · rw [if_pos hk] at h3; cases h3
    · rw [if_neg hk] at h3; exact h3
  refine ⟨?_, ⟨x.blockCount - b3.blockCount, pre, hpre, by omega, ?_, ?_, ?_⟩, ?_, hkids⟩
  · intro parent hmem hnr
    obtain ⟨p, hp⟩ := hR.stored parent hmem (by rw [hroots]; exact hnr)
    refine ⟨p, by rw [hstore]; exact hp, ?_⟩
    have hp1 : p < b1.blockCount := by rw [hcnt]; exact hR.alloc _ _ _ hp
    rw [hkids p parent.type hp1]
    apply List.mem_append_right
    rw [List.mem_replicate]
    refine ⟨?_, rfl⟩
    have hpos : 0 < data.parents.countP (b1.refersTo parent.type p) := by
      rw [List.countP_pos_iff]
      refine ⟨parent, hmem, ?_⟩
      simp [BlockDAG.refersTo, hroot1, hnr, hstore, hp]
    omega
  · rw [hev, hR.events, hevents, hcnt]
    have e1 : x.blockCount - (x.blockCount - b3.blockCount) = b3.blockCount := by omega
    rw [e1]
  · intro p h1 h2
    rw [hcnt] at h1 h2
    obtain ⟨par, hm, hr0, hn, hst, hmiss, hid⟩ := hR.placeholders p (by omega) h2
    refine ⟨par, hm, by rw [← hroots]; exact hr0, hnone3 _ _ hn, by rw [hstore]; exact hst, ?_⟩
    rw [hheap]
    refine ⟨hmiss, ?_⟩
    simp only [blockdag.Block.ID, hmiss, if_true, hid]
  · intro parent hmem hnr hn
    obtain ⟨p, hp⟩ := hR.stored parent hmem (by rw [hroots]; exact hnr)
    have hp1 := hR.alloc _ _ _ hp
    refine ⟨p, ?_, by rw [hcnt]; exact hp1, by rw [hstore]; exact hp⟩
    rw [hcnt]
    rcases hR.fresh _ _ _ hp with h3 | ⟨h3, _⟩
    · rw [hlook] at h3
      by_cases hk : parent.id.index = data.id.index ∧ data.id = parent.id
      · exact absurd hk.2.symm (hSelf parent hmem)
      · rw [if_neg hk, hn] at h3; cases h3
    · omega
  · intro s id q hq
    rw [hstore] at hq
    rcases hR.fresh s id q hq with h3 | ⟨_, par, hm, hid, _, hr0, hn⟩
    · rw [hlook] at h3
      by_cases hk : s = data.id.index ∧ data.id = id
      · exact Or.inr (Or.inl hk.2.symm)
      · rw [if_neg hk] at h3
        exact Or.inl h3
    · exact Or.inr (Or.inr ⟨par, hm, hid, by rw [← hroots]; exact hr0, hnone3 _ _ hn⟩)

set_option maxRecDepth 100000 in
/-- C23 at a concrete input: `lateBlock`, with the genesis root block as strong
parent and the absent block `oldBlock` as weak parent, is attached to the fresh block
DAG; `oldBlock` gets the placeholder 2 with the child 1, the genesis gets nothing. -/
theorem C23_attach_registers_children_witness :
    (∃ p, (Scenario.freshDAG.Attach Scenario.lateBlock).1.memStorage.lookup
        Scenario.oldBlock.id.index Scenario.oldBlock.id = some p ∧
      1 ∈ ((Scenario.freshDAG.Attach Scenario.lateBlock).1.blockHeap p).childrenOf
        ParentsType.weak) ∧
    (Scenario.freshDAG.Attach Scenario.lateBlock).1.events =
      [blockdag.Event.blockMissing 2, blockdag.Event.blockAttached 1] ∧
    ((Scenario.freshDAG.Attach Scenario.lateBlock).1.blockHeap 0).childrenOf
      ParentsType.strong = [] :=
  ⟨(C23_attach_registers_children Scenario.freshDAG Scenario.lateBlock
      (Scenario.freshDAG.Attach Scenario.lateBlock).1 1 none
      (fun _ _ _ h => by cases h) (by decide) (by rfl)).1
      ⟨Scenario.oldBlock.id, ParentsType.weak⟩ (by decide) (by decide),
    by rfl, by rfl⟩

/-! ## The solidity closure of the commitment forest -/

theorem walkerPushAll_queue_iff (queue seen xs : List Nat) (y : Nat) :
    y ∈ (Manager.walkerPushAll queue seen xs).1 ↔ y ∈ queue ∨ (y ∈ xs ∧ y ∉ seen) := by
  induction xs generalizing queue seen with
  | nil => simp [Manager.walkerPushAll]
  | cons x rest ih =>
    unfold Manager.walkerPushAll
    by_cases hx : x ∈ seen
    · rw [if_pos hx, ih]
      constructor
      · rintro (h | ⟨h1, h2⟩)
        · exact Or.inl h
        · exact Or.inr ⟨List.mem_cons_of_mem _ h1, h2⟩
      · rintro (h | ⟨h1, h2⟩)
        · exact Or.inl h
        · rcases List.mem_cons.mp h1 with e | h3
          · subst e; exact absurd hx h2
          · exact Or.inr ⟨h3, h2⟩
    · rw [if_neg hx, ih]
      constructor
      · rintro (h | ⟨h1, h2⟩)
        · rcases List.mem_append.mp h with h3 | h3
          · exact Or.inl h3
          · rw [List.mem_singleton] at h3
            subst h3
            exact Or.inr ⟨List.mem_cons_self _ _, hx⟩
        · exact Or.inr ⟨List.mem_cons_of_mem _ h1, fun h3 => h2 (List.mem_cons_of_mem _ h3)⟩
      · rintro (h | ⟨h1, h2⟩)
        · exact Or.inl (List.mem_append_left _ h)
        · by_cases e : y = x
          · subst e
            exact Or.inl (List.mem_append_right _ (List.mem_singleton.mpr rfl))
          · rcases List.mem_cons.mp h1 with e1 | h3
            · exact absurd e1 e
            · refine Or.inr ⟨h3, fun h4 => ?_⟩
              rcases List.mem_cons.mp h4 with e1 | h5
              · exact e e1
              · exact h2 h5

theorem walkerPushAll_seen_iff (queue seen xs : List Nat) (y : Nat) :
    y ∈ (Manager.walkerPushAll queue seen xs).2 ↔ y ∈ seen ∨ y ∈ xs := by
  induction xs generalizing queue seen with
  | nil => simp [Manager.walkerPushAll]
  | cons x rest ih =>
    unfold Manager.walkerPushAll
    by_cases hx : x ∈ seen
    · rw [if_pos hx, ih]
      constructor
      · rintro (h | h)
        · exact Or.inl h
        · exact Or.inr (List.mem_cons_of_mem _ h)
      · rintro (h | h)
        · exact Or.inl h
        · rcases List.mem_cons.mp h with e | h3
          · subst e; exact Or.inl hx
          · exact Or.inr h3
    · rw [if_neg hx, ih]
      constructor
      · rintro (h | h)
        · rcases List.mem_cons.mp h with e | h3
          · subst e; exact Or.inr (List.mem_cons_self _ _)
          · exact Or.inl h3
        · exact Or.inr (List.mem_cons_of_mem _ h)
      · rintro (h | h)
        · exact Or.inl (List.mem_cons_of_mem _ h)
        · rcases List.mem_cons.mp h with e | h3
          · subst e; exact Or.inl (List.mem_cons_self _ _)
          · exact Or.inr h3

/-- An invariant of the state, the work list and the set of pushed elements that
every round of the walker keeps holds, with an empty work list, when the walk
returns. -/
theorem walk_queue_invariant (step : Manager → Nat → Manager × List Nat)
    (J : Manager → List Nat → List Nat → Prop)
    (hstep : ∀ (m : Manager) (x : Nat) (queue seen : List Nat), J m (x :: queue) seen →
      J (step m x).1 (Manager.walkerPushAll queue seen (step m x).2).1
        (Manager.walkerPushAll queue seen (step m x).2).2)
    (fuel : Nat) (queue seen : List Nat) (m m1 : Manager) (hJ : J m queue seen)
    (h : Manager.walk step fuel queue seen m = .ok m1) : ∃ seen1, J m1 [] seen1 := by
  induction fuel generalizing queue seen m with
  | zero =>
    cases queue with
    | nil =>
      simp only [Manager.walk] at h
      cases h
      exact ⟨seen, hJ⟩
    | cons x rest => simp [Manager.walk] at h
  | succ fuel ih =>
    cases queue with
    | nil =>
      simp only [Manager.walk] at h
      cases h
      exact ⟨seen, hJ⟩
    | cons x rest =>
      simp only [Manager.walk] at h
      exact ih _ _ _ (hstep m x rest seen hJ) h

theorem Skeleton_sameTree (m m1 : Manager) (hs : m.SameTree m1) (h : m.Skeleton) :
    m1.Skeleton := by
  obtain ⟨hq, hst, hc, hr⟩ := hs
  refine ⟨?_, ?_, ?_, ?_, ?_, ?_⟩
  · intro s id q hl
    rw [hst] at hl
    rw [(hq q).1, hc]
    exact h.keyed s id q hl
  · intro q hlt
    rw [hc] at hlt
    simp only [Manager.commitment, hst, (hq q).1]
    exact h.stored q hlt
  · intro q c hp
    rw [(hq q).2.1] at hp
    rw [(hq q).1]
    exact h.payload q c hp
  · obtain ⟨r, h1, h2, h3⟩ := h.root
    exact ⟨r, by rw [hr]; exact h1, by rw [hc]; exact h2, by rw [(hq r).2.1]; exact h3⟩
  · intro q c hp hnr
    rw [(hq q).2.1] at hp
    rw [hr] at hnr
    obtain ⟨p, h1, h2⟩ := h.registry q c hp hnr
    refine ⟨p, ?_, ?_⟩
    · simp only [Manager.commitment, hst]; exact h1
    · rw [(hq p).2.2.1]; exact h2
  · intro p id q hk
    rw [(hq p).2.2.1] at hk
    obtain ⟨h1, h2, c, h3, h4, h5⟩ := h.kids p id q hk
    refine ⟨by rw [hc]; exact h1, by rw [hr]; exact h2, c, ?_, h4, ?_⟩
    · rw [(hq q).2.1]; exact h3
    · rw [(hq p).1]; exact h5

theorem SameTree_refl (m : Manager) : m.SameTree m :=
  ⟨fun _ => ⟨rfl, rfl, rfl, rfl⟩, rfl, rfl, rfl⟩

theorem SameTree_trans (m m1 m2 : Manager) (h1 : m.SameTree m1) (h2 : m1.SameTree m2) :
    m.SameTree m2 := by
  obtain ⟨a1, b1, c1, d1⟩ := h1
  obtain ⟨a2, b2, c2, d2⟩ := h2
  refine ⟨fun q => ⟨(a2 q).1.trans (a1 q).1, (a2 q).2.1.trans (a1 q).2.1,
    (a2 q).2.2.1.trans (a1 q).2.2.1, (a2 q).2.2.2.trans (a1 q).2.2.2⟩,
    b2.trans b1, c2.trans c1, d2.trans d1⟩

theorem mapGet_mem {K V : Type} [DecidableEq K] (l : List (K × V)) (k : K) (v : V)
    (h : mapGet l k = some v) : (k, v) ∈ l := by
  induction l with
  | nil => simp [mapGet] at h
  | cons e rest ih =>
    obtain ⟨a, w⟩ := e
    unfold mapGet at h
    by_cases ha : a = k
    · rw [if_pos ha] at h
      cases h
      subst ha
      exact List.mem_cons_self _ _
    · rw [if_neg ha] at h
      exact List.mem_cons_of_mem _ (ih h)

theorem mapGet_ne_none_of_mem {K V : Type} [DecidableEq K] (l : List (K × V)) (k : K)
    (v : V) (h : (k, v) ∈ l) : mapGet l k ≠ none := by
  induction l with
  | nil => cases h
  | cons e rest ih =>
    obtain ⟨a, w⟩ := e
    unfold mapGet
    by_cases ha : a = k
    · rw [if_pos ha]; simp
    · rw [if_neg ha]
      rcases List.mem_cons.mp h with e1 | h1
      · cases e1; exact absurd rfl ha
      · exact ih h1

theorem mem_mapSet {K V : Type} [DecidableEq K] (l : List (K × V)) (k k' : K) (v v' : V)
    (h : (k', v') ∈ mapSet l k v) : (k' = k ∧ v' = v) ∨ (k', v') ∈ l := by
  induction l with
  | nil =>
    simp only [mapSet, List.mem_singleton, Prod.mk.injEq] at h
    exact Or.inl h
  | cons e rest ih =>
    obtain ⟨a, w⟩ := e
    unfold mapSet at h
    by_cases ha : a = k
    · rw [if_pos ha] at h
      rcases List.mem_cons.mp h with e1 | h1
      · cases e1; exact Or.inl ⟨rfl, rfl⟩
      · exact Or.inr (List.mem_cons_of_mem _ h1)
    · rw [if_neg ha] at h
      rcases List.mem_cons.mp h with e1 | h1
      · cases e1; exact Or.inr (List.mem_cons_self _ _)
      · rcases ih h1 with h2 | h2
        · exact Or.inl h2
        · exact Or.inr (List.mem_cons_of_mem _ h2)

theorem mem_mapValues {K V : Type} (l : List (K × V)) (v : V) :
    v ∈ mapValues l ↔ ∃ k, (k, v) ∈ l := by
  simp [mapValues]

/-- Entries of child maps with the same key hold the same chain commitment. -/
theorem Skeleton_child_unique (m : Manager) (h : m.Skeleton) (p p1 : Nat) (id : CommitmentID)
    (q q1 : Nat) (h1 : (id, q) ∈ (m.commitmentHeap p).children)
    (h2 : (id, q1) ∈ (m.commitmentHeap p1).children) : q = q1 := by
  obtain ⟨a1, _, c, a3, a4, _⟩ := h.kids p id q h1
  obtain ⟨b1, _, c1, b3, b4, _⟩ := h.kids p1 id q1 h2
  have e1 := h.stored q a1
  have e2 := h.stored q1 b1
  rw [← h.payload q c a3, a4] at e1
  rw [← h.payload q1 c1 b3, b4, e1] at e2
  cases e2
  rfl

theorem Skeleton_mapGet_child (m : Manager) (h : m.Skeleton) (p : Nat) (id : CommitmentID)
    (q : Nat) (h1 : (id, q) ∈ (m.commitmentHeap p).children) :
    mapGet (m.commitmentHeap p).children id = some q := by
  cases hg : mapGet (m.commitmentHeap p).children id with
  | none => exact absurd hg (mapGet_ne_none_of_mem _ _ _ h1)
  | some q1 =>
    rw [Skeleton_child_unique m h p p id q q1 h1 (mapGet_mem _ _ _ hg)]

theorem propagateChain_fields (chain : Nat) (m : Manager) (x : Nat) :
    m.SameTree (Manager.propagateChainToMainChild chain m x).1 ∧
    (∀ q, ((Manager.propagateChainToMainChild chain m x).1.commitmentHeap q).solid =
      (m.commitmentHeap q).solid) ∧
    (∀ q, ((Manager.propagateChainToMainChild chain m x).1.commitmentHeap q).chain =
      if q = x ∧ (m.commitmentHeap x).chain = none then some chain
      else (m.commitmentHeap q).chain) ∧
    (∀ y, y ∈ (Manager.propagateChainToMainChild chain m x).2 ↔
      ((m.commitmentHeap x).chain = none ∧ m.mainChild x = some y)) := by
  cases hc : (m.commitmentHeap x).chain with
  | some ch =>
    have e : Manager.propagateChainToMainChild chain m x = (m, []) := by
      simp [Manager.propagateChainToMainChild, Manager.publishChain, hc]
    rw [e]
    refine ⟨SameTree_refl m, fun _ => rfl, fun q => ?_, fun y => ?_⟩
    · simp
    · simp
  | none =>
    have hm : ∀ s : Manager, (∀ q, s.commitmentHeap q =
        if q = x then { m.commitmentHeap x with chain := some chain } else m.commitmentHeap q) →
        s.mainChild x = m.mainChild x := by
      intro s hs
      simp only [Manager.mainChild, hs, if_true]
    have e1 : (Manager.propagateChainToMainChild chain m x).1 =
        (m.setCommitment x { m.commitmentHeap x with chain := some chain }).chainAddCommitment
          chain x := by
      simp only [Manager.propagateChainToMainChild, Manager.publishChain, hc, Bool.not_true,
        Bool.false_eq_true, if_false]
      split <;> rfl
    have e2 : (Manager.propagateChainToMainChild chain m x).2 =
        match m.mainChild x with
        | none => []
        | some mc => [mc] := by
      simp only [Manager.propagateChainToMainChild, Manager.publishChain, hc, Bool.not_true,
        Bool.false_eq_true, if_false]
      rw [hm _ (fun q => rfl)]
      split <;> rfl
    rw [e1, e2]
    refine ⟨⟨fun q => ?_, rfl, rfl, rfl⟩, fun q => ?_, fun q => ?_, fun y => ?_⟩
    · simp only [Manager.chainAddCommitment, Manager.setChain, Manager.setCommitment]
      by_cases hq : q = x
      · subst hq; simp
      · simp [hq]
    · simp only [Manager.chainAddCommitment, Manager.setChain, Manager.setCommitment]
      by_cases hq : q = x
      · subst hq; simp
      · simp [hq]
    · simp only [Manager.chainAddCommitment, Manager.setChain, Manager.setCommitment]
      by_cases hq : q = x
      · subst hq; simp
      · simp [hq]
    · cases hmc : m.mainChild x with
      | none => simp
      | some mc =>
        simp only [List.mem_singleton, true_and, Option.some.injEq]
        exact eq_comm

theorem propagateSolidity_fields (m : Manager) (x : Nat) :
    m.SameTree (Manager.propagateSolidity m x).1 ∧
    (∀ q, ((Manager.propagateSolidity m x).1.commitmentHeap q).chain =
      (m.commitmentHeap q).chain) ∧
    (∀ q, ((Manager.propagateSolidity m x).1.commitmentHeap q).solid =
      if q = x then true else (m.commitmentHeap q).solid) ∧
    (∀ y, y ∈ (Manager.propagateSolidity m x).2 ↔
      ((m.commitmentHeap x).solid = false ∧ y ∈ m.children x)) := by
  cases hc : (m.commitmentHeap x).solid with
  | true =>
    have e : Manager.propagateSolidity m x = (m, []) := by
      simp [Manager.propagateSolidity, Manager.setSolid, hc]
    rw [e]
    refine ⟨SameTree_refl m, fun _ => rfl, fun q => ?_, fun y => ?_⟩
    · by_cases hq : q = x
      · subst hq; simp [hc]
      · simp [hq]
    · simp
  | false =>
    have e : Manager.propagateSolidity m x =
        (m.setCommitment x { m.commitmentHeap x with solid := true },
          (m.setCommitment x { m.commitmentHeap x with solid := true }).children x) := by
      simp [Manager.propagateSolidity, Manager.setSolid, hc]
    rw [e]
    refine ⟨⟨fun q => ?_, rfl, rfl, rfl⟩, fun q => ?_, fun q => ?_, fun y => ?_⟩
    · simp only [Manager.setCommitment]
      by_cases hq : q = x
      · subst hq; simp
      · simp [hq]
    · simp only [Manager.setCommitment]
      by_cases hq : q = x
      · subst hq; simp
      · simp [hq]
    · simp only [Manager.setCommitment]
      by_cases hq : q = x
      · subst hq; simp
      · simp [hq]
    · simp [Manager.children, Manager.setCommitment]

theorem Marks_chainStep (m m1 : Manager) (x chain : Nat) (hs : m.SameTree m1)
    (hsolid : ∀ q, (m1.commitmentHeap q).solid = (m.commitmentHeap q).solid)
    (hchain : ∀ q, (m1.commitmentHeap q).chain =
      if q = x ∧ (m.commitmentHeap x).chain = none then some chain
      else (m.commitmentHeap q).chain)
    (hx : (m.commitmentHeap x).commitment ≠ none) (h : m.Marks) : m1.Marks := by
  obtain ⟨hq, hst, hc, hr⟩ := hs
  have hmono : ∀ q, (m.commitmentHeap q).chain ≠ none → (m1.commitmentHeap q).chain ≠ none := by
    intro q hq1
    rw [hchain]
    split
    · simp
    · exact hq1
  refine ⟨?_, ?_, ?_, ?_, ?_⟩
  · intro r h1
    rw [hr] at h1
    exact ⟨by rw [hsolid]; exact (h.rootSolid r h1).1, hmono r (h.rootSolid r h1).2⟩
  · intro q h1
    rw [(hq q).2.1]
    rw [hchain] at h1
    by_cases hqx : q = x ∧ (m.commitmentHeap x).chain = none
    · rw [hqx.1]; exact hx
    · rw [if_neg hqx] at h1
      exact h.chainPublished q h1
  · intro q h1
    rw [hsolid] at h1
    exact hmono q (h.solidChain q h1)
  · intro p id q h1 h2
    rw [(hq p).2.2.1] at h1
    rw [(hq p).2.2.2] at h2
    exact hmono q (h.forks p id q h1 h2)
  · intro q h1
    rw [hsolid] at h1
    rcases h.solidParent q h1 with h2 | ⟨c, p, h2, h3, h4⟩
    · exact Or.inl (by rw [hr]; exact h2)
    · refine Or.inr ⟨c, p, by rw [(hq q).2.1]; exact h2, ?_, by rw [hsolid]; exact h4⟩
      simp only [Manager.commitment, hst]
      exact h3

/-- The walk of `propagateChainToMainChild` closes the chains: if every child without a
chain of a chain commitment with a chain is in the work list, then after the walk
every child of a chain commitment with a chain has a chain; the tree and the solid
flags are as before. -/
theorem walk_chain_forest (chain : Nat) (P : Nat → Prop) (fuel : Nat) (queue seen : List Nat)
    (m0 m1 : Manager) (hsk : m0.Skeleton) (hmk : m0.Marks) (hsolid : m0.SolidClosedUpTo P)
    (hclosed : m0.ChainClosedUpTo (fun q => q ∈ queue))
    (hseen : ∀ y ∈ seen, y ∈ queue ∨ (m0.commitmentHeap y).chain ≠ none)
    (hqueue : ∀ y ∈ queue, (m0.commitmentHeap y).commitment ≠ none)
    (h : Manager.walk (Manager.propagateChainToMainChild chain) fuel queue seen m0 = .ok m1) :
    m0.SameTree m1 ∧ (∀ q, (m1.commitmentHeap q).solid = (m0.commitmentHeap q).solid) ∧
      m1.Skeleton ∧ m1.Marks ∧ m1.SolidClosedUpTo P ∧ m1.ChainClosedUpTo (fun _ => False) := by
  have key := walk_queue_invariant (Manager.propagateChainToMainChild chain)
    (fun m queue seen => m0.SameTree m ∧
      (∀ q, (m.commitmentHeap q).solid = (m0.commitmentHeap q).solid) ∧
      m.Skeleton ∧ m.Marks ∧ m.SolidClosedUpTo P ∧ m.ChainClosedUpTo (fun q => q ∈ queue) ∧
      (∀ y ∈ seen, y ∈ queue ∨ (m.commitmentHeap y).chain ≠ none) ∧
      (∀ y ∈ queue, (m.commitmentHeap y).commitment ≠ none))
    (by
      intro m x queue seen ⟨j1, j2, j3, j4, j5, j6, j7, j8⟩
      obtain ⟨f1, f2, f3, f4⟩ := propagateChain_fields chain m x
      generalize Manager.propagateChainToMainChild chain m x = r at f1 f2 f3 f4 ⊢
      obtain ⟨m2, out⟩ := r
      simp only at f1 f2 f3 f4 ⊢
      have hx : (m.commitmentHeap x).commitment ≠ none := j8 x (List.mem_cons_self _ _)
      have hmono : ∀ q, (m.commitmentHeap q).chain ≠ none →
          (m2.commitmentHeap q).chain ≠ none := by
        intro q hq1
        rw [f3]
        split
        · simp
        · exact hq1
      have hxc : (m2.commitmentHeap x).chain ≠ none := by
        rw [f3]
        by_cases hc : (m.commitmentHeap x).chain = none
        · simp [hc]
        · simp only [hc, and_false, if_false]
          exact hc
      have hsk2 := Skeleton_sameTree m m2 f1 j3
      have hpush : ∀ y, (y ∈ x :: queue ∨ (m.commitmentHeap y).chain ≠ none) →
          (y ∈ (Manager.walkerPushAll queue seen out).1 ∨
            (m2.commitmentHeap y).chain ≠ none) := by
        intro y hy
        rcases hy with hy | hy
        · rcases List.mem_cons.mp hy with e | hy1
          · subst e; exact Or.inr hxc
          · exact Or.inl ((walkerPushAll_queue_iff _ _ _ _).mpr (Or.inl hy1))
        · exact Or.inr (hmono y hy)
      have hout : ∀ y ∈ out, y ∈ (Manager.walkerPushAll queue seen out).1 ∨
          (m2.commitmentHeap y).chain ≠ none := by
        intro y hy
        by_cases hs : y ∈ seen
        · exact hpush y (j7 y hs)
        · exact Or.inl ((walkerPushAll_queue_iff _ _ _ _).mpr (Or.inr ⟨hy, hs⟩))
      refine ⟨SameTree_trans _ _ _ j1 f1, fun q => (f2 q).trans (j2 q), hsk2,
        Marks_chainStep m m2 x chain f1 f2 f3 hx j4, ?_, ?_, ?_, ?_⟩
      · intro p id q h1 h2
        rw [(f1.1 p).2.2.1] at h1
        rw [f2] at h2 ⊢
        exact j5 p id q h1 h2
      · intro p id q h1 h2
        have h1m : (id, q) ∈ (m.commitmentHeap p).children := by
          rw [← (f1.1 p).2.2.1]; exact h1
        by_cases hp : (m.commitmentHeap p).chain = none
        · have hpx : p = x := by
            by_contra hne
            rw [f3] at h2
            simp only [hne, false_and, if_false] at h2
            exact h2 hp
          subst hpx
          by_cases hmain : (m.commitmentHeap p).mainChildID = some id
          · have hmc : m.mainChild p = some q := by
              simp only [Manager.mainChild, hmain]
              exact Skeleton_mapGet_child m j3 p id q h1m
            rcases hout q ((f4 q).mpr ⟨hp, hmc⟩) with h3 | h3
            · exact Or.inr h3
            · exact Or.inl h3
          · exact Or.inl (hmono q (j4.forks p id q h1m hmain))
        · rcases j6 p id q h1m hp with h3 | h3
          · exact Or.inl (hmono q h3)
          · rcases hpush q (Or.inl h3) with h4 | h4
            · exact Or.inr h4
            · exact Or.inl h4
      · intro y hy
        rcases (walkerPushAll_seen_iff _ _ _ _).mp hy with h1 | h1
        · exact hpush y (j7 y h1)
        · exact hout y h1
      · intro y hy
        rw [(f1.1 y).2.1]
        rcases (walkerPushAll_queue_iff _ _ _ _).mp hy with h1 | ⟨h1, _⟩
        · exact j8 y (List.mem_cons_of_mem _ h1)
        · obtain ⟨_, hmc⟩ := (f4 y).mp h1
          simp only [Manager.mainChild] at hmc
          split at hmc
          · cases hmc
          · rename_i mid _
            obtain ⟨_, _, c, hc, _⟩ := j3.kids x mid y (mapGet_mem _ _ _ hmc)
            rw [hc]; simp)
    fuel queue seen m0 m1
    ⟨SameTree_refl m0, fun _ => rfl, hsk, hmk, hsolid, hclosed, hseen, hqueue⟩ h
  obtain ⟨seen1, j1, j2, j3, j4, j5, j6, _, _⟩ := key
  refine ⟨j1, j2, j3, j4, j5, ?_⟩
  intro p id q h1 h2
  rcases j6 p id q h1 h2 with h3 | h3
  · exact Or.inl h3
  · cases h3

/-- The walk of `propagateSolidity` closes the solid flags: if every child that is not
solid of a solid chain commitment is in the work list, and the work list holds
published chain commitments with a chain and a solid parent, then the invariant of
the forest holds after the walk. -/
theorem walk_solid_forest (fuel : Nat) (queue seen : List Nat) (m0 m1 : Manager)
    (hsk : m0.Skeleton) (hmk : m0.Marks) (hchain : m0.ChainClosedUpTo (fun _ => False))
    (hclosed : m0.SolidClosedUpTo (fun q => q ∈ queue))
    (hseen : ∀ y ∈ seen, y ∈ queue ∨ (m0.commitmentHeap y).solid = true)
    (hqueue : ∀ y ∈ queue, (m0.commitmentHeap y).chain ≠ none ∧
      ∃ c p, (m0.commitmentHeap y).commitment = some c ∧ m0.commitment c.prevID = some p ∧
        (m0.commitmentHeap p).solid = true)
    (h : Manager.walk Manager.propagateSolidity fuel queue seen m0 = .ok m1) :
    m0.SameTree m1 ∧ m1.Forest := by
  have key := walk_queue_invariant Manager.propagateSolidity
    (fun m queue seen => m0.SameTree m ∧ m.Skeleton ∧ m.Marks ∧
      m.ChainClosedUpTo (fun _ => False) ∧ m.SolidClosedUpTo (fun q => q ∈ queue) ∧
      (∀ y ∈ seen, y ∈ queue ∨ (m.commitmentHeap y).solid = true) ∧
      (∀ y ∈ queue, (m.commitmentHeap y).chain ≠ none ∧
        ∃ c p, (m.commitmentHeap y).commitment = some c ∧ m.commitment c.prevID = some p ∧
          (m.commitmentHeap p).solid = true))
    (by
      intro m x queue seen ⟨j1, j3, j4, j5, j6, j7, j8⟩
      obtain ⟨f1, f2, f3, f4⟩ := propagateSolidity_fields m x
      generalize Manager.propagateSolidity m x = r at f1 f2 f3 f4 ⊢
      obtain ⟨m2, out⟩ := r
      simp only at f1 f2 f3 f4 ⊢
      obtain ⟨hxchain, cx, px, hxc, hxp, hxs⟩ := j8 x (List.mem_cons_self _ _)
      have hmono : ∀ q, (m.commitmentHeap q).solid = true →
          (m2.commitmentHeap q).solid = true := by
        intro q hq1
        rw [f3]
        split
        · rfl
        · exact hq1
      have hxsolid : (m2.commitmentHeap x).solid = true := by rw [f3]; simp
      have hcom : ∀ id, m2.commitment id = m.commitment id := by
        intro id
        simp only [Manager.commitment, f1.2.1]
      have hsk2 := Skeleton_sameTree m m2 f1 j3
      have hpush : ∀ y, (y ∈ x :: queue ∨ (m.commitmentHeap y).solid = true) →
          (y ∈ (Manager.walkerPushAll queue seen out).1 ∨
            (m2.commitmentHeap y).solid = true) := by
        intro y hy
        rcases hy with hy | hy
        · rcases List.mem_cons.mp hy with e | hy1
          · subst e; exact Or.inr hxsolid
          · exact Or.inl ((walkerPushAll_queue_iff _ _ _ _).mpr (Or.inl hy1))
        · exact Or.inr (hmono y hy)
      have hout : ∀ y ∈ out, y ∈ (Manager.walkerPushAll queue seen out).1 ∨
          (m2.commitmentHeap y).solid = true := by
        intro y hy
        by_cases hs : y ∈ seen
        · exact hpush y (j7 y hs)
        · exact Or.inl ((walkerPushAll_queue_iff _ _ _ _).mpr (Or.inr ⟨hy, hs⟩))
      have hxlt : x < m.commitmentCount := by
        by_cases hroot : m.rootCommitment = some x
        · obtain ⟨r, e1, e2, _⟩ := j3.root
          rw [hroot] at e1
          cases e1
          exact e2
        · obtain ⟨p, _, e2⟩ := j3.registry x cx hxc hroot
          exact (j3.kids p cx.id x (mapGet_mem _ _ _ e2)).1
      refine ⟨SameTree_trans _ _ _ j1 f1, hsk2, ?_, ?_, ?_, ?_, ?_⟩
      · refine ⟨?_, ?_, ?_, ?_, ?_⟩
        · intro r h1
          rw [f1.2.2.2] at h1
          exact ⟨hmono r (j4.rootSolid r h1).1, by rw [f2]; exact (j4.rootSolid r h1).2⟩
        · intro q h1
          rw [f2] at h1
          rw [(f1.1 q).2.1]
          exact j4.chainPublished q h1
        · intro q h1
          rw [f2]
          rw [f3] at h1
          by_cases hq : q = x
          · subst hq; exact hxchain
          · rw [if_neg hq] at h1
            exact j4.solidChain q h1
        · intro p id q h1 h2
          rw [(f1.1 p).2.2.1] at h1
          rw [(f1.1 p).2.2.2] at h2
          rw [f2]
          exact j4.forks p id q h1 h2
        · intro q h1
          rw [f3] at h1
          by_cases hq : q = x
          · subst hq
            exact Or.inr ⟨cx, px, by rw [(f1.1 q).2.1]; exact hxc, by rw [hcom]; exact hxp,
              hmono px hxs⟩
          · rw [if_neg hq] at h1
            rcases j4.solidParent q h1 with h2 | ⟨c, p, h2, h3, h4⟩
            · exact Or.inl (by rw [f1.2.2.2]; exact h2)
            · exact Or.inr ⟨c, p, by rw [(f1.1 q).2.1]; exact h2, by rw [hcom]; exact h3,
                hmono p h4⟩
      · intro p id q h1 h2
        rw [(f1.1 p).2.2.1] at h1
        rw [f2] at h2 ⊢
        exact j5 p id q h1 h2
      · intro p id q h1 h2
        have h1m : (id, q) ∈ (m.commitmentHeap p).children := by
          rw [← (f1.1 p).2.2.1]; exact h1
        by_cases hp : (m.commitmentHeap p).solid = true
        · rcases j6 p id q h1m hp with h3 | h3
          · exact Or.inl (hmono q h3)
          · rcases hpush q (Or.inl h3) with h4 | h4
            · exact Or.inr h4
            · exact Or.inl h4
        · have hpx : p = x := by
            by_contra hne
            rw [f3, if_neg hne] at h2
            exact hp h2
          subst hpx
          have hpf : (m.commitmentHeap p).solid = false := by
            cases hh : (m.commitmentHeap p).solid
            · rfl
            · exact absurd hh hp
          have hq : q ∈ out := (f4 q).mpr ⟨hpf, (mem_mapValues _ _).mpr ⟨id, h1m⟩⟩
          rcases hout q hq with h3 | h3
          · exact Or.inr h3
          · exact Or.inl h3
      · intro y hy
        rcases (walkerPushAll_seen_iff _ _ _ _).mp hy with h1 | h1
        · exact hpush y (j7 y h1)
        · exact hout y h1
      · intro y hy
        rw [f2]
        rcases (walkerPushAll_queue_iff _ _ _ _).mp hy with h1 | ⟨h1, _⟩
        · obtain ⟨a1, c, p, a2, a3, a4⟩ := j8 y (List.mem_cons_of_mem _ h1)
          exact ⟨a1, c, p, by rw [(f1.1 y).2.1]; exact a2, by rw [hcom]; exact a3, hmono p a4⟩
        · obtain ⟨_, hmem⟩ := (f4 y).mp h1
          obtain ⟨id, hid⟩ := (mem_mapValues _ _).mp hmem
          obtain ⟨_, _, c, hc, _, hprev⟩ := j3.kids x id y hid
          refine ⟨?_, c, x, by rw [(f1.1 y).2.1]; exact hc, ?_, hxsolid⟩
          · rcases j5 x id y hid hxchain with h3 | h3
            · exact h3
            · cases h3
          · rw [hcom, hprev]
            exact j3.stored x hxlt)
    fuel queue seen m0 m1
    ⟨SameTree_refl m0, hsk, hmk, hchain, hclosed, hseen, hqueue⟩ h
  obtain ⟨seen1, j1, j3, j4, j5, j6, _, _⟩ := key
  refine ⟨j1, j3, j4, j5, ?_⟩
  intro p id q h1 h2
  rcases j6 p id q h1 h2 with h3 | h3
  · exact Or.inl h3
  · cases h3

/-- The method `getOrCreateCommitment` keeps the invariant of the forest: it changes
nothing for a stored id and allocates and stores a placeholder, which has no payload,
otherwise. -/
theorem Forest_getOrCreate (m : Manager) (id : CommitmentID) (h : m.Forest) :
    (m.getOrCreateCommitment id).1.Forest ∧
    (m.getOrCreateCommitment id).1.commitment id = some (m.getOrCreateCommitment id).2.1 ∧
    (∀ id1 p, m.commitment id1 = some p →
      (m.getOrCreateCommitment id).1.commitment id1 = some p) ∧
    ((m.getOrCreateCommitment id).2.2 = false → (m.getOrCreateCommitment id).1 = m) ∧
    ((m.getOrCreateCommitment id).2.2 = true →
      ((m.getOrCreateCommitment id).1.commitmentHeap
        (m.getOrCreateCommitment id).2.1).commitment = none) := by
  cases hs : m.commitment id with
  | some p =>
    rw [getOrCreateCommitment_found m id p hs]
    exact ⟨h, hs, fun _ _ h1 => h1, fun _ => rfl, fun h1 => by cases h1⟩
  | none =>
    rw [getOrCreateCommitment_missing m id hs]
    generalize hm1 : ({ m with
         commitmentHeap := fun q => if q = m.commitmentCount then NewChainCommitment id
           else m.commitmentHeap q
         commitmentCount := m.commitmentCount + 1
         commitmentsByID := (m.commitmentsByID.getOrCreate id.index).1.put id.index
           (mapSet (m.commitmentsByID.getOrCreate id.index).2 id m.commitmentCount) } :
         Manager) = m1
    have hheap : ∀ q, q ≠ m.commitmentCount → m1.commitmentHeap q = m.commitmentHeap q := by
      intro q hq; rw [← hm1]; simp [hq]
    have hnew : m1.commitmentHeap m.commitmentCount = NewChainCommitment id := by
      rw [← hm1]; simp
    have hcount : m1.commitmentCount = m.commitmentCount + 1 := by rw [← hm1]
    have hroot : m1.rootCommitment = m.rootCommitment := by rw [← hm1]
    have hl : ∀ s k, m1.commitmentsByID.lookup s k =
        if s = id.index ∧ id = k then some m.commitmentCount
        else m.commitmentsByID.lookup s k := by
      intro s k
      rw [← hm1]
      exact lookup_getOrCreate_put _ _ _ _ _ _
    have hold : ∀ s k q, m.commitmentsByID.lookup s k = some q →
        m1.commitmentsByID.lookup s k = some q := by
      intro s k q hq
      rw [hl]
      by_cases hk : s = id.index ∧ id = k
      · obtain ⟨e1, e2⟩ := hk
        subst e1; subst e2
        simp only [Manager.commitment] at hs
        rw [hs] at hq; cases hq
      · rw [if_neg hk]; exact hq
    have hlt : ∀ q, q < m.commitmentCount → m1.commitmentHeap q = m.commitmentHeap q :=
      fun q hq => hheap q (Nat.ne_of_lt hq)
    have hsk := h.skeleton
    have hmk := h.marks
    have hkid : ∀ p k q, (k, q) ∈ (m1.commitmentHeap p).children →
        p ≠ m.commitmentCount ∧ (k, q) ∈ (m.commitmentHeap p).children ∧
          q < m.commitmentCount := by
      intro p k q hk
      by_cases hp : p = m.commitmentCount
      · subst hp
        rw [hnew] at hk
        simp [NewChainCommitment] at hk
      · rw [hheap p hp] at hk
        exact ⟨hp, hk, (hsk.kids p k q hk).1⟩
    have hflag : ∀ q, (m1.commitmentHeap q).chain ≠ none ∨ (m1.commitmentHeap q).solid = true ∨
        (m1.commitmentHeap q).commitment ≠ none → q ≠ m.commitmentCount := by
      intro q hq e
      subst e
      rw [hnew] at hq
      simp [NewChainCommitment] at hq
    refine ⟨⟨⟨?_, ?_, ?_, ?_, ?_, ?_⟩, ⟨?_, ?_, ?_, ?_, ?_⟩, ?_, ?_⟩, ?_, ?_, ?_, ?_⟩
    · intro s k q hq
      rw [hl] at hq
      rw [hcount]
      by_cases hk : s = id.index ∧ id = k
      · rw [if_pos hk] at hq
        cases hq
        rw [hnew]
        exact ⟨hk.2, by rw [hk.1, hk.2], Nat.lt_succ_self _⟩
      · rw [if_neg hk] at hq
        obtain ⟨a1, a2, a3⟩ := hsk.keyed s k q hq
        rw [hlt q a3]
        exact ⟨a1, a2, Nat.lt_succ_of_lt a3⟩
    · intro q hq
      rw [hcount] at hq
      by_cases hqn : q = m.commitmentCount
      · subst hqn
        rw [hnew]
        simp only [Manager.commitment, NewChainCommitment, hl]
        simp
      · have hq1 : q < m.commitmentCount := by omega
        rw [hlt q hq1]
        exact hold _ _ _ (hsk.stored q hq1)
    · intro q c hc
      have hq := hflag q (Or.inr (Or.inr (by rw [hc]; simp)))
      rw [hheap q hq] at hc ⊢
      exact hsk.payload q c hc
    · obtain ⟨r, a1, a2, a3⟩ := hsk.root
      exact ⟨r, by rw [hroot]; exact a1, by rw [hcount]; exact Nat.lt_succ_of_lt a2,
        by rw [hlt r a2]; exact a3⟩
    · intro q c hc hnr
      have hq := hflag q (Or.inr (Or.inr (by rw [hc]; simp)))
      rw [hheap q hq] at hc
      rw [hroot] at hnr
      obtain ⟨p, a1, a2⟩ := hsk.registry q c hc hnr
      refine ⟨p, hold _ _ _ a1, ?_⟩
      rw [hlt p (hsk.keyed _ _ _ a1).2.2]
      exact a2
    · intro p k q hk
      obtain ⟨hp, hk1, hq⟩ := hkid p k q hk
      obtain ⟨a1, a2, c, a3, a4, a5⟩ := hsk.kids p k q hk1
      refine ⟨by rw [hcount]; exact Nat.lt_succ_of_lt a1, by rw [hroot]; exact a2, c, ?_, a4, ?_⟩
      · rw [hlt q hq]; exact a3
      · rw [hheap p hp]; exact a5
    · intro r hr
      rw [hroot] at hr
      obtain ⟨r1, a1, a2, _⟩ := hsk.root
      rw [hr] at a1; cases a1
      rw [hlt r a2]
      exact hmk.rootSolid r hr
    · intro q hc
      have hq := hflag q (Or.inl hc)
      rw [hheap q hq] at hc ⊢
      exact hmk.chainPublished q hc
    · intro q hc
      have hq := hflag q (Or.inr (Or.inl hc))
      rw [hheap q hq] at hc ⊢
      exact hmk.solidChain q hc
    · intro p k q hk hmain
      obtain ⟨hp, hk1, hq⟩ := hkid p k q hk
      rw [hheap p hp] at hmain
      rw [hlt q hq]
      exact hmk.forks p k q hk1 hmain
    · intro q hc
      have hq := hflag q (Or.inr (Or.inl hc))
      rw [hheap q hq] at hc ⊢
      rcases hmk.solidParent q hc with a1 | ⟨c, p, a1, a2, a3⟩
      · exact Or.inl (by rw [hroot]; exact a1)
      · refine Or.inr ⟨c, p, a1, hold _ _ _ a2, ?_⟩
        rw [hlt p (hsk.keyed _ _ _ a2).2.2]
        exact a3
    · intro p k q hk hc
      obtain ⟨hp, hk1, hq⟩ := hkid p k q hk
      rw [hheap p hp] at hc
      rw [hlt q hq]
      exact h.chainClosed p k q hk1 hc
    · intro p k q hk hc
      obtain ⟨hp, hk1, hq⟩ := hkid p k q hk
      rw [hheap p hp] at hc
      rw [hlt q hq]
      exact h.solidClosed p k q hk1 hc
    · simp only [Manager.commitment, hl]
      simp
    · intro id1 p hp
      exact hold _ _ _ hp
    · intro h1; cases h1
    · intro _
      show (m1.commitmentHeap m.commitmentCount).commitment = none
      rw [hnew]
      rfl

/-- The registration of a newly published chain commitment `cc` as a child of `parent`,
given by its effect on the fields: the tree and the marks are kept, and the chains
and solid flags are closed up to the main child and the children of `cc`. -/
theorem Forest_register (m m1 : Manager) (c : Commitment) (cc parent : Nat) (forked : Bool)
    (chainResult : Option Nat) (hF : m.Forest)
    (hcc : m.commitment c.id = some cc) (hpar : m.commitment c.prevID = some parent)
    (hun : (m.commitmentHeap cc).commitment = none)
    (hid : ∀ q, (m1.commitmentHeap q).id = (m.commitmentHeap q).id)
    (hcom : ∀ q, (m1.commitmentHeap q).commitment =
      if q = cc then some c else (m.commitmentHeap q).commitment)
    (hkid : ∀ q, (m1.commitmentHeap q).children =
      if q = parent then mapSet (m.commitmentHeap parent).children c.id cc
      else (m.commitmentHeap q).children)
    (hmain : ∀ q, (m1.commitmentHeap q).mainChildID =
      if q = parent ∧ forked = false then some c.id else (m.commitmentHeap q).mainChildID)
    (hforked : forked = true →
      (m.commitmentHeap parent).mainChildID ≠ some c.id ∧ chainResult ≠ none)
    (hnot : forked = false → chainResult = (m.commitmentHeap parent).chain ∧
      (m.mainChild parent = none ∨ (m.commitmentHeap parent).mainChildID = some c.id))
    (hchain : ∀ q, (m1.commitmentHeap q).chain =
      if q = cc then chainResult else (m.commitmentHeap q).chain)
    (hsolid : ∀ q, (m1.commitmentHeap q).solid =
      if q = cc ∧ chainResult ≠ none then (m.commitmentHeap parent).solid
      else (m.commitmentHeap q).solid)
    (hstore : m1.commitmentsByID = m.commitmentsByID)
    (hcount : m1.commitmentCount = m.commitmentCount)
    (hroot : m1.rootCommitment = m.rootCommitment) :
    m1.Skeleton ∧ m1.Marks ∧
    m1.ChainClosedUpTo (fun q => (m1.commitmentHeap cc).chain ≠ none ∧
      m1.mainChild cc = some q) ∧
    m1.SolidClosedUpTo (fun q => (m1.commitmentHeap cc).solid = true ∧
      q ∈ m1.children cc) := by
  have hsk := hF.skeleton
  have hmk := hF.marks
  obtain ⟨hccid, _, hcclt⟩ := hsk.keyed _ _ _ hcc
  obtain ⟨hparid, _, hparlt⟩ := hsk.keyed _ _ _ hpar
  have hccChain : (m.commitmentHeap cc).chain = none := by
    by_contra hne
    exact hmk.chainPublished cc hne hun
  have hccSolid : (m.commitmentHeap cc).solid = false := by
    cases hs : (m.commitmentHeap cc).solid
    · rfl
    · exact absurd hccChain (hmk.solidChain cc hs)
  have hrootcc : m.rootCommitment ≠ some cc := by
    intro hr
    obtain ⟨r, a1, _, a3⟩ := hsk.root
    rw [hr] at a1; cases a1
    exact a3 hun
  have hcom1 : ∀ id, m1.commitment id = m.commitment id := by
    intro id; simp only [Manager.commitment, hstore]
  have hnokey : ∀ p q, (c.id, q) ∈ (m.commitmentHeap p).children → False := by
    intro p q hk
    obtain ⟨a1, _, c1, a3, a4, _⟩ := hsk.kids p c.id q hk
    have e := hsk.stored q a1
    rw [← hsk.payload q c1 a3, a4, hcc] at e
    cases e
    rw [hun] at a3; cases a3
  have hpub : ∀ q c1, (m.commitmentHeap q).commitment = some c1 → q ≠ cc := by
    intro q c1 h1 e
    subst e
    rw [hun] at h1; cases h1
  have hmem : ∀ p id q, (id, q) ∈ (m1.commitmentHeap p).children →
      (p = parent ∧ id = c.id ∧ q = cc) ∨
        ((id, q) ∈ (m.commitmentHeap p).children ∧ q ≠ cc ∧ id ≠ c.id) := by
    intro p id q hk
    rw [hkid] at hk
    have hold : (id, q) ∈ (m.commitmentHeap p).children →
        (id, q) ∈ (m.commitmentHeap p).children ∧ q ≠ cc ∧ id ≠ c.id := by
      intro h1
      obtain ⟨_, _, c1, a3, _⟩ := hsk.kids p id q h1
      refine ⟨h1, hpub q c1 a3, fun e => ?_⟩
      subst e
      exact hnokey p q h1
    by_cases hp : p = parent
    · rw [if_pos hp] at hk
      rcases mem_mapSet _ _ _ _ _ hk with ⟨e1, e2⟩ | h1
      · exact Or.inl ⟨hp, e1, e2⟩
      · rw [← hp] at h1
        exact Or.inr (hold h1)
    · rw [if_neg hp] at hk
      exact Or.inr (hold hk)
  have hchainOld : ∀ q, q ≠ cc → (m1.commitmentHeap q).chain = (m.commitmentHeap q).chain := by
    intro q hq; rw [hchain, if_neg hq]
  have hsolidOld : ∀ q, q ≠ cc → (m1.commitmentHeap q).solid = (m.commitmentHeap q).solid := by
    intro q hq
    rw [hsolid]
    simp [hq]
  have hsolidNot : ∀ q, (m.commitmentHeap q).solid = true → q ≠ cc := by
    intro q h1 e
    subst e
    rw [hccSolid] at h1; cases h1
  have hchainNot : ∀ q, (m.commitmentHeap q).chain ≠ none → q ≠ cc := by
    intro q h1 e
    subst e
    exact h1 hccChain
  have hccSolid1 : (m1.commitmentHeap cc).solid = true →
      chainResult ≠ none ∧ (m.commitmentHeap parent).solid = true := by
    intro h1
    rw [hsolid] at h1
    by_cases hr : chainResult ≠ none
    · rw [if_pos ⟨rfl, hr⟩] at h1
      exact ⟨hr, h1⟩
    · rw [if_neg (fun h2 => hr h2.2), hccSolid] at h1
      cases h1
  have hparChain : (m.commitmentHeap parent).chain ≠ none → chainResult ≠ none := by
    intro h1
    cases hf : forked
    · rw [(hnot hf).1]; exact h1
    · exact (hforked hf).2
  have hforks1 : ∀ p id q, (id, q) ∈ (m1.commitmentHeap p).children →
      (m1.commitmentHeap p).mainChildID ≠ some id → (m1.commitmentHeap q).chain ≠ none := by
    intro p id q hk hm
    rcases hmem p id q hk with ⟨e1, e2, e3⟩ | ⟨h1, hq, hidne⟩
    · subst e1; subst e2; subst e3
      rw [hmain] at hm
      cases hf : forked
      · simp [hf] at hm
      · rw [hchain, if_pos rfl]
        exact (hforked hf).2
    · rw [hchainOld q hq]
      apply hmk.forks p id q h1
      rw [hmain] at hm
      by_cases hpf : p = parent ∧ forked = false
      · obtain ⟨hp, hf⟩ := hpf
        subst hp
        rcases (hnot hf).2 with h2 | h2
        · intro h3
          simp only [Manager.mainChild, h3] at h2
          exact mapGet_ne_none_of_mem _ _ _ h1 h2
        · rw [h2]
          intro h3
          cases h3
          exact hidne rfl
      · rw [if_neg hpf] at hm
        exact hm
  refine ⟨⟨?_, ?_, ?_, ?_, ?_, ?_⟩, ⟨?_, ?_, ?_, hforks1, ?_⟩, ?_, ?_⟩
  · intro s id q hl
    rw [hstore] at hl
    rw [hid, hcount]
    exact hsk.keyed s id q hl
  · intro q hq
    rw [hcount] at hq
    rw [hcom1, hid]
    exact hsk.stored q hq
  · intro q c1 h1
    rw [hcom] at h1
    rw [hid]
    by_cases hq : q = cc
    · subst hq
      simp only [if_true, Option.some.injEq] at h1
      subst h1
      exact hccid.symm
    · rw [if_neg hq] at h1
      exact hsk.payload q c1 h1
  · obtain ⟨r, a1, a2, a3⟩ := hsk.root
    refine ⟨r, by rw [hroot]; exact a1, by rw [hcount]; exact a2, ?_⟩
    rw [hcom]
    split
    · simp
    · exact a3
  · intro q c1 h1 hnr
    rw [hcom] at h1
    rw [hroot] at hnr
    by_cases hq : q = cc
    · subst hq
      simp only [if_true, Option.some.injEq] at h1
      subst h1
      refine ⟨parent, by rw [hcom1]; exact hpar, ?_⟩
      rw [hkid, if_pos rfl, mapGet_mapSet, if_pos rfl]
    · rw [if_neg hq] at h1
      obtain ⟨p, a1, a2⟩ := hsk.registry q c1 h1 hnr
      refine ⟨p, by rw [hcom1]; exact a1, ?_⟩
      rw [hkid]
      by_cases hp : p = parent
      · rw [if_pos hp, mapGet_mapSet]
        have hne : c.id ≠ c1.id := by
          intro e
          rw [← e] at a2
          exact hnokey p q (mapGet_mem _ _ _ a2)
        rw [if_neg hne, ← hp]
        exact a2
      · rw [if_neg hp]
        exact a2
  · intro p id q hk
    rw [hcount, hroot, hid]
    rcases hmem p id q hk with ⟨e1, e2, e3⟩ | ⟨h1, hq, _⟩
    · subst e1; subst e2; subst e3
      refine ⟨hcclt, hrootcc, c, ?_, rfl, hparid.symm⟩
      rw [hcom, if_pos rfl]
    · obtain ⟨a1, a2, c1, a3, a4, a5⟩ := hsk.kids p id q h1
      refine ⟨a1, a2, c1, ?_, a4, a5⟩
      rw [hcom, if_neg hq]
      exact a3
  · intro r hr
    rw [hroot] at hr
    have hrc : r ≠ cc := fun e => hrootcc (by rw [← e]; exact hr)
    rw [hsolidOld r hrc, hchainOld r hrc]
    exact hmk.rootSolid r hr
  · intro q h1
    rw [hcom]
    by_cases hq : q = cc
    · rw [if_pos hq]; simp
    · rw [if_neg hq]
      rw [hchainOld q hq] at h1
      exact hmk.chainPublished q h1
  · intro q h1
    by_cases hq : q = cc
    · subst hq
      rw [hchain, if_pos rfl]
      exact (hccSolid1 h1).1
    · rw [hsolidOld q hq] at h1
      rw [hchainOld q hq]
      exact hmk.solidChain q h1
  · intro q h1
    by_cases hq : q = cc
    · subst hq
      obtain ⟨_, hps⟩ := hccSolid1 h1
      refine Or.inr ⟨c, parent, by rw [hcom, if_pos rfl], by rw [hcom1]; exact hpar, ?_⟩
      rw [hsolidOld parent (hsolidNot parent hps)]
      exact hps
    · rw [hsolidOld q hq] at h1
      rcases hmk.solidParent q h1 with a1 | ⟨c1, p, a1, a2, a3⟩
      · exact Or.inl (by rw [hroot]; exact a1)
      · refine Or.inr ⟨c1, p, by rw [hcom, if_neg hq]; exact a1, by rw [hcom1]; exact a2, ?_⟩
        rw [hsolidOld p (hsolidNot p a3)]
        exact a3
  · intro p id q hk hc
    rcases hmem p id q hk with ⟨e1, e2, e3⟩ | ⟨h1, hq, _⟩
    · subst e1; subst e2; subst e3
      by_cases hpc : p = q
      · subst hpc
        exact Or.inl hc
      · rw [hchainOld p hpc] at hc
        rw [hchain, if_pos rfl]
        exact Or.inl (hparChain hc)
    · by_cases hpc : p = cc
      · subst hpc
        by_cases hm : (m1.commitmentHeap p).mainChildID = some id
        · refine Or.inr ⟨hc, ?_⟩
          simp only [Manager.mainChild, hm]
          cases hg : mapGet (m1.commitmentHeap p).children id with
          | none => exact absurd hg (mapGet_ne_none_of_mem _ _ _ hk)
          | some q1 =>
            rcases hmem p id q1 (mapGet_mem _ _ _ hg) with ⟨_, e2, _⟩ | ⟨h2, _, _⟩
            · subst e2
              exact absurd h1 (hnokey p q)
            · rw [Skeleton_child_unique m hsk p p id q q1 h1 h2]
        · exact Or.inl (hforks1 p id q hk hm)
      · rw [hchainOld p hpc] at hc
        rw [hchainOld q hq]
        rcases hF.chainClosed p id q h1 hc with h3 | h3
        · exact Or.inl h3
        · cases h3
  · intro p id q hk hs
    by_cases hpc : p = cc
    · subst hpc
      exact Or.inr ⟨hs, (mem_mapValues _ _).mpr ⟨id, hk⟩⟩
    · rw [hsolidOld p hpc] at hs
      rcases hmem p id q hk with ⟨e1, e2, e3⟩ | ⟨h1, hq, _⟩
      · subst e1; subst e2; subst e3
        left
        rw [hsolid, if_pos ⟨rfl, hparChain (hmk.solidChain p hs)⟩]
        exact hs
      · rw [hsolidOld q hq]
        rcases hF.solidClosed p id q h1 hs with h3 | h3
        · exact Or.inl h3
        · cases h3

theorem publishChain_fields (s : Manager) (p ch : Nat) :
    (∀ q, ((s.publishChain p ch).1.commitmentHeap q).id = (s.commitmentHeap q).id ∧
      ((s.publishChain p ch).1.commitmentHeap q).commitment = (s.commitmentHeap q).commitment ∧
      ((s.publishChain p ch).1.commitmentHeap q).children = (s.commitmentHeap q).children ∧
      ((s.publishChain p ch).1.commitmentHeap q).mainChildID =
        (s.commitmentHeap q).mainChildID ∧
      ((s.publishChain p ch).1.commitmentHeap q).solid = (s.commitmentHeap q).solid ∧
      ((s.publishChain p ch).1.commitmentHeap q).chain =
        if q = p ∧ (s.commitmentHeap p).chain = none then some ch
        else (s.commitmentHeap q).chain) ∧
    (s.publishChain p ch).1.commitmentsByID = s.commitmentsByID ∧
    (s.publishChain p ch).1.commitmentCount = s.commitmentCount ∧
    (s.publishChain p ch).1.rootCommitment = s.rootCommitment := by
  cases hc : (s.commitmentHeap p).chain with
  | some x =>
    have e : (s.publishChain p ch).1 = s := by simp [Manager.publishChain, hc]
    rw [e]
    exact ⟨fun q => ⟨rfl, rfl, rfl, rfl, rfl, by simp⟩, rfl, rfl, rfl⟩
  | none =>
    have e : (s.publishChain p ch).1 =
        s.setCommitment p { s.commitmentHeap p with chain := some ch } := by
      simp [Manager.publishChain, hc]
    rw [e]
    refine ⟨fun q => ?_, rfl, rfl, rfl⟩
    simp only [Manager.setCommitment]
    by_cases hq : q = p
    · subst hq; simp
    · simp [hq]

theorem setSolid_fields (s : Manager) (p : Nat) (b : Bool) :
    (∀ q, ((s.setSolid p b).1.commitmentHeap q).id = (s.commitmentHeap q).id ∧
      ((s.setSolid p b).1.commitmentHeap q).commitment = (s.commitmentHeap q).commitment ∧
      ((s.setSolid p b).1.commitmentHeap q).children = (s.commitmentHeap q).children ∧
      ((s.setSolid p b).1.commitmentHeap q).mainChildID = (s.commitmentHeap q).mainChildID ∧
      ((s.setSolid p b).1.commitmentHeap q).chain = (s.commitmentHeap q).chain ∧
      ((s.setSolid p b).1.commitmentHeap q).solid =
        if q = p then b else (s.commitmentHeap q).solid) ∧
    (s.setSolid p b).1.commitmentsByID = s.commitmentsByID ∧
    (s.setSolid p b).1.commitmentCount = s.commitmentCount ∧
    (s.setSolid p b).1.rootCommitment = s.rootCommitment := by
  by_cases hc : (s.commitmentHeap p).solid = b
  · have e : (s.setSolid p b).1 = s := by simp [Manager.setSolid, hc]
    rw [e]
    refine ⟨fun q => ⟨rfl, rfl, rfl, rfl, rfl, ?_⟩, rfl, rfl, rfl⟩
    by_cases hq : q = p
    · subst hq; simp [hc]
    · simp [hq]
  · have e : (s.setSolid p b).1 =
        s.setCommitment p { s.commitmentHeap p with solid := b } := by
      simp [Manager.setSolid, hc]
    rw [e]
    refine ⟨fun q => ?_, rfl, rfl, rfl⟩
    simp only [Manager.setCommitment]
    by_cases hq : q = p
    · subst hq; simp
    · simp [hq]

/-- The effect of `Manager.registerChild` on the fields of the chain commitments: the
parent gets the child and, unless it forks, the designation of the main child; the
child gets the chain, unless it has one, and the solid flag of the parent, both only
when a chain results. -/
theorem registerChild_fields (s : Manager) (parent child : Nat) :
    ∃ (forked : Bool) (chainResult : Option Nat),
      (s.registerChild parent child).2.1 = (s.commitmentHeap parent).solid ∧
      (s.registerChild parent child).2.2.1 = chainResult ∧
      (forked = true → (s.commitmentHeap parent).mainChildID ≠
        some (s.commitmentHeap child).id ∧ chainResult ≠ none) ∧
      (forked = false → chainResult = (s.commitmentHeap parent).chain ∧
        (s.mainChild parent = none ∨
          (s.commitmentHeap parent).mainChildID = some (s.commitmentHeap child).id)) ∧
      (∀ q, ((s.registerChild parent child).1.commitmentHeap q).id = (s.commitmentHeap q).id ∧
        ((s.registerChild parent child).1.commitmentHeap q).commitment =
          (s.commitmentHeap q).commitment ∧
        ((s.registerChild parent child).1.commitmentHeap q).children =
          (if q = parent then
            mapSet (s.commitmentHeap parent).children (s.commitmentHeap child).id child
          else (s.commitmentHeap q).children) ∧
        ((s.registerChild parent child).1.commitmentHeap q).mainChildID =
          (if q = parent ∧ forked = false then some (s.commitmentHeap child).id
          else (s.commitmentHeap q).mainChildID) ∧
        ((s.registerChild parent child).1.commitmentHeap q).chain =
          (if q = child ∧ (s.commitmentHeap child).chain = none then chainResult
          else (s.commitmentHeap q).chain) ∧
        ((s.registerChild parent child).1.commitmentHeap q).solid =
          (if q = child ∧ chainResult ≠ none then (s.commitmentHeap parent).solid
          else (s.commitmentHeap q).solid)) ∧
      (s.registerChild parent child).1.commitmentsByID = s.commitmentsByID ∧
      (s.registerChild parent child).1.commitmentCount = s.commitmentCount ∧
      (s.registerChild parent child).1.rootCommitment = s.rootCommitment := by
  generalize hforked : (match s.mainChild parent with
    | none => false
    | some _ => decide ((s.commitmentHeap parent).mainChildID ≠
        some (s.commitmentHeap child).id)) = forked
  have hf1 : forked = true → (s.commitmentHeap parent).mainChildID ≠
      some (s.commitmentHeap child).id := by
    intro hf
    rw [hf] at hforked
    split at hforked
    · cases hforked
    · exact of_decide_eq_true hforked
  have hf2 : forked = false → (s.mainChild parent = none ∨
      (s.commitmentHeap parent).mainChildID = some (s.commitmentHeap child).id) := by
    intro hf
    rw [hf] at hforked
    split at hforked
    · rename_i hmc; exact Or.inl hmc
    · right
      by_contra hne
      have := decide_eq_true hne
      rw [this] at hforked
      cases hforked
  -- the state after the update of the parent
  generalize hs1 : s.setCommitment parent
    { s.commitmentHeap parent with
      children := mapSet (s.commitmentHeap parent).children (s.commitmentHeap child).id child
      mainChildID := if forked then (s.commitmentHeap parent).mainChildID
        else some (s.commitmentHeap child).id } = s1
  have h1 : ∀ q, (s1.commitmentHeap q).id = (s.commitmentHeap q).id ∧
      (s1.commitmentHeap q).commitment = (s.commitmentHeap q).commitment ∧
      (s1.commitmentHeap q).children =
        (if q = parent then
          mapSet (s.commitmentHeap parent).children (s.commitmentHeap child).id child
        else (s.commitmentHeap q).children) ∧
      (s1.commitmentHeap q).mainChildID =
        (if q = parent ∧ forked = false then some (s.commitmentHeap child).id
        else (s.commitmentHeap q).mainChildID) ∧
      (s1.commitmentHeap q).chain = (s.commitmentHeap q).chain ∧
      (s1.commitmentHeap q).solid = (s.commitmentHeap q).solid := by
    intro q
    rw [← hs1]
    simp only [Manager.setCommitment]
    by_cases hq : q = parent
    · subst hq
      cases forked <;> simp
    · simp [hq]
  have hrest1 : s1.commitmentsByID = s.commitmentsByID ∧
      s1.commitmentCount = s.commitmentCount ∧ s1.rootCommitment = s.rootCommitment ∧
      s1.chainCount = s.chainCount := by
    rw [← hs1]; exact ⟨rfl, rfl, rfl, rfl⟩
  -- the update of the child for a resulting chain `ch`
  have hchild : ∀ (s2 : Manager) (ch : Nat),
      s2.commitmentHeap = s1.commitmentHeap → s2.commitmentsByID = s1.commitmentsByID →
      s2.commitmentCount = s1.commitmentCount → s2.rootCommitment = s1.rootCommitment →
      (∀ q, (((((s2.chainAddCommitment ch child).publishChain child ch).1.setSolid child
          (s.commitmentHeap parent).solid).1).commitmentHeap q).id = (s.commitmentHeap q).id ∧
        (((((s2.chainAddCommitment ch child).publishChain child ch).1.setSolid child
          (s.commitmentHeap parent).solid).1).commitmentHeap q).commitment =
          (s.commitmentHeap q).commitment ∧
        (((((s2.chainAddCommitment ch child).publishChain child ch).1.setSolid child
          (s.commitmentHeap parent).solid).1).commitmentHeap q).children =
          (if q = parent then
            mapSet (s.commitmentHeap parent).children (s.commitmentHeap child).id child
          else (s.commitmentHeap q).children) ∧
        (((((s2.chainAddCommitment ch child).publishChain child ch).1.setSolid child
          (s.commitmentHeap parent).solid).1).commitmentHeap q).mainChildID =
          (if q = parent ∧ forked = false then some (s.commitmentHeap child).id
          else (s.commitmentHeap q).mainChildID) ∧
        (((((s2.chainAddCommitment ch child).publishChain child ch).1.setSolid child
          (s.commitmentHeap parent).solid).1).commitmentHeap q).chain =
          (if q = child ∧ (s.commitmentHeap child).chain = none then some ch
          else (s.commitmentHeap q).chain) ∧
        (((((s2.chainAddCommitment ch child).publishChain child ch).1.setSolid child
          (s.commitmentHeap parent).solid).1).commitmentHeap q).solid =
          (if q = child ∧ some ch ≠ none then (s.commitmentHeap parent).solid
          else (s.commitmentHeap q).solid)) ∧
      ((((s2.chainAddCommitment ch child).publishChain child ch).1.setSolid child
          (s.commitmentHeap parent).solid).1).commitmentsByID = s.commitmentsByID ∧
      ((((s2.chainAddCommitment ch child).publishChain child ch).1.setSolid child
          (s.commitmentHeap parent).solid).1).commitmentCount = s.commitmentCount ∧
      ((((s2.chainAddCommitment ch child).publishChain child ch).1.setSolid child
          (s.commitmentHeap parent).solid).1).rootCommitment = s.rootCommitment := by
    intro s2 ch e1 e2 e3 e4
    generalize hs3 : s2.chainAddCommitment ch child = s3
    have e5 : s3.commitmentHeap = s1.commitmentHeap := by rw [← hs3]; exact e1
    have e6 : s3.commitmentsByID = s1.commitmentsByID ∧
        s3.commitmentCount = s1.commitmentCount ∧ s3.rootCommitment = s1.rootCommitment := by
      rw [← hs3]; exact ⟨e2, e3, e4⟩
    obtain ⟨p1, p2, p3, p4⟩ := publishChain_fields s3 child ch
    obtain ⟨q1, q2, q3, q4⟩ := setSolid_fields (s3.publishChain child ch).1 child
      (s.commitmentHeap parent).solid
    refine ⟨fun q => ?_, ?_, ?_, ?_⟩
    · obtain ⟨a1, a2, a3, a4, a5, a6⟩ := q1 q
      obtain ⟨b1, b2, b3, b4, b5, b6⟩ := p1 q
      obtain ⟨c1, c2, c3, c4, c5, c6⟩ := h1 q
      rw [a1, a2, a3, a4, a5, a6, b1, b2, b3, b4, b5, b6, e5, c1, c2, c3, c4, c5, c6,
        (h1 child).2.2.2.2.1]
      refine ⟨rfl, rfl, rfl, rfl, rfl, ?_⟩
      by_cases hq : q = child
      · simp [hq]
      · simp [hq]
    · rw [q2, p2, e6.1, hrest1.1]
    · rw [q3, p3, e6.2.1, hrest1.2.1]
    · rw [q4, p4, e6.2.2, hrest1.2.2.1]
  cases hf : forked with
  | true =>
    have e : s.registerChild parent child =
        (((((s1.NewChain child).1.chainAddCommitment s.chainCount child).publishChain child
          s.chainCount).1.setSolid child (s.commitmentHeap parent).solid).1,
          (s.commitmentHeap parent).solid, some s.chainCount, true) := by
      simp only [Manager.registerChild, Manager.commitmentRegisterChild, hforked, hf, if_true]
      rw [← hs1, hf]
      rfl
    rw [e]
    refine ⟨true, some s.chainCount, rfl, rfl, fun _ => ⟨hf1 hf, by simp⟩,
      (fun h => by cases h), ?_⟩
    have := hchild (s1.NewChain child).1 s.chainCount rfl rfl rfl rfl
    rw [hf] at this
    obtain ⟨t1, t2, t3, t4⟩ := this
    exact ⟨t1, t2, t3, t4⟩
  | false =>
    cases hch : (s.commitmentHeap parent).chain with
    | none =>
      have e : s.registerChild parent child =
          (s1, (s.commitmentHeap parent).solid, none, false) := by
        rw [← hs1]
        simp only [Manager.registerChild, Manager.commitmentRegisterChild, hforked, hf, hch,
          Bool.false_eq_true, if_false]
      rw [e]
      refine ⟨false, none, rfl, rfl, (fun h => by cases h), fun _ => ⟨rfl, hf2 hf⟩, ?_,
        hrest1.1, hrest1.2.1, hrest1.2.2.1⟩
      intro q
      obtain ⟨c1, c2, c3, c4, c5, c6⟩ := h1 q
      rw [hf] at c4
      refine ⟨c1, c2, c3, c4, ?_, ?_⟩
      · rw [c5]
        by_cases hq : q = child ∧ (s.commitmentHeap child).chain = none
        · rw [if_pos hq, hq.1]; exact hq.2
        · rw [if_neg hq]
      · rw [c6]; simp
    | some ch =>
      have e : s.registerChild parent child =
          ((((s1.chainAddCommitment ch child).publishChain child ch).1.setSolid child
            (s.commitmentHeap parent).solid).1,
            (s.commitmentHeap parent).solid, some ch, false) := by
        rw [← hs1]
        simp only [Manager.registerChild, Manager.commitmentRegisterChild, hforked, hf, hch,
          Bool.false_eq_true, if_false]
      rw [e]
      refine ⟨false, some ch, rfl, rfl, (fun h => by cases h), fun _ => ⟨rfl, hf2 hf⟩, ?_⟩
      have := hchild s1 ch rfl rfl rfl rfl
      rw [hf] at this
      obtain ⟨t1, t2, t3, t4⟩ := this
      exact ⟨t1, t2, t3, t4⟩

/-- The invariant of the forest reads the chain commitments, the counter, the storage
and the root commitment only. -/
theorem Forest_congr (m m1 : Manager) (hheap : m1.commitmentHeap = m.commitmentHeap)
    (hstore : m1.commitmentsByID = m.commitmentsByID)
    (hcount : m1.commitmentCount = m.commitmentCount)
    (hroot : m1.rootCommitment = m.rootCommitment) (h : m.Forest) : m1.Forest := by
  have hst : m.SameTree m1 :=
    ⟨fun q => by rw [hheap]; exact ⟨rfl, rfl, rfl, rfl⟩, hstore, hcount, hroot⟩
  have hcom : ∀ id, m1.commitment id = m.commitment id := by
    intro id; simp only [Manager.commitment, hstore]
  refine ⟨Skeleton_sameTree m m1 hst h.skeleton, ⟨?_, ?_, ?_, ?_, ?_⟩, ?_, ?_⟩
  · intro r hr
    rw [hroot] at hr
    rw [hheap]
    exact h.marks.rootSolid r hr
  · intro q hq
    rw [hheap] at hq ⊢
    exact h.marks.chainPublished q hq
  · intro q hq
    rw [hheap] at hq ⊢
    exact h.marks.solidChain q hq
  · intro p id q hk hm
    rw [hheap] at hk hm ⊢
    exact h.marks.forks p id q hk hm
  · intro q hq
    rw [hheap] at hq ⊢
    rw [hroot]
    rcases h.marks.solidParent q hq with a | ⟨c, p, a1, a2, a3⟩
    · exact Or.inl a
    · exact Or.inr ⟨c, p, a1, by rw [hcom]; exact a2, a3⟩
  · intro p id q hk hc
    rw [hheap] at hk hc ⊢
    exact h.chainClosed p id q hk hc
  · intro p id q hk hc
    rw [hheap] at hk hc ⊢
    exact h.solidClosed p id q hk hc

theorem Forest_trigger (m : Manager) (e : Event) (h : m.Forest) : (m.trigger e).Forest :=
  Forest_congr m (m.trigger e) rfl rfl rfl rfl h

/-- The method `registerCommitment` on a forest that satisfies the invariant. -/
theorem registerCommitment_forest (m : Manager) (c : Commitment) (h : m.Forest) :
    Manager.AfterRegister (m.registerCommitment c) := by
  obtain ⟨F1, hpar1, _, _, _⟩ := Forest_getOrCreate m c.prevID h
  unfold Manager.registerCommitment
  generalize m.getOrCreateCommitment c.prevID = r1 at F1 hpar1 ⊢
  obtain ⟨s1, parent, new1⟩ := r1
  dsimp only at F1 hpar1 ⊢
  generalize hm1 : (if new1 = true then
      s1.trigger (Event.commitmentMissing (s1.commitmentHeap parent).id) else s1) = m1
  have F1a : m1.Forest := by
    rw [← hm1]
    split
    · exact Forest_trigger _ _ F1
    · exact F1
  have hpar1a : m1.commitment c.prevID = some parent := by
    rw [← hm1]
    split
    · exact hpar1
    · exact hpar1
  obtain ⟨F2, hcc2, hkeep, _, _⟩ := Forest_getOrCreate m1 c.id F1a
  generalize m1.getOrCreateCommitment c.id = r2 at F2 hcc2 hkeep ⊢
  obtain ⟨s2, cc, new2⟩ := r2
  dsimp only at F2 hcc2 hkeep ⊢
  have hpar2 := hkeep _ _ hpar1a
  cases hpc : (s2.commitmentHeap cc).commitment with
  | some pc =>
    simp only [Manager.publishCommitment, hpc, Bool.not_false, if_true]
    exact ⟨fun _ => F2, fun h1 => by cases h1⟩
  | none =>
    simp only [Manager.publishCommitment, hpc, Bool.not_true, Bool.false_eq_true, if_false]
    generalize hm4 : (if (!new2) = true then
      (s2.setCommitment cc { s2.commitmentHeap cc with commitment := some c }).trigger
        (Event.missingCommitmentReceived
          ((s2.setCommitment cc { s2.commitmentHeap cc with commitment := some c }).commitmentHeap
            cc).id)
      else s2.setCommitment cc { s2.commitmentHeap cc with commitment := some c }) = m4
    have h4 : m4.commitmentHeap =
        (fun q => if q = cc then { s2.commitmentHeap cc with commitment := some c }
          else s2.commitmentHeap q) ∧
        m4.commitmentsByID = s2.commitmentsByID ∧ m4.commitmentCount = s2.commitmentCount ∧
        m4.rootCommitment = s2.rootCommitment := by
      rw [← hm4]
      split <;> exact ⟨rfl, rfl, rfl, rfl⟩
    obtain ⟨h4heap, h4store, h4count, h4root⟩ := h4
    have hf4 : ∀ q, (m4.commitmentHeap q).id = (s2.commitmentHeap q).id ∧
        (m4.commitmentHeap q).commitment =
          (if q = cc then some c else (s2.commitmentHeap q).commitment) ∧
        (m4.commitmentHeap q).children = (s2.commitmentHeap q).children ∧
        (m4.commitmentHeap q).mainChildID = (s2.commitmentHeap q).mainChildID ∧
        (m4.commitmentHeap q).chain = (s2.commitmentHeap q).chain ∧
        (m4.commitmentHeap q).solid = (s2.commitmentHeap q).solid := by
      intro q
      rw [h4heap]
      by_cases hq : q = cc
      · subst hq; simp
      · simp [hq]
    have hccid : (s2.commitmentHeap cc).id = c.id := (F2.skeleton.keyed _ _ _ hcc2).1
    have hccChain : (s2.commitmentHeap cc).chain = none := by
      by_contra hne
      exact F2.marks.chainPublished cc hne hpc
    have hmc4 : m4.mainChild parent = s2.mainChild parent := by
      simp only [Manager.mainChild, (hf4 parent).2.2.1, (hf4 parent).2.2.2.1]
    obtain ⟨forked, chainResult, e1, e2, hfk, hnf, hfields, hst, hcnt, hrt⟩ :=
      registerChild_fields m4 parent cc
    generalize m4.registerChild parent cc = r5 at e1 e2 hfields hst hcnt hrt ⊢
    obtain ⟨s5, sol, chn, fk⟩ := r5
    dsimp only at e1 e2 hfields hst hcnt hrt ⊢
    rw [(hf4 cc).1, hccid] at hfk hnf hfields
    rw [(hf4 parent).2.2.2.1] at hfk hnf
    rw [(hf4 parent).2.2.2.2.1, hmc4] at hnf
    have hchain5 : ∀ q, (s5.commitmentHeap q).chain =
        if q = cc then chainResult else (s2.commitmentHeap q).chain := by
      intro q
      rw [(hfields q).2.2.2.2.1, (hf4 cc).2.2.2.2.1, (hf4 q).2.2.2.2.1]
      by_cases hq : q = cc
      · simp [hq, hccChain]
      · simp [hq]
    have hsolid5 : ∀ q, (s5.commitmentHeap q).solid =
        if q = cc ∧ chainResult ≠ none then (s2.commitmentHeap parent).solid
        else (s2.commitmentHeap q).solid := by
      intro q
      rw [(hfields q).2.2.2.2.2, (hf4 parent).2.2.2.2.2, (hf4 q).2.2.2.2.2]
    obtain ⟨g1, g2, g3, g4⟩ := Forest_register s2 s5 c cc parent forked chainResult F2 hcc2 hpar2
      hpc (fun q => (hfields q).1.trans (hf4 q).1)
      (fun q => (hfields q).2.1.trans (hf4 q).2.1)
      (fun q => by rw [(hfields q).2.2.1, (hf4 parent).2.2.1, (hf4 q).2.2.1])
      (fun q => by rw [(hfields q).2.2.2.1, (hf4 q).2.2.2.1])
      hfk hnf hchain5 hsolid5 (hst.trans h4store) (hcnt.trans h4count) (hrt.trans h4root)
    refine ⟨(fun h1 => by cases h1), fun _ => ⟨g1, g2, g3, g4, ?_⟩⟩
    intro hc
    show sol = (s5.commitmentHeap cc).solid
    rw [hchain5, if_pos rfl] at hc
    rw [hsolid5, if_pos ⟨rfl, hc⟩, e1, (hf4 parent).2.2.2.2.2]

theorem Skeleton_published_lt (m : Manager) (h : m.Skeleton) (q : Nat) (c : Commitment)
    (hc : (m.commitmentHeap q).commitment = some c) : q < m.commitmentCount := by
  by_cases hroot : m.rootCommitment = some q
  · obtain ⟨r, e1, e2, _⟩ := h.root
    rw [hroot] at e1
    cases e1
    exact e2
  · obtain ⟨p, _, e2⟩ := h.registry q c hc hroot
    exact (h.kids p c.id q (mapGet_mem _ _ _ e2)).1

/-- The first walk of `processCommitment`, along the main children of the new chain
commitment, closes the chains. -/
theorem chainWalk_forest (s m2 : Manager) (cc chain : Nat) (P : Nat → Prop)
    (sk : s.Skeleton) (mk : s.Marks)
    (hchain : s.ChainClosedUpTo (fun q => (s.commitmentHeap cc).chain ≠ none ∧
      s.mainChild cc = some q))
    (hsolid : s.SolidClosedUpTo P)
    (h : (match s.mainChild cc with
      | none => .ok s
      | some mc => Manager.walk (Manager.propagateChainToMainChild chain) s.commitmentCount
          [mc] [mc] s) = Except.ok m2) :
    s.SameTree m2 ∧ (∀ q, (m2.commitmentHeap q).solid = (s.commitmentHeap q).solid) ∧
      m2.Skeleton ∧ m2.Marks ∧ m2.SolidClosedUpTo P ∧ m2.ChainClosedUpTo (fun _ => False) := by
  cases hmc : s.mainChild cc with
  | none =>
    rw [hmc] at h
    simp only [Except.ok.injEq] at h
    subst h
    refine ⟨SameTree_refl s, fun _ => rfl, sk, mk, hsolid, ?_⟩
    intro p id q hk hc
    rcases hchain p id q hk hc with h1 | ⟨_, h2⟩
    · exact Or.inl h1
    · rw [hmc] at h2; cases h2
  | some mc =>
    rw [hmc] at h
    simp only at h
    refine walk_chain_forest chain P s.commitmentCount [mc] [mc] s m2 sk mk hsolid ?_ ?_ ?_ h
    · intro p id q hk hc
      rcases hchain p id q hk hc with h1 | ⟨_, h2⟩
      · exact Or.inl h1
      · rw [hmc] at h2
        cases h2
        exact Or.inr (List.mem_singleton.mpr rfl)
    · intro y hy
      exact Or.inl hy
    · intro y hy
      rw [List.mem_singleton] at hy
      subst hy
      simp only [Manager.mainChild] at hmc
      split at hmc
      · cases hmc
      · rename_i mid _
        obtain ⟨_, _, c1, hc1, _⟩ := sk.kids cc mid y (mapGet_mem _ _ _ hmc)
        rw [hc1]; simp

/-- The second walk of `processCommitment`, over the descendants of the new chain
commitment when it is solid, closes the solid flags. -/
theorem solidWalk_forest (m2 m1 : Manager) (cc : Nat) (isSolid : Bool)
    (res res1 : Bool × Bool × Option Nat)
    (sk : m2.Skeleton) (mk : m2.Marks) (hchain : m2.ChainClosedUpTo (fun _ => False))
    (hsolid : m2.SolidClosedUpTo (fun q => (m2.commitmentHeap cc).solid = true ∧
      q ∈ m2.children cc))
    (hsol : isSolid = (m2.commitmentHeap cc).solid)
    (h : (if (isSolid && (m2.children cc).length != 0) = true then
        match Manager.walk Manager.propagateSolidity m2.commitmentCount
          (Manager.walkerPushAll [] [] (m2.children cc)).1
          (Manager.walkerPushAll [] [] (m2.children cc)).2 m2 with
        | .error f => .error f
        | .ok m3 => .ok (m3, res)
      else .ok (m2, res)) = (Except.ok (m1, res1) : Except Fault _)) : m1.Forest := by
  by_cases hcond : (isSolid && (m2.children cc).length != 0) = true
  · rw [if_pos hcond] at h
    simp only [Bool.and_eq_true] at hcond
    obtain ⟨hs, _⟩ := hcond
    have hccs : (m2.commitmentHeap cc).solid = true := by rw [← hsol]; exact hs
    have hccc := mk.solidChain cc hccs
    obtain ⟨c0, hc0⟩ := Option.ne_none_iff_exists'.mp (mk.chainPublished cc hccc)
    have hcclt := Skeleton_published_lt m2 sk cc c0 hc0
    split at h
    · cases h
    · rename_i m3 hw
      simp only [Except.ok.injEq, Prod.mk.injEq] at h
      obtain ⟨e, _⟩ := h
      subst e
      refine (walk_solid_forest _ _ _ m2 m3 sk mk hchain ?_ ?_ ?_ hw).2
      · intro p id q hk hp
        rcases hsolid p id q hk hp with h1 | ⟨_, h2⟩
        · exact Or.inl h1
        · exact Or.inr ((walkerPushAll_queue_iff _ _ _ _).mpr (Or.inr ⟨h2, by simp⟩))
      · intro y hy
        rcases (walkerPushAll_seen_iff _ _ _ _).mp hy with h1 | h1
        · cases h1
        · exact Or.inl ((walkerPushAll_queue_iff _ _ _ _).mpr (Or.inr ⟨h1, by simp⟩))
      · intro y hy
        rcases (walkerPushAll_queue_iff _ _ _ _).mp hy with h1 | ⟨h1, _⟩
        · cases h1
        · obtain ⟨id, hid⟩ := (mem_mapValues _ _).mp h1
          obtain ⟨_, _, c1, hc1, _, hprev⟩ := sk.kids cc id y hid
          refine ⟨?_, c1, cc, hc1, ?_, hccs⟩
          · rcases hchain cc id y hid hccc with h3 | h3
            · exact h3
            · cases h3
          · rw [hprev]
            exact sk.stored cc hcclt
  · rw [if_neg hcond] at h
    simp only [Except.ok.injEq, Prod.mk.injEq] at h
    obtain ⟨e, _⟩ := h
    subst e
    refine ⟨sk, mk, hchain, ?_⟩
    intro p id q hk hp
    rcases hsolid p id q hk hp with h1 | ⟨h2, h3⟩
    · exact Or.inl h1
    · exfalso
      apply hcond
      simp only [Bool.and_eq_true]
      refine ⟨by rw [hsol]; exact h2, ?_⟩
      cases hl : m2.children cc with
      | nil => rw [hl] at h3; cases h3
      | cons a l => simp

/-- The method `processCommitment` keeps the invariant of the forest. -/
theorem processCommitment_forest (m m1 : Manager) (c : Commitment)
    (res : Bool × Bool × Option Nat) (h : m.Forest)
    (hp : m.processCommitment c = .ok (m1, res)) : m1.Forest := by
  unfold Manager.processCommitment at hp
  split at hp
  · cases hp
  · rename_i isBelow isRoot _
    split at hp
    · split at hp
      · simp only [Except.ok.injEq, Prod.mk.injEq] at hp
        rw [← hp.1]
        exact h
      · simp only [Except.ok.injEq, Prod.mk.injEq] at hp
        rw [← hp.1]
        exact Forest_trigger _ _ h
    · have ar := registerCommitment_forest m c h
      generalize m.registerCommitment c = rr at ar hp
      obtain ⟨s, isNew, isSolid, fk, cc⟩ := rr
      obtain ⟨ar1, ar2⟩ := ar
      dsimp only at hp ar1 ar2
      cases hch : (s.commitmentHeap cc).chain with
      | none =>
        rw [hch] at hp
        simp only [Except.ok.injEq, Prod.mk.injEq] at hp
        rw [← hp.1]
        cases isNew with
        | false => exact ar1 rfl
        | true =>
          obtain ⟨sk, mk, c1, s1, _⟩ := ar2 rfl
          refine ⟨sk, mk, ?_, ?_⟩
          · intro p id q hk hc
            rcases c1 p id q hk hc with h1 | ⟨h2, _⟩
            · exact Or.inl h1
            · exact absurd hch h2
          · intro p id q hk hc
            rcases s1 p id q hk hc with h1 | ⟨h2, _⟩
            · exact Or.inl h1
            · exact absurd hch (mk.solidChain cc h2)
      | some chain =>
        rw [hch] at hp
        cases isNew with
        | false =>
          simp only [Bool.not_false, if_true, Except.ok.injEq, Prod.mk.injEq] at hp
          rw [← hp.1]
          exact ar1 rfl
        | true =>
          simp only [Bool.not_true, Bool.false_eq_true, if_false] at hp
          obtain ⟨sk, mk, c1, s1, hsol⟩ := ar2 rfl
          have hsol1 : isSolid = (s.commitmentHeap cc).solid := hsol (by rw [hch]; simp)
          generalize hac : (match s.mainChild cc with
            | none => Except.ok s
            | some mc => Manager.walk (Manager.propagateChainToMainChild chain)
                s.commitmentCount [mc] [mc] s) = afterChain at hp
          cases afterChain with
          | error f => cases hp
          | ok m2 =>
            obtain ⟨t1, t2, t3, t4, t5, t6⟩ := chainWalk_forest s m2 cc chain _ sk mk c1 s1 hac
            have hkids : m2.children cc = s.children cc := by
              simp only [Manager.children, (t1.1 cc).2.2.1]
            refine solidWalk_forest m2 m1 cc isSolid _ res t3 t4 t6 ?_ ?_ hp
            · intro p id q hk hc
              rcases t5 p id q hk hc with h1 | ⟨h2, h3⟩
              · exact Or.inl h1
              · exact Or.inr ⟨by rw [t2]; exact h2, by rw [hkids]; exact h3⟩
            · rw [t2]; exact hsol1

theorem detectForks_forest (m m1 : Manager) (c source : Nat) (hF : m.Forest)
    (h : m.detectForks c source = .ok m1) : m1.Forest := by
  unfold Manager.detectForks at h
  split at h
  · cases h
  · cases h; exact hF
  · cases h; exact hF
  · simp only [] at h
    split at h
    · cases h; exact hF
    · split at h
      · cases h
      · split at h
        · cases h
        · split at h
          · cases h; exact hF
          · cases h
            exact Forest_trigger _ _ (Forest_congr m _ rfl rfl rfl rfl hF)

/-- A `Process*` call that carries out no chain switch keeps the invariant of the
forest. -/
theorem call_forest (m m1 : Manager) (c : Call) (hF : m.Forest)
    (hs : m.carriesNoSwitch c = true) (h : m.call c = .ok m1) : m1.Forest := by
  cases c with
  | processCommitment cm =>
    simp only [Manager.call] at h
    split at h
    · cases h
    · rename_i r hr
      cases h
      unfold Manager.ProcessCommitment at hr
      split at hr
      · cases hr
      · rename_i m2 _ _ hp
        cases hr
        exact processCommitment_forest m _ cm _ hF hp
      · rename_i m2 isNew isSolid cc hp
        have w2 := processCommitment_forest m m2 cm _ hF hp
        cases isNew with
        | true =>
          simp only [Bool.not_true, Bool.false_eq_true, if_false] at hr
          cases hr
          exact w2
        | false =>
          simp only [Bool.not_false, if_true] at hr
          simp only [Manager.carriesNoSwitch, hp] at hs
          have hfp : m2.forkingPointAgainstMainChain cc = .ok (.ok none) := by
            split at hs
            · rename_i hfp; exact hfp
            · cases hs
          simp only [Manager.switchMainChainToCommitment, hfp] at hr
          cases hr
          exact w2
  | processCandidateCommitment cm =>
    simp only [Manager.call] at h
    split at h
    · cases h
    · rename_i r hr
      cases h
      unfold Manager.ProcessCandidateCommitment at hr
      split at hr
      · cases hr
      · rename_i m2 _ _ hp
        cases hr
        exact processCommitment_forest m _ cm _ hF hp
      · rename_i m2 _ isSolid cc hp
        cases hr
        exact processCommitment_forest m m2 cm _ hF hp
  | processCommitmentFromSource cm source =>
    simp only [Manager.call] at h
    split at h
    · cases h
    · rename_i r hr
      cases h
      unfold Manager.ProcessCommitmentFromSource at hr
      split at hr
      · cases hr
      · rename_i m2 _ _ hp
        cases hr
        exact processCommitment_forest m _ cm _ hF hp
      · rename_i m2 _ isSolid cc hp
        have w2 := processCommitment_forest m m2 cm _ hF hp
        split at hr
        · cases hr
        · rename_i m3 h3
          cases hr
          exact detectForks_forest m2 m3 cc source w2 h3
  | switchMainChain head => simp [Manager.carriesNoSwitch] at hs
  | evictUntil index => simp [Manager.carriesNoSwitch] at hs
  | setRootCommitment cm => simp [Manager.carriesNoSwitch] at hs

theorem calls_forest (cs : List Call) (m m1 : Manager) (hF : m.Forest)
    (hs : m.receives cs = true) (h : m.calls cs = .ok m1) : m1.Forest := by
  induction cs generalizing m with
  | nil =>
    simp only [Manager.calls] at h
    cases h
    exact hF
  | cons c rest ih =>
    simp only [Manager.calls] at h
    simp only [Manager.receives, Bool.and_eq_true] at hs
    obtain ⟨hs1, hs2⟩ := hs
    split at h
    · cases h
    · rename_i m2 h2
      rw [h2] at hs2
      exact ih m2 (call_forest m m2 c hF hs1 h2) hs2 h

theorem Initialize_forest (depth : Int) (c0 : Commitment) :
    ((Manager.NewManagerWithDepth depth).Initialize c0).Forest := by
  have hheap : ∀ q, (((Manager.NewManagerWithDepth depth).Initialize c0).commitmentHeap q)
      = if q = 0 then
          { id := c0.id, commitment := some c0, solid := true, mainChildID := none,
            children := [], chain := some 0 }
        else NewChainCommitment ⟨0, 0⟩ := by
    intro q
    by_cases hq : q = 0
    · subst hq
      simp [Manager.Initialize, Manager.NewManagerWithDepth, Manager.getOrCreateCommitment,
        IndexedStorage.getOrCreate, IndexedStorage.empty, mapGet, Manager.publishCommitment,
        Manager.setSolid, Manager.NewChain, Manager.publishChain, Manager.setCommitment,
        NewChainCommitment, NewEvictionIndex]
    · simp [Manager.Initialize, Manager.NewManagerWithDepth, Manager.getOrCreateCommitment,
        IndexedStorage.getOrCreate, IndexedStorage.empty, mapGet, Manager.publishCommitment,
        Manager.setSolid, Manager.NewChain, Manager.publishChain, Manager.setCommitment,
        NewChainCommitment, NewEvictionIndex, hq]
  have hcount : ((Manager.NewManagerWithDepth depth).Initialize c0).commitmentCount = 1 := by
    simp [Manager.Initialize, Manager.NewManagerWithDepth, Manager.getOrCreateCommitment,
      IndexedStorage.getOrCreate, IndexedStorage.empty, mapGet, Manager.publishCommitment,
      Manager.setSolid, Manager.NewChain, Manager.publishChain, Manager.setCommitment,
      NewChainCommitment, NewEvictionIndex]
  have hroot : ((Manager.NewManagerWithDepth depth).Initialize c0).rootCommitment = some 0 := by
    simp [Manager.Initialize, Manager.NewManagerWithDepth, Manager.getOrCreateCommitment,
      IndexedStorage.getOrCreate, IndexedStorage.empty, mapGet, Manager.publishCommitment,
      Manager.setSolid, Manager.NewChain, Manager.publishChain, Manager.setCommitment,
      NewChainCommitment, NewEvictionIndex]
  have hstore : ∀ s id,
      ((Manager.NewManagerWithDepth depth).Initialize c0).commitmentsByID.lookup s id =
        if s = c0.id.index ∧ c0.id = id then some 0 else none := by
    intro s id
    have hst : ((Manager.NewManagerWithDepth depth).Initialize c0).commitmentsByID
        = (IndexedStorage.empty.put c0.id.index []).put c0.id.index [(c0.id, 0)] := rfl
    rw [hst]
    simp only [IndexedStorage.lookup, IndexedStorage.put, IndexedStorage.empty]
    by_cases hs : s = c0.id.index
    · by_cases hid : c0.id = id
      · simp [hs, hid, mapGet]
      · simp [hs, hid, mapGet]
    · simp [hs]
  have hpub : ∀ q c, (((Manager.NewManagerWithDepth depth).Initialize c0).commitmentHeap
      q).commitment = some c → q = 0 ∧ c = c0 := by
    intro q c hc
    rw [hheap] at hc
    by_cases hq : q = 0
    · simp only [hq, if_true, Option.some.injEq] at hc
      exact ⟨hq, hc.symm⟩
    · simp [hq, NewChainCommitment] at hc
  have hnokids : ∀ p id q, (id, q) ∈ (((Manager.NewManagerWithDepth depth).Initialize
      c0).commitmentHeap p).children → False := by
    intro p id q hk
    rw [hheap] at hk
    by_cases hp : p = 0
    · simp [hp] at hk
    · simp [hp, NewChainCommitment] at hk
  have hflag : ∀ q, (((Manager.NewManagerWithDepth depth).Initialize c0).commitmentHeap
      q).solid = true ∨ (((Manager.NewManagerWithDepth depth).Initialize c0).commitmentHeap
      q).chain ≠ none → q = 0 := by
    intro q hq
    rw [hheap] at hq
    by_contra hne
    simp [hne, NewChainCommitment] at hq
  have h0 : (((Manager.NewManagerWithDepth depth).Initialize c0).commitmentHeap 0) =
      { id := c0.id, commitment := some c0, solid := true, mainChildID := none,
        children := [], chain := some 0 } := by
    rw [hheap]; simp
  refine ⟨⟨?_, ?_, ?_, ?_, ?_, ?_⟩, ⟨?_, ?_, ?_, ?_, ?_⟩, ?_, ?_⟩
  · intro s id q hq
    rw [hstore] at hq
    by_cases hk : s = c0.id.index ∧ c0.id = id
    · rw [if_pos hk] at hq
      cases hq
      rw [h0, hcount]
      exact ⟨hk.2, by rw [hk.1, hk.2], Nat.lt_succ_self 0⟩
    · rw [if_neg hk] at hq
      cases hq
  · intro q hq
    rw [hcount] at hq
    have hq0 : q = 0 := by omega
    subst hq0
    simp only [Manager.commitment, hstore, h0]
    simp
  · intro q c hc
    obtain ⟨e1, e2⟩ := hpub q c hc
    subst e1; subst e2
    rw [h0]
  · refine ⟨0, hroot, by rw [hcount]; exact Nat.lt_succ_self 0, ?_⟩
    rw [h0]; simp
  · intro q c hc hnr
    obtain ⟨e1, _⟩ := hpub q c hc
    subst e1
    exact absurd hroot hnr
  · intro p id q hk
    exact (hnokids p id q hk).elim
  · intro r hr
    rw [hroot] at hr
    cases hr
    rw [h0]
    simp
  · intro q hq
    have := hflag q (Or.inr hq)
    subst this
    rw [h0]; simp
  · intro q hq
    have := hflag q (Or.inl hq)
    subst this
    rw [h0]; simp
  · intro p id q hk
    exact (hnokids p id q hk).elim
  · intro q hq
    have := hflag q (Or.inl hq)
    subst this
    exact Or.inl hroot
  · intro p id q hk
    exact (hnokids p id q hk).elim
  · intro p id q hk
    exact (hnokids p id q hk).elim

/-- C22: after `Initialize` and any sequence of `ProcessCommitment`,
`ProcessCandidateCommitment` and `ProcessCommitmentFromSource` calls that return, in
any arrival order and without a chain switch, every chain commitment with a published
payload whose parent chain commitment, the one stored for its `PrevID`, is solid is
itself solid and has a chain, and every solid chain commitment is the root commitment
or has a published payload and a solid parent chain commitment. -/
theorem C22_solidity_closure (depth : Int) (c0 : Commitment) (cs : List Call) (m1 : Manager)
    (hScope : ((Manager.NewManagerWithDepth depth).Initialize c0).receives cs = true)
    (hCalls : ((Manager.NewManagerWithDepth depth).Initialize c0).calls cs = .ok m1) :
    (∀ q c p, (m1.commitmentHeap q).commitment = some c → m1.commitment c.prevID = some p →
      (m1.commitmentHeap p).solid = true →
      (m1.commitmentHeap q).solid = true ∧ (m1.commitmentHeap q).chain ≠ none) ∧
    (∀ q, (m1.commitmentHeap q).solid = true → m1.rootCommitment = some q ∨
      ∃ c p, (m1.commitmentHeap q).commitment = some c ∧ m1.commitment c.prevID = some p ∧
        (m1.commitmentHeap p).solid = true) := by
  have hF := calls_forest cs _ m1 (Initialize_forest depth c0) hScope hCalls
  refine ⟨?_, hF.marks.solidParent⟩
  intro q c p hc hp hs
  by_cases hroot : m1.rootCommitment = some q
  · exact hF.marks.rootSolid q hroot
  · obtain ⟨p1, h1, h2⟩ := hF.skeleton.registry q c hc hroot
    rw [hp] at h1
    cases h1
    rcases hF.solidClosed p c.id q (mapGet_mem _ _ _ h2) hs with h3 | h3
    · exact ⟨h3, hF.marks.solidChain q h3⟩
    · cases h3

set_option maxRecDepth 100000 in
/-- C22 at a concrete input: the children `F2` and `M2` arrive before their parents
`F1` and `M1`; when `F1` has arrived, the chain commitment 2 of `F2`, whose parent 1
is solid, is solid and has a chain. -/
theorem C22_solidity_closure_witness :
    (Scenario.parentsArrived.commitmentHeap 2).commitment = some (Scenario.F 2) ∧
    Scenario.parentsArrived.commitment (Scenario.F 2).prevID = some 1 ∧
    (Scenario.parentsArrived.commitmentHeap 1).solid = true ∧
    (Scenario.parentsArrived.commitmentHeap 2).solid = true ∧
    (Scenario.parentsArrived.commitmentHeap 2).chain ≠ none :=
  ⟨by rfl, by rfl, by rfl,
    (C22_solidity_closure 3 (Scenario.M 0) Scenario.parentsLast Scenario.parentsArrived
      (by rfl) (by rfl)).1 2 (Scenario.F 2) 1 (by rfl) (by rfl) (by rfl)⟩

/-! ## Chains as sets of slots -/

theorem mem_mapSet_self {K V : Type} [DecidableEq K] (l : List (K × V)) (k : K) (v : V) :
    (k, v) ∈ mapSet l k v := by
  induction l with
  | nil => simp [mapSet]
  | cons e rest ih =>
    obtain ⟨a, w⟩ := e
    unfold mapSet
    by_cases h : a = k
    · rw [if_pos h]; exact List.mem_cons_self _ _
    · rw [if_neg h]; exact List.mem_cons_of_mem _ ih

theorem mem_mapSet_of_ne {K V : Type} [DecidableEq K] (l : List (K × V)) (k k1 : K) (v v1 : V)
    (h : (k1, v1) ∈ l) (hne : k1 ≠ k) : (k1, v1) ∈ mapSet l k v := by
  induction l with
  | nil => cases h
  | cons e rest ih =>
    obtain ⟨a, w⟩ := e
    unfold mapSet
    rcases List.mem_cons.mp h with h1 | h1
    · cases h1
      rw [if_neg hne]
      exact List.mem_cons_self _ _
    · by_cases ha : a = k
      · rw [if_pos ha]; exact List.mem_cons_of_mem _ h1
      · rw [if_neg ha]; exact List.mem_cons_of_mem _ (ih h1)

/-- The invariant of the chains reads the ids, children, main-child designations and
chains of the chain commitments, the chains and the two counters only. -/
theorem Chains_congr (m m1 : Manager)
    (hid : ∀ q, (m1.commitmentHeap q).id = (m.commitmentHeap q).id)
    (hkid : ∀ q, (m1.commitmentHeap q).children = (m.commitmentHeap q).children)
    (hmain : ∀ q, (m1.commitmentHeap q).mainChildID = (m.commitmentHeap q).mainChildID)
    (hchain : ∀ q, (m1.commitmentHeap q).chain = (m.commitmentHeap q).chain)
    (hheap : m1.chainHeap = m.chainHeap) (hcc : m1.chainCount = m.chainCount)
    (hcount : m1.commitmentCount = m.commitmentCount) (h : m.Chains) : m1.Chains := by
  refine ⟨?_, ?_, ?_, ?_, ?_, ?_, ?_, ?_, ?_, ?_, ?_, ?_⟩
  · simpa only [hid, hkid, hmain, hchain, hheap, hcc, hcount] using h.parents
  · simpa only [hid, hkid, hmain, hchain, hheap, hcc, hcount] using h.slots
  · simpa only [hid, hkid, hmain, hchain, hheap, hcc, hcount] using h.mainValid
  · simpa only [hid, hkid, hmain, hchain, hheap, hcc, hcount] using h.fresh
  · simpa only [hid, hkid, hmain, hchain, hheap, hcc, hcount] using h.allocated
  · simpa only [hid, hkid, hmain, hchain, hheap, hcc, hcount] using h.member
  · simpa only [hid, hkid, hmain, hchain, hheap, hcc, hcount] using h.owner
  · simpa only [hid, hkid, hmain, hchain, hheap, hcc, hcount] using h.head
  · simpa only [hid, hkid, hmain, hchain, hheap, hcc, hcount] using h.least
  · simpa only [hid, hkid, hmain, hchain, hheap, hcc, hcount] using h.mainLine
  · simpa only [hid, hkid, hmain, hchain, hheap, hcc, hcount] using h.mainKeeps
  · simpa only [hid, hkid, hmain, hchain, hheap, hcc, hcount] using h.next

/-- A chain commitment has one parent. -/
theorem Skeleton_parent_unique (m : Manager) (hS : m.Skeleton) (hC : m.Chains)
    (p p1 : Nat) (id id1 : CommitmentID) (q : Nat)
    (h1 : (id, q) ∈ (m.commitmentHeap p).children)
    (h2 : (id1, q) ∈ (m.commitmentHeap p1).children) : p = p1 := by
  obtain ⟨_, _, c, hc, _, hprev⟩ := hS.kids p id q h1
  obtain ⟨_, _, c1, hc1, _, hprev1⟩ := hS.kids p1 id1 q h2
  rw [hc] at hc1
  cases hc1
  have e1 := hS.stored p (hC.parents p id q h1)
  have e2 := hS.stored p1 (hC.parents p1 id1 q h2)
  rw [← hprev] at e1
  rw [← hprev1, e1] at e2
  cases e2
  rfl

/-- The main child of a chain commitment is a child held under the designated id. -/
theorem mainChild_edge (m : Manager) (p q : Nat) (h : m.mainChild p = some q) :
    ∃ id, (id, q) ∈ (m.commitmentHeap p).children ∧
      (m.commitmentHeap p).mainChildID = some id := by
  unfold Manager.mainChild at h
  split at h
  · cases h
  · rename_i id hid
    exact ⟨id, mapGet_mem _ _ _ h, hid⟩

/-- Two members of a chain are of different slots. -/
theorem Chains_injective (m : Manager) (hC : m.Chains) (y q ch : Nat)
    (hy : (m.commitmentHeap y).chain = some ch) (hq : (m.commitmentHeap q).chain = some ch)
    (hI : (m.commitmentHeap y).id.index = (m.commitmentHeap q).id.index) : y = q := by
  have e1 := hC.member y ch hy
  have e2 := hC.member q ch hq
  rw [hI, e2] at e1
  cases e1
  rfl

/-- The invariant of the chains when a child without a chain is added to a parent that
does not hold its id yet and, unless the child forks, has no main child yet. -/
theorem Chains_addEdge (s s1 : Manager) (parent cc : Nat) (cid : CommitmentID) (forked : Bool)
    (hC : s.Chains)
    (hid : ∀ q, (s1.commitmentHeap q).id = (s.commitmentHeap q).id)
    (hkid : ∀ q, (s1.commitmentHeap q).children =
      if q = parent then mapSet (s.commitmentHeap parent).children cid cc
      else (s.commitmentHeap q).children)
    (hmain : ∀ q, (s1.commitmentHeap q).mainChildID =
      if q = parent ∧ forked = false then some cid else (s.commitmentHeap q).mainChildID)
    (hchain : ∀ q, (s1.commitmentHeap q).chain = (s.commitmentHeap q).chain)
    (hheap : s1.chainHeap = s.chainHeap) (hcc : s1.chainCount = s.chainCount)
    (hcount : s1.commitmentCount = s.commitmentCount)
    (hpar : parent < s.commitmentCount)
    (hslot : (s.commitmentHeap parent).id.index < (s.commitmentHeap cc).id.index)
    (hnew : ∀ q, (cid, q) ∉ (s.commitmentHeap parent).children)
    (hnomain : forked = false → (s.commitmentHeap parent).mainChildID = none)
    (hnochain : (s.commitmentHeap cc).chain = none) : s1.Chains := by
  have hedge : ∀ p id q, (id, q) ∈ (s1.commitmentHeap p).children →
      (p = parent ∧ id = cid ∧ q = cc) ∨ (id, q) ∈ (s.commitmentHeap p).children := by
    intro p id q hk
    rw [hkid] at hk
    by_cases hp : p = parent
    · rw [if_pos hp] at hk
      rcases mem_mapSet _ _ _ _ _ hk with ⟨a, b⟩ | a
      · exact Or.inl ⟨hp, a, b⟩
      · right; rw [hp]; exact a
    · rw [if_neg hp] at hk
      exact Or.inr hk
  have hold : ∀ p id q, (id, q) ∈ (s.commitmentHeap p).children →
      (id, q) ∈ (s1.commitmentHeap p).children := by
    intro p id q hk
    rw [hkid]
    by_cases hp : p = parent
    · rw [if_pos hp]
      rw [hp] at hk
      refine mem_mapSet_of_ne _ _ _ _ _ hk ?_
      intro e
      rw [e] at hk
      exact hnew q hk
    · rw [if_neg hp]; exact hk
  have hmainOld : ∀ p id, (s.commitmentHeap p).mainChildID = some id →
      (s1.commitmentHeap p).mainChildID = some id := by
    intro p id hm
    rw [hmain]
    by_cases hp : p = parent ∧ forked = false
    · have := hnomain hp.2
      rw [← hp.1, hm] at this
      cases this
    · rw [if_neg hp]; exact hm
  have hmainNew : ∀ p id q, (id, q) ∈ (s.commitmentHeap p).children →
      (s1.commitmentHeap p).mainChildID = some id →
      (s.commitmentHeap p).mainChildID = some id := by
    intro p id q hk hm
    rw [hmain] at hm
    by_cases hp : p = parent ∧ forked = false
    · rw [if_pos hp] at hm
      cases hm
      rw [hp.1] at hk
      exact absurd hk (hnew q)
    · rw [if_neg hp] at hm; exact hm
  refine ⟨?_, ?_, ?_, ?_, ?_, ?_, ?_, ?_, ?_, ?_, ?_, ?_⟩
  · intro p id q hk
    rw [hcount]
    rcases hedge p id q hk with ⟨a, _, _⟩ | a
    · rw [a]; exact hpar
    · exact hC.parents p id q a
  · intro p id q hk
    rw [hid, hid]
    rcases hedge p id q hk with ⟨a, _, b⟩ | a
    · rw [a, b]; exact hslot
    · exact hC.slots p id q a
  · intro p id hm
    rw [hmain] at hm
    by_cases hp : p = parent ∧ forked = false
    · rw [if_pos hp] at hm
      cases hm
      refine ⟨cc, ?_⟩
      rw [hkid, if_pos hp.1]
      exact mem_mapSet_self _ _ _
    · rw [if_neg hp] at hm
      obtain ⟨q, hq⟩ := hC.mainValid p id hm
      exact ⟨q, hold p id q hq⟩
  · intro ch hch
    rw [hheap]
    rw [hcc] at hch
    exact hC.fresh ch hch
  · intro q ch hq
    rw [hchain] at hq
    rw [hcc]
    exact hC.allocated q ch hq
  · intro q ch hq
    rw [hchain] at hq
    rw [hheap, hid]
    exact hC.member q ch hq
  · intro ch i q hq
    rw [hheap] at hq
    rw [hchain, hid]
    exact hC.owner ch i q hq
  · intro ch hch
    rw [hcc] at hch
    rw [hheap, hchain]
    exact hC.head ch hch
  · intro q ch hq
    rw [hchain] at hq
    rw [hheap, hid, hid]
    exact hC.least q ch hq
  · intro q ch hq
    rw [hchain] at hq
    rw [hheap]
    rcases hC.mainLine q ch hq with a | ⟨p, id, a1, a2, a3⟩
    · exact Or.inl a
    · exact Or.inr ⟨p, id, hold p id q a1, hmainOld p id a2, by rw [hchain]; exact a3⟩
  · intro p id q ch hk hm hq
    rw [hchain] at hq ⊢
    rcases hedge p id q hk with ⟨_, _, b⟩ | a
    · rw [b, hnochain] at hq
      cases hq
    · exact hC.mainKeeps p id q ch a (hmainNew p id q a hm) hq
  · intro y q ch hy hq hI
    rw [hchain] at hy hq
    rw [hid, hid] at hI
    obtain ⟨id, z, a1, a2, a3⟩ := hC.next y q ch hy hq hI
    exact ⟨id, z, hold y id z a1, hmainOld y id a2, by rw [hchain]; exact a3⟩
/-- The invariant of the chains when the main child `x` of a member `y` of the chain
`ch` gets that chain and is added to its set. -/
theorem Chains_extend (t t1 : Manager) (x y ch : Nat) (yid : CommitmentID)
    (hS : t.Skeleton) (hC : t.Chains) (hst : t.SameTree t1)
    (hchain : ∀ q, (t1.commitmentHeap q).chain =
      if q = x then some ch else (t.commitmentHeap q).chain)
    (hheap : ∀ k, t1.chainHeap k =
      if k = ch then
        { t.chainHeap ch with
          commitmentsByIndex :=
            mapSet (t.chainHeap ch).commitmentsByIndex (t.commitmentHeap x).id.index x }
      else t.chainHeap k)
    (hcc : t1.chainCount = t.chainCount)
    (hx : (t.commitmentHeap x).chain = none)
    (hedge : (yid, x) ∈ (t.commitmentHeap y).children)
    (hmain : (t.commitmentHeap y).mainChildID = some yid)
    (hy : (t.commitmentHeap y).chain = some ch) : t1.Chains := by
  obtain ⟨hf, _, hcount, _⟩ := hst
  have hid : ∀ q, (t1.commitmentHeap q).id = (t.commitmentHeap q).id := fun q => (hf q).1
  have hkid : ∀ q, (t1.commitmentHeap q).children = (t.commitmentHeap q).children :=
    fun q => (hf q).2.2.1
  have hmn : ∀ q, (t1.commitmentHeap q).mainChildID = (t.commitmentHeap q).mainChildID :=
    fun q => (hf q).2.2.2
  have hfp : ∀ k, (t1.chainHeap k).forkingPoint = (t.chainHeap k).forkingPoint := by
    intro k
    rw [hheap]
    by_cases hk : k = ch
    · rw [if_pos hk, hk]
    · rw [if_neg hk]
  have hchlt : ch < t.chainCount := hC.allocated y ch hy
  have hxy : (t.commitmentHeap y).id.index < (t.commitmentHeap x).id.index :=
    hC.slots y yid x hedge
  have hlast : ∀ q, (t.commitmentHeap q).chain = some ch →
      ¬ (t.commitmentHeap y).id.index < (t.commitmentHeap q).id.index := by
    intro q hq hlt
    obtain ⟨id1, z, k1, k2, k3⟩ := hC.next y q ch hy hq hlt
    rw [hmain] at k2
    cases k2
    have hz := Skeleton_child_unique t hS y y yid z x k1 hedge
    rw [hz, hx] at k3
    cases k3
  have hkeep : ∀ q c, (t.commitmentHeap q).chain = some c →
      (t1.commitmentHeap q).chain = some c := by
    intro q c hq
    rw [hchain]
    by_cases hqx : q = x
    · rw [hqx, hx] at hq; cases hq
    · rw [if_neg hqx]; exact hq
  have hback : ∀ q c, (t1.commitmentHeap q).chain = some c →
      (q = x ∧ c = ch) ∨ (q ≠ x ∧ (t.commitmentHeap q).chain = some c) := by
    intro q c hq
    rw [hchain] at hq
    by_cases hqx : q = x
    · rw [if_pos hqx] at hq
      cases hq
      exact Or.inl ⟨hqx, rfl⟩
    · rw [if_neg hqx] at hq
      exact Or.inr ⟨hqx, hq⟩
  refine ⟨?_, ?_, ?_, ?_, ?_, ?_, ?_, ?_, ?_, ?_, ?_, ?_⟩
  · simpa only [hid, hkid, hmn, hcount] using hC.parents
  · simpa only [hid, hkid, hmn, hcount] using hC.slots
  · simpa only [hid, hkid, hmn, hcount] using hC.mainValid
  · intro k hk
    rw [hcc] at hk
    have hne : k ≠ ch := by omega
    rw [hheap, if_neg hne]
    exact hC.fresh k hk
  · intro q c hq
    rw [hcc]
    rcases hback q c hq with ⟨_, b⟩ | ⟨_, b⟩
    · rw [b]; exact hchlt
    · exact hC.allocated q c b
  · intro q c hq
    rw [hid, hheap]
    rcases hback q c hq with ⟨a, b⟩ | ⟨a, b⟩
    · rw [a, b, if_pos rfl]
      exact mapGet_mapSet_self _ _ _
    · by_cases hc : c = ch
      · rw [if_pos hc]
        show mapGet (mapSet _ _ _) _ = _
        rw [mapGet_mapSet]
        have hne : ¬ (t.commitmentHeap x).id.index = (t.commitmentHeap q).id.index := by
          intro e
          rw [hc] at b
          exact hlast q b (by omega)
        rw [if_neg hne, ← hc]
        exact hC.member q c b
      · rw [if_neg hc]
        exact hC.member q c b
  · intro k i q hq
    rw [hheap] at hq
    rw [hid]
    by_cases hk : k = ch
    · rw [if_pos hk] at hq
      change mapGet (mapSet _ _ _) _ = _ at hq
      rw [mapGet_mapSet] at hq
      by_cases hi : (t.commitmentHeap x).id.index = i
      · rw [if_pos hi] at hq
        cases hq
        refine ⟨?_, hi⟩
        rw [hchain, if_pos rfl, hk]
      · rw [if_neg hi] at hq
        obtain ⟨a, b⟩ := hC.owner ch i q hq
        rw [hk]
        exact ⟨hkeep q ch a, b⟩
    · rw [if_neg hk] at hq
      obtain ⟨a, b⟩ := hC.owner k i q hq
      exact ⟨hkeep q k a, b⟩
  · intro k hk
    rw [hcc] at hk
    rw [hfp]
    exact hkeep _ k (hC.head k hk)
  · intro q c hq
    rw [hfp, hid, hid]
    rcases hback q c hq with ⟨a, b⟩ | ⟨_, b⟩
    · rw [a, b]
      have := hC.least y ch hy
      omega
    · exact hC.least q c b
  · intro q c hq
    rw [hfp]
    rcases hback q c hq with ⟨a, b⟩ | ⟨_, b⟩
    · right
      refine ⟨y, yid, ?_, ?_, ?_⟩
      · rw [hkid, a]; exact hedge
      · rw [hmn]; exact hmain
      · rw [b]; exact hkeep y ch hy
    · rcases hC.mainLine q c b with h1 | ⟨p, id, h1, h2, h3⟩
      · exact Or.inl h1
      · exact Or.inr ⟨p, id, by rw [hkid]; exact h1, by rw [hmn]; exact h2, hkeep p c h3⟩
  · intro p id q c hk hm hq
    rw [hkid] at hk
    rw [hmn] at hm
    rcases hback q c hq with ⟨a, b⟩ | ⟨_, b⟩
    · rw [a] at hk
      have hp := Skeleton_parent_unique t hS hC p y id yid x hk hedge
      rw [hp, b]
      exact hkeep y ch hy
    · exact hkeep p c (hC.mainKeeps p id q c hk hm b)
  · intro y1 q1 c hy1 hq1 hI
    rw [hid, hid] at hI
    rcases hback y1 c hy1 with ⟨a1, b1⟩ | ⟨a1, b1⟩
    · rcases hback q1 c hq1 with ⟨a2, _⟩ | ⟨_, b2⟩
      · rw [a1, a2] at hI
        omega
      · rw [b1] at b2
        rw [a1] at hI
        exact absurd (by omega) (hlast q1 b2)
    · rcases hback q1 c hq1 with ⟨a2, b2⟩ | ⟨_, b2⟩
      · rw [b2] at b1
        rw [a2] at hI
        rcases Nat.lt_trichotomy (t.commitmentHeap y1).id.index (t.commitmentHeap y).id.index
          with h1 | h1 | h1
        · obtain ⟨id1, z, e1, e2, e3⟩ := hC.next y1 y ch b1 hy h1
          exact ⟨id1, z, by rw [hkid]; exact e1, by rw [hmn]; exact e2,
            by rw [b2]; exact hkeep z ch e3⟩
        · have hy1y := Chains_injective t hC y1 y ch b1 hy h1
          rw [hy1y, b2]
          exact ⟨yid, x, by rw [hkid]; exact hedge, by rw [hmn]; exact hmain,
            by rw [hchain, if_pos rfl]⟩
        · exact absurd h1 (hlast y1 b1)
      · obtain ⟨id1, z, e1, e2, e3⟩ := hC.next y1 q1 c b1 b2 hI
        exact ⟨id1, z, by rw [hkid]; exact e1, by rw [hmn]; exact e2, hkeep z c e3⟩

/-- The invariant of the chains when a chain commitment `x` that is no main child gets
a new chain that begins with it. -/
theorem Chains_fork (t t1 : Manager) (x : Nat) (hC : t.Chains) (hst : t.SameTree t1)
    (hchain : ∀ q, (t1.commitmentHeap q).chain =
      if q = x then some t.chainCount else (t.commitmentHeap q).chain)
    (hheap : ∀ k, t1.chainHeap k =
      if k = t.chainCount then
        { forkingPoint := x, commitmentsByIndex := [((t.commitmentHeap x).id.index, x)] }
      else t.chainHeap k)
    (hcc : t1.chainCount = t.chainCount + 1)
    (hx : (t.commitmentHeap x).chain = none)
    (hnotmain : ∀ p id, (id, x) ∈ (t.commitmentHeap p).children →
      (t.commitmentHeap p).mainChildID ≠ some id) : t1.Chains := by
  obtain ⟨hf, _, hcount, _⟩ := hst
  have hid : ∀ q, (t1.commitmentHeap q).id = (t.commitmentHeap q).id := fun q => (hf q).1
  have hkid : ∀ q, (t1.commitmentHeap q).children = (t.commitmentHeap q).children :=
    fun q => (hf q).2.2.1
  have hmn : ∀ q, (t1.commitmentHeap q).mainChildID = (t.commitmentHeap q).mainChildID :=
    fun q => (hf q).2.2.2
  have hkeep : ∀ q c, (t.commitmentHeap q).chain = some c →
      (t1.commitmentHeap q).chain = some c := by
    intro q c hq
    rw [hchain]
    by_cases hqx : q = x
    · rw [hqx, hx] at hq; cases hq
    · rw [if_neg hqx]; exact hq
  have hback : ∀ q c, (t1.commitmentHeap q).chain = some c →
      (q = x ∧ c = t.chainCount) ∨ (q ≠ x ∧ (t.commitmentHeap q).chain = some c) := by
    intro q c hq
    rw [hchain] at hq
    by_cases hqx : q = x
    · rw [if_pos hqx] at hq
      cases hq
      exact Or.inl ⟨hqx, rfl⟩
    · rw [if_neg hqx] at hq
      exact Or.inr ⟨hqx, hq⟩
  have hold : ∀ k, k < t.chainCount → t1.chainHeap k = t.chainHeap k := by
    intro k hk
    have hne : k ≠ t.chainCount := by omega
    rw [hheap, if_neg hne]
  refine ⟨?_, ?_, ?_, ?_, ?_, ?_, ?_, ?_, ?_, ?_, ?_, ?_⟩
  · simpa only [hid, hkid, hmn, hcount] using hC.parents
  · simpa only [hid, hkid, hmn, hcount] using hC.slots
  · simpa only [hid, hkid, hmn, hcount] using hC.mainValid
  · intro k hk
    rw [hcc] at hk
    have hne : k ≠ t.chainCount := by omega
    rw [hheap, if_neg hne]
    exact hC.fresh k (by omega)
  · intro q c hq
    rw [hcc]
    rcases hback q c hq with ⟨_, b⟩ | ⟨_, b⟩
    · omega
    · have := hC.allocated q c b
      omega
  · intro q c hq
    rw [hid]
    rcases hback q c hq with ⟨a, b⟩ | ⟨_, b⟩
    · rw [a, b, hheap, if_pos rfl]
      simp [mapGet]
    · rw [hold c (hC.allocated q c b)]
      exact hC.member q c b
  · intro k i q hq
    rw [hid]
    by_cases hk : k = t.chainCount
    · rw [hheap, if_pos hk] at hq
      simp only [mapGet] at hq
      split at hq
      · rename_i hi
        cases hq
        refine ⟨?_, hi⟩
        rw [hchain, if_pos rfl, hk]
      · cases hq
    · rw [hheap, if_neg hk] at hq
      obtain ⟨a, b⟩ := hC.owner k i q hq
      exact ⟨hkeep q k a, b⟩
  · intro k hk
    rw [hcc] at hk
    by_cases hkn : k = t.chainCount
    · rw [hheap, if_pos hkn, hchain, if_pos rfl, hkn]
    · have hlt : k < t.chainCount := by omega
      rw [hold k hlt]
      exact hkeep _ k (hC.head k hlt)
  · intro q c hq
    rw [hid, hid]
    rcases hback q c hq with ⟨a, b⟩ | ⟨_, b⟩
    · rw [a, b, hheap, if_pos rfl]
    · rw [hold c (hC.allocated q c b)]
      exact hC.least q c b
  · intro q c hq
    rcases hback q c hq with ⟨a, b⟩ | ⟨_, b⟩
    · left
      rw [a, b, hheap, if_pos rfl]
    · rw [hold c (hC.allocated q c b)]
      rcases hC.mainLine q c b with h1 | ⟨p, id, h1, h2, h3⟩
      · exact Or.inl h1
      · exact Or.inr ⟨p, id, by rw [hkid]; exact h1, by rw [hmn]; exact h2, hkeep p c h3⟩
  · intro p id q c hk hm hq
    rw [hkid] at hk
    rw [hmn] at hm
    rcases hback q c hq with ⟨a, _⟩ | ⟨_, b⟩
    · rw [a] at hk
      exact absurd hm (hnotmain p id hk)
    · exact hkeep p c (hC.mainKeeps p id q c hk hm b)
  · intro y1 q1 c hy1 hq1 hI
    rw [hid, hid] at hI
    rcases hback y1 c hy1 with ⟨a1, b1⟩ | ⟨_, b1⟩
    · rcases hback q1 c hq1 with ⟨a2, _⟩ | ⟨_, b2⟩
      · rw [a1, a2] at hI
        omega
      · have := hC.allocated q1 c b2
        omega
    · rcases hback q1 c hq1 with ⟨_, b2⟩ | ⟨_, b2⟩
      · have := hC.allocated y1 c b1
        omega
      · obtain ⟨id1, z, e1, e2, e3⟩ := hC.next y1 q1 c b1 b2 hI
        exact ⟨id1, z, by rw [hkid]; exact e1, by rw [hmn]; exact e2, hkeep z c e3⟩

/-- The invariant of the chains when a placeholder is allocated. -/
theorem Chains_alloc (m m1 : Manager) (id0 : CommitmentID) (hF : m.Forest) (hC : m.Chains)
    (hheap : ∀ q, m1.commitmentHeap q =
      if q = m.commitmentCount then NewChainCommitment id0 else m.commitmentHeap q)
    (hcount : m1.commitmentCount = m.commitmentCount + 1)
    (hch : m1.chainHeap = m.chainHeap) (hcc : m1.chainCount = m.chainCount) : m1.Chains := by
  have hnochain : ∀ q c, (m.commitmentHeap q).chain = some c → q ≠ m.commitmentCount := by
    intro q c hq e
    have hne : (m.commitmentHeap q).chain ≠ none := by rw [hq]; simp
    obtain ⟨c0, hc0⟩ := Option.ne_none_iff_exists'.mp (hF.marks.chainPublished q hne)
    have := Skeleton_published_lt m hF.skeleton q c0 hc0
    omega
  have hold : ∀ q, q ≠ m.commitmentCount → m1.commitmentHeap q = m.commitmentHeap q := by
    intro q hq
    rw [hheap, if_neg hq]
  have hnew : m1.commitmentHeap m.commitmentCount = NewChainCommitment id0 := by
    rw [hheap, if_pos rfl]
  have hedge : ∀ p id q, (id, q) ∈ (m1.commitmentHeap p).children →
      p ≠ m.commitmentCount ∧ q ≠ m.commitmentCount ∧
        (id, q) ∈ (m.commitmentHeap p).children := by
    intro p id q hk
    by_cases hp : p = m.commitmentCount
    · rw [hp, hnew] at hk
      simp [NewChainCommitment] at hk
    · rw [hold p hp] at hk
      have := (hF.skeleton.kids p id q hk).1
      exact ⟨hp, by omega, hk⟩
  have hback : ∀ q c, (m1.commitmentHeap q).chain = some c →
      q ≠ m.commitmentCount ∧ (m.commitmentHeap q).chain = some c := by
    intro q c hq
    by_cases hp : q = m.commitmentCount
    · rw [hp, hnew] at hq
      simp [NewChainCommitment] at hq
    · rw [hold q hp] at hq
      exact ⟨hp, hq⟩
  have hfpne : ∀ c, c < m.chainCount → (m.chainHeap c).forkingPoint ≠ m.commitmentCount :=
    fun c hc => hnochain _ c (hC.head c hc)
  refine ⟨?_, ?_, ?_, ?_, ?_, ?_, ?_, ?_, ?_, ?_, ?_, ?_⟩
  · intro p id q hk
    obtain ⟨_, _, a⟩ := hedge p id q hk
    have := hC.parents p id q a
    omega
  · intro p id q hk
    obtain ⟨a1, a2, a3⟩ := hedge p id q hk
    rw [hold p a1, hold q a2]
    exact hC.slots p id q a3
  · intro p id hm
    by_cases hp : p = m.commitmentCount
    · rw [hp, hnew] at hm
      simp [NewChainCommitment] at hm
    · rw [hold p hp] at hm ⊢
      exact hC.mainValid p id hm
  · intro k hk
    rw [hcc] at hk
    rw [hch]
    exact hC.fresh k hk
  · intro q c hq
    rw [hcc]
    exact hC.allocated q c (hback q c hq).2
  · intro q c hq
    obtain ⟨a, b⟩ := hback q c hq
    rw [hch, hold q a]
    exact hC.member q c b
  · intro k i q hq
    rw [hch] at hq
    obtain ⟨a, b⟩ := hC.owner k i q hq
    rw [hold q (hnochain q k a)]
    exact ⟨a, b⟩
  · intro k hk
    rw [hcc] at hk
    rw [hch, hold _ (hfpne k hk)]
    exact hC.head k hk
  · intro q c hq
    obtain ⟨a, b⟩ := hback q c hq
    rw [hch, hold q a, hold _ (hfpne c (hC.allocated q c b))]
    exact hC.least q c b
  · intro q c hq
    obtain ⟨a, b⟩ := hback q c hq
    rw [hch]
    rcases hC.mainLine q c b with h1 | ⟨p, id, h1, h2, h3⟩
    · exact Or.inl h1
    · right
      have hp := hnochain p c h3
      exact ⟨p, id, by rw [hold p hp]; exact h1, by rw [hold p hp]; exact h2,
        by rw [hold p hp]; exact h3⟩
  · intro p id q c hk hm hq
    obtain ⟨a1, a2, a3⟩ := hedge p id q hk
    rw [hold p a1] at hm ⊢
    rw [hold q a2] at hq
    exact hC.mainKeeps p id q c a3 hm hq
  · intro y1 q1 c hy1 hq1 hI
    obtain ⟨a1, b1⟩ := hback y1 c hy1
    obtain ⟨a2, b2⟩ := hback q1 c hq1
    rw [hold y1 a1, hold q1 a2] at hI
    obtain ⟨id1, z, e1, e2, e3⟩ := hC.next y1 q1 c b1 b2 hI
    rw [hold y1 a1]
    exact ⟨id1, z, e1, e2, by rw [hold z (hnochain z c e3)]; exact e3⟩
theorem publishChain_chainHeap (s : Manager) (p ch : Nat) :
    (s.publishChain p ch).1.chainHeap = s.chainHeap ∧
      (s.publishChain p ch).1.chainCount = s.chainCount := by
  unfold Manager.publishChain
  simp only []
  split <;> exact ⟨rfl, rfl⟩

theorem setSolid_chainHeap (s : Manager) (p : Nat) (b : Bool) :
    (s.setSolid p b).1.chainHeap = s.chainHeap ∧
      (s.setSolid p b).1.chainCount = s.chainCount := by
  unfold Manager.setSolid
  simp only []
  split <;> exact ⟨rfl, rfl⟩

/-- The effect of `Manager.registerChild` on the chains: a child that forks begins a
new chain, and a child that does not fork is added to the set of the chain of its
parent, if the parent has one. -/
theorem registerChild_chains (s : Manager) (parent child : Nat) :
    (∀ q, ((s.registerChild parent child).1.commitmentHeap q).mainChildID =
        if q = parent ∧ (s.registerChild parent child).2.2.2 = false then
          some (s.commitmentHeap child).id
        else (s.commitmentHeap q).mainChildID) ∧
    ((s.registerChild parent child).2.2.2 = true →
      (∃ mc, s.mainChild parent = some mc) ∧
      (s.commitmentHeap parent).mainChildID ≠ some (s.commitmentHeap child).id ∧
      (s.registerChild parent child).2.2.1 = some s.chainCount ∧
      (s.registerChild parent child).1.chainCount = s.chainCount + 1 ∧
      ∀ k, (s.registerChild parent child).1.chainHeap k =
        if k = s.chainCount then
          { forkingPoint := child
            commitmentsByIndex := [((s.commitmentHeap child).id.index, child)] }
        else s.chainHeap k) ∧
    ((s.registerChild parent child).2.2.2 = false →
      (s.mainChild parent = none ∨
        (s.commitmentHeap parent).mainChildID = some (s.commitmentHeap child).id) ∧
      (s.registerChild parent child).2.2.1 = (s.commitmentHeap parent).chain ∧
      (s.registerChild parent child).1.chainCount = s.chainCount ∧
      ∀ k, (s.registerChild parent child).1.chainHeap k =
        match (s.commitmentHeap parent).chain with
        | some ch =>
          if k = ch then
            { s.chainHeap ch with
              commitmentsByIndex :=
                mapSet (s.chainHeap ch).commitmentsByIndex (s.commitmentHeap child).id.index
                  child }
          else s.chainHeap k
        | none => s.chainHeap k) := by
  generalize hforked : (match s.mainChild parent with
    | none => false
    | some _ => decide ((s.commitmentHeap parent).mainChildID ≠
        some (s.commitmentHeap child).id)) = forked
  generalize hs1 : s.setCommitment parent
    { s.commitmentHeap parent with
      children := mapSet (s.commitmentHeap parent).children (s.commitmentHeap child).id child
      mainChildID := if forked then (s.commitmentHeap parent).mainChildID
        else some (s.commitmentHeap child).id } = s1
  have h1 : ∀ q, (s1.commitmentHeap q).id = (s.commitmentHeap q).id ∧
      (s1.commitmentHeap q).mainChildID =
        (if q = parent ∧ forked = false then some (s.commitmentHeap child).id
        else (s.commitmentHeap q).mainChildID) := by
    intro q
    rw [← hs1]
    simp only [Manager.setCommitment]
    by_cases hq : q = parent
    · subst hq
      cases forked <;> simp
    · simp [hq]
  have hrest1 : s1.chainHeap = s.chainHeap ∧ s1.chainCount = s.chainCount := by
    rw [← hs1]; exact ⟨rfl, rfl⟩
  have htail : ∀ (s2 : Manager) (ch : Nat) (b : Bool),
      s2.commitmentHeap = s1.commitmentHeap →
      (∀ q, (((((s2.chainAddCommitment ch child).publishChain child ch).1.setSolid child
          b).1).commitmentHeap q).mainChildID = (s1.commitmentHeap q).mainChildID) ∧
      ((((s2.chainAddCommitment ch child).publishChain child ch).1.setSolid child
          b).1).chainCount = s2.chainCount ∧
      ((((s2.chainAddCommitment ch child).publishChain child ch).1.setSolid child
          b).1).chainHeap = (s2.chainAddCommitment ch child).chainHeap := by
    intro s2 ch b e1
    obtain ⟨p1, _⟩ := publishChain_fields (s2.chainAddCommitment ch child) child ch
    obtain ⟨q1, _⟩ := setSolid_fields ((s2.chainAddCommitment ch child).publishChain child ch).1
      child b
    obtain ⟨p5, p6⟩ := publishChain_chainHeap (s2.chainAddCommitment ch child) child ch
    obtain ⟨q5, q6⟩ := setSolid_chainHeap
      ((s2.chainAddCommitment ch child).publishChain child ch).1 child b
    refine ⟨fun q => ?_, ?_, ?_⟩
    · rw [(q1 q).2.2.2.1, (p1 q).2.2.2.1, ← e1]
      rfl
    · rw [q6, p6]; rfl
    · rw [q5, p5]
  cases hf : forked with
  | true =>
    have e : s.registerChild parent child =
        (((((s1.NewChain child).1.chainAddCommitment s.chainCount child).publishChain child
          s.chainCount).1.setSolid child (s.commitmentHeap parent).solid).1,
          (s.commitmentHeap parent).solid, some s.chainCount, true) := by
      simp only [Manager.registerChild, Manager.commitmentRegisterChild, hforked, hf, if_true]
      rw [← hs1, hf]
      rfl
    rw [e]
    dsimp only
    obtain ⟨t1, t2, t3⟩ := htail (s1.NewChain child).1 s.chainCount
      (s.commitmentHeap parent).solid rfl
    refine ⟨?_, fun _ => ⟨?_, ?_, rfl, ?_, ?_⟩, (fun h => by cases h)⟩
    · intro q
      rw [t1, (h1 q).2, hf]
    · rw [hf] at hforked
      split at hforked
      · cases hforked
      · rename_i mc hmc; exact ⟨mc, hmc⟩
    · rw [hf] at hforked
      split at hforked
      · cases hforked
      · exact of_decide_eq_true hforked
    · rw [t2]
      show s1.chainCount + 1 = _
      rw [hrest1.2]
    · intro k
      rw [t3]
      simp only [Manager.chainAddCommitment, Manager.setChain, Manager.NewChain, hrest1.1,
        hrest1.2, (h1 child).1]
      by_cases hk : k = s.chainCount
      · simp [hk, mapSet]
      · simp [hk]
  | false =>
    have hnf : s.mainChild parent = none ∨
        (s.commitmentHeap parent).mainChildID = some (s.commitmentHeap child).id := by
      rw [hf] at hforked
      split at hforked
      · rename_i hmc; exact Or.inl hmc
      · right
        by_contra hne
        have := decide_eq_true hne
        rw [this] at hforked
        cases hforked
    cases hch : (s.commitmentHeap parent).chain with
    | none =>
      have e : s.registerChild parent child =
          (s1, (s.commitmentHeap parent).solid, none, false) := by
        rw [← hs1]
        simp only [Manager.registerChild, Manager.commitmentRegisterChild, hforked, hf, hch,
          Bool.false_eq_true, if_false]
      rw [e]
      dsimp only
      refine ⟨?_, (fun h => by cases h), fun _ => ⟨hnf, rfl, hrest1.2, ?_⟩⟩
      · intro q
        rw [(h1 q).2, hf]
      · intro k
        rw [hrest1.1]
    | some ch =>
      have e : s.registerChild parent child =
          ((((s1.chainAddCommitment ch child).publishChain child ch).1.setSolid child
            (s.commitmentHeap parent).solid).1,
            (s.commitmentHeap parent).solid, some ch, false) := by
        rw [← hs1]
        simp only [Manager.registerChild, Manager.commitmentRegisterChild, hforked, hf, hch,
          Bool.false_eq_true, if_false]
      rw [e]
      dsimp only
      obtain ⟨t1, t2, t3⟩ := htail s1 ch (s.commitmentHeap parent).solid rfl
      refine ⟨?_, (fun h => by cases h), fun _ => ⟨hnf, rfl, ?_, ?_⟩⟩
      · intro q
        rw [t1, (h1 q).2, hf]
      · rw [t2, hrest1.2]
      · intro k
        rw [t3]
        simp only [Manager.chainAddCommitment, Manager.setChain, hrest1.1, (h1 child).1]

/-- The effect of `propagateChainToMainChild` on the chains. -/
theorem propagateChain_chainHeap (chain : Nat) (m : Manager) (x : Nat) :
    (Manager.propagateChainToMainChild chain m x).1.chainCount = m.chainCount ∧
    ∀ k, (Manager.propagateChainToMainChild chain m x).1.chainHeap k =
      if k = chain ∧ (m.commitmentHeap x).chain = none then
        { m.chainHeap chain with
          commitmentsByIndex :=
            mapSet (m.chainHeap chain).commitmentsByIndex (m.commitmentHeap x).id.index x }
      else m.chainHeap k := by
  cases hc : (m.commitmentHeap x).chain with
  | some c =>
    have e : (Manager.propagateChainToMainChild chain m x).1 = m := by
      simp [Manager.propagateChainToMainChild, Manager.publishChain, hc]
    rw [e]
    exact ⟨rfl, fun k => by simp⟩
  | none =>
    have e : (Manager.propagateChainToMainChild chain m x).1 =
        (m.setCommitment x { m.commitmentHeap x with chain := some chain }).chainAddCommitment
          chain x := by
      simp only [Manager.propagateChainToMainChild, Manager.publishChain, hc, Bool.not_true,
        Bool.false_eq_true, if_false]
      split <;> rfl
    rw [e]
    refine ⟨rfl, fun k => ?_⟩
    simp only [Manager.chainAddCommitment, Manager.setChain, Manager.setCommitment, if_true]
    by_cases hk : k = chain
    · simp [hk]
    · simp [hk]

theorem propagateSolidity_chainHeap (m : Manager) (x : Nat) :
    (Manager.propagateSolidity m x).1.chainHeap = m.chainHeap ∧
      (Manager.propagateSolidity m x).1.chainCount = m.chainCount := by
  unfold Manager.propagateSolidity
  simp only []
  split <;> exact setSolid_chainHeap m x true

/-- The method `getOrCreateCommitment` keeps the invariant of the chains. -/
theorem Chains_getOrCreate (m : Manager) (id : CommitmentID) (hF : m.Forest) (hC : m.Chains) :
    (m.getOrCreateCommitment id).1.Chains := by
  cases hc : m.commitment id with
  | some p =>
    rw [getOrCreateCommitment_found m id p hc]
    exact hC
  | none =>
    rw [getOrCreateCommitment_missing m id hc]
    exact Chains_alloc m _ id hF hC (fun _ => rfl) rfl rfl rfl

theorem Chains_trigger (m : Manager) (e : Event) (h : m.Chains) : (m.trigger e).Chains :=
  Chains_congr m (m.trigger e) (fun _ => rfl) (fun _ => rfl) (fun _ => rfl) (fun _ => rfl)
    rfl rfl rfl h
/-- The invariant of the chains when a new commitment is registered as a child of its
parent, stated for the fields of the resulting state. -/
theorem Chains_register (s s5 : Manager) (c : Commitment) (cc parent : Nat) (forked : Bool)
    (chainResult : Option Nat) (hF : s.Forest) (hC : s.Chains) (hS5 : s5.Skeleton)
    (hslot : c.prevID.index < c.id.index)
    (hcc : s.commitment c.id = some cc) (hpar : s.commitment c.prevID = some parent)
    (hun : (s.commitmentHeap cc).commitment = none)
    (hid : ∀ q, (s5.commitmentHeap q).id = (s.commitmentHeap q).id)
    (hkid : ∀ q, (s5.commitmentHeap q).children =
      if q = parent then mapSet (s.commitmentHeap parent).children c.id cc
      else (s.commitmentHeap q).children)
    (hmain : ∀ q, (s5.commitmentHeap q).mainChildID =
      if q = parent ∧ forked = false then some c.id else (s.commitmentHeap q).mainChildID)
    (hchain : ∀ q, (s5.commitmentHeap q).chain =
      if q = cc then chainResult else (s.commitmentHeap q).chain)
    (hcount : s5.commitmentCount = s.commitmentCount)
    (hfk : forked = true →
      (s.commitmentHeap parent).mainChildID ≠ some c.id ∧
      chainResult = some s.chainCount ∧ s5.chainCount = s.chainCount + 1 ∧
      ∀ k, s5.chainHeap k =
        if k = s.chainCount then
          { forkingPoint := cc, commitmentsByIndex := [((s.commitmentHeap cc).id.index, cc)] }
        else s.chainHeap k)
    (hnf : forked = false →
      (s.mainChild parent = none ∨ (s.commitmentHeap parent).mainChildID = some c.id) ∧
      chainResult = (s.commitmentHeap parent).chain ∧ s5.chainCount = s.chainCount ∧
      ∀ k, s5.chainHeap k =
        match (s.commitmentHeap parent).chain with
        | some ch =>
          if k = ch then
            { s.chainHeap ch with
              commitmentsByIndex :=
                mapSet (s.chainHeap ch).commitmentsByIndex (s.commitmentHeap cc).id.index cc }
          else s.chainHeap k
        | none => s.chainHeap k) : s5.Chains := by
  have hccid : (s.commitmentHeap cc).id = c.id := (hF.skeleton.keyed _ _ _ hcc).1
  have hparid : (s.commitmentHeap parent).id = c.prevID := (hF.skeleton.keyed _ _ _ hpar).1
  have hparlt : parent < s.commitmentCount := (hF.skeleton.keyed _ _ _ hpar).2.2
  have hnochain : (s.commitmentHeap cc).chain = none := by
    by_contra hne
    exact hF.marks.chainPublished cc hne hun
  have hnotchild : ∀ p id, (id, cc) ∉ (s.commitmentHeap p).children := by
    intro p id hk
    obtain ⟨_, _, c1, hc1, _⟩ := hF.skeleton.kids p id cc hk
    rw [hun] at hc1
    cases hc1
  have hnew : ∀ q, (c.id, q) ∉ (s.commitmentHeap parent).children := by
    intro q hk
    obtain ⟨hq, _, c1, hc1, hc2, _⟩ := hF.skeleton.kids parent c.id q hk
    have e1 := hF.skeleton.stored q hq
    rw [← hF.skeleton.payload q c1 hc1, hc2, hcc] at e1
    cases e1
    exact hnotchild parent c.id hk
  have hnomain : forked = false → (s.commitmentHeap parent).mainChildID = none := by
    intro hf
    cases hm : (s.commitmentHeap parent).mainChildID with
    | none => rfl
    | some id1 =>
      exfalso
      obtain ⟨q, hq⟩ := hC.mainValid parent id1 hm
      rcases (hnf hf).1 with h1 | h1
      · have := Skeleton_mapGet_child s hF.skeleton parent id1 q hq
        simp only [Manager.mainChild, hm, this] at h1
        cases h1
      · rw [hm] at h1
        cases h1
        exact hnew q hq
  have key : ∃ s1v : Manager,
      (∀ q, (s1v.commitmentHeap q).id = (s5.commitmentHeap q).id ∧
        (s1v.commitmentHeap q).commitment = (s5.commitmentHeap q).commitment ∧
        (s1v.commitmentHeap q).children = (s5.commitmentHeap q).children ∧
        (s1v.commitmentHeap q).mainChildID = (s5.commitmentHeap q).mainChildID ∧
        (s1v.commitmentHeap q).chain = (s.commitmentHeap q).chain) ∧
      s1v.commitmentsByID = s5.commitmentsByID ∧ s1v.commitmentCount = s5.commitmentCount ∧
      s1v.rootCommitment = s5.rootCommitment ∧ s1v.chainHeap = s.chainHeap ∧
      s1v.chainCount = s.chainCount :=
    ⟨{ s5 with
        commitmentHeap := fun q =>
          { s5.commitmentHeap q with chain := (s.commitmentHeap q).chain }
        chainHeap := s.chainHeap
        chainCount := s.chainCount },
      fun q => ⟨rfl, rfl, rfl, rfl, rfl⟩, rfl, rfl, rfl, rfl, rfl⟩
  obtain ⟨s1v, v1, v2, v3, v4, v5, v6⟩ := key
  have C1 : s1v.Chains :=
    Chains_addEdge s s1v parent cc c.id forked hC
      (fun q => (v1 q).1.trans (hid q))
      (fun q => (v1 q).2.2.1.trans (hkid q))
      (fun q => (v1 q).2.2.2.1.trans (hmain q))
      (fun q => (v1 q).2.2.2.2) v5 v6 (v3.trans hcount) hparlt
      (by rw [hccid, hparid]; exact hslot) hnew hnomain hnochain
  have hst : s1v.SameTree s5 :=
    ⟨fun q => ⟨(v1 q).1.symm, (v1 q).2.1.symm, (v1 q).2.2.1.symm, (v1 q).2.2.2.1.symm⟩,
      v2.symm, v3.symm, v4.symm⟩
  have hst' : s5.SameTree s1v :=
    ⟨fun q => ⟨(v1 q).1, (v1 q).2.1, (v1 q).2.2.1, (v1 q).2.2.2.1⟩, v2, v3, v4⟩
  have S1 : s1v.Skeleton := Skeleton_sameTree s5 s1v hst' hS5
  have hxv : (s1v.commitmentHeap cc).chain = none := by rw [(v1 cc).2.2.2.2]; exact hnochain
  have hidv : (s1v.commitmentHeap cc).id = (s.commitmentHeap cc).id := (v1 cc).1.trans (hid cc)
  cases hf : forked with
  | true =>
    obtain ⟨f1, f2, f3, f4⟩ := hfk hf
    refine Chains_fork s1v s5 cc C1 hst ?_ ?_ ?_ hxv ?_
    · intro q
      rw [hchain, f2, v6, (v1 q).2.2.2.2]
    · intro k
      rw [f4, v6, v5, hidv]
    · rw [f3, v6]
    · intro p id hk hm
      rw [(v1 p).2.2.1, hkid] at hk
      rw [(v1 p).2.2.2.1, hmain, hf] at hm
      simp only [Bool.true_eq_false, and_false, if_false] at hm
      by_cases hp : p = parent
      · rw [if_pos hp] at hk
        rcases mem_mapSet _ _ _ _ _ hk with ⟨a, _⟩ | a
        · rw [hp, a] at hm
          exact f1 hm
        · exact hnotchild parent id a
      · rw [if_neg hp] at hk
        exact hnotchild p id hk
  | false =>
    obtain ⟨_, n2, n3, n4⟩ := hnf hf
    cases hch : (s.commitmentHeap parent).chain with
    | none =>
      rw [hch] at n2 n4
      refine Chains_congr s1v s5 (fun q => (v1 q).1.symm) (fun q => (v1 q).2.2.1.symm)
        (fun q => (v1 q).2.2.2.1.symm) ?_ ?_ (n3.trans v6.symm) v3.symm C1
      · intro q
        rw [hchain, n2, (v1 q).2.2.2.2]
        by_cases hq : q = cc
        · rw [if_pos hq, hq, hnochain]
        · rw [if_neg hq]
      · funext k
        rw [n4, v5]
    | some ch =>
      rw [hch] at n2 n4
      refine Chains_extend s1v s5 cc parent ch c.id S1 C1 hst ?_ ?_ (n3.trans v6.symm) hxv ?_ ?_
        ?_
      · intro q
        rw [hchain, n2, (v1 q).2.2.2.2]
      · intro k
        rw [n4, v5, hidv]
      · rw [(v1 parent).2.2.1, hkid, if_pos rfl]
        exact mem_mapSet_self _ _ _
      · rw [(v1 parent).2.2.2.1, hmain, if_pos ⟨rfl, hf⟩]
      · rw [(v1 parent).2.2.2.2]; exact hch

/-- The method `registerCommitment` keeps the invariant of the chains for a commitment
of a later slot than its previous commitment. -/
theorem registerCommitment_chains (m : Manager) (c : Commitment) (hF : m.Forest)
    (hC : m.Chains) (hslot : c.prevID.index < c.id.index) :
    (m.registerCommitment c).1.Chains := by
  have hS5 : (m.registerCommitment c).1.Skeleton := by
    have ar := registerCommitment_forest m c hF
    cases hn : (m.registerCommitment c).2.1 with
    | false => exact (ar.1 hn).skeleton
    | true => exact (ar.2 hn).1
  revert hS5
  obtain ⟨F1, hpar1, _, _, _⟩ := Forest_getOrCreate m c.prevID hF
  have C1 := Chains_getOrCreate m c.prevID hF hC
  unfold Manager.registerCommitment
  generalize m.getOrCreateCommitment c.prevID = r1 at F1 hpar1 C1 ⊢
  obtain ⟨s1, parent, new1⟩ := r1
  dsimp only at F1 hpar1 C1 ⊢
  generalize hm1 : (if new1 = true then
      s1.trigger (Event.commitmentMissing (s1.commitmentHeap parent).id) else s1) = m1
  have F1a : m1.Forest := by
    rw [← hm1]
    split
    · exact Forest_trigger _ _ F1
    · exact F1
  have C1a : m1.Chains := by
    rw [← hm1]
    split
    · exact Chains_trigger _ _ C1
    · exact C1
  have hpar1a : m1.commitment c.prevID = some parent := by
    rw [← hm1]
    split
    · exact hpar1
    · exact hpar1
  obtain ⟨F2, hcc2, hkeep, _, _⟩ := Forest_getOrCreate m1 c.id F1a
  have C2 := Chains_getOrCreate m1 c.id F1a C1a
  generalize m1.getOrCreateCommitment c.id = r2 at F2 hcc2 hkeep C2 ⊢
  obtain ⟨s2, cc, new2⟩ := r2
  dsimp only at F2 hcc2 hkeep C2 ⊢
  have hpar2 := hkeep _ _ hpar1a
  cases hpc : (s2.commitmentHeap cc).commitment with
  | some pc =>
    simp only [Manager.publishCommitment, hpc, Bool.not_false, if_true]
    intro _
    exact C2
  | none =>
    simp only [Manager.publishCommitment, hpc, Bool.not_true, Bool.false_eq_true, if_false]
    generalize hm4 : (if (!new2) = true then
      (s2.setCommitment cc { s2.commitmentHeap cc with commitment := some c }).trigger
        (Event.missingCommitmentReceived
          ((s2.setCommitment cc { s2.commitmentHeap cc with commitment := some c }).commitmentHeap
            cc).id)
      else s2.setCommitment cc { s2.commitmentHeap cc with commitment := some c }) = m4
    have h4 : m4.commitmentHeap =
        (fun q => if q = cc then { s2.commitmentHeap cc with commitment := some c }
          else s2.commitmentHeap q) ∧
        m4.commitmentsByID = s2.commitmentsByID ∧ m4.commitmentCount = s2.commitmentCount ∧
        m4.rootCommitment = s2.rootCommitment ∧ m4.chainHeap = s2.chainHeap ∧
        m4.chainCount = s2.chainCount := by
      rw [← hm4]
      split <;> exact ⟨rfl, rfl, rfl, rfl, rfl, rfl⟩
    obtain ⟨h4heap, h4store, h4count, h4root, h4ch, h4cc⟩ := h4
    have hf4 : ∀ q, (m4.commitmentHeap q).id = (s2.commitmentHeap q).id ∧
        (m4.commitmentHeap q).commitment =
          (if q = cc then some c else (s2.commitmentHeap q).commitment) ∧
        (m4.commitmentHeap q).children = (s2.commitmentHeap q).children ∧
        (m4.commitmentHeap q).mainChildID = (s2.commitmentHeap q).mainChildID ∧
        (m4.commitmentHeap q).chain = (s2.commitmentHeap q).chain ∧
        (m4.commitmentHeap q).solid = (s2.commitmentHeap q).solid := by
      intro q
      rw [h4heap]
      by_cases hq : q = cc
      · subst hq; simp
      · simp [hq]
    have hccid : (s2.commitmentHeap cc).id = c.id := (F2.skeleton.keyed _ _ _ hcc2).1
    have hccChain : (s2.commitmentHeap cc).chain = none := by
      by_contra hne
      exact F2.marks.chainPublished cc hne hpc
    have hmc4 : m4.mainChild parent = s2.mainChild parent := by
      simp only [Manager.mainChild, (hf4 parent).2.2.1, (hf4 parent).2.2.2.1]
    obtain ⟨forked, chainResult, e1, e2, _, _, hfields, hst, hcnt, hrt⟩ :=
      registerChild_fields m4 parent cc
    obtain ⟨g1, g2, g3⟩ := registerChild_chains m4 parent cc
    generalize m4.registerChild parent cc = r5 at e1 e2 hfields hst hcnt hrt g1 g2 g3 ⊢
    obtain ⟨s5, sol, chn, fk⟩ := r5
    dsimp only at e1 e2 hfields hst hcnt hrt g1 g2 g3 ⊢
    intro hS5
    rw [(hf4 cc).1, hccid] at hfields g1 g2 g3
    rw [(hf4 parent).2.2.2.1] at g2 g3
    rw [hmc4, (hf4 parent).2.2.2.2.1] at g3
    rw [h4cc] at g2 g3
    have hchain5 : ∀ q, (s5.commitmentHeap q).chain =
        if q = cc then chn else (s2.commitmentHeap q).chain := by
      intro q
      rw [(hfields q).2.2.2.2.1, (hf4 cc).2.2.2.2.1, (hf4 q).2.2.2.2.1, ← e2]
      by_cases hq : q = cc
      · simp [hq, hccChain]
      · simp [hq]
    refine Chains_register s2 s5 c cc parent fk chn F2 C2 hS5 hslot hcc2 hpar2 hpc
      (fun q => (hfields q).1.trans (hf4 q).1)
      (fun q => by rw [(hfields q).2.2.1, (hf4 parent).2.2.1, (hf4 q).2.2.1])
      (fun q => by rw [g1 q, (hf4 q).2.2.2.1])
      hchain5 (hcnt.trans h4count) ?_ ?_
    · intro hf
      obtain ⟨_, a2, a3, a4, a5⟩ := g2 hf
      refine ⟨a2, a3, a4, ?_⟩
      intro k
      rw [a5, h4ch, hccid]
    · intro hf
      obtain ⟨a1, a2, a3, a4⟩ := g3 hf
      refine ⟨a1, a2, a3, ?_⟩
      intro k
      rw [a4, h4ch, hccid]
/-- The walk of `propagateChainToMainChild` keeps the invariant of the chains when it
starts at main children of members of the chain. -/
theorem walk_chain_chains (chain fuel : Nat) (queue seen : List Nat) (m0 m1 : Manager)
    (hS : m0.Skeleton) (hC : m0.Chains)
    (hq : ∀ x ∈ queue, ∃ y id, (id, x) ∈ (m0.commitmentHeap y).children ∧
      (m0.commitmentHeap y).mainChildID = some id ∧ (m0.commitmentHeap y).chain = some chain)
    (h : Manager.walk (Manager.propagateChainToMainChild chain) fuel queue seen m0 = .ok m1) :
    m1.Skeleton ∧ m1.Chains := by
  refine walk_invariant (Manager.propagateChainToMainChild chain)
    (fun t => t.Skeleton ∧ t.Chains)
    (fun t x => ∃ y id, (id, x) ∈ (t.commitmentHeap y).children ∧
      (t.commitmentHeap y).mainChildID = some id ∧ (t.commitmentHeap y).chain = some chain)
    ?_ fuel queue seen m0 m1 ⟨hS, hC⟩ hq h
  intro t x hI hQ
  obtain ⟨hSt, hCt⟩ := hI
  obtain ⟨y, id, e1, e2, e3⟩ := hQ
  obtain ⟨st, _, hchn, hpush⟩ := propagateChain_fields chain t x
  obtain ⟨c1, c2⟩ := propagateChain_chainHeap chain t x
  refine ⟨⟨Skeleton_sameTree t _ st hSt, ?_⟩, ?_, ?_⟩
  · cases hx : (t.commitmentHeap x).chain with
    | none =>
      refine Chains_extend t _ x y chain id hSt hCt st ?_ ?_ c1 hx e1 e2 e3
      · intro q
        rw [hchn]
        by_cases hqx : q = x
        · rw [if_pos ⟨hqx, hx⟩, if_pos hqx]
        · rw [if_neg (fun hh => hqx hh.1), if_neg hqx]
      · intro k
        rw [c2]
        by_cases hk : k = chain
        · rw [if_pos ⟨hk, hx⟩, if_pos hk]
        · rw [if_neg (fun hh => hk hh.1), if_neg hk]
    | some c0 =>
      have hne : ¬ (t.commitmentHeap x).chain = none := by rw [hx]; simp
      refine Chains_congr t _ (fun q => (st.1 q).1) (fun q => (st.1 q).2.2.1)
        (fun q => (st.1 q).2.2.2) ?_ ?_ c1 st.2.2.1 hCt
      · intro q
        rw [hchn, if_neg (fun hh => hne hh.2)]
      · funext k
        rw [c2, if_neg (fun hh => hne hh.2)]
  · intro y1 hy1
    obtain ⟨hx, hmc⟩ := (hpush y1).mp hy1
    obtain ⟨id1, k1, k2⟩ := mainChild_edge t x y1 hmc
    refine ⟨x, id1, ?_, ?_, ?_⟩
    · rw [(st.1 x).2.2.1]; exact k1
    · rw [(st.1 x).2.2.2]; exact k2
    · rw [hchn, if_pos ⟨rfl, hx⟩]
  · intro y0 hy0
    obtain ⟨y1, id1, k1, k2, k3⟩ := hy0
    refine ⟨y1, id1, ?_, ?_, ?_⟩
    · rw [(st.1 y1).2.2.1]; exact k1
    · rw [(st.1 y1).2.2.2]; exact k2
    · rw [hchn]
      by_cases hc : y1 = x ∧ (t.commitmentHeap x).chain = none
      · rw [← hc.1, k3] at hc
        cases hc.2
      · rw [if_neg hc]; exact k3

/-- The first walk of `processCommitment` keeps the invariant of the chains. -/
theorem chainWalk_chains (s m2 : Manager) (cc chain : Nat) (hS : s.Skeleton) (hC : s.Chains)
    (hch : (s.commitmentHeap cc).chain = some chain)
    (h : (match s.mainChild cc with
      | none => .ok s
      | some mc => Manager.walk (Manager.propagateChainToMainChild chain) s.commitmentCount
          [mc] [mc] s) = Except.ok m2) : m2.Chains := by
  cases hmc : s.mainChild cc with
  | none =>
    rw [hmc] at h
    simp only [Except.ok.injEq] at h
    subst h
    exact hC
  | some mc =>
    rw [hmc] at h
    simp only at h
    refine (walk_chain_chains chain _ [mc] [mc] s m2 hS hC ?_ h).2
    intro x hx
    rw [List.mem_singleton] at hx
    subst hx
    obtain ⟨id1, k1, k2⟩ := mainChild_edge s cc x hmc
    exact ⟨cc, id1, k1, k2, hch⟩

/-- The walk of `propagateSolidity` keeps the invariant of the chains. -/
theorem walk_solid_chains (fuel : Nat) (queue seen : List Nat) (m0 m1 : Manager)
    (hC : m0.Chains)
    (h : Manager.walk Manager.propagateSolidity fuel queue seen m0 = .ok m1) : m1.Chains := by
  refine walk_invariant Manager.propagateSolidity (fun t => t.Chains) (fun _ _ => True)
    ?_ fuel queue seen m0 m1 hC (fun _ _ => trivial) h
  intro t x hCt _
  obtain ⟨st, hchn, _, _⟩ := propagateSolidity_fields t x
  obtain ⟨c1, c2⟩ := propagateSolidity_chainHeap t x
  exact ⟨Chains_congr t _ (fun q => (st.1 q).1) (fun q => (st.1 q).2.2.1)
    (fun q => (st.1 q).2.2.2) hchn c1 c2 st.2.2.1 hCt, fun _ _ => trivial, fun _ _ => trivial⟩

/-- The second walk of `processCommitment` keeps the invariant of the chains. -/
theorem solidWalk_chains (m2 m1 : Manager) (cc : Nat) (isSolid : Bool)
    (res res1 : Bool × Bool × Option Nat) (hC : m2.Chains)
    (h : (if (isSolid && (m2.children cc).length != 0) = true then
        match Manager.walk Manager.propagateSolidity m2.commitmentCount
          (Manager.walkerPushAll [] [] (m2.children cc)).1
          (Manager.walkerPushAll [] [] (m2.children cc)).2 m2 with
        | .error f => .error f
        | .ok m3 => .ok (m3, res)
      else .ok (m2, res)) = (Except.ok (m1, res1) : Except Fault _)) : m1.Chains := by
  by_cases hcond : (isSolid && (m2.children cc).length != 0) = true
  · rw [if_pos hcond] at h
    split at h
    · cases h
    · rename_i m3 hw
      simp only [Except.ok.injEq, Prod.mk.injEq] at h
      obtain ⟨e, _⟩ := h
      subst e
      exact walk_solid_chains _ _ _ m2 m3 hC hw
  · rw [if_neg hcond] at h
    simp only [Except.ok.injEq, Prod.mk.injEq] at h
    obtain ⟨e, _⟩ := h
    subst e
    exact hC

/-- The method `processCommitment` keeps the invariant of the chains for a commitment
of a later slot than its previous commitment. -/
theorem processCommitment_chains (m m1 : Manager) (c : Commitment)
    (res : Bool × Bool × Option Nat) (hF : m.Forest) (hC : m.Chains)
    (hslot : c.prevID.index < c.id.index)
    (hp : m.processCommitment c = .ok (m1, res)) : m1.Chains := by
  unfold Manager.processCommitment at hp
  split at hp
  · cases hp
  · rename_i isBelow isRoot _
    split at hp
    · split at hp
      · simp only [Except.ok.injEq, Prod.mk.injEq] at hp
        rw [← hp.1]
        exact hC
      · simp only [Except.ok.injEq, Prod.mk.injEq] at hp
        rw [← hp.1]
        exact Chains_trigger _ _ hC
    · have ar := registerCommitment_forest m c hF
      have cr := registerCommitment_chains m c hF hC hslot
      generalize m.registerCommitment c = rr at ar cr hp
      obtain ⟨s, isNew, isSolid, fk, cc⟩ := rr
      obtain ⟨ar1, ar2⟩ := ar
      dsimp only at hp ar1 ar2 cr
      cases hch : (s.commitmentHeap cc).chain with
      | none =>
        rw [hch] at hp
        simp only [Except.ok.injEq, Prod.mk.injEq] at hp
        rw [← hp.1]
        exact cr
      | some chain =>
        rw [hch] at hp
        cases isNew with
        | false =>
          simp only [Bool.not_false, if_true, Except.ok.injEq, Prod.mk.injEq] at hp
          rw [← hp.1]
          exact cr
        | true =>
          simp only [Bool.not_true, Bool.false_eq_true, if_false] at hp
          obtain ⟨sk, _, _, _, _⟩ := ar2 rfl
          generalize hac : (match s.mainChild cc with
            | none => Except.ok s
            | some mc => Manager.walk (Manager.propagateChainToMainChild chain)
                s.commitmentCount [mc] [mc] s) = afterChain at hp
          cases afterChain with
          | error f => cases hp
          | ok m2 =>
            have C2 := chainWalk_chains s m2 cc chain sk cr hch hac
            exact solidWalk_chains m2 m1 cc isSolid _ res C2 hp

theorem detectForks_chains (m m1 : Manager) (c source : Nat) (hC : m.Chains)
    (h : m.detectForks c source = .ok m1) : m1.Chains := by
  unfold Manager.detectForks at h
  split at h
  · cases h
  · cases h; exact hC
  · cases h; exact hC
  · simp only [] at h
    split at h
    · cases h; exact hC
    · split at h
      · cases h
      · split at h
        · cases h
        · split at h
          · cases h; exact hC
          · cases h
            exact Chains_congr m _ (fun _ => rfl) (fun _ => rfl) (fun _ => rfl) (fun _ => rfl)
              rfl rfl rfl hC

/-- A `Process*` call that carries out no chain switch keeps the invariant of the
chains when its commitment is of a later slot than its previous commitment. -/
theorem call_chains (m m1 : Manager) (c : Call) (hF : m.Forest) (hC : m.Chains)
    (hs : m.carriesNoSwitch c = true) (hcon : c.ascending = true)
    (h : m.call c = .ok m1) : m1.Chains := by
  cases c with
  | processCommitment cm =>
    simp only [Call.ascending, decide_eq_true_eq] at hcon
    simp only [Manager.call] at h
    split at h
    · cases h
    · rename_i r hr
      cases h
      unfold Manager.ProcessCommitment at hr
      split at hr
      · cases hr
      · rename_i m2 _ _ hp
        cases hr
        exact processCommitment_chains m _ cm _ hF hC hcon hp
      · rename_i m2 isNew isSolid cc hp
        have w2 := processCommitment_chains m m2 cm _ hF hC hcon hp
        cases isNew with
        | true =>
          simp only [Bool.not_true, Bool.false_eq_true, if_false] at hr
          cases hr
          exact w2
        | false =>
          simp only [Bool.not_false, if_true] at hr
          simp only [Manager.carriesNoSwitch, hp] at hs
          have hfp : m2.forkingPointAgainstMainChain cc = .ok (.ok none) := by
            split at hs
            · rename_i hfp; exact hfp
            · cases hs
          simp only [Manager.switchMainChainToCommitment, hfp] at hr
          cases hr
          exact w2
  | processCandidateCommitment cm =>
    simp only [Call.ascending, decide_eq_true_eq] at hcon
    simp only [Manager.call] at h
    split at h
    · cases h
    · rename_i r hr
      cases h
      unfold Manager.ProcessCandidateCommitment at hr
      split at hr
      · cases hr
      · rename_i m2 _ _ hp
        cases hr
        exact processCommitment_chains m _ cm _ hF hC hcon hp
      · rename_i m2 _ isSolid cc hp
        cases hr
        exact processCommitment_chains m m2 cm _ hF hC hcon hp
  | processCommitmentFromSource cm source =>
    simp only [Call.ascending, decide_eq_true_eq] at hcon
    simp only [Manager.call] at h
    split at h
    · cases h
    · rename_i r hr
      cases h
      unfold Manager.ProcessCommitmentFromSource at hr
      split at hr
      · cases hr
      · rename_i m2 _ _ hp
        cases hr
        exact processCommitment_chains m _ cm _ hF hC hcon hp
      · rename_i m2 _ isSolid cc hp
        have w2 := processCommitment_chains m m2 cm _ hF hC hcon hp
        split at hr
        · cases hr
        · rename_i m3 h3
          cases hr
          exact detectForks_chains m2 m3 cc source w2 h3
  | switchMainChain head => simp [Manager.carriesNoSwitch] at hs
  | evictUntil index => simp [Manager.carriesNoSwitch] at hs
  | setRootCommitment cm => simp [Manager.carriesNoSwitch] at hs

/-- The invariants of the forest and of the chains after a sequence of `Process*` calls
that carry out no chain switch, for commitments of later slots than their previous commitments. -/
theorem calls_chains (cs : List Call) (m m1 : Manager) (hF : m.Forest) (hC : m.Chains)
    (hs : m.receives cs = true) (hcon : ∀ c ∈ cs, c.ascending = true)
    (h : m.calls cs = .ok m1) : m1.Forest ∧ m1.Chains := by
  induction cs generalizing m with
  | nil =>
    simp only [Manager.calls] at h
    cases h
    exact ⟨hF, hC⟩
  | cons c rest ih =>
    simp only [Manager.calls] at h
    simp only [Manager.receives, Bool.and_eq_true] at hs
    obtain ⟨hs1, hs2⟩ := hs
    split at h
    · cases h
    · rename_i m2 h2
      rw [h2] at hs2
      exact ih m2 (call_forest m m2 c hF hs1 h2)
        (call_chains m m2 c hF hC hs1 (hcon c (List.mem_cons_self _ _)) h2) hs2
        (fun x hx => hcon x (List.mem_cons_of_mem _ hx)) h

theorem Initialize_chains (depth : Int) (c0 : Commitment) :
    ((Manager.NewManagerWithDepth depth).Initialize c0).Chains := by
  have hheap : ∀ q, (((Manager.NewManagerWithDepth depth).Initialize c0).commitmentHeap q)
      = if q = 0 then
          { id := c0.id, commitment := some c0, solid := true, mainChildID := none,
            children := [], chain := some 0 }
        else NewChainCommitment ⟨0, 0⟩ := by
    intro q
    by_cases hq : q = 0
    · subst hq
      simp [Manager.Initialize, Manager.NewManagerWithDepth, Manager.getOrCreateCommitment,
        IndexedStorage.getOrCreate, IndexedStorage.empty, mapGet, Manager.publishCommitment,
        Manager.setSolid, Manager.NewChain, Manager.publishChain, Manager.setCommitment,
        NewChainCommitment, NewEvictionIndex]
    · simp [Manager.Initialize, Manager.NewManagerWithDepth, Manager.getOrCreateCommitment,
        IndexedStorage.getOrCreate, IndexedStorage.empty, mapGet, Manager.publishCommitment,
        Manager.setSolid, Manager.NewChain, Manager.publishChain, Manager.setCommitment,
        NewChainCommitment, NewEvictionIndex, hq]
  have hcc : ((Manager.NewManagerWithDepth depth).Initialize c0).chainCount = 1 := by
    simp [Manager.Initialize, Manager.NewManagerWithDepth, Manager.getOrCreateCommitment,
      IndexedStorage.getOrCreate, IndexedStorage.empty, mapGet, Manager.publishCommitment,
      Manager.setSolid, Manager.NewChain, Manager.publishChain, Manager.setCommitment,
      NewChainCommitment, NewEvictionIndex]
  have hch : ∀ k, ((Manager.NewManagerWithDepth depth).Initialize c0).chainHeap k =
      if k = 0 then { forkingPoint := 0, commitmentsByIndex := [(c0.id.index, 0)] }
      else { forkingPoint := 0, commitmentsByIndex := [] } := by
    intro k
    by_cases hk : k = 0
    · subst hk
      simp [Manager.Initialize, Manager.NewManagerWithDepth, Manager.getOrCreateCommitment,
        IndexedStorage.getOrCreate, IndexedStorage.empty, mapGet, Manager.publishCommitment,
        Manager.setSolid, Manager.NewChain, Manager.publishChain, Manager.setCommitment,
        NewChainCommitment, NewEvictionIndex]
    · simp [Manager.Initialize, Manager.NewManagerWithDepth, Manager.getOrCreateCommitment,
        IndexedStorage.getOrCreate, IndexedStorage.empty, mapGet, Manager.publishCommitment,
        Manager.setSolid, Manager.NewChain, Manager.publishChain, Manager.setCommitment,
        NewChainCommitment, NewEvictionIndex, hk]
  have h0 : (((Manager.NewManagerWithDepth depth).Initialize c0).commitmentHeap 0) =
      { id := c0.id, commitment := some c0, solid := true, mainChildID := none,
        children := [], chain := some 0 } := by
    rw [hheap]; simp
  have hnokids : ∀ p id q, (id, q) ∈ (((Manager.NewManagerWithDepth depth).Initialize
      c0).commitmentHeap p).children → False := by
    intro p id q hk
    rw [hheap] at hk
    by_cases hp : p = 0
    · simp [hp] at hk
    · simp [hp, NewChainCommitment] at hk
  have hchain : ∀ q c, (((Manager.NewManagerWithDepth depth).Initialize c0).commitmentHeap
      q).chain = some c → q = 0 ∧ c = 0 := by
    intro q c hq
    rw [hheap] at hq
    by_cases hq0 : q = 0
    · simp only [hq0, if_true, Option.some.injEq] at hq
      exact ⟨hq0, hq.symm⟩
    · simp [hq0, NewChainCommitment] at hq
  refine ⟨?_, ?_, ?_, ?_, ?_, ?_, ?_, ?_, ?_, ?_, ?_, ?_⟩
  · intro p id q hk
    exact (hnokids p id q hk).elim
  · intro p id q hk
    exact (hnokids p id q hk).elim
  · intro p id hm
    rw [hheap] at hm
    by_cases hp : p = 0
    · simp [hp] at hm
    · simp [hp, NewChainCommitment] at hm
  · intro k hk
    rw [hcc] at hk
    have hk0 : k ≠ 0 := by omega
    rw [hch, if_neg hk0]
  · intro q c hq
    obtain ⟨_, e2⟩ := hchain q c hq
    rw [hcc, e2]
    exact Nat.lt_succ_self 0
  · intro q c hq
    obtain ⟨e1, e2⟩ := hchain q c hq
    rw [e1, e2, hch, h0]
    simp [mapGet]
  · intro k i q hq
    rw [hch] at hq
    by_cases hk : k = 0
    · rw [if_pos hk] at hq
      simp only [mapGet] at hq
      split at hq
      · rename_i hi
        cases hq
        rw [h0, hk]
        exact ⟨rfl, hi⟩
      · cases hq
    · rw [if_neg hk] at hq
      simp [mapGet] at hq
  · intro k hk
    rw [hcc] at hk
    have hk0 : k = 0 := by omega
    rw [hk0, hch, if_pos rfl, h0]
  · intro q c hq
    obtain ⟨e1, e2⟩ := hchain q c hq
    rw [e1, e2, hch, if_pos rfl]
  · intro q c hq
    obtain ⟨e1, e2⟩ := hchain q c hq
    left
    rw [e1, e2, hch, if_pos rfl]
  · intro p id q c hk
    exact (hnokids p id q hk).elim
  · intro y q c hy hq hI
    obtain ⟨e1, _⟩ := hchain y c hy
    obtain ⟨e2, _⟩ := hchain q c hq
    rw [e1, e2] at hI
    omega
/-- A `SwitchMainChain` that carries out no chain switch leaves the state as it is. -/
theorem call_switch_unchanged (m m1 : Manager) (head : CommitmentID)
    (hs : m.carriesOutNoSwitch (Call.switchMainChain head) = true)
    (h : m.call (Call.switchMainChain head) = .ok m1) : m1 = m := by
  simp only [Manager.call] at h
  split at h
  · cases h
  · rename_i r hr
    cases h
    simp only [Manager.carriesOutNoSwitch] at hs
    unfold Manager.SwitchMainChain at hr
    split at hr
    · cases hr
      rfl
    · rename_i c hc
      rw [hc] at hs
      simp only [] at hs
      unfold Manager.switchMainChainToCommitment at hr
      split at hs
      · rename_i hfp
        rw [hfp] at hr
        cases hr
        rfl
      · rename_i e hfp
        rw [hfp] at hr
        cases hr
        rfl
      · cases hs

/-- The invariants of the forest and of the chains after a sequence of calls that carry
out no chain switch, for commitments of later slots than their previous commitments. -/
theorem calls_switchFree (cs : List Call) (m m1 : Manager) (hF : m.Forest) (hC : m.Chains)
    (hs : m.switchFree cs = true) (hcon : ∀ c ∈ cs, c.ascending = true)
    (h : m.calls cs = .ok m1) : m1.Forest ∧ m1.Chains := by
  induction cs generalizing m with
  | nil =>
    simp only [Manager.calls] at h
    cases h
    exact ⟨hF, hC⟩
  | cons c rest ih =>
    simp only [Manager.calls] at h
    simp only [Manager.switchFree, Bool.and_eq_true] at hs
    obtain ⟨hs1, hs2⟩ := hs
    split at h
    · cases h
    · rename_i m2 h2
      rw [h2] at hs2
      have hasc := hcon c (List.mem_cons_self _ _)
      have hrest : ∀ x ∈ rest, x.ascending = true :=
        fun x hx => hcon x (List.mem_cons_of_mem _ hx)
      cases c with
      | switchMainChain head =>
        have e := call_switch_unchanged m m2 head hs1 h2
        rw [e] at hs2 h
        exact ih m hF hC hs2 hrest h
      | processCommitment cm =>
        have hs0 : m.carriesNoSwitch (Call.processCommitment cm) = true := hs1
        exact ih m2 (call_forest m m2 _ hF hs0 h2) (call_chains m m2 _ hF hC hs0 hasc h2) hs2
          hrest h
      | processCandidateCommitment cm =>
        have hs0 : m.carriesNoSwitch (Call.processCandidateCommitment cm) = true := hs1
        exact ih m2 (call_forest m m2 _ hF hs0 h2) (call_chains m m2 _ hF hC hs0 hasc h2) hs2
          hrest h
      | processCommitmentFromSource cm source =>
        have hs0 : m.carriesNoSwitch (Call.processCommitmentFromSource cm source) = true := hs1
        exact ih m2 (call_forest m m2 _ hF hs0 h2) (call_chains m m2 _ hF hC hs0 hasc h2) hs2
          hrest h
      | evictUntil index => simp [Manager.carriesOutNoSwitch, Manager.carriesNoSwitch] at hs1
      | setRootCommitment cm => simp [Manager.carriesOutNoSwitch, Manager.carriesNoSwitch] at hs1
/-! ## The main-chain switch on a forest of chains -/

/-- C7 (as amended): after `Initialize` and any sequence of `ProcessCommitment`,
`ProcessCandidateCommitment`, `ProcessCommitmentFromSource` and `SwitchMainChain`
calls that return, the root commitment is the one `Initialize` created and it has a
chain (the one chain that is the root commitment's chain), and a chain commitment has
a chain only if its payload has been published: parent placeholders in storage have
no chain. When moreover no call carried out a chain switch and every received
commitment is of a later slot than its previous commitment, then a published chain
commitment whose parent chain commitment, the one stored for its `PrevID`, has a chain
has a chain itself; a chain commitment with a chain is held, under its slot, by the
commitment set of that chain, which is an allocated chain; and a chain commitment held
by the commitment set of a chain has that chain, so it is in no other set. -/
theorem C7_chain_membership (depth : Int) (c0 : Commitment) (cs : List Call) (m : Manager)
    (hcs : ∀ c ∈ cs, c.isProcessOrSwitch = true)
    (h : ((Manager.NewManagerWithDepth depth).Initialize c0).calls cs = .ok m) :
    (∃ r ch, m.rootCommitment = some r ∧
        ((Manager.NewManagerWithDepth depth).Initialize c0).rootCommitment = some r ∧
        (m.commitmentHeap r).chain = some ch) ∧
      (∀ id p, m.commitment id = some p → (m.commitmentHeap p).commitment = none →
        (m.commitmentHeap p).chain = none) ∧
      (((Manager.NewManagerWithDepth depth).Initialize c0).switchFree cs = true →
        (∀ c ∈ cs, c.ascending = true) →
        (∀ q c p, (m.commitmentHeap q).commitment = some c → m.commitment c.prevID = some p →
          (m.commitmentHeap p).chain ≠ none → (m.commitmentHeap q).chain ≠ none) ∧
        (∀ q ch, (m.commitmentHeap q).chain = some ch → ch < m.chainCount ∧
          mapGet (m.chainHeap ch).commitmentsByIndex (m.commitmentHeap q).id.index = some q) ∧
        (∀ ch i q, mapGet (m.chainHeap ch).commitmentsByIndex i = some q →
          (m.commitmentHeap q).chain = some ch ∧ (m.commitmentHeap q).id.index = i)) := by
  obtain ⟨w0, r0⟩ := Initialize_wellFormed depth c0
  obtain ⟨w, g⟩ := calls_wellFormed cs _ m hcs w0 h
  refine ⟨?_, ?_, ?_⟩
  · obtain ⟨r, h1, _, h3⟩ := w.root
    cases hch : (m.commitmentHeap r).chain with
    | none => exact absurd hch h3
    | some ch =>
      refine ⟨r, ch, h1, ?_, hch⟩
      rw [← g.2.1, h1]
  · intro id p _ hp
    by_contra hne
    exact w.chainPublished p hne hp
  · intro hrec hcon
    obtain ⟨hF, hC⟩ := calls_switchFree cs _ m (Initialize_forest depth c0)
      (Initialize_chains depth c0) hrec hcon h
    refine ⟨?_, fun q ch hq => ⟨hC.allocated q ch hq, hC.member q ch hq⟩, hC.owner⟩
    intro q c p hc hp hch
    by_cases hroot : m.rootCommitment = some q
    · exact (hF.marks.rootSolid q hroot).2
    · obtain ⟨p1, h1, h2⟩ := hF.skeleton.registry q c hc hroot
      rw [hp] at h1
      cases h1
      rcases hF.chainClosed p c.id q (mapGet_mem _ _ _ h2) hch with h3 | h3
      · exact h3
      · cases h3

set_option maxRecDepth 100000 in
/-- C7, witness: after Scenario D and the switch to `F5` the root commitment has a
chain; and when the children `F2` and `M2` have arrived before their parents `F1` and
`M1`, the chain commitment 2 of `F2`, whose parent 1 has a chain, has a chain and is
held under slot 2 by the commitment set of that chain. -/
theorem C7_chain_membership_witness :
    (∃ m, Scenario.fresh.calls
        (Scenario.mainChain ++ Scenario.forkUpTo 5 ++ [Call.switchMainChain (Scenario.F 5).id])
        = .ok m ∧
      ∃ r ch, m.rootCommitment = some r ∧ (m.commitmentHeap r).chain = some ch) ∧
    (Scenario.fresh.calls Scenario.parentsLast = .ok Scenario.parentsArrived ∧
      ∃ ch, (Scenario.parentsArrived.commitmentHeap 2).chain = some ch ∧
        ch < Scenario.parentsArrived.chainCount ∧
        mapGet (Scenario.parentsArrived.chainHeap ch).commitmentsByIndex 2 = some 2) := by
  have hc : Scenario.fresh.calls
      (Scenario.mainChain ++ Scenario.forkUpTo 5 ++ [Call.switchMainChain (Scenario.F 5).id])
      = .ok Scenario.scenarioE := by rfl
  have hp : Scenario.fresh.calls Scenario.parentsLast = .ok Scenario.parentsArrived := by rfl
  obtain ⟨⟨r, ch, h1, _, h3⟩, _, _⟩ := C7_chain_membership 3 (Scenario.M 0) _ Scenario.scenarioE
    (by decide) hc
  obtain ⟨_, _, hB⟩ := C7_chain_membership 3 (Scenario.M 0) Scenario.parentsLast
    Scenario.parentsArrived (by decide) hp
  obtain ⟨b1, b2, _⟩ := hB (by rfl) (by decide)
  have hne := b1 2 (Scenario.F 2) 1 (by rfl) (by rfl) (by decide)
  obtain ⟨ch2, hch2⟩ := Option.ne_none_iff_exists'.mp hne
  obtain ⟨b3, b4⟩ := b2 2 ch2 hch2
  exact ⟨⟨_, hc, r, ch, h1, h3⟩, hp, ch2, hch2, b3, b4⟩
end IotaCore
